import Mathlib

/-! # C-LabInNSU: verification of the warehouse simulator (C++lab6)

Shallow embedding of `TaskDispatcher.cpp`, `ZoneResources.cpp`, `Warehouse.cpp`
and the unload and picking handlers of `Loader.cpp`; the queue store of the
message broker (`C++lab7`, `broker.cpp`), the regex engine (`C++lab3`,
`regex_engine.cpp`) and the JSON, XML and TOML parsers of the format converter
(`C++lab4`) follow in their own namespaces.

Conventions of the embedding:

* a C++ `int` (also `std::atomic<int>`) is a mathematical `Int`: the counters
  and quantities of the simulator are modelled without wrap-around; the
  narrowing `static_cast<int>` in `recordOrderCompletion` is modelled
  (`toInt32`);
* a `std::shared_ptr<Task>` is an `Option Nat`: `none` is `nullptr`, `some a`
  points to the `Task` object stored at address `a` of a heap `Nat → Task`;
* a call that blocks on a condition variable is modelled as one evaluation of
  its predicate under the lock: the outcome says whether the call returns or
  keeps waiting, and a woken waiter simply runs the same function again;
* a random draw is an explicit argument.
-/

namespace Lab6

/-! ## TaskDispatcher (`TaskDispatcher.h`, `TaskDispatcher.cpp`) -/

/-- The fields of `struct Task` that the dispatcher and the loader loop read or
write. `futureValid` stands for `completionFuture.valid()`. -/
structure Task where
  maxParallelLoaders : Int
  activeLoaders : Int
  completed : Bool
  promiseFulfilled : Bool
  futureValid : Bool
  deriving DecidableEq, Repr

/-- A `std::shared_ptr<Task>`: `none` is `nullptr`. -/
abbrev TaskPtr := Option Nat

/-- The dispatcher (`tasks_`, `stopping_`) together with the heap that holds the
shared `Task` objects its queue points to. -/
structure TaskDispatcher where
  heap : Nat → Task
  tasks_ : List TaskPtr
  stopping_ : Bool

/-- Write through a pointer: apply `f` to the object at address `a`. -/
def modifyTask (heap : Nat → Task) (a : Nat) (f : Task → Task) : Nat → Task :=
  fun b => if b = a then f (heap b) else heap b

/-- The default-constructed dispatcher: empty queue, not stopping. -/
def TaskDispatcher.init (heap : Nat → Task) : TaskDispatcher :=
  { heap := heap, tasks_ := [], stopping_ := false }

/-- `TaskDispatcher::enqueue`. Dereferencing a null task has no defined
behaviour: `none`. -/
def enqueue (d : TaskDispatcher) : TaskPtr → Option TaskDispatcher
  | none => none
  | some a =>
    some { d with
      heap := modifyTask d.heap a
        (fun t => if !t.futureValid then { t with futureValid := true } else t)
      tasks_ := d.tasks_ ++ [some a] }

/-- The loop of `TaskDispatcher::acquireUnlocked` up to its first hit: the
address of the first queue entry that is non-null, not completed and has
`activeLoaders < maxParallelLoaders`. -/
def scanTasks (heap : Nat → Task) : List TaskPtr → Option Nat
  | [] => none
  | none :: rest => scanTasks heap rest
  | some a :: rest =>
    if (heap a).completed then scanTasks heap rest
    else if (heap a).activeLoaders < (heap a).maxParallelLoaders then some a
    else scanTasks heap rest

/-- `TaskDispatcher::acquireUnlocked`: the task found by the scan gets
`activeLoaders.fetch_add(1)` and is returned; otherwise `nullptr`. -/
def acquireUnlocked (d : TaskDispatcher) : TaskPtr × TaskDispatcher :=
  match scanTasks d.heap d.tasks_ with
  | none => (none, d)
  | some a =>
    (some a, { d with
      heap := modifyTask d.heap a
        (fun t => { t with activeLoaders := t.activeLoaders + 1 }) })

/-- What one pass of `acquireTask` does: it returns a pointer, or the caller
stays blocked in `cv_.wait`. -/
inductive AcquireOutcome where
  | returned (task : TaskPtr) (d : TaskDispatcher)
  | waiting (d : TaskDispatcher)

/-- `TaskDispatcher::acquireTask`, one pass: `acquireUnlocked`; if it found
nothing and `stopping_` is false the caller waits (and on wake-up repeats the
same steps); otherwise `nullptr` when `stopping_`, else the task. -/
def acquireTask (d : TaskDispatcher) : AcquireOutcome :=
  let r := acquireUnlocked d
  if r.1.isNone && !r.2.stopping_ then AcquireOutcome.waiting r.2
  else if r.2.stopping_ then AcquireOutcome.returned none r.2
  else AcquireOutcome.returned r.1 r.2

/-- The dispatcher state after one pass of `acquireTask`. -/
def AcquireOutcome.state : AcquireOutcome → TaskDispatcher
  | .returned _ d => d
  | .waiting d => d

/-- The pointer handed to the caller, when the pass returns. -/
def AcquireOutcome.result : AcquireOutcome → Option TaskPtr
  | .returned p _ => some p
  | .waiting _ => none

/-- `TaskDispatcher::finishTask`. -/
def finishTask (d : TaskDispatcher) : TaskPtr → TaskDispatcher
  | none => d
  | some a =>
    let h1 := modifyTask d.heap a
      (fun t => { t with activeLoaders := t.activeLoaders - 1 })
    let h2 := if (h1 a).completed && !(h1 a).promiseFulfilled
      then modifyTask h1 a (fun t => { t with promiseFulfilled := true })
      else h1
    if (h2 a).completed && (h2 a).activeLoaders == 0
    then { d with heap := h2, tasks_ := d.tasks_.filter (fun p => p != some a) }
    else { d with heap := h2 }

/-- `TaskDispatcher::shutdown`. -/
def shutdown (d : TaskDispatcher) : TaskDispatcher :=
  { d with stopping_ := true }

/-- `TaskDispatcher::size`. -/
def size (d : TaskDispatcher) : Nat := d.tasks_.length

/-- The success branch of `Loader::run` on the task it holds:
`completed.store(true)` and `promiseFulfilled.exchange(true)`. -/
def markCompleted (d : TaskDispatcher) (a : Nat) : TaskDispatcher :=
  { d with
    heap := modifyTask d.heap a
      (fun t => { t with completed := true, promiseFulfilled := true }) }

/-- Ghost bookkeeping for the acquire/finish pairing: after a pass of
`acquireTask` that handed task `a` to its caller, that task has one more
holder. -/
def heldAfterAcquire (held : Nat → Nat) : AcquireOutcome → Nat → Nat
  | .returned (some a) _ => fun b => if b = a then held b + 1 else held b
  | _ => held

/-- One holder of task `a` called `finishTask`. -/
def heldAfterFinish (held : Nat → Nat) (a : Nat) : Nat → Nat :=
  fun b => if b = a then held b - 1 else held b

/-- The dispatcher states that the program can reach, with the number of
workers currently holding each task (`held a` counts the `acquireTask` calls
that returned `a` and have not yet been followed by `finishTask(a)`).

* `start`: an empty dispatcher over any heap of task objects;
* `enqueue`: a task whose counter is `0` and whose cap is at least `1`;
* `acquire`: one pass of `acquireTask` (returning or still waiting);
* `finish`: `finishTask(a)` by a worker that holds `a`;
* `complete`: the success branch of the loader loop (no precondition is
  needed for the results below);
* `stop`: `shutdown()`. -/
inductive Reachable : TaskDispatcher → (Nat → Nat) → Prop where
  | start (heap : Nat → Task) : Reachable (TaskDispatcher.init heap) (fun _ => 0)
  | enqueue {d d1 : TaskDispatcher} {held : Nat → Nat} (a : Nat) :
      Reachable d held → (d.heap a).activeLoaders = 0 →
      1 ≤ (d.heap a).maxParallelLoaders → enqueue d (some a) = some d1 →
      Reachable d1 held
  | acquire {d : TaskDispatcher} {held : Nat → Nat} :
      Reachable d held →
      Reachable (acquireTask d).state (heldAfterAcquire held (acquireTask d))
  | finish {d : TaskDispatcher} {held : Nat → Nat} (a : Nat) :
      Reachable d held → 0 < held a →
      Reachable (finishTask d (some a)) (heldAfterFinish held a)
  | complete {d : TaskDispatcher} {held : Nat → Nat} (a : Nat) :
      Reachable d held → Reachable (markCompleted d a) held
  | stop {d : TaskDispatcher} {held : Nat → Nat} :
      Reachable d held → Reachable (shutdown d) held

/-- The invariant carried along every reachable state: a queued task has at
least as many active loaders as it has holders and at most its cap; a task
that is not queued has no holder. -/
def DispatcherInv (d : TaskDispatcher) (held : Nat → Nat) : Prop :=
  ∀ a : Nat,
    (some a ∈ d.tasks_ →
      (held a : Int) ≤ (d.heap a).activeLoaders ∧
      (d.heap a).activeLoaders ≤ (d.heap a).maxParallelLoaders) ∧
    (some a ∉ d.tasks_ → held a = 0)

/-- A queue entry has free capacity: it is non-null and its
`activeLoaders` is below `maxParallelLoaders`. -/
def hasCapacity (heap : Nat → Task) : TaskPtr → Bool
  | none => false
  | some a => decide ((heap a).activeLoaders < (heap a).maxParallelLoaders)

/-- The task the specification names for `acquire`, following its words: the
earliest-enqueued task whose `active < max-parallel` (completion is not
looked at). -/
def earliestWithCapacity (heap : Nat → Task) (tasks : List TaskPtr) : TaskPtr :=
  (tasks.find? (hasCapacity heap)).join

/-- A queue entry is open for a worker in the sense of the code: non-null, not
completed, and below its cap. -/
def isOpen (heap : Nat → Task) : TaskPtr → Bool
  | none => false
  | some a => !(heap a).completed &&
      decide ((heap a).activeLoaders < (heap a).maxParallelLoaders)

/-- Two fresh task objects: a two-worker task at address `0`, one-worker tasks
elsewhere. -/
def freshTasks : Nat → Task := fun a =>
  if a = 0 then
    { maxParallelLoaders := 2, activeLoaders := 0, completed := false,
      promiseFulfilled := false, futureValid := false }
  else
    { maxParallelLoaders := 1, activeLoaders := 0, completed := false,
      promiseFulfilled := false, futureValid := false }

/-- Both fresh tasks enqueued, task `0` first. -/
def twoQueued : TaskDispatcher :=
  let d0 := TaskDispatcher.init freshTasks
  let d1 := (enqueue d0 (some 0)).getD d0
  (enqueue d1 (some 1)).getD d1

/-- One worker holds task `0`. -/
def oneHolder : TaskDispatcher := (acquireTask twoQueued).state

/-- The holders in `oneHolder`. -/
def oneHolderHeld : Nat → Nat := heldAfterAcquire (fun _ => 0) (acquireTask twoQueued)

/-- Two workers hold task `0`. -/
def twoHolders : TaskDispatcher := (acquireTask oneHolder).state

/-- The holders in `twoHolders`. -/
def twoHoldersHeld : Nat → Nat := heldAfterAcquire oneHolderHeld (acquireTask oneHolder)

/-- One of the two workers has completed task `0` and called `finishTask`; the
other one is still active on it, so the task stays at the head of the queue. -/
def completedHeadQueue : TaskDispatcher :=
  finishTask (markCompleted twoHolders 0) (some 0)

/-- The holders in `completedHeadQueue`. -/
def completedHeadHeld : Nat → Nat := heldAfterFinish twoHoldersHeld 0

/-- A dispatcher after `shutdown()` whose queue still holds the fresh
two-worker task. -/
def stoppedWithFreeTask : TaskDispatcher :=
  let d0 := TaskDispatcher.init freshTasks
  shutdown ((enqueue d0 (some 0)).getD d0)

/-! ## TimedResourcePool (`ZoneResources.cpp`) -/

/-- The state of `class TimedResourcePool`. -/
structure TimedResourcePool where
  name_ : String
  capacity_ : Int
  available_ : Int
  deriving DecidableEq, Repr

/-- The constructor `TimedResourcePool(capacity, name)`: all permits available. -/
def TimedResourcePool.create (capacity : Int) (name : String) : TimedResourcePool :=
  { name_ := name, capacity_ := capacity, available_ := capacity }

/-- `TimedResourcePool::acquire_for`, at the moment `wait_for` decides: if its
predicate `available_ > 0` holds, a permit is taken and `true` returned; if the
wait ran out with the predicate false, `false` and no change. -/
def acquire_for (p : TimedResourcePool) : Bool × TimedResourcePool :=
  if p.available_ > 0 then (true, { p with available_ := p.available_ - 1 })
  else (false, p)

/-- `TimedResourcePool::release`: increment, then clamp to `capacity_`. -/
def release (p : TimedResourcePool) : TimedResourcePool :=
  let p1 := { p with available_ := p.available_ + 1 }
  if p1.available_ > p1.capacity_ then { p1 with available_ := p1.capacity_ } else p1

/-- A call on a pool. -/
inductive PoolOp where
  | acquire
  | release
  deriving DecidableEq, Repr

/-- The pool after one call. -/
def stepPool (p : TimedResourcePool) : PoolOp → TimedResourcePool
  | .acquire => (acquire_for p).2
  | .release => release p

/-- The pool after a sequence of calls. -/
def runPool (p : TimedResourcePool) (ops : List PoolOp) : TimedResourcePool :=
  ops.foldl stepPool p

/-! ## StorageZone (`Domain.h`, `ZoneResources.cpp`) -/

/-- `enum class CargoType`. -/
inductive CargoType where
  | Light
  | Medium
  | Heavy
  deriving DecidableEq, Repr

/-- `struct CategoryKey`. -/
structure CategoryKey where
  type : CargoType
  category : Int
  deriving DecidableEq, Repr

/-- A `std::map<int, int>`: an association list with pairwise distinct keys. -/
abbrev IntMap := AList (fun _ : Int => Int)

/-- `struct Pallet`. -/
structure Pallet where
  type : CargoType
  categoryQuantities : IntMap
  capacity : Int
  deriving DecidableEq

/-- `struct StorageRecord`. -/
structure StorageRecord where
  address : String
  pallet : Pallet
  deriving DecidableEq

/-- The state of `class StorageZone`. -/
structure StorageZone where
  records_ : List StorageRecord
  freeAddresses_ : List String
  deriving DecidableEq

/-- The string built by the constructor for shelf `s`, layer `l`, spot `p`. -/
def slotAddress (s l p : Nat) : String :=
  "S" ++ toString s ++ "-L" ++ toString l ++ "-P" ++ toString p

/-- The three nested loops of the constructor (an `int` bound that is not
positive gives no iteration). -/
def slotAddresses (shelves layers spotsPerLayer : Int) : List String :=
  (List.range shelves.toNat).flatMap fun s =>
    (List.range layers.toNat).flatMap fun l =>
      (List.range spotsPerLayer.toNat).map fun p => slotAddress s l p

/-- The constructor `StorageZone(shelves, layers, spotsPerLayer)`. -/
def StorageZone.create (shelves layers spotsPerLayer : Int) : StorageZone :=
  { records_ := [], freeAddresses_ := slotAddresses shelves layers spotsPerLayer }

/-- `StorageZone::allocateAddress`; `idx` is the value drawn by
`RandomGenerator::getRandom(0, freeAddresses_.size() - 1)`, an index of the
free list. -/
def allocateAddress (z : StorageZone) (idx : Nat) : String × StorageZone :=
  if z.freeAddresses_.isEmpty then
    ("OVERFLOW-" ++ toString z.records_.length, z)
  else
    (z.freeAddresses_.getD idx "",
      { z with freeAddresses_ := z.freeAddresses_.eraseIdx idx })

/-- `StorageZone::placePallet`. -/
def placePallet (z : StorageZone) (pallet : Pallet) (idx : Nat) : String × StorageZone :=
  let r := allocateAddress z idx
  (r.1, { r.2 with records_ := r.2.records_ ++ [{ address := r.1, pallet := pallet }] })

/-- The result of the loop of `takeFromStorage`: the records that remain, the
amount still missing, and the free list. -/
structure TakeState where
  records : List StorageRecord
  remaining : Int
  free : List String
  deriving DecidableEq

/-- The body of the loop of `takeFromStorage` on a matching record holding
`qty` of the category: `qtyIt->second -= take` (the map entry is overwritten),
`remaining -= take`, and the entry is erased when it reached `0`. The result
is the debited map and the amount still missing. -/
def debit (quantities : IntMap) (category : Int) (qty remaining : Int) : IntMap × Int :=
  let take := min qty remaining
  let m1 := quantities.insert category (qty - take)
  let m2 := if qty - take == 0 then m1.erase category else m1
  (m2, remaining - take)

/-- The loop of `StorageZone::takeFromStorage` over `records_`, from the
iterator position on. -/
def takeLoop (category : CategoryKey) :
    List StorageRecord → Int → List String → TakeState
  | [], remaining, free => { records := [], remaining := remaining, free := free }
  | r :: rest, remaining, free =>
    if remaining > 0 then
      match r.pallet.categoryQuantities.lookup category.category with
      | some qty =>
        if r.pallet.type = category.type then
          let db := debit r.pallet.categoryQuantities category.category qty remaining
          if db.1.entries.isEmpty then
            takeLoop category rest db.2 (free ++ [r.address])
          else
            let t := takeLoop category rest db.2 free
            { t with records :=
                { r with pallet := { r.pallet with categoryQuantities := db.1 } } :: t.records }
        else
          let t := takeLoop category rest remaining free
          { t with records := r :: t.records }
      | none =>
        let t := takeLoop category rest remaining free
        { t with records := r :: t.records }
    else { records := r :: rest, remaining := remaining, free := free }

/-- `StorageZone::takeFromStorage`: the amount taken and the new state. -/
def takeFromStorage (z : StorageZone) (category : CategoryKey) (amountRequested : Int) :
    Int × StorageZone :=
  let t := takeLoop category z.records_ amountRequested z.freeAddresses_
  (amountRequested - t.remaining, { records_ := t.records, freeAddresses_ := t.free })

/-- A `std::map<CategoryKey, int>`. -/
abbrev TotalsMap := AList (fun _ : CategoryKey => Int)

/-- The statement `totals[{type, category}] += qty`. -/
def addTotal (type : CargoType) (totals : TotalsMap) (e : Sigma (fun _ : Int => Int)) :
    TotalsMap :=
  totals.insert { type := type, category := e.1 }
    ((totals.lookup { type := type, category := e.1 }).getD 0 + e.2)

/-- `StorageZone::totalsByCategory`. -/
def totalsByCategory (z : StorageZone) : TotalsMap :=
  z.records_.foldl
    (fun totals r => r.pallet.categoryQuantities.entries.foldl (addTotal r.pallet.type) totals)
    ∅

/-- The total read from the map returned by `totalsByCategory`; a key that is
not in the map counts `0`. -/
def totalOf (z : StorageZone) (key : CategoryKey) : Int :=
  ((totalsByCategory z).lookup key).getD 0

/-- What record `r` holds of `key`: the quantity stored under `key.category`
when the pallet's type is `key.type`. -/
def contribution (key : CategoryKey) (r : StorageRecord) : Option Int :=
  if r.pallet.type = key.type then r.pallet.categoryQuantities.lookup key.category
  else none

/-- The quantities of `key` held by the records, in record order. -/
def contributions (key : CategoryKey) (records : List StorageRecord) : List Int :=
  records.filterMap (contribution key)

/-- Every quantity in the map is positive. -/
def positiveQuantities (m : IntMap) : Prop :=
  ∀ (c q : Int), m.lookup c = some q → 0 < q

/-- A pallet with at least one category and only positive quantities. -/
def wellStocked (p : Pallet) : Prop :=
  p.categoryQuantities.entries ≠ [] ∧ positiveQuantities p.categoryQuantities

/-- The addresses on the records, in record order. -/
def recordAddresses (z : StorageZone) : List String :=
  z.records_.map (fun r => r.address)

/-- All addresses the zone knows: those on records, then the free ones. -/
def allAddresses (z : StorageZone) : List String :=
  recordAddresses z ++ z.freeAddresses_

/-- The states of a zone built by `StorageZone(shelves, layers, spotsPerLayer)`
that `placePallet` (of pallets satisfying `ok`) and `takeFromStorage` can
reach. The index drawn by `getRandom(0, size - 1)` is any index of the free
list. -/
inductive StorageReachable (ok : Pallet → Prop) (shelves layers spotsPerLayer : Int) :
    StorageZone → Prop where
  | start : StorageReachable ok shelves layers spotsPerLayer
      (StorageZone.create shelves layers spotsPerLayer)
  | place {z : StorageZone} (pallet : Pallet) (idx : Nat) :
      StorageReachable ok shelves layers spotsPerLayer z → ok pallet →
      (z.freeAddresses_ ≠ [] → idx < z.freeAddresses_.length) →
      StorageReachable ok shelves layers spotsPerLayer (placePallet z pallet idx).2
  | take {z : StorageZone} (category : CategoryKey) (amountRequested : Int) :
      StorageReachable ok shelves layers spotsPerLayer z →
      StorageReachable ok shelves layers spotsPerLayer
        (takeFromStorage z category amountRequested).2

/-- The address bookkeeping of a zone built with the given dimensions: no
address occurs twice among the records and the free list, every slot of the
fixed space is known, and every other known address is an overflow address
whose number is below the count of known addresses. -/
def AddressInv (shelves layers spotsPerLayer : Int) (z : StorageZone) : Prop :=
  (allAddresses z).Nodup ∧
  (∀ a ∈ slotAddresses shelves layers spotsPerLayer, a ∈ allAddresses z) ∧
  (∀ a ∈ allAddresses z,
    a ∈ slotAddresses shelves layers spotsPerLayer ∨
      ∃ m : Nat, m < (allAddresses z).length ∧ a = "OVERFLOW-" ++ toString m)

/-- The same record stored under the address `f address`. -/
def relabelRecord (f : String → String) (r : StorageRecord) : StorageRecord :=
  { address := f r.address, pallet := r.pallet }

/-- The same zone with every address renamed by `f`. -/
def relabel (f : String → String) (z : StorageZone) : StorageZone :=
  { records_ := z.records_.map (relabelRecord f)
    freeAddresses_ := z.freeAddresses_.map f }

/-- The value of a decimal digit character. -/
def digitValue (c : Char) : Nat := c.toNat - 48

/-- The number written by a list of decimal digits. -/
def decodeDigits (cs : List Char) : Nat :=
  cs.foldl (fun acc c => 10 * acc + digitValue c) 0

/-- A light pallet holding `5` units of category `7`. -/
def palletFive : Pallet :=
  { type := CargoType.Light, categoryQuantities := AList.singleton 7 5, capacity := 100 }

/-- A light pallet holding `3` units of category `7` and `4` of category `9`. -/
def palletMixed : Pallet :=
  { type := CargoType.Light
    categoryQuantities := AList.insert 7 3 (AList.singleton 9 4)
    capacity := 100 }

/-- A zone with a single slot, filled by one placement. -/
def fullZone : StorageZone :=
  (placePallet (StorageZone.create 1 1 1) palletFive 0).2

/-- The full one-slot zone after one more placement: the second pallet is
stored at an overflow address. -/
def overflowedZone : StorageZone :=
  (placePallet fullZone palletMixed 0).2

/-! ## PackingZone (`ZoneResources.cpp`) -/

/-- `struct PackingZone::WorkstationInfo`. -/
structure WorkstationInfo where
  dismantleSlots : Int
  packingSlots : Int
  deriving DecidableEq, Repr

/-- The state of `class PackingZone`. -/
structure PackingZone where
  stations_ : List WorkstationInfo
  occupied_ : List Bool
  deriving DecidableEq, Repr

/-- The constructor `PackingZone(stations)`. -/
def PackingZone.create (stations : List WorkstationInfo) : PackingZone :=
  { stations_ := stations, occupied_ := List.replicate stations.length false }

/-- The `for` loop of `reserveWorkstation` from index `i` on: the first index
whose flag is false. -/
def firstFreeFrom : List Bool → Nat → Option Nat
  | [], _ => none
  | occ :: rest, i => if !occ then some i else firstFreeFrom rest (i + 1)

/-- `PackingZone::reserveWorkstation`, at the moment `wait_for` decides: when
the wait ran out with no free workstation, `std::nullopt`; otherwise the first
free workstation is marked occupied and its index returned. -/
def reserveWorkstation (z : PackingZone) : Option Int × PackingZone :=
  if !(z.occupied_.any fun occ => !occ) then (none, z)
  else
    match firstFreeFrom z.occupied_ 0 with
    | some i => (some (i : Int), { z with occupied_ := z.occupied_.set i true })
    | none => (none, z)

/-- `PackingZone::releaseWorkstation`. -/
def releaseWorkstation (z : PackingZone) (workstationId : Int) : PackingZone :=
  if workstationId < 0 || workstationId >= (z.occupied_.length : Int) then z
  else { z with occupied_ := z.occupied_.set workstationId.toNat false }

/-- `PackingZone::info`. -/
def info (z : PackingZone) (workstationId : Int) : WorkstationInfo :=
  if workstationId < 0 || workstationId >= (z.stations_.length : Int) then
    { dismantleSlots := 1, packingSlots := 1 }
  else z.stations_.getD workstationId.toNat { dismantleSlots := 1, packingSlots := 1 }

/-- A call on the packing zone. -/
inductive PackingOp where
  | reserve
  | release (workstationId : Int)
  deriving DecidableEq, Repr

/-- Run a sequence of calls; the results of the `reserve` calls are collected
in call order. -/
def runPacking (z : PackingZone) : List PackingOp → List (Option Int) × PackingZone
  | [] => ([], z)
  | .reserve :: ops =>
    let r := reserveWorkstation z
    let t := runPacking r.2 ops
    (r.1 :: t.1, t.2)
  | .release i :: ops => runPacking (releaseWorkstation z i) ops

/-! ## ShippingZone (`ZoneResources.cpp`) -/

/-- `struct ShippingZone::DockInfo`. -/
structure DockInfo where
  id : Int
  city : String
  slots : Int
  occupied : Int
  deriving DecidableEq, Repr

/-- A `std::map<int, DockInfo>`: its entries in iteration order, that is by
ascending key. -/
abbrev DockMap := List (Int × DockInfo)

/-- The state of `class ShippingZone`. -/
structure ShippingZone where
  nextDockId_ : Int
  docks_ : DockMap
  deriving DecidableEq, Repr

/-- The constructor `ShippingZone(docks)`; the argument is not used. -/
def ShippingZone.create (_docks : Int) : ShippingZone :=
  { nextDockId_ := 0, docks_ := [] }

/-- The map assignment `docks_[key] = dock`: overwrite the entry of `key`, or
insert a new entry at its place in key order. -/
def dockAssign : DockMap → Int → DockInfo → DockMap
  | [], key, dock => [(key, dock)]
  | (k, d) :: rest, key, dock =>
    if key < k then (key, dock) :: (k, d) :: rest
    else if key = k then (key, dock) :: rest
    else (k, d) :: dockAssign rest key dock

/-- The call `docks_.erase(key)`. -/
def dockErase (m : DockMap) (key : Int) : DockMap :=
  m.filter (fun e => e.1 != key)

/-- `ShippingZone::registerTruckArrival`. -/
def registerTruckArrival (z : ShippingZone) (city : String) (slots : Int) : ShippingZone :=
  let dock : DockInfo :=
    { id := z.nextDockId_, city := city, slots := slots, occupied := 0 }
  { nextDockId_ := z.nextDockId_ + 1, docks_ := dockAssign z.docks_ dock.id dock }

/-- `ShippingZone::registerTruckDeparture`. -/
def registerTruckDeparture (z : ShippingZone) (dockId : Int) : ShippingZone :=
  { z with docks_ := dockErase z.docks_ dockId }

/-- The test of the loop in `tryMatch`:
`dock.city == city && dock.occupied + pallets <= dock.slots`. -/
def dockMatches (city : String) (pallets : Int) (dock : DockInfo) : Bool :=
  dock.city == city && decide (dock.occupied + pallets ≤ dock.slots)

/-- The loop of the lambda `tryMatch` up to its first hit: the map after
`dock.occupied += pallets` on the dock that was hit, and the value of
`dockToErase` (the key of that dock when it became full, else `-1`). No hit
gives `none`. -/
def matchLoop (city : String) (pallets : Int) : DockMap → Option (DockMap × Int)
  | [] => none
  | (id, dock) :: rest =>
    if dockMatches city pallets dock then
      some ((id, { dock with occupied := dock.occupied + pallets }) :: rest,
        if dock.occupied + pallets = dock.slots then id else -1)
    else (matchLoop city pallets rest).map (fun r => ((id, dock) :: r.1, r.2))

/-- The lambda `tryMatch` of `ShippingZone::tryLoad`. -/
def tryMatch (z : ShippingZone) (city : String) (pallets : Int) : Bool × ShippingZone :=
  match matchLoop city pallets z.docks_ with
  | none => (false, z)
  | some r =>
    if r.2 ≥ 0 then (true, { z with docks_ := dockErase r.1 r.2 })
    else (true, { z with docks_ := r.1 })

/-- `ShippingZone::tryLoad`, one attempt: `tryLoad` evaluates `tryMatch` first
directly and then as the predicate of `wait_for`; an evaluation that finds no
dock changes nothing, and the first one that finds a dock ends the call. -/
def tryLoad (z : ShippingZone) (city : String) (pallets : Int) : Bool × ShippingZone :=
  tryMatch z city pallets

/-- `ShippingZone::docksSnapshot`. -/
def docksSnapshot (z : ShippingZone) : List DockInfo :=
  z.docks_.map (fun e => e.2)

/-- A call on the shipping zone. -/
inductive ShippingOp where
  | arrival (city : String) (slots : Int)
  | load (city : String) (pallets : Int)
  | departure (dockId : Int)
  deriving DecidableEq, Repr

/-- The zone after one call. -/
def stepShipping (z : ShippingZone) : ShippingOp → ShippingZone
  | .arrival city slots => registerTruckArrival z city slots
  | .load city pallets => (tryLoad z city pallets).2
  | .departure dockId => registerTruckDeparture z dockId

/-- The zone after a sequence of calls. -/
def runShipping (z : ShippingZone) (ops : List ShippingOp) : ShippingZone :=
  ops.foldl stepShipping z

/-- The calls the dock invariant is about: arrivals with at least one slot,
loads of at least one pallet, any departure. -/
def ShippingOp.admissible : ShippingOp → Prop
  | .arrival _ slots => 1 ≤ slots
  | .load _ pallets => 1 ≤ pallets
  | .departure _ => True

/-- The shape of a registry: keys strictly ascending, every key issued by
`registerTruckArrival` (between `0` and `nextDockId_`), and each dock filed
under its own id. -/
def ShippingWF (z : ShippingZone) : Prop :=
  z.docks_.Pairwise (fun a b => a.1 < b.1) ∧
  ∀ e ∈ z.docks_, 0 ≤ e.1 ∧ e.1 < z.nextDockId_ ∧ e.2.id = e.1

/-- No dock of the registry is full or over-full, and none has a negative
count. -/
def DocksBelowCapacity (z : ShippingZone) : Prop :=
  ∀ e ∈ z.docks_, 0 ≤ e.2.occupied ∧ e.2.occupied < e.2.slots

/-- A zone with one registered truck for Chengdu that has a single slot. -/
def singleSlotDock : ShippingZone :=
  runShipping (ShippingZone.create 6) [ShippingOp.arrival "Chengdu" 1]

/-- Two arrivals and one load: a two-slot truck for Chengdu, a one-slot truck
for Beijing, and one pallet loaded for Chengdu. -/
def shippingDay : List ShippingOp :=
  [ShippingOp.arrival "Chengdu" 2, ShippingOp.arrival "Beijing" 1,
    ShippingOp.load "Chengdu" 1]

/-! ## Order statistics of `class Warehouse` (`Warehouse.cpp`) -/

/-- `struct OrderStateCounters`. -/
structure OrderStateCounters where
  waiting : Int
  pickingQueued : Int
  activelyPicking : Int
  partiallyShipped : Int
  completed : Int
  deriving DecidableEq, Repr

/-- `struct OrderHistogramBucket`; the two bounds are in milliseconds. -/
structure OrderHistogramBucket where
  bucketStart : Int
  bucketEnd : Int
  count : Int
  deriving DecidableEq, Repr

/-- The order statistics that `statsMutex_` guards: `orderStates_`,
`orderCreationTime_`, `histogram_` and `orderStateMap_` (instants are ticks of
the steady clock). -/
structure WarehouseStats where
  orderStates_ : OrderStateCounters
  orderCreationTime_ : AList (fun _ : Int => Int)
  histogram_ : List OrderHistogramBucket
  orderStateMap_ : AList (fun _ : Int => String)

/-- The statistics of a freshly constructed warehouse. -/
def WarehouseStats.init : WarehouseStats :=
  { orderStates_ :=
      { waiting := 0, pickingQueued := 0, activelyPicking := 0, partiallyShipped := 0,
        completed := 0 }
    orderCreationTime_ := ∅
    histogram_ := []
    orderStateMap_ := ∅ }

/-- `Warehouse::registerOrder` for an order with the given id and creation
instant. -/
def registerOrder (w : WarehouseStats) (orderId : Int) (createdAt : Int) : WarehouseStats :=
  { w with
    orderStates_ := { w.orderStates_ with waiting := w.orderStates_.waiting + 1 }
    orderStateMap_ := w.orderStateMap_.insert orderId "waiting"
    orderCreationTime_ := w.orderCreationTime_.insert orderId createdAt }

/-- The lambda `decrement` of `updateOrderState`. -/
def decrementState (c : OrderStateCounters) (prev : String) : OrderStateCounters :=
  if prev = "waiting" ∧ c.waiting > 0 then { c with waiting := c.waiting - 1 }
  else if prev = "queued" ∧ c.pickingQueued > 0 then
    { c with pickingQueued := c.pickingQueued - 1 }
  else if prev = "active" ∧ c.activelyPicking > 0 then
    { c with activelyPicking := c.activelyPicking - 1 }
  else if prev = "partial" ∧ c.partiallyShipped > 0 then
    { c with partiallyShipped := c.partiallyShipped - 1 }
  else if prev = "complete" ∧ c.completed > 0 then { c with completed := c.completed - 1 }
  else c

/-- The lambda `increment` of `updateOrderState`. -/
def incrementState (c : OrderStateCounters) (next : String) : OrderStateCounters :=
  if next = "waiting" then { c with waiting := c.waiting + 1 }
  else if next = "queued" then { c with pickingQueued := c.pickingQueued + 1 }
  else if next = "active" then { c with activelyPicking := c.activelyPicking + 1 }
  else if next = "partial" then { c with partiallyShipped := c.partiallyShipped + 1 }
  else if next = "complete" then { c with completed := c.completed + 1 }
  else c

/-- `Warehouse::updateOrderState`. -/
def updateOrderState (w : WarehouseStats) (orderId : Int) (state : String) : WarehouseStats :=
  match w.orderStateMap_.lookup orderId with
  | some prev =>
    let c := decrementState w.orderStates_ prev
    if state = "" then
      { w with orderStates_ := c, orderStateMap_ := w.orderStateMap_.erase orderId }
    else
      { w with
        orderStates_ := incrementState c state
        orderStateMap_ := w.orderStateMap_.insert orderId state }
  | none =>
    if ¬ state = "" then
      { w with
        orderStates_ := incrementState w.orderStates_ state
        orderStateMap_ := w.orderStateMap_.insert orderId state }
    else w

/-- `Warehouse::markOrderShipped`. -/
def markOrderShipped (w : WarehouseStats) (orderId : Int) : WarehouseStats :=
  updateOrderState w orderId "complete"

/-- The sum `waiting + queued + active + partial + complete` of the counters. -/
def counterSum (c : OrderStateCounters) : Int :=
  c.waiting + c.pickingQueued + c.activelyPicking + c.partiallyShipped + c.completed

/-- The number of orders tracked in `orderStateMap_`. -/
def trackedOrders (w : WarehouseStats) : Nat :=
  w.orderStateMap_.entries.length

/-- The five state names that have a counter. -/
def stateNames : List String := ["waiting", "queued", "active", "partial", "complete"]

/-- The counter that belongs to a state name (`0` for any other string). -/
def counterOf (c : OrderStateCounters) (state : String) : Int :=
  if state = "waiting" then c.waiting
  else if state = "queued" then c.pickingQueued
  else if state = "active" then c.activelyPicking
  else if state = "partial" then c.partiallyShipped
  else if state = "complete" then c.completed
  else 0

/-- How many tracked orders are recorded in the given state. -/
def ordersInState (m : AList (fun _ : Int => String)) (state : String) : Nat :=
  m.entries.countP (fun e => e.2 == state)

/-- A call on the order statistics. -/
inductive StatsOp where
  | register (orderId : Int) (createdAt : Int)
  | update (orderId : Int) (state : String)
  deriving DecidableEq, Repr

/-- The statistics after one call. -/
def stepStats (w : WarehouseStats) : StatsOp → WarehouseStats
  | .register orderId createdAt => registerOrder w orderId createdAt
  | .update orderId state => updateOrderState w orderId state

/-- The statistics after a sequence of calls on a fresh warehouse. -/
def runStats (ops : List StatsOp) : WarehouseStats :=
  ops.foldl stepStats WarehouseStats.init

/-- The states reached when every `registerOrder` is for an order that is not
tracked at that moment and every `updateOrderState` names one of the five
states or the empty state. -/
inductive StatsReachable : WarehouseStats → Prop where
  | start : StatsReachable WarehouseStats.init
  | register {w : WarehouseStats} (orderId createdAt : Int) :
      StatsReachable w → w.orderStateMap_.lookup orderId = none →
      StatsReachable (registerOrder w orderId createdAt)
  | update {w : WarehouseStats} (orderId : Int) (state : String) :
      StatsReachable w → (state ∈ stateNames ∨ state = "") →
      StatsReachable (updateOrderState w orderId state)

/-- Each counter equals the number of tracked orders recorded in its state, and
every recorded state is one of the five names. -/
def StatsInv (w : WarehouseStats) : Prop :=
  (∀ s ∈ stateNames, counterOf w.orderStates_ s = ordersInState w.orderStateMap_ s) ∧
  ∀ e ∈ w.orderStateMap_.entries, e.2 ∈ stateNames

/-- Two orders: order 1 registered, queued and taken up by a picker, order 2
registered. -/
def busyStats : WarehouseStats :=
  updateOrderState
    (registerOrder (updateOrderState (registerOrder WarehouseStats.init 1 0) 1 "queued") 2 5)
    1 "active"

/-- The loop of `recordOrderCompletion` that rewrites the bounds of the buckets
from index `i` on: bucket `i` spans `[1000 * i, 1000 * (i + 1))` milliseconds. -/
def setBucketBounds : List OrderHistogramBucket → Nat → List OrderHistogramBucket
  | [], _ => []
  | b :: rest, i =>
    { b with bucketStart := 1000 * (i : Int), bucketEnd := 1000 * ((i : Int) + 1) } ::
      setBucketBounds rest (i + 1)

/-- The statement `histogram_[index].count++` for an index inside the vector. -/
def bumpCount : List OrderHistogramBucket → Nat → List OrderHistogramBucket
  | [], _ => []
  | b :: rest, 0 => { b with count := b.count + 1 } :: rest
  | b :: rest, i + 1 => b :: bumpCount rest i

/-- The value of `static_cast<int>(x)` for a 64-bit integer `x`: the integer
of the range of `int` that differs from `x` by a multiple of `2^32`. -/
def toInt32 (x : Int) : Int := (x + 2147483648) % 4294967296 - 2147483648

/-- `std::vector::resize(n)` on the histogram: buckets beyond `n` are dropped,
missing buckets are appended value-initialised. -/
def resizeBuckets (l : List OrderHistogramBucket) (n : Nat) : List OrderHistogramBucket :=
  l.take n ++ List.replicate (n - l.length) { bucketStart := 0, bucketEnd := 0, count := 0 }

/-- `Warehouse::recordOrderCompletion` for a duration in milliseconds. The index
is the quotient of the C++ integer division by the bucket size, narrowed by
`static_cast<int>`; the size of the vector is narrowed in the same way. A
negative index has no result (`resize` cannot allocate, or the access is outside
the vector), and neither has the index `INT_MAX`, for which `index + 1`
overflows: `none`. When the index is not below the size, `resize(index + 1)`
is called and the bounds of all buckets are rewritten. -/
def recordOrderCompletion (w : WarehouseStats) (orderId : Int) (durationMs : Int) :
    Option WarehouseStats :=
  let index := toInt32 (Int.tdiv durationMs 1000)
  if index < 0 then none
  else if index ≥ toInt32 (w.histogram_.length : Int) then
    if index + 1 > 2147483647 then none
    else
      some { w with
        histogram_ :=
          bumpCount (setBucketBounds (resizeBuckets w.histogram_ (index.toNat + 1)) 0)
            index.toNat
        orderCreationTime_ := w.orderCreationTime_.erase orderId }
  else
    some { w with
      histogram_ := bumpCount w.histogram_ index.toNat
      orderCreationTime_ := w.orderCreationTime_.erase orderId }

/-- The duration gives an index that `recordOrderCompletion` can use: narrowed
to `int` it is not negative and it is below `INT_MAX`. -/
abbrev indexInRange (durationMs : Int) : Prop :=
  0 ≤ toInt32 (Int.tdiv durationMs 1000) ∧ toInt32 (Int.tdiv durationMs 1000) < 2147483647

/-- The number of completions the histogram holds: the sum of its bucket
counts. -/
def histogramTotal (w : WarehouseStats) : Int :=
  (w.histogram_.map (fun b => b.count)).sum

/-! ## The picking handler (`Loader.cpp`, `TaskDispatcher.h`) -/

/-- `struct PickingPayload::Shared` (the mutex apart). -/
structure PickingShared where
  remaining : AList (fun _ : CategoryKey => Int)
  completionRecorded : Bool

/-- A call that a loader makes on the statistics of the warehouse. -/
inductive WarehouseCall where
  | updateOrderState (orderId : Int) (state : String)
  | markOrderShipped (orderId : Int)
  | recordOrderCompletion (orderId : Int) (durationMs : Int)
  deriving DecidableEq, Repr

/-- What one run of `Loader::handlePicking` met before it reached the end of the
handler:

* `noPayload`: the task carries no picking payload (`std::get_if` gave null);
* `noWorkstation lastWorker`: `reserveWorkstation` timed out;
* `worked remaining shipped elapsedMs`: a workstation was reserved, the picking
  loop and the shipping attempts ran and left the shared `remaining` map and
  the local `shipped` with these values (whatever the storage and the docks
  did), and `elapsedMs` is the age of the order on the steady clock when the
  completion is recorded. -/
inductive PickingRun where
  | noPayload
  | noWorkstation (lastWorker : Bool)
  | worked (remaining : AList (fun _ : CategoryKey => Int)) (shipped : Bool)
      (elapsedMs : Nat)

/-- `Loader::handlePicking` for one run: the value it returns, the shared payload
after it, and the calls it makes on the statistics, in order. The test and set
of `completionRecorded` is done under the payload mutex, so it is one step. -/
def handlePicking (shared : PickingShared) (orderId : Int) :
    PickingRun → Bool × PickingShared × List WarehouseCall
  | .noPayload => (false, shared, [])
  | .noWorkstation lastWorker => (!lastWorker, shared, [])
  | .worked remaining shipped elapsedMs =>
    let shared1 : PickingShared := { shared with remaining := remaining }
    if !shipped then
      (false, shared1,
        [WarehouseCall.updateOrderState orderId "active",
         WarehouseCall.updateOrderState orderId "partial"])
    else
      let recordThisLoader := !shared1.completionRecorded
      let shared2 : PickingShared :=
        if !shared1.completionRecorded then { shared1 with completionRecorded := true }
        else shared1
      (true, shared2,
        WarehouseCall.updateOrderState orderId "active" ::
          (if recordThisLoader then
            [WarehouseCall.markOrderShipped orderId,
             WarehouseCall.recordOrderCompletion orderId (elapsedMs : Int)]
          else []))

/-- Several runs of the handler on the same payload, in the order in which they
pass the payload mutex: the payload at the end and all calls made. -/
def runPicking (shared : PickingShared) (orderId : Int) :
    List PickingRun → PickingShared × List WarehouseCall
  | [] => (shared, [])
  | r :: rs =>
    let o := handlePicking shared orderId r
    let t := runPicking o.2.1 orderId rs
    (t.1, o.2.2 ++ t.2)

/-- The call is `markOrderShipped` for the given order. -/
def isShippedCall (orderId : Int) : WarehouseCall → Bool
  | .markOrderShipped o => o == orderId
  | _ => false

/-- The call is `recordOrderCompletion` for the given order. -/
def isCompletionCall (orderId : Int) : WarehouseCall → Bool
  | .recordOrderCompletion o _ => o == orderId
  | _ => false

/-- The effect of one call on the statistics. -/
def applyCall (w : WarehouseStats) : WarehouseCall → Option WarehouseStats
  | .updateOrderState orderId state => some (updateOrderState w orderId state)
  | .markOrderShipped orderId => some (markOrderShipped w orderId)
  | .recordOrderCompletion orderId durationMs => recordOrderCompletion w orderId durationMs

/-- The effect of a sequence of calls on the statistics. -/
def applyCalls (w : WarehouseStats) : List WarehouseCall → Option WarehouseStats
  | [] => some w
  | c :: cs => (applyCall w c).bind (fun w1 => applyCalls w1 cs)

/-- Three runs on the payload of order 7: one that could not ship, and two that
shipped after 2.5 s and 3.2 s. -/
def threePickers : List PickingRun :=
  [PickingRun.worked ∅ false 1200, PickingRun.worked ∅ true 2500,
    PickingRun.worked ∅ true 3200]

/-! ## Warehouse lifecycle (`Warehouse.cpp`) -/

/-- A `Loader` or `Manager` object: its id and its `stopping_` flag. Its thread is
started right after the object is created. -/
structure Worker where
  id : Nat
  stopping_ : Bool
  deriving DecidableEq, Repr

/-- The fields of `class Warehouse` that `start` and `stop` touch. The two counts
are `config_.loaderCount` and `config_.managerCount`, taken non-negative. -/
structure Warehouse where
  loaderCount : Nat
  managerCount : Nat
  dispatcher_ : TaskDispatcher
  loaders_ : List Worker
  managers_ : List Worker
  running_ : Bool

/-- The constructor: not running, no loader, no manager, a fresh dispatcher. -/
def Warehouse.create (loaderCount managerCount : Nat) (heap : Nat → Task) : Warehouse :=
  { loaderCount := loaderCount, managerCount := managerCount
    dispatcher_ := TaskDispatcher.init heap, loaders_ := [], managers_ := []
    running_ := false }

/-- `Warehouse::startLoaders`. -/
def startLoaders (w : Warehouse) : Warehouse :=
  { w with
    loaders_ := w.loaders_ ++
      (List.range w.loaderCount).map (fun i => { id := i, stopping_ := false }) }

/-- `Warehouse::startManagers`. -/
def startManagers (w : Warehouse) : Warehouse :=
  { w with
    managers_ := w.managers_ ++
      (List.range w.managerCount).map (fun i => { id := i, stopping_ := false }) }

/-- `Warehouse::start`: `running_.exchange(true)` returns the old flag and sets
it. -/
def Warehouse.start (w : Warehouse) : Warehouse :=
  if w.running_ then { w with running_ := true }
  else startManagers (startLoaders { w with running_ := true })

/-- `Warehouse::stop`: `running_.exchange(false)` returns the old flag and clears
it. -/
def Warehouse.stop (w : Warehouse) : Warehouse :=
  if !w.running_ then
    { w with running_ := false, dispatcher_ := shutdown w.dispatcher_ }
  else
    { w with
      running_ := false
      dispatcher_ := shutdown w.dispatcher_
      loaders_ := w.loaders_.map (fun l => { l with stopping_ := true })
      managers_ := w.managers_.map (fun m => { m with stopping_ := true }) }

/-- The warehouse of `main` with the default configuration (8 loaders, 2
managers), started and stopped. -/
def stoppedWarehouse : Warehouse :=
  (Warehouse.create 8 2 freshTasks).start.stop

/-! ## The unload handler (`Loader.cpp`) -/

/-- What one pass of the loop of `Loader::handleUnload` meets after it took the
next pallet of the truck: the results of the two `acquire_for` calls, the two
readings of `task->activeLoaders.load() == 1`, and the number drawn by
`RandomGenerator::getRandom(0, 100)` in `waitForMove`. -/
structure UnloadPass where
  receivingAcquired : Bool
  lastWorkerAtTimeout : Bool
  lastWorkerAtMove : Bool
  moveDraw : Int
  storageAcquired : Bool
  deriving DecidableEq, Repr

/-- A call that `handleUnload` makes on the two terminal pools or on the
storage zone; for `acquire_for` with its result. -/
inductive UnloadEvent where
  | receivingAcquire (ok : Bool)
  | receivingRelease
  | storageAcquire (ok : Bool)
  | storageRelease
  | placePallet (pallet : Pallet)

/-- `Loader::waitForMove` for the number drawn. -/
def waitForMove (draw : Int) (isLastWorker : Bool) : Bool :=
  let success := decide (draw > 15)
  if !success && isLastWorker then false else success

/-- The loop of `Loader::handleUnload` over the pallets that this run takes from
the truck, each with what its pass meets: the value returned and the calls
made, in order. -/
def unloadLoop : List (Pallet × UnloadPass) → Bool × List UnloadEvent
  | [] => (true, [])
  | (pallet, pass) :: rest =>
    if !pass.receivingAcquired then
      if pass.lastWorkerAtTimeout then (false, [UnloadEvent.receivingAcquire false])
      else
        let r := unloadLoop rest
        (r.1, UnloadEvent.receivingAcquire false :: r.2)
    else if !waitForMove pass.moveDraw pass.lastWorkerAtMove then
      if pass.lastWorkerAtMove then
        (false, [UnloadEvent.receivingAcquire true, UnloadEvent.receivingRelease,
          UnloadEvent.receivingRelease])
      else
        let r := unloadLoop rest
        (r.1, [UnloadEvent.receivingAcquire true, UnloadEvent.receivingRelease,
          UnloadEvent.receivingRelease] ++ r.2)
    else if !pass.storageAcquired then
      let r := unloadLoop rest
      (r.1, [UnloadEvent.receivingAcquire true, UnloadEvent.receivingRelease,
        UnloadEvent.storageAcquire false] ++ r.2)
    else
      let r := unloadLoop rest
      (r.1, [UnloadEvent.receivingAcquire true, UnloadEvent.receivingRelease,
        UnloadEvent.storageAcquire true, UnloadEvent.placePallet pallet,
        UnloadEvent.storageRelease, UnloadEvent.receivingRelease] ++ r.2)

/-- `Loader::handleUnload`; `none` is a task without an unload payload. -/
def handleUnload : Option (List (Pallet × UnloadPass)) → Bool × List UnloadEvent
  | none => (false, [])
  | some passes => unloadLoop passes

/-- Number of successful `acquire_for` calls on the receiving-terminal pool. -/
def receivingAcquired (events : List UnloadEvent) : Nat :=
  events.countP (fun e => match e with
    | UnloadEvent.receivingAcquire true => true
    | _ => false)

/-- Number of `release` calls on the receiving-terminal pool. -/
def receivingReleased (events : List UnloadEvent) : Nat :=
  events.countP (fun e => match e with
    | UnloadEvent.receivingRelease => true
    | _ => false)

/-- Number of successful `acquire_for` calls on the storage-terminal pool. -/
def storageAcquired (events : List UnloadEvent) : Nat :=
  events.countP (fun e => match e with
    | UnloadEvent.storageAcquire true => true
    | _ => false)

/-- Number of `release` calls on the storage-terminal pool. -/
def storageReleased (events : List UnloadEvent) : Nat :=
  events.countP (fun e => match e with
    | UnloadEvent.storageRelease => true
    | _ => false)

/-- The calls of a run on the receiving-terminal pool, as pool operations. -/
def receivingOps (events : List UnloadEvent) : List PoolOp :=
  events.filterMap (fun e => match e with
    | UnloadEvent.receivingAcquire true => some PoolOp.acquire
    | UnloadEvent.receivingRelease => some PoolOp.release
    | _ => none)

/-- A pass in which both terminals are acquired and the move succeeds. -/
def smoothPass : UnloadPass :=
  { receivingAcquired := true, lastWorkerAtTimeout := false, lastWorkerAtMove := false,
    moveDraw := 50, storageAcquired := true }

/-! ## The loop of the picking handler (`Loader.cpp`)

The map `remaining` is given by its entries in iteration order, each key
once. -/

/-- The search `std::find_if` for the first entry with a positive quantity. -/
def findPositive : List (CategoryKey × Int) → Option (CategoryKey × Int)
  | [] => none
  | e :: rest => if e.2 > 0 then some e else findPositive rest

/-- The statement `remaining[key] += x`; a missing key is created with `0`. -/
def addAt (key : CategoryKey) (x : Int) : List (CategoryKey × Int) → List (CategoryKey × Int)
  | [] => [(key, 0 + x)]
  | e :: rest => if e.1 = key then (e.1, e.2 + x) :: rest else e :: addAt key x rest

/-- The quantity recorded for a key, `0` when the key is missing. -/
def quantityOf (key : CategoryKey) : List (CategoryKey × Int) → Int
  | [] => 0
  | e :: rest => if e.1 = key then e.2 else quantityOf key rest

/-- What the loop of `handlePicking` leaves: the map `remaining`, the storage,
the flag `allFulfilled`, and for each `takeFromStorage` call its category and
the value it returned. -/
structure PickingLoop where
  remaining : List (CategoryKey × Int)
  storage : StorageZone
  allFulfilled : Bool
  taken : List (CategoryKey × Int)

/-- The loop of `Loader::handlePicking` for one run alone, on a workstation
with the given number of dismantle slots; `fuel` bounds the number of passes,
`none` means that the bound was reached. -/
def pickingLoop (dismantleSlots : Int) :
    Nat → List (CategoryKey × Int) → StorageZone → Option PickingLoop
  | 0, _, _ => none
  | fuel + 1, remaining, storage =>
    match findPositive remaining with
    | none =>
      some { remaining := remaining, storage := storage, allFulfilled := true, taken := [] }
    | some (selected, quantity) =>
      let chunk := min quantity dismantleSlots
      let remaining1 := addAt selected (-chunk) remaining
      let r := takeFromStorage storage selected chunk
      if r.1 = 0 then
        some { remaining := addAt selected chunk remaining1, storage := r.2,
               allFulfilled := false, taken := [(selected, r.1)] }
      else
        let remaining2 :=
          if r.1 < chunk then addAt selected (chunk - r.1) remaining1 else remaining1
        match pickingLoop dismantleSlots fuel remaining2 r.2 with
        | some t =>
          some { remaining := t.remaining, storage := t.storage,
                 allFulfilled := t.allFulfilled, taken := (selected, r.1) :: t.taken }
        | none => none

/-- The units that the calls of the list took for a key. -/
def takenOf (key : CategoryKey) : List (CategoryKey × Int) → Int
  | [] => 0
  | e :: rest => (if e.1 = key then e.2 else 0) + takenOf key rest

/-- The count of the bucket with index `i`, `0` beyond the histogram. -/
def countAt (histogram : List OrderHistogramBucket) (i : Nat) : Int :=
  match histogram[i]? with
  | some b => b.count
  | none => 0

/-- The call is a `recordOrderCompletion`. -/
def isRecordCall : WarehouseCall → Bool
  | .recordOrderCompletion _ _ => true
  | _ => false

/-- The statistics of order 7 after the manager registered and queued it. -/
def queuedOrder : WarehouseStats :=
  updateOrderState (registerOrder WarehouseStats.init 7 0) 7 "queued"

/-- The payload of the picking task of order 7 when all units are picked. -/
def pickedPayload : PickingShared := { remaining := ∅, completionRecorded := false }

/-- Bucket `i` of the histogram spans `[1000 * i, 1000 * (i + 1))` milliseconds,
for every `i`. -/
def SpansSeconds (l : List OrderHistogramBucket) : Prop :=
  ∀ (i : Nat) (b : OrderHistogramBucket), l[i]? = some b →
    b.bucketStart = 1000 * (i : Int) ∧ b.bucketEnd = 1000 * ((i : Int) + 1)

/-- What the amended C32 says of a run of the loop that starts from the map
`l` and the storage `z` and ends in `res`. -/
def LoopConserves (l : List (CategoryKey × Int)) (z : StorageZone) (res : PickingLoop) :
    Prop :=
  (∀ k, quantityOf k l = quantityOf k res.remaining + takenOf k res.taken)
    ∧ (∀ k, totalOf z k = totalOf res.storage k + takenOf k res.taken)
    ∧ (res.allFulfilled = false ↔ ∃ e ∈ res.taken, e.2 = 0)
    ∧ (res.allFulfilled = true → ∀ e ∈ res.remaining, e.2 = 0)

end Lab6

/-! # The message broker (C++lab7)

Shallow embedding of `QueueStore` and `BrokerApp` from `broker.cpp`.

* An instant of `std::chrono::system_clock` is an `Int`: the number of clock
  ticks since the epoch.  A `std::chrono::seconds` value is an `Int` number of
  seconds; adding it to an instant converts it to ticks.
* `std::chrono::system_clock::now()` is read by `expired`.  One call of a
  `QueueStore` member function is taken at one instant `now`, which is an
  argument of the embedded function.
* `std::sort` is library code.  Its contract (the result is a rearrangement
  of the input in which no later element compares less than an earlier one;
  the order of elements that compare equal is not specified) is the structure
  `CreatedSort`, an argument of the functions that sort.
* The value produced by `std::uniform_int_distribution` is an argument
  `draw`, reduced into the range `0 .. size - 1` of the distribution.
* The file `messages.json` is the field `disk_`: the buffer content written
  by the last `persist_all`, or `none` when nothing was written. -/

namespace Lab7

/-- Where a queue keeps its messages (`enum class Durability`). -/
inductive Durability
  | Memory
  | Disk
  deriving DecidableEq, Repr

/-- The delivery order of a queue (`enum class Order`). -/
inductive Order
  | FIFO
  | Unordered
  | Sorted
  deriving DecidableEq, Repr

/-- Configuration of one queue (`struct QueueConfig`). -/
structure QueueConfig where
  name : String
  durability : Durability
  order : Order
  sort_key : Option String
  ttl : Option Int
  deriving DecidableEq, Repr

/-- One message (`struct Message`): `created` in clock ticks, `ttl` in seconds. -/
structure Message where
  id : String
  payload : String
  created : Int
  ttl : Option Int
  attributes : List (String × String)
  deriving DecidableEq, Repr

/-- Ticks of `system_clock` in one second (the clock counts nanoseconds). -/
def ticksPerSecond : Int := 1000000000

/-- Function `expired(m)` evaluated at the instant `now`: a message without TTL
never expires, otherwise it has expired when `now > created + ttl`. -/
def expired (now : Int) (m : Message) : Bool :=
  match m.ttl with
  | none => false
  | some ttl => decide (m.created + ttl * ticksPerSecond < now)

/-- State of a `QueueStore`: configuration, buffer, and the content of the
file `messages.json`. -/
structure QueueStore where
  cfg_ : QueueConfig
  messages_ : List Message
  disk_ : Option (List Message)
  deriving DecidableEq, Repr

/-- A queue with an empty buffer and no file. -/
def QueueStore.create (cfg : QueueConfig) : QueueStore :=
  { cfg_ := cfg, messages_ := [], disk_ := none }

/-- The order of two messages used by `sort_if_needed`: the comparator
`a.created < b.created` does not put `b` before `a`. -/
def createdLE (a b : Message) : Prop := a.created ≤ b.created

instance createdLE_decidable : DecidableRel createdLE :=
  fun a b => inferInstanceAs (Decidable (a.created ≤ b.created))

instance createdLE_total : IsTotal Message createdLE :=
  ⟨fun a b => Int.le_total a.created b.created⟩

instance createdLE_trans : IsTrans Message createdLE :=
  ⟨fun _ _ _ h1 h2 => Int.le_trans h1 h2⟩

/-- Contract of `std::sort` with the comparator `a.created < b.created`. -/
structure CreatedSort where
  sort : List Message → List Message
  perm : ∀ l, (sort l).Perm l
  sorted : ∀ l, (sort l).Pairwise createdLE

/-- A sort that keeps the order of messages created at the same instant. -/
def stableSort : CreatedSort :=
  { sort := fun l => l.insertionSort createdLE
    perm := fun l => List.perm_insertionSort createdLE l
    sorted := fun l => List.sorted_insertionSort createdLE l }

/-- A sort that reverses the order of messages created at the same instant. -/
def reversingSort : CreatedSort :=
  { sort := fun l => l.reverse.insertionSort createdLE
    perm := fun l => (List.perm_insertionSort createdLE l.reverse).trans (List.reverse_perm l)
    sorted := fun l => List.sorted_insertionSort createdLE l.reverse }

/-- Member `persist_all`: a Disk queue writes the whole buffer to its file. -/
def persist_all (q : QueueStore) : QueueStore :=
  if q.cfg_.durability ≠ Durability.Disk then q
  else { cfg_ := q.cfg_, messages_ := q.messages_, disk_ := some q.messages_ }

/-- Member `sort_if_needed`: a Sorted queue sorts its buffer by `created`. -/
def sort_if_needed (srt : CreatedSort) (q : QueueStore) : QueueStore :=
  if q.cfg_.order ≠ Order.Sorted then q
  else { cfg_ := q.cfg_, messages_ := srt.sort q.messages_, disk_ := q.disk_ }

/-- Member `enqueue`: append, sort if needed, persist. -/
def enqueue (srt : CreatedSort) (q : QueueStore) (msg : Message) : QueueStore :=
  persist_all (sort_if_needed srt
    { cfg_ := q.cfg_, messages_ := q.messages_ ++ [msg], disk_ := q.disk_ })

/-- Member `cleanup_expired` at the instant `now`: erase the expired messages,
persist when the size changed. -/
def cleanup_expired (q : QueueStore) (now : Int) : QueueStore :=
  let kept := q.messages_.filter (fun m => !expired now m)
  let q1 : QueueStore := { cfg_ := q.cfg_, messages_ := kept, disk_ := q.disk_ }
  if kept.length ≠ q.messages_.length then persist_all q1 else q1

/-- Member `fetch_for_ack` at the instant `now`: clean up, then take the message
at a random index (Unordered) or the first one, and persist.  Returns the
message, if any, and the new state. -/
def fetch_for_ack (q : QueueStore) (now : Int) (draw : Nat) : Option Message × QueueStore :=
  let q1 := cleanup_expired q now
  match q1.messages_ with
  | [] => (none, q1)
  | front :: rest =>
    if q1.cfg_.order = Order.Unordered then
      let idx := draw % (front :: rest).length
      match (front :: rest)[idx]? with
      | some msg =>
        (some msg, persist_all
          { cfg_ := q1.cfg_, messages_ := (front :: rest).eraseIdx idx, disk_ := q1.disk_ })
      | none => (none, q1)
    else
      (some front, persist_all { cfg_ := q1.cfg_, messages_ := rest, disk_ := q1.disk_ })

/-- Member `peek_at`: the message at `index`, if there is one; the buffer is
not changed and the clock is not read. -/
def peek_at (q : QueueStore) (index : Nat) : Option Message :=
  if index ≥ q.messages_.length then none else q.messages_[index]?

/-- Member `requeue`: insert at the front, sort if needed, persist. -/
def requeue (srt : CreatedSort) (q : QueueStore) (msg : Message) : QueueStore :=
  persist_all (sort_if_needed srt
    { cfg_ := q.cfg_, messages_ := msg :: q.messages_, disk_ := q.disk_ })

/-- Member `drop`: erase every message with the given id, persist when one
was erased. -/
def drop (q : QueueStore) (id : String) : QueueStore :=
  let kept := q.messages_.filter (fun m => !decide (m.id = id))
  if kept.length ≠ q.messages_.length then
    persist_all { cfg_ := q.cfg_, messages_ := kept, disk_ := q.disk_ }
  else q

/-- The messages `ms` enqueued one after the other. -/
def enqueueAll (srt : CreatedSort) (q : QueueStore) (ms : List Message) : QueueStore :=
  ms.foldl (enqueue srt) q

/-- A series of `fetch_for_ack` calls, one per `(now, draw)` pair: the results
in call order and the final state. -/
def fetchMany (q : QueueStore) : List (Int × Nat) → List (Option Message) × QueueStore
  | [] => ([], q)
  | c :: rest =>
    let r := fetch_for_ack q c.1 c.2
    let rs := fetchMany r.2 rest
    (r.1 :: rs.1, rs.2)

/-- One call of a mutating member function of `QueueStore`. -/
inductive QueueOp
  | enqueue (msg : Message)
  | requeue (msg : Message)
  | fetch_for_ack (now : Int) (draw : Nat)
  | drop (id : String)
  | cleanup_expired (now : Int)
  deriving DecidableEq, Repr

/-- The state after one call. -/
def stepQueue (srt : CreatedSort) (q : QueueStore) : QueueOp → QueueStore
  | QueueOp.enqueue msg => enqueue srt q msg
  | QueueOp.requeue msg => requeue srt q msg
  | QueueOp.fetch_for_ack now draw => (fetch_for_ack q now draw).2
  | QueueOp.drop id => drop q id
  | QueueOp.cleanup_expired now => cleanup_expired q now

/-- The state after a sequence of calls. -/
def runQueue (srt : CreatedSort) (q : QueueStore) (ops : List QueueOp) : QueueStore :=
  ops.foldl (stepQueue srt) q

/-- A message without TTL. -/
def plainMessage (id : String) (created : Int) : Message :=
  { id := id, payload := id, created := created, ttl := none, attributes := [] }

/-- A message with a TTL of `ttl` seconds. -/
def timedMessage (id : String) (created ttl : Int) : Message :=
  { id := id, payload := id, created := created, ttl := some ttl, attributes := [] }

/-- A memory queue configuration with the given order. -/
def memoryConfig (order : Order) : QueueConfig :=
  { name := "q", durability := Durability.Memory, order := order, sort_key := none, ttl := none }

/-- A queue holding the given buffer. -/
def queueWith (order : Order) (ms : List Message) : QueueStore :=
  { cfg_ := memoryConfig order, messages_ := ms, disk_ := none }

/-- A day of a Sorted queue: three messages arrive out of order, the oldest is
fetched and requeued, one is dropped, and a late fetch expires another. -/
def sortedDay : List QueueOp :=
  [QueueOp.enqueue (plainMessage "C" 30), QueueOp.enqueue (timedMessage "A" 10 1),
    QueueOp.enqueue (plainMessage "B" 20), QueueOp.fetch_for_ack 100 0,
    QueueOp.requeue (timedMessage "A" 10 1), QueueOp.enqueue (plainMessage "D" 15),
    QueueOp.drop "B", QueueOp.cleanup_expired 2000000000]

/-! ## Strings of the wire protocol

A `std::string` is a Lean `String`, one `Char` per byte.  Positions are
`size_t` values: natural numbers below `2 ^ 64` with wrap-around arithmetic,
`npos` being the largest one. -/

/-- The constant `std::string::npos`. -/
def npos : Nat := 18446744073709551615

/-- Number of `size_t` values. -/
def sizeMod : Nat := 18446744073709551616

/-- Addition of `size_t` values. -/
def addSize (a b : Nat) : Nat := (a + b) % sizeMod

/-- Subtraction of `size_t` values. -/
def subSize (a b : Nat) : Nat := (a + sizeMod - b % sizeMod) % sizeMod

/-- The double quote character. -/
def dquote : Char := Char.ofNat 34

/-- The backslash character. -/
def backslash : Char := Char.ofNat 92

/-- The line feed character. -/
def newline : Char := Char.ofNat 10

/-- Whether the characters `s` begin with the characters `pat`. -/
def startsWith : List Char → List Char → Bool
  | _, [] => true
  | [], _ :: _ => false
  | c :: s, p :: pat => decide (c = p) && startsWith s pat

/-- Position of the first occurrence of `pat` in `s`, counted from `i`, or
`npos`. -/
def findAt (pat : List Char) : List Char → Nat → Nat
  | [], i => if pat.isEmpty then i else npos
  | c :: s, i => if startsWith (c :: s) pat then i else findAt pat s (i + 1)

/-- Library function `s.find(pat)`. -/
def find (s pat : String) : Nat := findAt pat.data s.data 0

/-- Library function `s.find(ch, pos)`. -/
def findChar (s : String) (ch : Char) (pos : Nat) : Nat :=
  findAt [ch] (s.data.drop pos) pos

/-- Library function `s.substr(pos, n)` for `pos ≤ s.size()`. -/
def substr (s : String) (pos n : Nat) : String :=
  String.mk ((s.data.drop pos).take n)

/-- The text from position `pos + skip` up to the next double quote:
`start = pos + skip; stop = body.find('"', start);
body.substr(start, stop - start)`. -/
def fieldAt (body : String) (pos skip : Nat) : String :=
  let start := addSize pos skip
  let stop := findChar body dquote start
  substr body start (subSize stop start)

/-- One character of `json_escape`. -/
def escapeChar (c : Char) : List Char :=
  if c = dquote then [backslash, dquote]
  else if c = backslash then [backslash, backslash]
  else if c = newline then [backslash, 'n']
  else if c = Char.ofNat 13 then [backslash, 'r']
  else if c = Char.ofNat 9 then [backslash, 't']
  else [c]

/-- Function `json_escape`. -/
def json_escape (s : String) : String := String.mk (s.data.flatMap escapeChar)

/-- Comparison `a < b` of two `std::string` values. -/
def keyLess : List Char → List Char → Bool
  | [], [] => false
  | [], _ :: _ => true
  | _ :: _, [] => false
  | a :: s, b :: t =>
    if a.toNat < b.toNat then true
    else if b.toNat < a.toNat then false
    else keyLess s t

/-- Insertion into a `std::map<std::string, std::string>`, kept in key order;
an existing key keeps its value. -/
def sortedInsert (k v : String) : List (String × String) → List (String × String)
  | [] => [(k, v)]
  | (k1, v1) :: rest =>
    if k = k1 then (k1, v1) :: rest
    else if keyLess k.data k1.data then (k, v) :: (k1, v1) :: rest
    else (k1, v1) :: sortedInsert k v rest

/-- A `std::map<std::string, std::string>` built from an initializer list. -/
def sortedMapOf (l : List (String × String)) : List (String × String) :=
  l.foldl (fun m e => sortedInsert e.1 e.2 m) []

/-- The members of a JSON object, separated by commas. -/
def jsonMembers : List (String × String) → String
  | [] => ""
  | [e] => "\"" ++ json_escape e.1 ++ "\":\"" ++ json_escape e.2 ++ "\""
  | e :: f :: rest =>
    "\"" ++ json_escape e.1 ++ "\":\"" ++ json_escape e.2 ++ "\"," ++ jsonMembers (f :: rest)

/-- Function `build_json_response` on a map given in key order. -/
def build_json_response (kv : List (String × String)) : String :=
  "\x7b" ++ jsonMembers kv ++ "\x7d"

/-- The reply sent for a response object: the frames `identity`, empty, `resp`
count as one reply, of which the text `resp` is kept. -/
def reply (kv : List (String × String)) : List String :=
  [build_json_response (sortedMapOf kv)]

/-! ## Persistence -/

/-- The line written by `persist_all` for one message, without the separator:
`created` in milliseconds, the TTL as the count of its `std::chrono::seconds`. -/
def messageLine (m : Message) : String :=
  "  \x7b\"id\":\"" ++ json_escape m.id ++ "\",\"payload\":\"" ++ json_escape m.payload
    ++ "\",\"created\":" ++ toString (Int.tdiv m.created 1000000)
    ++ (match m.ttl with
        | some ttl => ",\"ttl_ms\":" ++ toString ttl
        | none => "")
    ++ "\x7d"

/-- The lines written by `persist_all` for the buffer. -/
def messageLines : List Message → String
  | [] => ""
  | [m] => messageLine m ++ "\n"
  | m :: n :: rest => messageLine m ++ ",\n" ++ messageLines (n :: rest)

/-- The content of `messages.json` written by `persist_all` for a buffer. -/
def fileText (ms : List Message) : String := "[\n" ++ messageLines ms ++ "]"

/-- The content of `messages.json` of a queue, if the file was written. -/
def fileOf (q : QueueStore) : Option String := q.disk_.map fileText

/-- The lines read by repeated `std::getline`; `cur` holds the characters of
the line being read, last one first. -/
def getlines : List Char → List Char → List String
  | [], cur => if cur.isEmpty then [] else [String.mk cur.reverse]
  | c :: rest, cur =>
    if c = newline then String.mk cur.reverse :: getlines rest []
    else getlines rest (c :: cur)

/-- The message read by `load_from_disk` from one line at the instant `now`,
if the line has an id and a payload. -/
def loadLine (now : Int) (line : String) : Option Message :=
  let id_pos := find line "\"id\":\""
  let payload_pos := find line "\"payload\":\""
  if id_pos = npos ∨ payload_pos = npos then none
  else
    some { id := fieldAt line id_pos 6, payload := fieldAt line payload_pos 11,
           created := now, ttl := none, attributes := [] }

/-- Member `load_from_disk` for a file with the given content (`none`: the
file does not exist): the messages read are appended to the buffer. -/
def load_from_disk (q : QueueStore) (file : Option String) (now : Int) : QueueStore :=
  match file with
  | none => q
  | some text =>
    { cfg_ := q.cfg_,
      messages_ := q.messages_ ++ (getlines text.data []).filterMap (loadLine now),
      disk_ := q.disk_ }

/-! ## The broker engine

`BrokerApp` keeps its queues and its sessions in `std::unordered_map`s: lists
of entries with the keys in the order of iteration.  `handle_producer`,
`handle_consumer` and `sweep` take what they read from outside as arguments:
the instant `now`, the random numbers `rnd` and `draw`, and the text `iso` of
`now_iso()`.  They return the new state; the handlers also return the replies
sent to the client. -/

/-- Delivery guarantee asked by a producer (`enum class ProducerQos`). -/
inductive ProducerQos
  | FireAndForget
  | RequireAck
  deriving DecidableEq, Repr

/-- Delivery guarantee asked by a consumer (`enum class ConsumerQos`). -/
inductive ConsumerQos
  | FireAndForget
  | RequireAck
  | Resume
  deriving DecidableEq, Repr

/-- State of one consumer (`struct ConsumerSession`): `ack_timeout` in
milliseconds, `deadline` in clock ticks. -/
structure ConsumerSession where
  id : String
  queue : String
  qos : ConsumerQos
  ack_timeout : Int
  cursor : Nat
  pending : Option Message
  deadline : Int
  deriving DecidableEq, Repr

/-- Ticks of `system_clock` in one millisecond. -/
def ticksPerMilli : Int := 1000000

/-- Lookup `m.find(k)` in an unordered map. -/
def mapFind {α : Type} (k : String) : List (String × α) → Option α
  | [] => none
  | (k1, v) :: rest => if k1 = k then some v else mapFind k rest

/-- Assignment `m[k] = v` in an unordered map: the value of an existing key is
replaced in place, a new key gets a new entry. -/
def mapAssign {α : Type} (k : String) (v : α) : List (String × α) → List (String × α)
  | [] => [(k, v)]
  | (k1, v1) :: rest =>
    if k1 = k then (k1, v) :: rest else (k1, v1) :: mapAssign k v rest

/-- Removal `m.erase(k)` from an unordered map. -/
def mapErase {α : Type} (k : String) (m : List (String × α)) : List (String × α) :=
  m.filter (fun e => !decide (e.1 = k))

/-- Insertion `m.emplace(k, v)` into an unordered map: an existing key keeps
its value. -/
def mapEmplace {α : Type} (k : String) (v : α) (m : List (String × α)) : List (String × α) :=
  match mapFind k m with
  | some _ => m
  | none => m ++ [(k, v)]

/-- State of the broker (`class BrokerApp`): the queues by name and the
sessions by consumer identity. -/
structure BrokerApp where
  queues_ : List (String × QueueStore)
  sessions_ : List (String × ConsumerSession)
  deriving DecidableEq, Repr

/-- The broker after `load_config` for the given queue configurations, none of
which has a file on disk yet. -/
def BrokerApp.create (cfgs : List QueueConfig) : BrokerApp :=
  { queues_ := cfgs.foldl (fun m cfg => mapEmplace cfg.name (QueueStore.create cfg) m) [],
    sessions_ := [] }

/-- Member `make_message_id` for the random number `rnd`: its hexadecimal
digits. -/
def make_message_id (rnd : Nat) : String :=
  String.mk (Nat.toDigits 16 (rnd % sizeMod))

/-- The object `msg` after `std::move(msg)` has initialised the by-value
parameter of `enqueue`: its strings and its map have been moved from and are
left empty, the other members keep their values. -/
def movedFrom (m : Message) : Message :=
  { id := "", payload := "", created := m.created, ttl := m.ttl, attributes := [] }

/-- Member `handle_producer` for a frame with the text `body`. -/
def handle_producer (srt : CreatedSort) (b : BrokerApp) (body : String) (rnd : Nat)
    (now : Int) : BrokerApp × List String :=
  let qpos := find body "\"queue\":\""
  let ppos := find body "\"payload\":\""
  if qpos = npos ∨ ppos = npos then
    (b, reply [("status", "error"), ("reason", "bad_request")])
  else
    let queue_name := fieldAt body qpos 9
    let payload := fieldAt body ppos 11
    let qos :=
      if find body "require_ack" ≠ npos then ProducerQos.RequireAck
      else ProducerQos.FireAndForget
    match mapFind queue_name b.queues_ with
    | none => (b, reply [("status", "error"), ("reason", "queue_not_found")])
    | some q =>
      let msg : Message :=
        { id := make_message_id rnd, payload := payload, created := now,
          ttl := q.cfg_.ttl, attributes := [] }
      let b1 : BrokerApp :=
        { queues_ := mapAssign queue_name (enqueue srt q msg) b.queues_,
          sessions_ := b.sessions_ }
      if qos = ProducerQos.RequireAck then
        (b1, reply [("status", "ok"), ("message_id", (movedFrom msg).id)])
      else
        (b1, reply [("status", "accepted")])

/-- Branch `action == "subscribe"` of `handle_consumer`. -/
def handleSubscribe (b : BrokerApp) (id_str body : String) : BrokerApp × List String :=
  let qpos := find body "\"queue\":\""
  let queue_name := fieldAt body qpos 9
  let qos0 :=
    if find body "require_ack" ≠ npos then ConsumerQos.RequireAck
    else ConsumerQos.FireAndForget
  let qos := if find body "resume" ≠ npos then ConsumerQos.Resume else qos0
  match mapFind queue_name b.queues_ with
  | none => (b, reply [("status", "error"), ("reason", "queue_not_found")])
  | some _ =>
    let session : ConsumerSession :=
      { id := id_str, queue := queue_name, qos := qos, ack_timeout := 5000, cursor := 0,
        pending := none, deadline := 0 }
    ({ queues_ := b.queues_, sessions_ := mapAssign id_str session b.sessions_ },
      reply [("status", "subscribed"), ("queue", queue_name)])

/-- Branch `action == "unsubscribe"` of `handle_consumer`. -/
def handleUnsubscribe (b : BrokerApp) (id_str : String) : BrokerApp × List String :=
  ({ queues_ := b.queues_, sessions_ := mapErase id_str b.sessions_ },
    reply [("status", "unsubscribed")])

/-- The reply of a fetch that delivers `msg`. -/
def deliveryReply (msg : Message) (iso : String) : List String :=
  reply [("status", "ok"), ("message_id", msg.id), ("payload", msg.payload),
    ("timestamp", iso)]

/-- Branch `action == "fetch"` of `handle_consumer`. -/
def handleFetch (b : BrokerApp) (id_str : String) (now : Int) (draw : Nat) (iso : String) :
    BrokerApp × List String :=
  match mapFind id_str b.sessions_ with
  | none => (b, reply [("status", "error"), ("reason", "not_subscribed")])
  | some session =>
    match mapFind session.queue b.queues_ with
    | none => (b, reply [("status", "error"), ("reason", "queue_not_found")])
    | some q =>
      if session.qos = ConsumerQos.FireAndForget then
        match peek_at q session.cursor with
        | some msg =>
          ({ queues_ := b.queues_,
             sessions_ := mapAssign id_str
               { id := session.id, queue := session.queue, qos := session.qos,
                 ack_timeout := session.ack_timeout, cursor := session.cursor + 1,
                 pending := session.pending, deadline := session.deadline } b.sessions_ },
            deliveryReply msg iso)
        | none => (b, reply [("status", "empty")])
      else
        let r := fetch_for_ack q now draw
        let queues1 := mapAssign session.queue r.2 b.queues_
        match r.1 with
        | some msg =>
          ({ queues_ := queues1,
             sessions_ := mapAssign id_str
               { id := session.id, queue := session.queue, qos := session.qos,
                 ack_timeout := session.ack_timeout, cursor := session.cursor,
                 pending := some msg,
                 deadline := now + session.ack_timeout * ticksPerMilli } b.sessions_ },
            deliveryReply msg iso)
        | none =>
          ({ queues_ := queues1, sessions_ := b.sessions_ }, reply [("status", "empty")])

/-- Branch `action == "ack"` of `handle_consumer`. -/
def handleAck (b : BrokerApp) (id_str body : String) : BrokerApp × List String :=
  let id_pos := find body "\"message_id\":\""
  if id_pos = npos then (b, [])
  else
    let msg_id := fieldAt body id_pos 14
    match mapFind id_str b.sessions_ with
    | none => (b, [])
    | some session =>
      match session.pending with
      | none => (b, [])
      | some pending =>
        if pending.id = msg_id then
          ({ queues_ := b.queues_,
             sessions_ := mapAssign id_str
               { id := session.id, queue := session.queue, qos := session.qos,
                 ack_timeout := session.ack_timeout, cursor := session.cursor,
                 pending := none, deadline := session.deadline } b.sessions_ },
            reply [("status", "acknowledged"), ("message_id", msg_id)])
        else (b, [])

/-- Member `handle_consumer` for a frame from the consumer `identity` with the
text `body`. -/
def handle_consumer (b : BrokerApp) (identity body : String) (now : Int) (draw : Nat)
    (iso : String) : BrokerApp × List String :=
  let action_pos := find body "\"action\":\""
  if action_pos = npos then
    (b, reply [("status", "error"), ("reason", "bad_request")])
  else
    let action := fieldAt body action_pos 10
    if action = "subscribe" then handleSubscribe b identity body
    else if action = "unsubscribe" then handleUnsubscribe b identity
    else if action = "fetch" then handleFetch b identity now draw iso
    else if action = "ack" then handleAck b identity body
    else (b, [])

/-- Whether `sweep` at the instant `now` takes the pending message of the
session back: the session asks for acks, has a pending message, and its
deadline has passed. -/
def timedOut (now : Int) (session : ConsumerSession) : Bool :=
  (decide (session.qos = ConsumerQos.RequireAck) || decide (session.qos = ConsumerQos.Resume))
    && (session.pending.isSome && decide (now > session.deadline))

/-- Second loop of `sweep`: the sessions in iteration order, with the queues
as they stand. -/
def sweepSessions (srt : CreatedSort) (now : Int) :
    List (String × ConsumerSession) → List (String × QueueStore) →
      List (String × ConsumerSession) × List (String × QueueStore)
  | [], queues => ([], queues)
  | (id, session) :: rest, queues =>
    if timedOut now session then
      let queues1 :=
        match session.pending, mapFind session.queue queues with
        | some pending, some q => mapAssign session.queue (requeue srt q pending) queues
        | _, _ => queues
      let r := sweepSessions srt now rest queues1
      ((id, { id := session.id, queue := session.queue, qos := session.qos,
              ack_timeout := session.ack_timeout, cursor := session.cursor,
              pending := none, deadline := session.deadline }) :: r.1, r.2)
    else
      let r := sweepSessions srt now rest queues
      ((id, session) :: r.1, r.2)

/-- Member `sweep` at the instant `now`: clean every queue, then take back the
pending messages whose deadline has passed. -/
def sweep (srt : CreatedSort) (b : BrokerApp) (now : Int) : BrokerApp :=
  let queues1 := b.queues_.map (fun e => (e.1, cleanup_expired e.2 now))
  let r := sweepSessions srt now b.sessions_ queues1
  { queues_ := r.2, sessions_ := r.1 }

/-- One event of the main loop of `run`. -/
inductive BrokerOp
  | producer (body : String) (rnd : Nat) (now : Int)
  | consumer (identity body : String) (now : Int) (draw : Nat) (iso : String)
  | sweep (now : Int)
  deriving DecidableEq, Repr

/-- The state after one event. -/
def stepBroker (srt : CreatedSort) (b : BrokerApp) : BrokerOp → BrokerApp
  | BrokerOp.producer body rnd now => (handle_producer srt b body rnd now).1
  | BrokerOp.consumer identity body now draw iso =>
    (handle_consumer b identity body now draw iso).1
  | BrokerOp.sweep now => sweep srt b now

/-- The state after a sequence of events. -/
def runBroker (srt : CreatedSort) (b : BrokerApp) (ops : List BrokerOp) : BrokerApp :=
  ops.foldl (stepBroker srt) b

/-- The action named by a consumer frame, as `handle_consumer` reads it:
`none` when the frame has no `"action":"` part. -/
def actionOf (body : String) : Option String :=
  if find body "\"action\":\"" = npos then none
  else some (fieldAt body (find body "\"action\":\"") 10)

/-- The message id named by an ack frame, as `handle_consumer` reads it:
`none` when the frame has no `"message_id":"` part. -/
def messageIdOf (body : String) : Option String :=
  if find body "\"message_id\":\"" = npos then none
  else some (fieldAt body (find body "\"message_id\":\"") 14)

/-- The session with its pending message cleared (`pending.reset()`). -/
def clearPending (session : ConsumerSession) : ConsumerSession :=
  { id := session.id, queue := session.queue, qos := session.qos,
    ack_timeout := session.ack_timeout, cursor := session.cursor,
    pending := none, deadline := session.deadline }

/-- The pending messages that `sweep` at the instant `now` puts back into the
queue `name`, in the iteration order of the sessions. -/
def timedOutFor (now : Int) (name : String) : List (String × ConsumerSession) → List Message
  | [] => []
  | e :: rest =>
    if timedOut now e.2 && decide (e.2.queue = name) then
      e.2.pending.toList ++ timedOutFor now name rest
    else timedOutFor now name rest

/-- Sum of a quantity over the values of an unordered map. -/
def mapSum {α : Type} (f : α → Nat) (m : List (String × α)) : Nat :=
  (m.map (fun e => f e.2)).sum

/-- Number of messages with the id `a` in a buffer. -/
def idCount (a : String) (ms : List Message) : Nat :=
  ms.countP (fun m => decide (m.id = a))

/-- Number of pending messages with the id `a` in a session: 0 or 1. -/
def pendingCount (a : String) (session : ConsumerSession) : Nat :=
  match session.pending with
  | some m => if m.id = a then 1 else 0
  | none => 0

/-- Number of messages with the id `a` held by the broker, in the buffers of
its queues and as pending messages of its sessions. -/
def held (a : String) (b : BrokerApp) : Nat :=
  mapSum (fun q => idCount a q.messages_) b.queues_ + mapSum (pendingCount a) b.sessions_

/-- Message ids are unique along a run: each id made by `make_message_id` for a
producer frame is the id of no message that the broker holds at that
moment. -/
def freshIds (srt : CreatedSort) : BrokerApp → List BrokerOp → Bool
  | _, [] => true
  | b, op :: rest =>
    (match op with
      | BrokerOp.producer _ rnd _ => decide (held (make_message_id rnd) b = 0)
      | _ => true)
    && freshIds srt (stepBroker srt b op) rest

/-- The broker of the examples: one FIFO queue `q` in memory. -/
def demoBroker : BrokerApp := BrokerApp.create [memoryConfig Order.FIFO]

/-- A producer frame for the queue `q` whose payload field holds `text`. -/
def produceFrame (text : String) : String :=
  "\x7b\"queue\":\"q\",\"payload\":\"" ++ text ++ "\"\x7d"

/-- A producer frame for the queue `q` that asks for an acknowledgement. -/
def produceAckFrame (text : String) : String :=
  "\x7b\"queue\":\"q\",\"payload\":\"" ++ text ++ "\",\"qos\":\"require_ack\"\x7d"

/-- A subscribe frame for the queue `q` with QoS `require_ack`. -/
def subscribeAckFrame : String :=
  "\x7b\"action\":\"subscribe\",\"queue\":\"q\",\"qos\":\"require_ack\"\x7d"

/-- A fetch frame. -/
def fetchFrame : String := "\x7b\"action\":\"fetch\"\x7d"

/-- An ack frame for the message `id`. -/
def ackFrame (id : String) : String :=
  "\x7b\"action\":\"ack\",\"message_id\":\"" ++ id ++ "\"\x7d"

/-- The text of `now_iso()` used in the examples. -/
def demoIso : String := "1970-01-01T00:00:00Z"

/-- The message produced in the examples with the random number `0xbeef`. -/
def demoMessage : Message :=
  { id := "beef", payload := "M", created := 100, ttl := none, attributes := [] }

/-- The session of consumer `c1` that holds `demoMessage` as pending. -/
def demoSession : ConsumerSession :=
  { id := "c1", queue := "q", qos := ConsumerQos.RequireAck, ack_timeout := 5000, cursor := 0,
    pending := some demoMessage, deadline := 5000000300 }

/-- Message `M` is produced, consumer `c1` subscribes with `require_ack` and
fetches it. -/
def fetchedRun : List BrokerOp :=
  [BrokerOp.producer (produceFrame "M") 48879 100,
    BrokerOp.consumer "c1" subscribeAckFrame 200 0 demoIso,
    BrokerOp.consumer "c1" fetchFrame 300 0 demoIso]

/-- The broker after `fetchedRun`: `M` is pending for `c1`. -/
def pendingBroker : BrokerApp := runBroker stableSort demoBroker fetchedRun

/-- Every session names a queue of the broker. -/
def SessionsHaveQueues (b : BrokerApp) : Prop :=
  ∀ e ∈ b.sessions_, (mapFind e.2.queue b.queues_).isSome = true

/-- The second message of the examples, produced with the random number
`0xcafe`. -/
def secondMessage : Message :=
  { id := "cafe", payload := "N", created := 150, ttl := none, attributes := [] }

/-- Messages `M` and `N` are produced, consumer `c1` subscribes with
`require_ack` and fetches once. -/
def twoProducedRun : List BrokerOp :=
  [BrokerOp.producer (produceFrame "M") 48879 100,
    BrokerOp.producer (produceFrame "N") 51966 150,
    BrokerOp.consumer "c1" subscribeAckFrame 200 0 demoIso,
    BrokerOp.consumer "c1" fetchFrame 300 0 demoIso]

/-- After `twoProducedRun`, consumer `c1` fetches a second time without having
acknowledged the first message. -/
def secondFetchRun : List BrokerOp :=
  twoProducedRun ++ [BrokerOp.consumer "c1" fetchFrame 400 0 demoIso]

/-- A subscribe frame for the queue `q` with QoS `require_ack` and an
`ack_timeout` of 200 milliseconds. -/
def subscribeTimeoutFrame : String :=
  "\x7b\"action\":\"subscribe\",\"queue\":\"q\",\"qos\":\"require_ack\",\"ack_timeout\":\"200\"\x7d"

/-- Message `M` is produced, consumer `c1` subscribes with an `ack_timeout` of
200 ms and fetches at the instant 1 s. -/
def timeoutRun : List BrokerOp :=
  [BrokerOp.producer (produceFrame "M") 48879 100,
    BrokerOp.consumer "c1" subscribeTimeoutFrame 200 0 demoIso,
    BrokerOp.consumer "c1" fetchFrame 1000000000 0 demoIso]

/-- A broker with the FIFO queue `q` holding one old message, and two sessions
whose pending messages have timed out at the instant 10. -/
def twoTimedOut : BrokerApp :=
  { queues_ := [("q", queueWith Order.FIFO [plainMessage "old" 1])],
    sessions_ :=
      [("c1", { id := "c1", queue := "q", qos := ConsumerQos.RequireAck, ack_timeout := 5000,
                cursor := 0, pending := some demoMessage, deadline := 5 }),
       ("c2", { id := "c2", queue := "q", qos := ConsumerQos.Resume, ack_timeout := 5000,
                cursor := 0, pending := some secondMessage, deadline := 6 }),
       ("c3", { id := "c3", queue := "q", qos := ConsumerQos.RequireAck, ack_timeout := 5000,
                cursor := 0, pending := some (plainMessage "kept" 2), deadline := 20 })] }

/-- A disk queue configuration. -/
def diskConfig : QueueConfig :=
  { name := "d", durability := Durability.Disk, order := Order.FIFO, sort_key := none,
    ttl := none }

/-- A message whose payload `a\b` holds a backslash. -/
def backslashMessage : Message :=
  { id := "1f", payload := "a\\b", created := 0, ttl := none, attributes := [] }

/-- A message whose payload `say "hi"` holds double quotes. -/
def quotedMessage : Message :=
  { id := "2f", payload := "say \"hi\"", created := 0, ttl := none, attributes := [] }

end Lab7

/-! # The regex engine (C++lab3)

`std::string` is a Lean `String` with one `Char` per byte, positions are
natural numbers, and `static_cast<std::size_t>(-1)` is `sizeMax`.  The parser
state `(pattern_, pos_)` is the part of the pattern that is still to be read.
A thrown `std::runtime_error` is `none`.  The parser adds only atoms to the
sequence it builds, so a compiled pattern is the list of its atoms. -/

namespace Lab3

/-- The value of `static_cast<std::size_t>(-1)`. -/
def sizeMax : Nat := 18446744073709551615

/-- The value of a `char` as the comparisons of the source see it (`char` is
signed on the platforms the lab is built for). -/
def charValue (c : Char) : Int :=
  if c.toNat < 128 then (c.toNat : Int) else (c.toNat : Int) - 256

/-- Mirrors `Atom::Quantifier`. -/
structure Quantifier where
  min : Nat := 1
  max : Nat := 1
  greedy : Bool := true
  deriving DecidableEq, Repr

/-- Mirrors `Atom::CharClassRange` (`from`, `to`). -/
structure CharClassRange where
  from_ : Char
  to_ : Char
  deriving DecidableEq, Repr

/-- Mirrors `Atom::Kind`. -/
inductive Kind where
  | Literal
  | Any
  | CharClass
  deriving DecidableEq, Repr

/-- Mirrors `Atom`. -/
structure Atom where
  kind_ : Kind
  literal_ : Char
  ranges_ : List CharClassRange
  quant_ : Quantifier
  deriving DecidableEq, Repr

/-- Mirrors the constructor `Atom(Kind kind, char literal, Quantifier q)`. -/
def Atom.ofKind (kind : Kind) (literal : Char) (q : Quantifier) : Atom :=
  { kind_ := kind, literal_ := literal, ranges_ := [], quant_ := q }

/-- Mirrors the constructor `Atom(ranges, q)`. -/
def Atom.ofRanges (ranges : List CharClassRange) (q : Quantifier) : Atom :=
  { kind_ := Kind.CharClass, literal_ := Char.ofNat 0, ranges_ := ranges, quant_ := q }

/-- Mirrors `Atom::matchesSingle`. -/
def matchesSingle (a : Atom) (c : Char) : Bool :=
  match a.kind_ with
  | Kind.Any => true
  | Kind.Literal => c == a.literal_
  | Kind.CharClass =>
    a.ranges_.any (fun r => decide (charValue c ≥ charValue r.from_)
      && decide (charValue c ≤ charValue r.to_))

/-- The `while` loop of `Atom::match`: `rest` is the text from position `i` on;
the result is the final `(count, i)`. -/
def matchLoop (a : Atom) : List Char → Nat → Nat → Nat × Nat
  | [], count, i => (count, i)
  | c :: rest, count, i =>
    if decide (count < a.quant_.max) && matchesSingle a c then
      matchLoop a rest (count + 1) (i + 1)
    else (count, i)

/-- Mirrors `Atom::match`: `some outPos` when the call returns true. -/
def atomMatch (a : Atom) (text : String) (pos : Nat) : Option Nat :=
  let r := matchLoop a (text.data.drop pos) 0 pos
  let count := r.1
  let i := r.2
  if count < a.quant_.min then none
  else if !a.quant_.greedy then some (pos + Nat.min count a.quant_.min)
  else some i

/-- Mirrors `Sequence::match`. -/
def sequenceMatch : List Atom → String → Nat → Option Nat
  | [], _, current => some current
  | node :: nodes, text, current =>
    match atomMatch node text current with
    | none => none
    | some nextPos => sequenceMatch nodes text nextPos

/-- Mirrors `Parser::parseQuantifier`; the second component is what is left of
the pattern. -/
def parseQuantifier : List Char → Quantifier × List Char
  | [] => ({ min := 1, max := 1, greedy := true }, [])
  | c :: rest =>
    if c = '*' then ({ min := 0, max := sizeMax, greedy := true }, rest)
    else if c = '+' then ({ min := 1, max := sizeMax, greedy := true }, rest)
    else if c = '?' then ({ min := 0, max := 1, greedy := false }, rest)
    else ({ min := 1, max := 1, greedy := true }, c :: rest)

/-- The `while` loop of `Parser::parseCharClass`, with the locals `prev`,
`hasPrev` and `ranges`; `none` is the throw of an invalid range. -/
def classLoop : List Char → Char → Bool → List CharClassRange →
    Option (List CharClassRange × Char × Bool × List Char)
  | [], prev, hasPrev, ranges => some (ranges, prev, hasPrev, [])
  | [c], prev, hasPrev, ranges =>
    if c = ']' then some (ranges, prev, hasPrev, [])
    else classLoop [] c true (if hasPrev then ranges ++ [⟨prev, prev⟩] else ranges)
  | c :: next :: rest, prev, hasPrev, ranges =>
    if c = ']' then some (ranges, prev, hasPrev, next :: rest)
    else if c = '-' && hasPrev && next != ']' then
      if charValue prev > charValue next then none
      else classLoop rest prev false (ranges ++ [⟨prev, next⟩])
    else classLoop (next :: rest) c true (if hasPrev then ranges ++ [⟨prev, prev⟩] else ranges)

/-- Mirrors `Parser::parseCharClass`. -/
def parseCharClass : List Char → Option (List CharClassRange × List Char)
  | [] => none
  | c :: rest =>
    if c ≠ '[' then none
    else
      match classLoop rest (Char.ofNat 0) false [] with
      | none => none
      | some (ranges, prev, hasPrev, rest2) =>
        let ranges2 := if hasPrev then ranges ++ [⟨prev, prev⟩] else ranges
        if ranges2.isEmpty then none else some (ranges2, rest2)

/-- Mirrors `Parser::parseAtom`. -/
def parseAtom : List Char → Option (Atom × List Char)
  | [] => none
  | c :: rest =>
    if c = '.' then
      let q := parseQuantifier rest
      some (Atom.ofKind Kind.Any (Char.ofNat 0) q.1, q.2)
    else if c = '[' then
      match parseCharClass (c :: rest) with
      | none => none
      | some (ranges, rest2) =>
        let q := parseQuantifier rest2
        some (Atom.ofRanges ranges q.1, q.2)
    else
      let q := parseQuantifier rest
      some (Atom.ofKind Kind.Literal c q.1, q.2)

/-- Mirrors `Parser::parseSequence`; each pass of the loop reads at least one
character, so `fuel` passes are enough for a pattern of `fuel` characters. -/
def parseSequence : Nat → List Char → Option (List Atom)
  | _, [] => some []
  | 0, _ :: _ => none
  | fuel + 1, c :: rest =>
    match parseAtom (c :: rest) with
    | none => none
    | some (atom, rest2) =>
      match parseSequence fuel rest2 with
      | none => none
      | some atoms => some (atom :: atoms)

/-- Mirrors `compile`. -/
def compile (pattern : String) : Option (List Atom) :=
  parseSequence pattern.length pattern.data

/-- Mirrors `full_match`; `none` when `compile` throws. -/
def full_match (pattern text : String) : Option Bool :=
  match compile pattern with
  | none => none
  | some root =>
    match sequenceMatch root text 0 with
    | none => some false
    | some pos => some (decide (pos = text.length))

/-- The quantifier that `?` stands for. -/
def lazyOptional : Quantifier := { min := 0, max := 1, greedy := false }

end Lab3

/-! # The format converter (C++lab4)

`std::string` is a list of characters (one `Char` per byte; a `String` where
the source stores one in the tree).  A parser object's state `(input_, pos_)` is
the part of `input_` from `pos_` on; the position that a `ParseException`
carries is not represented.  A thrown exception is `Failure.thrown`.  A number
is an `Int`: a literal with a fraction or an exponent, or of a magnitude above
`2^53`, leaves the embedding (`Failure.unsupported`).  A loop of the source
that is not a recursion on the text gets fuel: the number of characters left
plus one, each pass reading at least one character; the recursion of
`parseValue` and of `parseElement` gets the length of the input plus one.
`std::map<std::string, T>` is a list of entries in key order. -/

namespace Lab4

/-- Mirrors `ASTNode` (`ast.h`): the type tag and the variant value. -/
inductive ASTNode where
  | null
  | boolean (value : Bool)
  | number (value : Int)
  | string (value : String)
  | array (elements : List ASTNode)
  | object (members : List (String × ASTNode))

/-- How a call can end without a result. -/
inductive Failure where
  | thrown
  | unsupported
  | fuel
  deriving DecidableEq, Repr

/-- Mirrors `ASTNode::isString`. -/
def ASTNode.isString : ASTNode → Bool
  | ASTNode.string _ => true
  | _ => false

/-- The character `"`. -/
def quote : Char := Char.ofNat 34

/-- The character `\`. -/
def backslash : Char := Char.ofNat 92

/-- The character `'`. -/
def apostrophe : Char := Char.ofNat 39

/-- The character `\0`. -/
def nul : Char := Char.ofNat 0

/-- The opening brace. -/
def openBrace : Char := Char.ofNat 123

/-- The closing brace. -/
def closeBrace : Char := Char.ofNat 125

/-- The value of a `char` in a comparison with an `int` (`char` is signed). -/
def charValue (c : Char) : Int :=
  if c.toNat < 128 then (c.toNat : Int) else (c.toNat : Int) - 256

/-- Mirrors `std::isspace` on an `unsigned char` (C locale). -/
def isspace (c : Char) : Bool :=
  decide (c.toNat = 32) || (decide (9 ≤ c.toNat) && decide (c.toNat ≤ 13))

/-- Mirrors `std::isdigit`. -/
def isdigit (c : Char) : Bool :=
  decide (48 ≤ c.toNat) && decide (c.toNat ≤ 57)

/-- Mirrors `std::isalpha` (C locale). -/
def isalpha (c : Char) : Bool :=
  (decide (65 ≤ c.toNat) && decide (c.toNat ≤ 90))
    || (decide (97 ≤ c.toNat) && decide (c.toNat ≤ 122))

/-- Mirrors `std::isalnum`. -/
def isalnum (c : Char) : Bool := isalpha c || isdigit c

/-- Mirrors `std::isxdigit`. -/
def isxdigit (c : Char) : Bool :=
  isdigit c || (decide (65 ≤ c.toNat) && decide (c.toNat ≤ 70))
    || (decide (97 ≤ c.toNat) && decide (c.toNat ≤ 102))

/-- Comparison `a < b` of two `std::string` values. -/
def stringLess : List Char → List Char → Bool
  | [], [] => false
  | [], _ :: _ => true
  | _ :: _, [] => false
  | a :: s, b :: t =>
    if a.toNat < b.toNat then true
    else if b.toNat < a.toNat then false
    else stringLess s t

/-- The assignment `map[key] = value` on a `std::map`. -/
def mapSet {α : Type} (key : String) (value : α) : List (String × α) → List (String × α)
  | [] => [(key, value)]
  | (k, v) :: rest =>
    if key = k then (k, value) :: rest
    else if stringLess key.data k.data then (key, value) :: (k, v) :: rest
    else (k, v) :: mapSet key value rest

/-- The lookup `map.find(key)` on a `std::map`. -/
def mapGet {α : Type} (key : String) : List (String × α) → Option α
  | [] => none
  | (k, v) :: rest => if key = k then some v else mapGet key rest

/-- The member `key` of an object node (`getObject().find(key)`). -/
def ASTNode.member (key : String) : ASTNode → Option ASTNode
  | ASTNode.object members => mapGet key members
  | _ => none

/-- The value of a string of decimal digits. -/
def decimalValue (digits : List Char) : Nat :=
  digits.foldl (fun acc c => acc * 10 + (c.toNat - 48)) 0

/-- The value of a string of hexadecimal digits (`std::stoul(hex, nullptr, 16)`). -/
def hexValue (digits : List Char) : Nat :=
  digits.foldl (fun acc c =>
    acc * 16 + (if isdigit c then c.toNat - 48
                else if decide (97 ≤ c.toNat) then c.toNat - 87 else c.toNat - 55)) 0

/-- The hexadecimal digit that `%x` prints for a value below sixteen. -/
def hexDigit (n : Nat) : Char :=
  if n < 10 then Char.ofNat (48 + n) else Char.ofNat (87 + n)

/-- The body shared by `JSONParser::parseNumber` and `TOMLParser::parseNumber`
(the two functions have the same text). -/
def parseNumberLiteral (s : List Char) : Except Failure (ASTNode × List Char) :=
  let negative := decide (s.head? = some '-')
  let s1 := if negative then s.drop 1 else s
  match s1 with
  | [] => Except.error Failure.thrown
  | c :: _ =>
    if !isdigit c then Except.error Failure.thrown
    else
      let digits := s1.takeWhile isdigit
      let s2 := s1.dropWhile isdigit
      if s2.head? = some '.' || s2.head? = some 'e' || s2.head? = some 'E' then
        Except.error Failure.unsupported
      else if decimalValue digits > 2 ^ 53 then Except.error Failure.unsupported
      else
        Except.ok (ASTNode.number (if negative then -(decimalValue digits : Int)
                                   else (decimalValue digits : Int)), s2)

/-! ## The JSON serializer -/

namespace JSONSerializer

/-- What `escapeString` appends for one character. -/
def escapeChar (c : Char) : List Char :=
  if c = quote then [backslash, quote]
  else if c = backslash then [backslash, backslash]
  else if c = Char.ofNat 8 then [backslash, 'b']
  else if c = Char.ofNat 12 then [backslash, 'f']
  else if c = Char.ofNat 10 then [backslash, 'n']
  else if c = Char.ofNat 13 then [backslash, 'r']
  else if c = Char.ofNat 9 then [backslash, 't']
  else if c.toNat < 32 then
    [backslash, 'u'] ++ ['0', '0', '0', '0']
      ++ [hexDigit (c.toNat / 16 % 16), hexDigit (c.toNat % 16)]
  else [c]

/-- Mirrors `JSONSerializer::escapeString`. -/
def escapeString (str : String) : List Char :=
  str.data.flatMap escapeChar

/-- Mirrors `JSONSerializer::serializeString`. -/
def serializeString (str : String) : List Char :=
  [quote] ++ escapeString str ++ [quote]

mutual
/-- Mirrors `JSONSerializer::serializeValue`. -/
def serializeValue : ASTNode → List Char
  | ASTNode.null => "null".data
  | ASTNode.boolean b => if b then "true".data else "false".data
  | ASTNode.number num => (toString num).data
  | ASTNode.string s => serializeString s
  | ASTNode.array arr => ['['] ++ serializeElements true arr ++ [']']
  | ASTNode.object obj => [openBrace] ++ serializeMembers true obj ++ [closeBrace]
/-- The loop over the elements of an array; `first` is false when a comma has
to be written before the element. -/
def serializeElements : Bool → List ASTNode → List Char
  | _, [] => []
  | first, e :: rest =>
    (if first then [] else [',']) ++ serializeValue e ++ serializeElements false rest
/-- The loop over the members of an object. -/
def serializeMembers : Bool → List (String × ASTNode) → List Char
  | _, [] => []
  | first, (key, value) :: rest =>
    (if first then [] else [',']) ++ serializeString key ++ [':'] ++ serializeValue value
      ++ serializeMembers false rest
end

/-- Mirrors `JSONSerializer::serialize`. -/
def serialize (node : ASTNode) : String := String.mk (serializeValue node)

end JSONSerializer

/-! ## The JSON parser -/

namespace JSONParser

/-- Mirrors `JSONParser::skipWhitespace`. -/
def skipWhitespace : List Char → List Char
  | [] => []
  | c :: rest => if isspace c then skipWhitespace rest else c :: rest

/-- Mirrors `JSONParser::expect`. -/
def expect (c : Char) (s : List Char) : Except Failure (List Char) :=
  match skipWhitespace s with
  | [] => Except.error Failure.thrown
  | d :: rest => if d ≠ c then Except.error Failure.thrown else Except.ok rest

/-- Mirrors `JSONParser::parseNull`. -/
def parseNull (s : List Char) : Except Failure (ASTNode × List Char) :=
  if s.take 4 = "null".data then Except.ok (ASTNode.null, s.drop 4)
  else Except.error Failure.thrown

/-- Mirrors `JSONParser::parseBoolean`. -/
def parseBoolean (s : List Char) : Except Failure (ASTNode × List Char) :=
  if s.take 4 = "true".data then Except.ok (ASTNode.boolean true, s.drop 4)
  else if s.take 5 = "false".data then Except.ok (ASTNode.boolean false, s.drop 5)
  else Except.error Failure.thrown

/-- Mirrors `JSONParser::parseNumber`. -/
def parseNumber (s : List Char) : Except Failure (ASTNode × List Char) :=
  parseNumberLiteral s

/-- Mirrors `JSONParser::parseUnicode`. -/
def parseUnicode (s : List Char) : Except Failure (List Char × List Char) :=
  let hex := s.take 4
  if hex.length < 4 then Except.error Failure.thrown
  else if !hex.all isxdigit then Except.error Failure.thrown
  else
    let code := hexValue hex
    if code ≤ 127 then Except.ok ([Char.ofNat code], s.drop 4)
    else if code ≤ 2047 then
      Except.ok ([Char.ofNat (192 ||| (code >>> 6)), Char.ofNat (128 ||| (code &&& 63))],
        s.drop 4)
    else
      Except.ok ([Char.ofNat (224 ||| (code >>> 12)),
                  Char.ofNat (128 ||| ((code >>> 6) &&& 63)),
                  Char.ofNat (128 ||| (code &&& 63))], s.drop 4)

/-- Mirrors `JSONParser::parseStringValue`; `result` is the local of that name. -/
def parseStringValue : Nat → List Char → List Char → Except Failure (String × List Char)
  | _, result, [] => Except.ok (String.mk result, [])
  | 0, _, _ :: _ => Except.error Failure.fuel
  | fuel + 1, result, c :: rest =>
    if c = quote then Except.ok (String.mk result, c :: rest)
    else if c = backslash then
      match rest with
      | [] => Except.error Failure.thrown
      | esc :: rest2 =>
        if esc = quote then parseStringValue fuel (result ++ [quote]) rest2
        else if esc = backslash then parseStringValue fuel (result ++ [backslash]) rest2
        else if esc = '/' then parseStringValue fuel (result ++ ['/']) rest2
        else if esc = 'b' then parseStringValue fuel (result ++ [Char.ofNat 8]) rest2
        else if esc = 'f' then parseStringValue fuel (result ++ [Char.ofNat 12]) rest2
        else if esc = 'n' then parseStringValue fuel (result ++ [Char.ofNat 10]) rest2
        else if esc = 'r' then parseStringValue fuel (result ++ [Char.ofNat 13]) rest2
        else if esc = 't' then parseStringValue fuel (result ++ [Char.ofNat 9]) rest2
        else if esc = 'u' then
          match parseUnicode rest2 with
          | Except.error e => Except.error e
          | Except.ok (str, rest3) => parseStringValue fuel (result ++ str) rest3
        else Except.error Failure.thrown
    else parseStringValue fuel (result ++ [c]) rest

/-- Mirrors `JSONParser::parseString`. -/
def parseString (s : List Char) : Except Failure (ASTNode × List Char) :=
  match expect quote s with
  | Except.error e => Except.error e
  | Except.ok s1 =>
    match parseStringValue (s1.length + 1) [] s1 with
    | Except.error e => Except.error e
    | Except.ok (value, s2) =>
      match expect quote s2 with
      | Except.error e => Except.error e
      | Except.ok s3 => Except.ok (ASTNode.string value, s3)

/-- The `while (true)` loop of `JSONParser::parseArray`. -/
def arrayLoop (parseValue : List Char → Except Failure (ASTNode × List Char)) :
    Nat → List ASTNode → List Char → Except Failure (ASTNode × List Char)
  | 0, _, _ => Except.error Failure.fuel
  | fuel + 1, elements, s =>
    match parseValue s with
    | Except.error e => Except.error e
    | Except.ok (value, s1) =>
      match skipWhitespace s1 with
      | [] => Except.error Failure.thrown
      | c :: rest =>
        if c = ']' then Except.ok (ASTNode.array (elements ++ [value]), rest)
        else
          match expect ',' (c :: rest) with
          | Except.error e => Except.error e
          | Except.ok s2 => arrayLoop parseValue fuel (elements ++ [value]) s2

/-- Mirrors `JSONParser::parseArray`. -/
def parseArray (parseValue : List Char → Except Failure (ASTNode × List Char))
    (s : List Char) : Except Failure (ASTNode × List Char) :=
  match expect '[' s with
  | Except.error e => Except.error e
  | Except.ok s1 =>
    match skipWhitespace s1 with
    | [] => Except.error Failure.thrown
    | c :: rest =>
      if c = ']' then Except.ok (ASTNode.array [], rest)
      else arrayLoop parseValue (s1.length + 1) [] (c :: rest)

/-- The `while (true)` loop of `JSONParser::parseObject`. -/
def objectLoop (parseValue : List Char → Except Failure (ASTNode × List Char)) :
    Nat → List (String × ASTNode) → List Char → Except Failure (ASTNode × List Char)
  | 0, _, _ => Except.error Failure.fuel
  | fuel + 1, members, s =>
    match expect quote (skipWhitespace s) with
    | Except.error e => Except.error e
    | Except.ok s1 =>
      match parseStringValue (s1.length + 1) [] s1 with
      | Except.error e => Except.error e
      | Except.ok (key, s2) =>
        match expect quote s2 with
        | Except.error e => Except.error e
        | Except.ok s3 =>
          match expect ':' (skipWhitespace s3) with
          | Except.error e => Except.error e
          | Except.ok s4 =>
            match parseValue s4 with
            | Except.error e => Except.error e
            | Except.ok (value, s5) =>
              match skipWhitespace s5 with
              | [] => Except.error Failure.thrown
              | c :: rest =>
                if c = closeBrace then
                  Except.ok (ASTNode.object (mapSet key value members), rest)
                else
                  match expect ',' (c :: rest) with
                  | Except.error e => Except.error e
                  | Except.ok s6 => objectLoop parseValue fuel (mapSet key value members) s6

/-- Mirrors `JSONParser::parseObject`. -/
def parseObject (parseValue : List Char → Except Failure (ASTNode × List Char))
    (s : List Char) : Except Failure (ASTNode × List Char) :=
  match expect openBrace s with
  | Except.error e => Except.error e
  | Except.ok s1 =>
    match skipWhitespace s1 with
    | [] => Except.error Failure.thrown
    | c :: rest =>
      if c = closeBrace then Except.ok (ASTNode.object [], rest)
      else objectLoop parseValue (s1.length + 1) [] (c :: rest)

/-- Mirrors `JSONParser::parseValue`. -/
def parseValue : Nat → List Char → Except Failure (ASTNode × List Char)
  | 0, _ => Except.error Failure.fuel
  | fuel + 1, s =>
    match skipWhitespace s with
    | [] => Except.error Failure.thrown
    | c :: rest =>
      if c = 'n' then parseNull (c :: rest)
      else if c = 't' || c = 'f' then parseBoolean (c :: rest)
      else if c = '-' || isdigit c then parseNumber (c :: rest)
      else if c = quote then parseString (c :: rest)
      else if c = '[' then parseArray (parseValue fuel) (c :: rest)
      else if c = openBrace then parseObject (parseValue fuel) (c :: rest)
      else Except.error Failure.thrown

/-- Mirrors `JSONParser::parse`. -/
def parse (input : String) : Except Failure ASTNode :=
  match parseValue (input.length + 1) (skipWhitespace input.data) with
  | Except.error e => Except.error e
  | Except.ok (result, s) =>
    if skipWhitespace s ≠ [] then Except.error Failure.thrown else Except.ok result

end JSONParser

/-! ## The XML parser -/

namespace XMLParser

/-- Mirrors `XMLParser::skipWhitespace`. -/
def skipWhitespace : List Char → List Char
  | [] => []
  | c :: rest => if isspace c then skipWhitespace rest else c :: rest

/-- Mirrors `XMLParser::peek`. -/
def peek : List Char → Char
  | [] => nul
  | c :: _ => c

/-- Mirrors `XMLParser::expect` (the expected strings of the source hold no
`\0`, so the position never passes the end of the input). -/
def expect : List Char → List Char → Except Failure (List Char)
  | [], s => Except.ok s
  | c :: cs, s => if peek s ≠ c then Except.error Failure.thrown else expect cs (s.drop 1)

/-- Mirrors `XMLParser::isNameStartChar`. -/
def isNameStartChar (c : Char) : Bool :=
  isalpha c || c = '_' || c = ':'

/-- Mirrors `XMLParser::isNameChar`. -/
def isNameChar (c : Char) : Bool :=
  isNameStartChar c || isdigit c || c = '-' || c = '.' || decide (charValue c = 183)

/-- The loop of `XMLParser::parseComment` behind the opening `<!--`. -/
def commentLoop : List Char → Except Failure (List Char)
  | [] => Except.error Failure.thrown
  | c :: rest =>
    if (c :: rest).take 3 = "-->".data then Except.ok ((c :: rest).drop 3)
    else commentLoop rest

/-- Mirrors `XMLParser::parseComment`. -/
def parseComment (s : List Char) : Except Failure (List Char) :=
  match expect "<!--".data s with
  | Except.error e => Except.error e
  | Except.ok s1 => commentLoop s1

/-- The loop of `XMLParser::parsePI` behind the opening `<?`. -/
def piLoop : List Char → Except Failure (List Char)
  | [] => Except.error Failure.thrown
  | c :: rest =>
    if (c :: rest).take 2 = "?>".data then Except.ok ((c :: rest).drop 2)
    else piLoop rest

/-- Mirrors `XMLParser::parsePI`. -/
def parsePI (s : List Char) : Except Failure (List Char) :=
  match expect "<?".data s with
  | Except.error e => Except.error e
  | Except.ok s1 => piLoop s1

/-- Mirrors `XMLParser::parseTagName`. -/
def parseTagName (s : List Char) : Except Failure (String × List Char) :=
  let s1 := skipWhitespace s
  if !isNameStartChar (peek s1) then Except.error Failure.thrown
  else
    let s2 := s1.drop 1
    Except.ok (String.mk (peek s1 :: s2.takeWhile isNameChar), s2.dropWhile isNameChar)

/-- The text that an entity reference `&entity;` stands for. -/
def entityText (entity : List Char) : List Char :=
  if entity = "lt".data then ['<']
  else if entity = "gt".data then ['>']
  else if entity = "amp".data then ['&']
  else if entity = "quot".data then [quote]
  else if entity = "apos".data then [apostrophe]
  else ['&'] ++ entity ++ [';']

/-- The `while` loop of `XMLParser::parseAttributeValue`. -/
def attributeValueLoop (q : Char) :
    Nat → List Char → List Char → Except Failure (List Char × List Char)
  | _, value, [] => Except.ok (value, [])
  | 0, _, _ :: _ => Except.error Failure.fuel
  | fuel + 1, value, c :: rest =>
    if c = q then Except.ok (value, c :: rest)
    else if c = '&' then
      let entity := rest.takeWhile (fun x => x != ';')
      let s2 := rest.dropWhile (fun x => x != ';')
      if peek s2 = ';' then attributeValueLoop q fuel (value ++ entityText entity) (s2.drop 1)
      else attributeValueLoop q fuel (value ++ ['&'] ++ entity) s2
    else attributeValueLoop q fuel (value ++ [c]) rest

/-- Mirrors `XMLParser::parseAttributeValue`. -/
def parseAttributeValue (s : List Char) : Except Failure (String × List Char) :=
  let q := peek s
  if q ≠ quote ∧ q ≠ apostrophe then Except.error Failure.thrown
  else
    match attributeValueLoop q (s.length + 1) [] (s.drop 1) with
    | Except.error e => Except.error e
    | Except.ok (value, s1) =>
      if peek s1 ≠ q then Except.error Failure.thrown
      else Except.ok (String.mk value, s1.drop 1)

/-- The `while` loop of `XMLParser::parseAttributes`. -/
def attributesLoop :
    Nat → List (String × String) → List Char →
      Except Failure (List (String × String) × List Char)
  | 0, _, _ => Except.error Failure.fuel
  | fuel + 1, attrs, s =>
    if !s.isEmpty && peek s != '>' && peek s != '/'
        && !(peek s == '/' && (s.drop 1).head? == some '>') then
      let s1 := skipWhitespace s
      if peek s1 = '>' || peek s1 = '/' then Except.ok (attrs, s1)
      else
        match parseTagName s1 with
        | Except.error e => Except.error e
        | Except.ok (name, s2) =>
          match expect "=".data (skipWhitespace s2) with
          | Except.error e => Except.error e
          | Except.ok s3 =>
            match parseAttributeValue (skipWhitespace s3) with
            | Except.error e => Except.error e
            | Except.ok (value, s4) =>
              attributesLoop fuel (mapSet name value attrs) (skipWhitespace s4)
    else Except.ok (attrs, s)

/-- Mirrors `XMLParser::parseAttributes`. -/
def parseAttributes (s : List Char) : Except Failure (List (String × String) × List Char) :=
  attributesLoop (s.length + 1) [] (skipWhitespace s)

/-- The two `erase` calls that trim `textContent`. -/
def trimText (text : List Char) : List Char :=
  let blank := fun (c : Char) => c == ' ' || c == Char.ofNat 9 || c == Char.ofNat 10
    || c == Char.ofNat 13
  ((text.dropWhile blank).reverse.dropWhile blank).reverse

/-- The content loop of `XMLParser::parseElement`, with the locals `children`
and `textContent`. -/
def contentLoop (parseElement : List Char → Except Failure (ASTNode × List Char))
    (tagName : String) :
    Nat → List ASTNode → List Char → List Char → Except Failure (List ASTNode × List Char)
  | _, children, _, [] => Except.ok (children, [])
  | 0, _, _, _ :: _ => Except.error Failure.fuel
  | fuel + 1, children, textContent, c :: rest =>
    let s1 := skipWhitespace (c :: rest)
    if peek s1 = '<' then
      if s1.take 4 = "<!--".data then
        match parseComment s1 with
        | Except.error e => Except.error e
        | Except.ok s2 => contentLoop parseElement tagName fuel children textContent s2
      else if (s1.drop 1).head? = some '/' then
        match parseTagName (s1.drop 2) with
        | Except.error e => Except.error e
        | Except.ok (endTag, s2) =>
          if endTag ≠ tagName then Except.error Failure.thrown
          else
            match expect ">".data s2 with
            | Except.error e => Except.error e
            | Except.ok s3 => Except.ok (children, s3)
      else
        let children1 :=
          if !textContent.isEmpty && !(trimText textContent).isEmpty then
            children ++ [ASTNode.string (String.mk (trimText textContent))]
          else children
        match parseElement s1 with
        | Except.error e => Except.error e
        | Except.ok (child, s2) =>
          contentLoop parseElement tagName fuel (children1 ++ [child]) [] s2
    else contentLoop parseElement tagName fuel children (textContent ++ [peek s1]) (s1.drop 1)

/-- Mirrors `XMLParser::parseElement`. -/
def parseElement : Nat → List Char → Except Failure (ASTNode × List Char)
  | 0, _ => Except.error Failure.fuel
  | fuel + 1, s =>
    match expect "<".data s with
    | Except.error e => Except.error e
    | Except.ok s1 =>
      match parseTagName s1 with
      | Except.error e => Except.error e
      | Except.ok (tagName, s2) =>
        match parseAttributes s2 with
        | Except.error e => Except.error e
        | Except.ok (attrs, s3) =>
          let obj : List (String × ASTNode) :=
            if !attrs.isEmpty then
              mapSet "@attributes"
                (ASTNode.object
                  (attrs.foldl (fun m e => mapSet e.1 (ASTNode.string e.2) m) [])) []
            else []
          let s4 := skipWhitespace s3
          if peek s4 = '/' && (s4.drop 1).head? = some '>' then
            Except.ok (ASTNode.object (mapSet "@tag" (ASTNode.string tagName) obj), s4.drop 2)
          else
            match expect ">".data s4 with
            | Except.error e => Except.error e
            | Except.ok s5 =>
              match contentLoop (parseElement fuel) tagName (s5.length + 1) [] [] s5 with
              | Except.error e => Except.error e
              | Except.ok (children, s6) =>
                let obj1 := mapSet "@tag" (ASTNode.string tagName) obj
                match children with
                | [] => Except.ok (ASTNode.object obj1, s6)
                | [child] =>
                  if child.isString then
                    Except.ok (ASTNode.object (mapSet "@text" child obj1), s6)
                  else
                    Except.ok
                      (ASTNode.object (mapSet "@children" (ASTNode.array [child]) obj1), s6)
                | child :: more =>
                  Except.ok
                    (ASTNode.object
                      (mapSet "@children" (ASTNode.array (child :: more)) obj1), s6)

/-- The `while` loop of `XMLParser::parseDocument`. -/
def documentLoop : Nat → List Char → Except Failure (List Char)
  | _, [] => Except.ok []
  | 0, _ :: _ => Except.error Failure.fuel
  | fuel + 1, c :: rest =>
    if (c :: rest).take 5 = "<?xml".data then
      match parsePI (c :: rest) with
      | Except.error e => Except.error e
      | Except.ok s1 => documentLoop fuel (skipWhitespace s1)
    else if (c :: rest).take 4 = "<!--".data then
      match parseComment (c :: rest) with
      | Except.error e => Except.error e
      | Except.ok s1 => documentLoop fuel (skipWhitespace s1)
    else if c = '<' then Except.ok (c :: rest)
    else documentLoop fuel (skipWhitespace rest)

/-- Mirrors `XMLParser::parseDocument`; `depth` bounds the nesting of elements. -/
def parseDocument (depth : Nat) (s : List Char) : Except Failure ASTNode :=
  let s0 := skipWhitespace s
  match documentLoop (s0.length + 1) s0 with
  | Except.error e => Except.error e
  | Except.ok s1 =>
    if peek s1 ≠ '<' then Except.error Failure.thrown
    else
      match parseElement depth s1 with
      | Except.error e => Except.error e
      | Except.ok (element, _) => Except.ok element

/-- Mirrors `XMLParser::parse`. -/
def parse (input : String) : Except Failure ASTNode :=
  parseDocument (input.length + 1) (skipWhitespace input.data)

end XMLParser

/-! ## The TOML parser -/

namespace TOMLParser

/-- Mirrors `TOMLParser::skipWhitespace`. -/
def skipWhitespace : List Char → List Char
  | [] => []
  | c :: rest => if c = ' ' || c = Char.ofNat 9 then skipWhitespace rest else c :: rest

/-- The inner loop of `TOMLParser::skipComment`. -/
def skipToLineEnd : List Char → List Char
  | [] => []
  | c :: rest =>
    if c ≠ Char.ofNat 10 ∧ c ≠ Char.ofNat 13 then skipToLineEnd rest else c :: rest

/-- Mirrors `TOMLParser::skipComment`. -/
def skipComment (s : List Char) : List Char :=
  if s.head? = some '#' then skipToLineEnd s else s

/-- Mirrors `TOMLParser::skipWhitespaceAndComments`. -/
def skipLoop : Nat → List Char → List Char
  | _, [] => []
  | 0, c :: rest => c :: rest
  | fuel + 1, c :: rest =>
    let s1 := skipComment (skipWhitespace (c :: rest))
    if s1.length = (c :: rest).length then s1 else skipLoop fuel s1

/-- Mirrors `TOMLParser::skipWhitespaceAndComments`: each pass but the last
reads at least one character. -/
def skipWhitespaceAndComments (s : List Char) : List Char :=
  skipLoop (s.length + 1) s

/-- Mirrors `TOMLParser::peek`. -/
def peek : List Char → Char
  | [] => nul
  | c :: _ => c

/-- Mirrors `TOMLParser::expect`. -/
def expect (c : Char) (s : List Char) : Except Failure (List Char) :=
  let s1 := skipWhitespace s
  if peek s1 ≠ c then Except.error Failure.thrown else Except.ok (s1.drop 1)

/-- Mirrors `TOMLParser::isEndOfLine`. -/
def isEndOfLine (s : List Char) : Bool :=
  peek s = Char.ofNat 10 || peek s = Char.ofNat 13

/-- The character that an escape `\esc` of a basic string stands for. -/
def unescape (esc : Char) : Char :=
  if esc = 'b' then Char.ofNat 8
  else if esc = 'f' then Char.ofNat 12
  else if esc = 'n' then Char.ofNat 10
  else if esc = 'r' then Char.ofNat 13
  else if esc = 't' then Char.ofNat 9
  else esc

/-- The `while` loop of `TOMLParser::parseBasicString`. -/
def basicStringLoop : List Char → List Char → Except Failure (String × List Char)
  | _, [] => Except.error Failure.thrown
  | result, [c] =>
    if c = quote then Except.ok (String.mk result, [])
    else if c = backslash then Except.error Failure.thrown
    else basicStringLoop (result ++ [c]) []
  | result, c :: esc :: rest =>
    if c = quote then Except.ok (String.mk result, esc :: rest)
    else if c = backslash then basicStringLoop (result ++ [unescape esc]) rest
    else basicStringLoop (result ++ [c]) (esc :: rest)

/-- Mirrors `TOMLParser::parseBasicString`. -/
def parseBasicString (s : List Char) : Except Failure (String × List Char) :=
  match expect quote s with
  | Except.error e => Except.error e
  | Except.ok s1 => basicStringLoop [] s1

/-- The `while` loop of `TOMLParser::parseLiteralString`. -/
def literalStringLoop : List Char → List Char → Except Failure (String × List Char)
  | _, [] => Except.error Failure.thrown
  | result, c :: rest =>
    if c = apostrophe then Except.ok (String.mk result, rest)
    else literalStringLoop (result ++ [c]) rest

/-- Mirrors `TOMLParser::parseLiteralString`. -/
def parseLiteralString (s : List Char) : Except Failure (String × List Char) :=
  match expect apostrophe s with
  | Except.error e => Except.error e
  | Except.ok s1 => literalStringLoop [] s1

/-- Mirrors `TOMLParser::parseString`. -/
def parseString (s : List Char) : Except Failure (ASTNode × List Char) :=
  if peek s = quote then
    match parseBasicString s with
    | Except.error e => Except.error e
    | Except.ok (value, s1) => Except.ok (ASTNode.string value, s1)
  else if peek s = apostrophe then
    match parseLiteralString s with
    | Except.error e => Except.error e
    | Except.ok (value, s1) => Except.ok (ASTNode.string value, s1)
  else Except.error Failure.thrown

/-- Mirrors `TOMLParser::parseNumber`. -/
def parseNumber (s : List Char) : Except Failure (ASTNode × List Char) :=
  parseNumberLiteral s

/-- Mirrors `TOMLParser::parseBoolean`. -/
def parseBoolean (s : List Char) : Except Failure (ASTNode × List Char) :=
  if s.take 4 = "true".data then Except.ok (ASTNode.boolean true, s.drop 4)
  else if s.take 5 = "false".data then Except.ok (ASTNode.boolean false, s.drop 5)
  else Except.error Failure.thrown

/-- Mirrors `TOMLParser::parseKey`. -/
def parseKey (s : List Char) : Except Failure (String × List Char) :=
  let s1 := skipWhitespace s
  if peek s1 = quote then parseBasicString s1
  else if peek s1 = apostrophe then parseLiteralString s1
  else
    let bare := fun (c : Char) => isalnum c || c == '_' || c == '-'
    let key := s1.takeWhile bare
    if key.isEmpty then Except.error Failure.thrown
    else Except.ok (String.mk key, s1.dropWhile bare)

/-- The `while (true)` loop of `TOMLParser::parseKeyPath`. -/
def keyPathLoop : Nat → List String → List Char → Except Failure (List String × List Char)
  | 0, _, _ => Except.error Failure.fuel
  | fuel + 1, path, s =>
    match parseKey s with
    | Except.error e => Except.error e
    | Except.ok (key, s1) =>
      let s2 := skipWhitespace s1
      if peek s2 = '.' && decide (1 < s2.length) && (s2.drop 1).head? != some '.' then
        keyPathLoop fuel (path ++ [key]) (skipWhitespace (s2.drop 1))
      else Except.ok (path ++ [key], s2)

/-- Mirrors `TOMLParser::parseKeyPath`. -/
def parseKeyPath (s : List Char) : Except Failure (List String × List Char) :=
  keyPathLoop (s.length + 1) [] s

/-- The `while (true)` loop of `TOMLParser::parseArray`. -/
def arrayLoop (parseValue : List Char → Except Failure (ASTNode × List Char)) :
    Nat → List ASTNode → List Char → Except Failure (ASTNode × List Char)
  | 0, _, _ => Except.error Failure.fuel
  | fuel + 1, elements, s =>
    match parseValue s with
    | Except.error e => Except.error e
    | Except.ok (value, s1) =>
      let s2 := skipWhitespaceAndComments s1
      if peek s2 = ']' then Except.ok (ASTNode.array (elements ++ [value]), s2.drop 1)
      else
        match expect ',' s2 with
        | Except.error e => Except.error e
        | Except.ok s3 =>
          arrayLoop parseValue fuel (elements ++ [value]) (skipWhitespaceAndComments s3)

/-- Mirrors `TOMLParser::parseArray`. -/
def parseArray (parseValue : List Char → Except Failure (ASTNode × List Char))
    (s : List Char) : Except Failure (ASTNode × List Char) :=
  match expect '[' s with
  | Except.error e => Except.error e
  | Except.ok s1 =>
    let s2 := skipWhitespaceAndComments s1
    if peek s2 = ']' then Except.ok (ASTNode.array [], s2.drop 1)
    else arrayLoop parseValue (s2.length + 1) [] s2

/-- The `while (true)` loop of `TOMLParser::parseInlineTable`. -/
def inlineTableLoop (parseValue : List Char → Except Failure (ASTNode × List Char)) :
    Nat → List (String × ASTNode) → List Char → Except Failure (ASTNode × List Char)
  | 0, _, _ => Except.error Failure.fuel
  | fuel + 1, members, s =>
    match parseKey s with
    | Except.error e => Except.error e
    | Except.ok (key, s1) =>
      match expect '=' (skipWhitespace s1) with
      | Except.error e => Except.error e
      | Except.ok s2 =>
        match parseValue s2 with
        | Except.error e => Except.error e
        | Except.ok (value, s3) =>
          let s4 := skipWhitespace s3
          if peek s4 = closeBrace then
            Except.ok (ASTNode.object (mapSet key value members), s4.drop 1)
          else
            match expect ',' s4 with
            | Except.error e => Except.error e
            | Except.ok s5 =>
              inlineTableLoop parseValue fuel (mapSet key value members) (skipWhitespace s5)

/-- Mirrors `TOMLParser::parseInlineTable`. -/
def parseInlineTable (parseValue : List Char → Except Failure (ASTNode × List Char))
    (s : List Char) : Except Failure (ASTNode × List Char) :=
  match expect openBrace s with
  | Except.error e => Except.error e
  | Except.ok s1 =>
    let s2 := skipWhitespace s1
    if peek s2 = closeBrace then Except.ok (ASTNode.object [], s2.drop 1)
    else inlineTableLoop parseValue (s2.length + 1) [] s2

/-- Mirrors `TOMLParser::parseValue`. -/
def parseValue : Nat → List Char → Except Failure (ASTNode × List Char)
  | 0, _ => Except.error Failure.fuel
  | fuel + 1, s =>
    let s1 := skipWhitespace s
    let c := peek s1
    if c = quote || c = apostrophe then parseString s1
    else if c = '[' then parseArray (parseValue fuel) s1
    else if c = openBrace then parseInlineTable (parseValue fuel) s1
    else if c = 't' || c = 'f' then parseBoolean s1
    else if c = '-' || isdigit c then parseNumber s1
    else Except.error Failure.thrown

/-- Mirrors `TOMLParser::setNestedValue`, on the tree under `root`. The path is
never empty: `parseKeyPath` returns at least one key. -/
def setNestedValue : ASTNode → List String → ASTNode → Except Failure ASTNode
  | _, [], _ => Except.error Failure.unsupported
  | ASTNode.object members, [lastKey], value =>
    Except.ok (ASTNode.object (mapSet lastKey value members))
  | ASTNode.object members, key :: next :: rest, value =>
    let child := match mapGet key members with
      | none => ASTNode.object []
      | some node => node
    match setNestedValue child (next :: rest) value with
    | Except.error e => Except.error e
    | Except.ok child1 => Except.ok (ASTNode.object (mapSet key child1 members))
  | _, _ :: _, _ => Except.error Failure.thrown

/-- The tree update of `TOMLParser::parseArrayTable`: an empty object is
appended to the array at the path. -/
def pushArrayTable : ASTNode → List String → Except Failure ASTNode
  | _, [] => Except.error Failure.unsupported
  | ASTNode.object members, [lastKey] =>
    match mapGet lastKey members with
    | none => Except.ok (ASTNode.object (mapSet lastKey (ASTNode.array [ASTNode.object []]) members))
    | some (ASTNode.array arr) =>
      Except.ok (ASTNode.object (mapSet lastKey (ASTNode.array (arr ++ [ASTNode.object []])) members))
    | some _ => Except.error Failure.thrown
  | ASTNode.object members, key :: next :: rest =>
    let child := match mapGet key members with
      | none => ASTNode.object []
      | some node => node
    match pushArrayTable child (next :: rest) with
    | Except.error e => Except.error e
    | Except.ok child1 => Except.ok (ASTNode.object (mapSet key child1 members))
  | _, _ :: _ => Except.error Failure.thrown

/-- Mirrors `TOMLParser::parseKeyValue`; the result is the new tree under `root`. -/
def parseKeyValue (depth : Nat) (root : ASTNode) (s : List Char) :
    Except Failure (ASTNode × List Char) :=
  match parseKeyPath s with
  | Except.error e => Except.error e
  | Except.ok (path, s1) =>
    match expect '=' (skipWhitespace s1) with
    | Except.error e => Except.error e
    | Except.ok s2 =>
      match parseValue depth s2 with
      | Except.error e => Except.error e
      | Except.ok (value, s3) =>
        match setNestedValue root path value with
        | Except.error e => Except.error e
        | Except.ok root1 => Except.ok (root1, s3)

/-- Mirrors `TOMLParser::parseTable`. -/
def parseTable (root : ASTNode) (s : List Char) : Except Failure (ASTNode × List Char) :=
  match parseKeyPath s with
  | Except.error e => Except.error e
  | Except.ok (path, s1) =>
    match expect ']' (skipWhitespace s1) with
    | Except.error e => Except.error e
    | Except.ok s2 =>
      match setNestedValue root path (ASTNode.object []) with
      | Except.error e => Except.error e
      | Except.ok root1 => Except.ok (root1, s2)

/-- Mirrors `TOMLParser::parseArrayTable`. -/
def parseArrayTable (root : ASTNode) (s : List Char) : Except Failure (ASTNode × List Char) :=
  match expect '[' s with
  | Except.error e => Except.error e
  | Except.ok s0 =>
    match parseKeyPath s0 with
    | Except.error e => Except.error e
    | Except.ok (path, s1) =>
      match expect ']' (skipWhitespace s1) with
      | Except.error e => Except.error e
      | Except.ok s2 =>
        match expect ']' s2 with
        | Except.error e => Except.error e
        | Except.ok s3 =>
          match pushArrayTable root path with
          | Except.error e => Except.error e
          | Except.ok root1 => Except.ok (root1, s3)

/-- The `while` loop of `TOMLParser::parse`. -/
def parseLoop (depth : Nat) : Nat → ASTNode → List Char → Except Failure ASTNode
  | _, root, [] => Except.ok root
  | 0, _, _ :: _ => Except.error Failure.fuel
  | fuel + 1, root, c :: rest =>
    let s1 := skipWhitespaceAndComments (c :: rest)
    if s1.isEmpty || isEndOfLine s1 then parseLoop depth fuel root (s1.drop 1)
    else
      let statement :=
        if peek s1 = '[' then
          if peek (s1.drop 1) = '[' then parseArrayTable root (s1.drop 1)
          else parseTable root (s1.drop 1)
        else parseKeyValue depth root s1
      match statement with
      | Except.error e => Except.error e
      | Except.ok (root1, s2) =>
        let s3 := skipWhitespaceAndComments s2
        if !s3.isEmpty && !isEndOfLine s3 then Except.error Failure.thrown
        else parseLoop depth fuel root1 (s3.drop 1)

/-- Mirrors `TOMLParser::parse`. -/
def parse (input : String) : Except Failure ASTNode :=
  parseLoop (input.length + 1) (input.length + 1) (ASTNode.object []) input.data

end TOMLParser

end Lab4

/-! # Theorems -/

namespace Lab6

theorem modifyTask_same (heap : Nat → Task) (a : Nat) (f : Task → Task) :
    modifyTask heap a f a = f (heap a) := by
  simp [modifyTask]

theorem modifyTask_other (heap : Nat → Task) (a b : Nat) (f : Task → Task)
    (h : b ≠ a) : modifyTask heap a f b = heap b := by
  simp [modifyTask, h]

/-- What the scan of `acquireUnlocked` finds is a queue entry that is not
completed and below its cap. -/
theorem scanTasks_some (heap : Nat → Task) (tasks : List TaskPtr) (a : Nat)
    (h : scanTasks heap tasks = some a) :
    some a ∈ tasks ∧ (heap a).completed = false ∧
      (heap a).activeLoaders < (heap a).maxParallelLoaders := by
  induction tasks with
  | nil => simp [scanTasks] at h
  | cons p rest ih =>
    cases p with
    | none =>
      simp only [scanTasks] at h
      have := ih h
      exact ⟨List.mem_cons_of_mem _ this.1, this.2⟩
    | some b =>
      simp only [scanTasks] at h
      split at h
      · have := ih h
        exact ⟨List.mem_cons_of_mem _ this.1, this.2⟩
      · split at h
        · have hb : b = a := by simpa using h
          subst hb
          refine ⟨List.mem_cons_self _ _, ?_, by assumption⟩
          simpa using ‹¬ (heap b).completed = true›
        · have := ih h
          exact ⟨List.mem_cons_of_mem _ this.1, this.2⟩

theorem acquireTask_state (d : TaskDispatcher) :
    (acquireTask d).state = (acquireUnlocked d).2 := by
  unfold acquireTask
  simp only []
  split
  · rfl
  · split <;> rfl

theorem inv_start (heap : Nat → Task) :
    DispatcherInv (TaskDispatcher.init heap) (fun _ => 0) := by
  intro a
  simp [TaskDispatcher.init]

theorem inv_enqueue {d d1 : TaskDispatcher} {held : Nat → Nat} (a : Nat)
    (hinv : DispatcherInv d held) (h0 : (d.heap a).activeLoaders = 0)
    (h1 : 1 ≤ (d.heap a).maxParallelLoaders) (he : enqueue d (some a) = some d1) :
    DispatcherInv d1 held := by
  simp only [enqueue, Option.some.injEq] at he
  subst he
  intro b
  by_cases hb : b = a
  · subst hb
    have hact : (modifyTask d.heap b
        (fun t => if (!t.futureValid) = true then { t with futureValid := true } else t) b).activeLoaders = 0 := by
      rw [modifyTask_same]; split <;> simp [h0]
    have hmax : (modifyTask d.heap b
        (fun t => if (!t.futureValid) = true then { t with futureValid := true } else t) b).maxParallelLoaders
          = (d.heap b).maxParallelLoaders := by
      rw [modifyTask_same]; split <;> simp
    simp only [List.mem_append, List.mem_singleton, or_true, not_true_eq_false,
      forall_true_left, false_implies, and_true, hact, hmax]
    constructor
    · by_cases hq : some b ∈ d.tasks_
      · have := ((hinv b).1 hq).1
        omega
      · have := (hinv b).2 hq
        omega
    · omega
  · have hne : ¬ (some b = some a) := by simpa using hb
    simp only [List.mem_append, List.mem_singleton, hne, or_false,
      modifyTask_other _ _ _ _ hb]
    exact hinv b

theorem inv_acquire {d : TaskDispatcher} {held : Nat → Nat}
    (hinv : DispatcherInv d held) :
    DispatcherInv (acquireTask d).state (heldAfterAcquire held (acquireTask d)) := by
  rw [acquireTask_state]
  cases hs : scanTasks d.heap d.tasks_ with
  | none =>
    have hr : acquireTask d = AcquireOutcome.waiting d
        ∨ acquireTask d = AcquireOutcome.returned none d := by
      unfold acquireTask acquireUnlocked
      simp only [hs]
      cases d.stopping_ <;> simp
    have hh : heldAfterAcquire held (acquireTask d) = held := by
      rcases hr with hr | hr <;> rw [hr] <;> rfl
    rw [hh]
    simpa [acquireUnlocked, hs] using hinv
  | some a =>
    obtain ⟨hmem, -, hlt⟩ := scanTasks_some _ _ _ hs
    have hr : acquireTask d = AcquireOutcome.returned none (acquireUnlocked d).2
        ∨ acquireTask d = AcquireOutcome.returned (some a) (acquireUnlocked d).2 := by
      unfold acquireTask acquireUnlocked
      simp only [hs]
      cases d.stopping_ <;> simp
    simp only [acquireUnlocked, hs] at hr ⊢
    intro b
    by_cases hb : b = a
    · subst hb
      have hold := (hinv b).1 hmem
      simp only [modifyTask_same, hmem, forall_true_left, not_true_eq_false,
        false_implies, and_true]
      rcases hr with hr | hr <;> rw [hr] <;> simp only [heldAfterAcquire] <;>
        constructor <;> first | omega | (simp only [if_true]; push_cast; omega)
    · have hheld : heldAfterAcquire held (acquireTask d) b = held b := by
        rcases hr with hr | hr <;> rw [hr] <;> simp [heldAfterAcquire, hb]
      rw [hheld]
      simp only [modifyTask_other _ _ _ _ hb]
      exact hinv b

theorem inv_finish {d : TaskDispatcher} {held : Nat → Nat} (a : Nat)
    (hinv : DispatcherInv d held) (hheld : 0 < held a) :
    DispatcherInv (finishTask d (some a)) (heldAfterFinish held a) := by
  have hmem : some a ∈ d.tasks_ := by
    by_contra hn
    have := (hinv a).2 hn
    omega
  have hold := (hinv a).1 hmem
  intro b
  unfold finishTask
  simp only [modifyTask_same]
  by_cases hb : b = a
  · subst hb
    split <;> split <;> rename_i h2 h3 <;>
      simp only [modifyTask_same, heldAfterFinish, if_true, List.mem_filter,
        bne_self_eq_false, Bool.false_eq_true, and_false, false_implies,
        not_false_eq_true, forall_true_left, true_and, hmem, not_true_eq_false,
        and_true] <;>
      simp only [modifyTask_same, Bool.and_eq_true, beq_iff_eq] at h3 <;>
      first
        | omega
  · have hne : (some b != some a) = true := by simpa using hb
    have hheld2 : heldAfterFinish held a b = held b := by simp [heldAfterFinish, hb]
    rw [hheld2]
    split <;> split <;>
      simp only [modifyTask_other _ _ _ _ hb, List.mem_filter, hne, and_true] <;>
      exact hinv b

theorem inv_complete {d : TaskDispatcher} {held : Nat → Nat} (a : Nat)
    (hinv : DispatcherInv d held) : DispatcherInv (markCompleted d a) held := by
  intro b
  by_cases hb : b = a
  · subst hb
    simpa [markCompleted, modifyTask_same] using hinv b
  · simpa [markCompleted, modifyTask_other _ _ _ _ hb] using hinv b

theorem inv_reachable {d : TaskDispatcher} {held : Nat → Nat}
    (h : Reachable d held) : DispatcherInv d held := by
  induction h with
  | start heap => exact inv_start heap
  | enqueue a _ h0 h1 he ih => exact inv_enqueue a ih h0 h1 he
  | acquire _ ih => exact inv_acquire ih
  | finish a _ hheld ih => exact inv_finish a ih hheld
  | complete a _ ih => exact inv_complete a ih
  | stop _ ih => exact ih

/-- C1. In every state reachable from an empty dispatcher by enqueue (of tasks
with active count 0 and cap at least 1), acquire, finish (by a holder of the
task), completion marking and shutdown, every queued task satisfies
`0 ≤ activeLoaders ≤ maxParallelLoaders`. -/
theorem reachable_active_within_cap (d : TaskDispatcher) (held : Nat → Nat)
    (a : Nat) (hreach : Reachable d held) (hq : some a ∈ d.tasks_) :
    0 ≤ (d.heap a).activeLoaders ∧
      (d.heap a).activeLoaders ≤ (d.heap a).maxParallelLoaders := by
  have h := ((inv_reachable hreach) a).1 hq
  constructor
  · have : (0 : Int) ≤ (held a : Int) := Int.ofNat_nonneg _
    omega
  · exact h.2

theorem twoQueued_reachable : Reachable twoQueued (fun _ => 0) :=
  Reachable.enqueue 1
    (Reachable.enqueue 0 (Reachable.start freshTasks) (by decide) (by decide) rfl)
    (by decide) (by decide) rfl

theorem twoHolders_reachable : Reachable twoHolders twoHoldersHeld :=
  Reachable.acquire (Reachable.acquire twoQueued_reachable)

/-- Witness for C1: the state with two workers on the two-worker task. -/
theorem reachable_active_within_cap_witness :
    Reachable twoHolders twoHoldersHeld ∧ some 0 ∈ twoHolders.tasks_ ∧
      (0 ≤ (twoHolders.heap 0).activeLoaders ∧
        (twoHolders.heap 0).activeLoaders ≤ (twoHolders.heap 0).maxParallelLoaders) :=
  ⟨twoHolders_reachable, by decide,
    reachable_active_within_cap twoHolders twoHoldersHeld 0 twoHolders_reachable
      (by decide)⟩

/-- The scan of `acquireUnlocked` stops at the first open entry of the queue. -/
theorem scanTasks_first_open (heap : Nat → Task) (tasks : List TaskPtr)
    (hex : ∃ p ∈ tasks, isOpen heap p = true) :
    ∃ (a : Nat) (before after : List TaskPtr),
      tasks = before ++ some a :: after ∧
      (∀ p ∈ before, isOpen heap p = false) ∧
      isOpen heap (some a) = true ∧
      scanTasks heap tasks = some a := by
  induction tasks with
  | nil => simp at hex
  | cons q rest ih =>
    by_cases hq : isOpen heap q = true
    · cases q with
      | none => simp [isOpen] at hq
      | some b =>
        refine ⟨b, [], rest, rfl, by simp, hq, ?_⟩
        simp only [isOpen, Bool.and_eq_true, Bool.not_eq_true', decide_eq_true_eq] at hq
        simp [scanTasks, hq.1, hq.2]
    · have hex2 : ∃ p ∈ rest, isOpen heap p = true := by
        obtain ⟨p, hp, hopen⟩ := hex
        rcases List.mem_cons.mp hp with h | h
        · subst h; exact absurd hopen hq
        · exact ⟨p, h, hopen⟩
      obtain ⟨a, before, after, hsplit, hbefore, ha, hscan⟩ := ih hex2
      refine ⟨a, q :: before, after, by simp [hsplit], ?_, ha, ?_⟩
      · intro p hp
        rcases List.mem_cons.mp hp with h | h
        · subst h; simpa using hq
        · exact hbefore p h
      · cases q with
        | none => simpa [scanTasks] using hscan
        | some b =>
          simp only [isOpen, Bool.and_eq_true, Bool.not_eq_true', decide_eq_true_eq,
            not_and] at hq
          simp only [scanTasks]
          split
          · exact hscan
          · rename_i hc
            have hc2 : (heap b).completed = false := by simpa using hc
            simp [hq hc2, hscan]

/-- C2, as the code has it: when shutdown has not been signalled and some queued
task is not completed and has `activeLoaders < maxParallelLoaders`, one pass of
`acquireTask` returns the earliest-enqueued such task (every entry before it is
null, completed or at its cap), raises that task's `activeLoaders` by exactly
one, and changes no other task, nor the queue, nor the stop flag. -/
theorem acquireTask_returns_earliest_open (d : TaskDispatcher)
    (hrun : d.stopping_ = false)
    (hex : ∃ p ∈ d.tasks_, isOpen d.heap p = true) :
    ∃ (a : Nat) (before after : List TaskPtr),
      d.tasks_ = before ++ some a :: after ∧
      (∀ p ∈ before, isOpen d.heap p = false) ∧
      isOpen d.heap (some a) = true ∧
      (acquireTask d).result = some (some a) ∧
      (acquireTask d).state.heap a =
        { d.heap a with activeLoaders := (d.heap a).activeLoaders + 1 } ∧
      (∀ b, b ≠ a → (acquireTask d).state.heap b = d.heap b) ∧
      (acquireTask d).state.tasks_ = d.tasks_ ∧
      (acquireTask d).state.stopping_ = false := by
  obtain ⟨a, before, after, hsplit, hbefore, ha, hscan⟩ :=
    scanTasks_first_open d.heap d.tasks_ hex
  refine ⟨a, before, after, hsplit, hbefore, ha, ?_, ?_, ?_, ?_, ?_⟩
  · simp [acquireTask, acquireUnlocked, hscan, hrun, AcquireOutcome.result]
  · simp [acquireTask_state, acquireUnlocked, hscan, modifyTask_same]
  · intro b hb
    simp [acquireTask_state, acquireUnlocked, hscan, modifyTask_other _ _ _ _ hb]
  · simp [acquireTask_state, acquireUnlocked, hscan]
  · simp [acquireTask_state, acquireUnlocked, hscan, hrun]

/-- Witness for C2 (amended): the queue with two fresh tasks. -/
theorem acquireTask_returns_earliest_open_witness :
    twoQueued.stopping_ = false ∧
    (∃ p ∈ twoQueued.tasks_, isOpen twoQueued.heap p = true) ∧
    ∃ (a : Nat) (before after : List TaskPtr),
      twoQueued.tasks_ = before ++ some a :: after ∧
      (∀ p ∈ before, isOpen twoQueued.heap p = false) ∧
      isOpen twoQueued.heap (some a) = true ∧
      (acquireTask twoQueued).result = some (some a) ∧
      (acquireTask twoQueued).state.heap a =
        { twoQueued.heap a with activeLoaders := (twoQueued.heap a).activeLoaders + 1 } ∧
      (∀ b, b ≠ a → (acquireTask twoQueued).state.heap b = twoQueued.heap b) ∧
      (acquireTask twoQueued).state.tasks_ = twoQueued.tasks_ ∧
      (acquireTask twoQueued).state.stopping_ = false :=
  ⟨rfl, ⟨some 0, by decide, by decide⟩,
    acquireTask_returns_earliest_open twoQueued rfl ⟨some 0, by decide, by decide⟩⟩

theorem completedHeadQueue_reachable :
    Reachable completedHeadQueue completedHeadHeld :=
  Reachable.finish 0 (Reachable.complete 0 twoHolders_reachable) (by decide)

/-- Counterexample to C2 as stated. In a reachable state the head of the queue
is a completed two-worker task with one active loader (so it has
`active < max-parallel` and is the earliest such task), shutdown has not been
signalled, and `acquireTask` returns the second task instead, leaving the
first one untouched. -/
theorem acquireTask_skips_completed_task :
    Reachable completedHeadQueue completedHeadHeld ∧
    completedHeadQueue.stopping_ = false ∧
    completedHeadQueue.tasks_ = [some 0, some 1] ∧
    (completedHeadQueue.heap 0).activeLoaders = 1 ∧
    (completedHeadQueue.heap 0).maxParallelLoaders = 2 ∧
    earliestWithCapacity completedHeadQueue.heap completedHeadQueue.tasks_ = some 0 ∧
    (acquireTask completedHeadQueue).result = some (some 1) ∧
    (acquireTask completedHeadQueue).result ≠
      some (earliestWithCapacity completedHeadQueue.heap completedHeadQueue.tasks_) ∧
    ((acquireTask completedHeadQueue).state.heap 0).activeLoaders = 1 :=
  ⟨completedHeadQueue_reachable, by decide, by decide, by decide, by decide,
    by decide, by decide, by decide, by decide⟩

theorem finishTask_heap_same (d : TaskDispatcher) (a : Nat) :
    (finishTask d (some a)).heap a =
      { d.heap a with
        activeLoaders := (d.heap a).activeLoaders - 1
        promiseFulfilled := (d.heap a).promiseFulfilled || (d.heap a).completed } := by
  cases hc : (d.heap a).completed <;> cases hp : (d.heap a).promiseFulfilled <;>
    by_cases hz : (d.heap a).activeLoaders - 1 = 0 <;>
    simp [finishTask, modifyTask_same, hc, hp, hz]

theorem finishTask_heap_other (d : TaskDispatcher) (a b : Nat) (hb : b ≠ a) :
    (finishTask d (some a)).heap b = d.heap b := by
  cases hc : (d.heap a).completed <;> cases hp : (d.heap a).promiseFulfilled <;>
    by_cases hz : (d.heap a).activeLoaders - 1 = 0 <;>
    simp [finishTask, modifyTask_same, modifyTask_other _ _ _ _ hb, hc, hp, hz]

theorem finishTask_tasks (d : TaskDispatcher) (a : Nat) :
    (finishTask d (some a)).tasks_ =
      (if (d.heap a).completed = true ∧ (d.heap a).activeLoaders - 1 = 0
        then d.tasks_.filter (fun p => p != some a) else d.tasks_) := by
  cases hc : (d.heap a).completed <;> cases hp : (d.heap a).promiseFulfilled <;>
    by_cases hz : (d.heap a).activeLoaders - 1 = 0 <;>
    simp [finishTask, modifyTask_same, hc, hp, hz]

theorem finishTask_stopping (d : TaskDispatcher) (p : TaskPtr) :
    (finishTask d p).stopping_ = d.stopping_ := by
  cases p with
  | none => rfl
  | some a =>
    cases hc : (d.heap a).completed <;> cases hp : (d.heap a).promiseFulfilled <;>
      by_cases hz : (d.heap a).activeLoaders - 1 = 0 <;>
      simp [finishTask, modifyTask_same, hc, hp, hz]

/-- C3. `finishTask(task)` lowers the task's `activeLoaders` by one and keeps
its cap and completion flag; the queue loses the entries pointing to the task
exactly when the task is completed and its counter is zero after the
decrement, and is untouched otherwise; the remaining entries keep their order;
no other task object and not the stop flag is modified. -/
theorem finishTask_decrements_and_removes (d : TaskDispatcher) (a : Nat) :
    ((finishTask d (some a)).heap a).activeLoaders = (d.heap a).activeLoaders - 1 ∧
    ((finishTask d (some a)).heap a).maxParallelLoaders = (d.heap a).maxParallelLoaders ∧
    ((finishTask d (some a)).heap a).completed = (d.heap a).completed ∧
    (finishTask d (some a)).tasks_ =
      (if (d.heap a).completed = true ∧ (d.heap a).activeLoaders - 1 = 0
        then d.tasks_.filter (fun p => p != some a) else d.tasks_) ∧
    (some a ∈ (finishTask d (some a)).tasks_ ↔
      some a ∈ d.tasks_ ∧
        ¬ ((d.heap a).completed = true ∧ (d.heap a).activeLoaders - 1 = 0)) ∧
    (∀ p, p ≠ some a → (p ∈ (finishTask d (some a)).tasks_ ↔ p ∈ d.tasks_)) ∧
    (∀ b, b ≠ a → (finishTask d (some a)).heap b = d.heap b) ∧
    (finishTask d (some a)).stopping_ = d.stopping_ := by
  refine ⟨by rw [finishTask_heap_same], by rw [finishTask_heap_same],
    by rw [finishTask_heap_same], finishTask_tasks d a, ?_, ?_,
    fun b hb => finishTask_heap_other d a b hb, finishTask_stopping d _⟩
  · rw [finishTask_tasks]
    split <;> rename_i h <;> simp [h]
  · intro p hp
    rw [finishTask_tasks]
    split <;> simp [hp]

/-- After `shutdown()` every pass of `acquireTask` returns `nullptr`. -/
theorem acquireTask_after_shutdown_returns_null (d : TaskDispatcher)
    (hstop : d.stopping_ = true) : (acquireTask d).result = some none := by
  unfold acquireTask acquireUnlocked
  cases hs : scanTasks d.heap d.tasks_ <;> simp [hstop, AcquireOutcome.result]

/-- After `shutdown()`, a pass of `acquireTask` on a queue that holds an open
task still performs the `fetch_add(1)` of `acquireUnlocked` on the first open
task before it returns `nullptr`. -/
theorem acquireTask_after_shutdown_increments (d : TaskDispatcher)
    (hstop : d.stopping_ = true) (a : Nat) (hscan : scanTasks d.heap d.tasks_ = some a) :
    (acquireTask d).result = some none ∧
      ((acquireTask d).state.heap a).activeLoaders = (d.heap a).activeLoaders + 1 := by
  refine ⟨acquireTask_after_shutdown_returns_null d hstop, ?_⟩
  simp [acquireTask_state, acquireUnlocked, hscan, modifyTask_same]

/-- C4, the code at the failing input: shutdown has been signalled and the queue
holds one fresh task with cap 2 and no active loader; `acquireTask` returns
`nullptr`, and the task's `activeLoaders` has gone from 0 to 1 although no
worker received it. -/
theorem acquireTask_after_shutdown_leaks_increment :
    stoppedWithFreeTask.stopping_ = true ∧
    stoppedWithFreeTask.tasks_ = [some 0] ∧
    (stoppedWithFreeTask.heap 0).activeLoaders = 0 ∧
    (acquireTask stoppedWithFreeTask).result = some none ∧
    ((acquireTask stoppedWithFreeTask).state.heap 0).activeLoaders = 1 := by
  decide

/-! ## TimedResourcePool -/

theorem stepPool_capacity (p : TimedResourcePool) (op : PoolOp) :
    (stepPool p op).capacity_ = p.capacity_ := by
  cases op
  · simp only [stepPool, acquire_for]; split <;> rfl
  · simp only [stepPool, release]; split <;> rfl

theorem stepPool_bounds (p : TimedResourcePool) (op : PoolOp)
    (h0 : 0 ≤ p.available_) (h1 : p.available_ ≤ p.capacity_) :
    0 ≤ (stepPool p op).available_ ∧ (stepPool p op).available_ ≤ p.capacity_ := by
  cases op
  · simp only [stepPool, acquire_for]
    split <;> simp <;> omega
  · simp only [stepPool, release]
    split <;> simp at * <;> omega

theorem runPool_bounds (ops : List PoolOp) (p : TimedResourcePool)
    (h0 : 0 ≤ p.available_) (h1 : p.available_ ≤ p.capacity_) :
    (runPool p ops).capacity_ = p.capacity_ ∧
      0 ≤ (runPool p ops).available_ ∧ (runPool p ops).available_ ≤ p.capacity_ := by
  induction ops generalizing p with
  | nil => exact ⟨rfl, h0, h1⟩
  | cons op ops ih =>
    have hb := stepPool_bounds p op h0 h1
    have hc := stepPool_capacity p op
    have := ih (stepPool p op) hb.1 (by rw [hc]; exact hb.2)
    simp only [runPool, List.foldl_cons] at this ⊢
    rw [hc] at this
    exact this

/-- C5. For a pool created with capacity `N ≥ 0`, after any sequence of
`acquire_for` and `release` calls the number of available permits is within
`0..N` (and the capacity is still `N`); in the state reached, a successful
`acquire_for` lowers it by exactly one, a failed one changes nothing, and a
`release` on a pool that has `N` available permits leaves it at `N`. -/
theorem pool_available_within_capacity (N : Int) (name : String) (hN : 0 ≤ N)
    (ops : List PoolOp) :
    0 ≤ (runPool (TimedResourcePool.create N name) ops).available_ ∧
    (runPool (TimedResourcePool.create N name) ops).available_ ≤ N ∧
    (runPool (TimedResourcePool.create N name) ops).capacity_ = N ∧
    ((acquire_for (runPool (TimedResourcePool.create N name) ops)).1 = true →
      (acquire_for (runPool (TimedResourcePool.create N name) ops)).2.available_ =
        (runPool (TimedResourcePool.create N name) ops).available_ - 1) ∧
    ((acquire_for (runPool (TimedResourcePool.create N name) ops)).1 = false →
      (acquire_for (runPool (TimedResourcePool.create N name) ops)).2 =
        runPool (TimedResourcePool.create N name) ops) ∧
    ((runPool (TimedResourcePool.create N name) ops).available_ = N →
      (release (runPool (TimedResourcePool.create N name) ops)).available_ = N) := by
  have h := runPool_bounds ops (TimedResourcePool.create N name)
    (by simpa [TimedResourcePool.create] using hN) (by simp [TimedResourcePool.create])
  have hcap : (TimedResourcePool.create N name).capacity_ = N := rfl
  rw [hcap] at h
  generalize runPool (TimedResourcePool.create N name) ops = p at h ⊢
  obtain ⟨hc, h0, h1⟩ := h
  refine ⟨h0, h1, hc, ?_, ?_, ?_⟩
  · unfold acquire_for
    split <;> simp
  · unfold acquire_for
    split <;> simp
  · intro hfull
    unfold release
    simp [hfull, hc]

/-- Witness for C5: a pool of capacity 2 after acquire, release, release. -/
theorem pool_available_within_capacity_witness :
    (0 : Int) ≤ 2 ∧
    0 ≤ (runPool (TimedResourcePool.create 2 "storage")
        [PoolOp.acquire, PoolOp.release, PoolOp.release]).available_ ∧
    (runPool (TimedResourcePool.create 2 "storage")
        [PoolOp.acquire, PoolOp.release, PoolOp.release]).available_ ≤ 2 :=
  ⟨by decide,
    (pool_available_within_capacity 2 "storage" (by decide)
      [PoolOp.acquire, PoolOp.release, PoolOp.release]).1,
    (pool_available_within_capacity 2 "storage" (by decide)
      [PoolOp.acquire, PoolOp.release, PoolOp.release]).2.1⟩

/-! ## PackingZone -/

theorem firstFreeFrom_some (occ : List Bool) (i k : Nat)
    (h : firstFreeFrom occ i = some k) :
    i ≤ k ∧ occ[k - i]? = some false ∧ ∀ j, j < k - i → occ[j]? = some true := by
  induction occ generalizing i with
  | nil => simp [firstFreeFrom] at h
  | cons o rest ih =>
    simp only [firstFreeFrom] at h
    cases o with
    | false =>
      simp only [Bool.not_false, if_true, Option.some.injEq] at h
      subst h
      simp
    | true =>
      simp only [Bool.not_true, Bool.false_eq_true, if_false] at h
      obtain ⟨hle, hk, hbefore⟩ := ih (i + 1) h
      have hki : k - i = (k - (i + 1)) + 1 := by omega
      refine ⟨by omega, ?_, ?_⟩
      · rw [hki]; simpa using hk
      · intro j hj
        cases j with
        | zero => simp
        | succ j =>
          have := hbefore j (by omega)
          simpa using this

theorem firstFreeFrom_none (occ : List Bool) (i : Nat)
    (h : firstFreeFrom occ i = none) : ∀ o ∈ occ, o = true := by
  induction occ generalizing i with
  | nil => simp
  | cons o rest ih =>
    simp only [firstFreeFrom] at h
    cases o with
    | false => simp at h
    | true =>
      simp only [Bool.not_true, Bool.false_eq_true, if_false] at h
      intro o ho
      rcases List.mem_cons.mp ho with h1 | h1
      · exact h1
      · exact ih (i + 1) h o h1

/-- What one call of `reserveWorkstation` does, by cases on its result. -/
theorem reserveWorkstation_cases (z : PackingZone) :
    ((reserveWorkstation z).1 = none ∧ (reserveWorkstation z).2 = z ∧
        ∀ o ∈ z.occupied_, o = true) ∨
    (∃ k : Nat, (reserveWorkstation z).1 = some (k : Int) ∧
        z.occupied_[k]? = some false ∧
        (∀ j, j < k → z.occupied_[j]? = some true) ∧
        (reserveWorkstation z).2 =
          { z with occupied_ := z.occupied_.set k true }) := by
  unfold reserveWorkstation
  by_cases hany : (z.occupied_.any fun occ => !occ) = true
  · simp only [hany, Bool.not_true, Bool.false_eq_true, if_false]
    cases hf : firstFreeFrom z.occupied_ 0 with
    | none =>
      exact Or.inl ⟨rfl, rfl, firstFreeFrom_none _ _ hf⟩
    | some k =>
      obtain ⟨-, hk, hbefore⟩ := firstFreeFrom_some _ _ _ hf
      exact Or.inr ⟨k, rfl, by simpa using hk, by simpa using hbefore, rfl⟩
  · left
    simp only [hany, Bool.not_false, if_true, true_and]
    intro o ho
    cases o with
    | true => rfl
    | false =>
      exfalso
      apply hany
      simp only [List.any_eq_true]
      exact ⟨false, ho, rfl⟩

/-- While workstation `k` is occupied and nobody calls `release(k)`, no
`reserve` returns `k`, and `k` stays occupied. -/
theorem runPacking_keeps_reserved (ops : List PackingOp) (z : PackingZone) (k : Nat)
    (hocc : z.occupied_[k]? = some true)
    (hops : ∀ op ∈ ops, op ≠ PackingOp.release (k : Int)) :
    some (k : Int) ∉ (runPacking z ops).1 ∧
      (runPacking z ops).2.occupied_[k]? = some true := by
  induction ops generalizing z with
  | nil => simp [runPacking, hocc]
  | cons op ops ih =>
    have hops2 : ∀ op ∈ ops, op ≠ PackingOp.release (k : Int) :=
      fun o ho => hops o (List.mem_cons_of_mem _ ho)
    cases op with
    | reserve =>
      simp only [runPacking]
      rcases reserveWorkstation_cases z with ⟨hr, hz, -⟩ | ⟨i, hr, hfree, -, hz⟩
      · rw [hr, hz]
        have := ih z hocc hops2
        simpa using this
      · have hik : i ≠ k := by
          intro h; subst h; rw [hocc] at hfree; simp at hfree
        have hocc2 : (reserveWorkstation z).2.occupied_[k]? = some true := by
          rw [hz]
          simp only [List.getElem?_set, hik, if_false, hocc]
        have := ih (reserveWorkstation z).2 hocc2 hops2
        rw [hr]
        refine ⟨?_, this.2⟩
        simp only [List.mem_cons, Option.some.injEq, Nat.cast_inj, not_or]
        exact ⟨fun h => hik h.symm, this.1⟩
    | release j =>
      simp only [runPacking]
      have hjk : j ≠ (k : Int) := by
        intro h
        exact hops (PackingOp.release j) (List.mem_cons_self _ _) (by rw [h])
      have hocc2 : (releaseWorkstation z j).occupied_[k]? = some true := by
        unfold releaseWorkstation
        split
        · exact hocc
        · rename_i hr
          simp only [Bool.or_eq_true, decide_eq_true_eq, not_or, not_lt, ge_iff_le,
            not_le] at hr
          have hne : j.toNat ≠ k := by omega
          simp only [List.getElem?_set, hne, if_false, hocc]
      exact ih _ hocc2 hops2

/-- C10. `reserveWorkstation` returns an id `i` only if workstation `i` was free
immediately before the call; it then marks exactly workstation `i` occupied
and changes no other workstation (nor the station table), and from then on,
for every sequence of calls without `release(i)`, no `reserve` returns `i`.
It returns no id only when every workstation is occupied, and then changes
nothing. -/
theorem reserveWorkstation_exclusive (z : PackingZone) :
    (∀ i : Int, (reserveWorkstation z).1 = some i →
      0 ≤ i ∧ z.occupied_[i.toNat]? = some false ∧
      (reserveWorkstation z).2.occupied_ = z.occupied_.set i.toNat true ∧
      (reserveWorkstation z).2.occupied_[i.toNat]? = some true ∧
      (∀ j : Nat, j ≠ i.toNat →
        (reserveWorkstation z).2.occupied_[j]? = z.occupied_[j]?) ∧
      (reserveWorkstation z).2.stations_ = z.stations_ ∧
      ∀ ops : List PackingOp, (∀ op ∈ ops, op ≠ PackingOp.release i) →
        some i ∉ (runPacking (reserveWorkstation z).2 ops).1) ∧
    ((reserveWorkstation z).1 = none →
      (∀ o ∈ z.occupied_, o = true) ∧ (reserveWorkstation z).2 = z) := by
  rcases reserveWorkstation_cases z with ⟨hr, hz, hall⟩ | ⟨k, hr, hfree, -, hz⟩
  · refine ⟨fun i hi => ?_, fun _ => ⟨hall, hz⟩⟩
    rw [hr] at hi
    simp at hi
  · refine ⟨fun i hi => ?_, fun hn => ?_⟩
    · rw [hr] at hi
      have hik : (k : Int) = i := by simpa using hi
      subst hik
      have hlt : k < z.occupied_.length := by
        by_contra hge
        have : z.occupied_[k]? = none := List.getElem?_eq_none (by omega)
        rw [this] at hfree
        simp at hfree
      have hset : (reserveWorkstation z).2.occupied_[k]? = some true := by
        rw [hz]
        simp [List.getElem?_set, hlt]
      refine ⟨by omega, by simpa using hfree, by simp [hz], by simpa using hset,
        ?_, by simp [hz], ?_⟩
      · intro j hj
        have hj2 : k ≠ j := by simpa using hj.symm
        rw [hz]
        simp [List.getElem?_set, hj2]
      · intro ops hops
        exact (runPacking_keeps_reserved ops _ k hset hops).1
    · rw [hr] at hn
      simp at hn

/-! ## StorageZone: totals -/

theorem debit_lookup_same (m : IntMap) (c qty remaining : Int) :
    (debit m c qty remaining).1.lookup c =
      if qty - min qty remaining = 0 then none else some (qty - min qty remaining) := by
  unfold debit
  by_cases h : qty - min qty remaining = 0
  · simp [h, AList.lookup_erase]
  · simp [h, AList.lookup_insert]

theorem debit_lookup_other (m : IntMap) (c c2 qty remaining : Int) (h : c2 ≠ c) :
    (debit m c qty remaining).1.lookup c2 = m.lookup c2 := by
  unfold debit
  by_cases hz : qty - min qty remaining = 0
  · simp [hz, AList.lookup_erase_ne h, AList.lookup_insert_ne h]
  · simp [hz, AList.lookup_insert_ne h]

theorem debit_remaining (m : IntMap) (c qty remaining : Int) :
    (debit m c qty remaining).2 = remaining - min qty remaining := rfl

/-- Folding the entries of one pallet into the totals adds the pallet's
quantity of `key` to the entry of `key`. -/
theorem foldl_addTotal_lookup (type : CargoType) (key : CategoryKey) :
    ∀ (es : List (Sigma (fun _ : Int => Int))) (totals : TotalsMap), es.NodupKeys →
      (es.foldl (addTotal type) totals).lookup key =
        if type = key.type then
          match es.dlookup key.category with
          | some q => some ((totals.lookup key).getD 0 + q)
          | none => totals.lookup key
        else totals.lookup key := by
  intro es
  induction es with
  | nil => intro totals _; simp
  | cons e es ih =>
    intro totals hnd
    rw [List.nodupKeys_cons] at hnd
    rw [List.foldl_cons, ih _ hnd.2]
    by_cases ht : type = key.type
    · simp only [ht, if_true]
      by_cases hc : e.1 = key.category
      · have hkey : ({ type := key.type, category := e.1 } : CategoryKey) = key := by
          cases key; simp_all
        have hnone : es.dlookup key.category = none := by
          rw [List.dlookup_eq_none, ← hc]; exact hnd.1
        obtain ⟨c, q⟩ := e
        simp only at hc hkey
        subst hc
        simp only [hnone, addTotal, hkey, AList.lookup_insert, List.dlookup_cons_eq]
      · have hkey : key ≠ ({ type := key.type, category := e.1 } : CategoryKey) := by
          intro h; apply hc; rw [h]
        have hl : (addTotal key.type totals e).lookup key = totals.lookup key := by
          simp only [addTotal]
          exact AList.lookup_insert_ne hkey
        obtain ⟨c, q⟩ := e
        simp only at hc
        rw [hl, List.dlookup_cons_ne _ _ (fun h => hc h.symm)]
    · have hkey : key ≠ ({ type := type, category := e.1 } : CategoryKey) := by
        intro h; apply ht; rw [h]
      simp only [ht, if_false, addTotal]
      exact AList.lookup_insert_ne hkey

theorem contributions_cons (key : CategoryKey) (r : StorageRecord)
    (rs : List StorageRecord) :
    contributions key (r :: rs) =
      match contribution key r with
      | some q => q :: contributions key rs
      | none => contributions key rs := by
  unfold contributions
  cases h : contribution key r <;> simp [List.filterMap_cons, h]

/-- The loop of `totalsByCategory`, started from any map: the entry of `key`
grows by the quantities of `key` on the records, and is created only when some
record holds `key`. -/
theorem foldl_records_lookup (key : CategoryKey) :
    ∀ (rs : List StorageRecord) (totals : TotalsMap),
      (rs.foldl (fun totals r =>
          r.pallet.categoryQuantities.entries.foldl (addTotal r.pallet.type) totals)
        totals).lookup key =
        if contributions key rs = [] then totals.lookup key
        else some ((totals.lookup key).getD 0 + (contributions key rs).sum) := by
  intro rs
  induction rs with
  | nil => intro totals; simp [contributions]
  | cons r rs ih =>
    intro totals
    rw [List.foldl_cons, ih, contributions_cons]
    have hstep := foldl_addTotal_lookup r.pallet.type key
      r.pallet.categoryQuantities.entries totals r.pallet.categoryQuantities.nodupKeys
    rw [hstep]
    unfold contribution
    by_cases ht : r.pallet.type = key.type
    · simp only [ht, if_true]
      have hl : r.pallet.categoryQuantities.lookup key.category =
          r.pallet.categoryQuantities.entries.dlookup key.category := rfl
      rw [hl]
      cases hd : r.pallet.categoryQuantities.entries.dlookup key.category with
      | none => simp
      | some q =>
        simp only [Option.getD_some, List.sum_cons]
        by_cases he : contributions key rs = []
        · simp [he]
        · simp [he, add_assoc]
    · simp [ht]

theorem totalsByCategory_lookup (z : StorageZone) (key : CategoryKey) :
    (totalsByCategory z).lookup key =
      if contributions key z.records_ = [] then none
      else some (contributions key z.records_).sum := by
  unfold totalsByCategory
  rw [foldl_records_lookup]
  simp

theorem totalOf_eq_sum (z : StorageZone) (key : CategoryKey) :
    totalOf z key = (contributions key z.records_).sum := by
  unfold totalOf
  rw [totalsByCategory_lookup]
  split
  · rename_i h; simp [h]
  · simp

/-! ## StorageZone: the loop of `takeFromStorage` -/

theorem lookup_of_entries_isEmpty (m : IntMap) (c : Int)
    (h : m.entries.isEmpty = true) : m.lookup c = none := by
  have he : m.entries = [] := by simpa using h
  show m.entries.dlookup c = none
  rw [he]
  rfl

theorem contribution_of_type_ne (key : CategoryKey) (r : StorageRecord)
    (h : ¬ r.pallet.type = key.type) : contribution key r = none := by
  simp [contribution, h]

/-- Debiting `key` leaves what a record holds of any other key unchanged. -/
theorem contribution_debit_other (key k : CategoryKey) (r : StorageRecord)
    (qty remaining : Int) (hk : k ≠ key) (ht : r.pallet.type = key.type) :
    contribution k
        { address := r.address
          pallet :=
            { type := r.pallet.type
              categoryQuantities :=
                (debit r.pallet.categoryQuantities key.category qty remaining).1
              capacity := r.pallet.capacity } } =
      contribution k r := by
  unfold contribution
  by_cases hkt : r.pallet.type = k.type
  · have hc : k.category ≠ key.category := by
      intro h
      apply hk
      cases k; cases key
      simp_all
    simp only [hkt, if_true]
    exact debit_lookup_other _ _ _ _ _ hc
  · simp [hkt]

theorem takeLoop_stop (key : CategoryKey) (r : StorageRecord) (rest : List StorageRecord)
    (remaining : Int) (free : List String) (h : ¬ remaining > 0) :
    takeLoop key (r :: rest) remaining free =
      { records := r :: rest, remaining := remaining, free := free } := by
  rw [takeLoop]
  simp [h]

theorem takeLoop_skip (key : CategoryKey) (r : StorageRecord) (rest : List StorageRecord)
    (remaining : Int) (free : List String) (h : remaining > 0)
    (hc : contribution key r = none) :
    takeLoop key (r :: rest) remaining free =
      { records := r :: (takeLoop key rest remaining free).records
        remaining := (takeLoop key rest remaining free).remaining
        free := (takeLoop key rest remaining free).free } := by
  rw [takeLoop]
  unfold contribution at hc
  by_cases ht : r.pallet.type = key.type
  · simp only [ht, if_true] at hc
    simp [h, hc]
  · cases hl : r.pallet.categoryQuantities.lookup key.category <;> simp [h, hl, ht]

theorem takeLoop_drop (key : CategoryKey) (r : StorageRecord) (rest : List StorageRecord)
    (remaining : Int) (free : List String) (qty : Int) (h : remaining > 0)
    (hc : contribution key r = some qty)
    (he : (debit r.pallet.categoryQuantities key.category qty remaining).1.entries.isEmpty
      = true) :
    takeLoop key (r :: rest) remaining free =
      takeLoop key rest (debit r.pallet.categoryQuantities key.category qty remaining).2
        (free ++ [r.address]) := by
  rw [takeLoop]
  unfold contribution at hc
  by_cases ht : r.pallet.type = key.type
  · simp only [ht, if_true] at hc
    simp only [h, if_true, hc, ht, he]
  · simp [ht] at hc

theorem takeLoop_keep (key : CategoryKey) (r : StorageRecord) (rest : List StorageRecord)
    (remaining : Int) (free : List String) (qty : Int) (h : remaining > 0)
    (hc : contribution key r = some qty)
    (he : (debit r.pallet.categoryQuantities key.category qty remaining).1.entries.isEmpty
      = false) :
    takeLoop key (r :: rest) remaining free =
      { records :=
          { address := r.address
            pallet :=
              { type := r.pallet.type
                categoryQuantities :=
                  (debit r.pallet.categoryQuantities key.category qty remaining).1
                capacity := r.pallet.capacity } } ::
            (takeLoop key rest
              (debit r.pallet.categoryQuantities key.category qty remaining).2 free).records
        remaining := (takeLoop key rest
          (debit r.pallet.categoryQuantities key.category qty remaining).2 free).remaining
        free := (takeLoop key rest
          (debit r.pallet.categoryQuantities key.category qty remaining).2 free).free } := by
  rw [takeLoop]
  unfold contribution at hc
  by_cases ht : r.pallet.type = key.type
  · simp only [ht, if_true] at hc
    simp [h, hc, ht, he]
  · simp [ht] at hc

theorem type_of_contribution (key : CategoryKey) (r : StorageRecord) (qty : Int)
    (hc : contribution key r = some qty) :
    r.pallet.type = key.type ∧ r.pallet.categoryQuantities.lookup key.category = some qty := by
  unfold contribution at hc
  by_cases ht : r.pallet.type = key.type
  · simp only [ht, if_true] at hc
    exact ⟨ht, hc⟩
  · simp [ht] at hc

/-- The loop of `takeFromStorage` for `key` does not change what the records
hold of any other key. -/
theorem takeLoop_contributions_other (key k : CategoryKey) (hk : k ≠ key) :
    ∀ (rs : List StorageRecord) (remaining : Int) (free : List String),
      contributions k (takeLoop key rs remaining free).records = contributions k rs := by
  intro rs
  induction rs with
  | nil => intro remaining free; simp [takeLoop]
  | cons r rs ih =>
    intro remaining free
    by_cases hrem : remaining > 0
    · cases hc : contribution key r with
      | none =>
        rw [takeLoop_skip key r rs remaining free hrem hc]
        simp only
        rw [contributions_cons, contributions_cons, ih]
      | some qty =>
        obtain ⟨ht, -⟩ := type_of_contribution key r qty hc
        cases he : (debit r.pallet.categoryQuantities key.category qty
            remaining).1.entries.isEmpty with
        | true =>
          rw [takeLoop_drop key r rs remaining free qty hrem hc he, ih, contributions_cons]
          have hnone : contribution k r = none := by
            unfold contribution
            by_cases hkt : r.pallet.type = k.type
            · have hcat : k.category ≠ key.category := by
                intro h
                apply hk
                cases k; cases key
                simp_all
              simp only [hkt, if_true]
              rw [← debit_lookup_other r.pallet.categoryQuantities key.category
                k.category qty remaining hcat]
              exact lookup_of_entries_isEmpty _ _ he
            · simp [hkt]
          rw [hnone]
        | false =>
          rw [takeLoop_keep key r rs remaining free qty hrem hc he]
          simp only
          rw [contributions_cons, contributions_cons, ih,
            contribution_debit_other key k r qty remaining hk ht]
    · rw [takeLoop_stop key r rs remaining free hrem]

theorem contributions_sum_nonneg (key : CategoryKey) :
    ∀ rs : List StorageRecord,
      (∀ r ∈ rs, positiveQuantities r.pallet.categoryQuantities) →
      0 ≤ (contributions key rs).sum := by
  intro rs
  induction rs with
  | nil => intro _; simp [contributions]
  | cons r rs ih =>
    intro hpos
    have hrest := ih (fun x hx => hpos x (List.mem_cons_of_mem _ hx))
    rw [contributions_cons]
    cases hc : contribution key r with
    | none => simpa using hrest
    | some q =>
      have hq : 0 < q := by
        unfold contribution at hc
        split at hc
        · exact hpos r (List.mem_cons_self _ _) _ _ hc
        · simp at hc
      simp only [List.sum_cons]
      omega

theorem contribution_after_debit (key : CategoryKey) (r : StorageRecord)
    (qty remaining : Int) (ht : r.pallet.type = key.type) :
    contribution key
        { address := r.address
          pallet :=
            { type := r.pallet.type
              categoryQuantities :=
                (debit r.pallet.categoryQuantities key.category qty remaining).1
              capacity := r.pallet.capacity } } =
      if qty - min qty remaining = 0 then none else some (qty - min qty remaining) := by
  unfold contribution
  simp only [ht, if_true]
  exact debit_lookup_same _ _ _ _

/-- The loop of `takeFromStorage` on records with positive quantities: the
amount still missing never goes below zero, what was taken is the smaller of
the amount asked for and the stock of `key`, and the stock of `key` goes down
by what was taken. -/
theorem takeLoop_key_sum (key : CategoryKey) :
    ∀ (rs : List StorageRecord) (remaining : Int) (free : List String),
      0 ≤ remaining → (∀ r ∈ rs, positiveQuantities r.pallet.categoryQuantities) →
      0 ≤ (takeLoop key rs remaining free).remaining ∧
      remaining - (takeLoop key rs remaining free).remaining =
        min remaining (contributions key rs).sum ∧
      (contributions key (takeLoop key rs remaining free).records).sum =
        (contributions key rs).sum -
          (remaining - (takeLoop key rs remaining free).remaining) := by
  intro rs
  induction rs with
  | nil =>
    intro remaining free h0 _
    simp [takeLoop, contributions, h0]
  | cons r rs ih =>
    intro remaining free h0 hpos
    have hposr : ∀ x ∈ rs, positiveQuantities x.pallet.categoryQuantities :=
      fun x hx => hpos x (List.mem_cons_of_mem _ hx)
    have hS := contributions_sum_nonneg key rs hposr
    have hT := contributions_sum_nonneg key (r :: rs) hpos
    by_cases hrem : remaining > 0
    · cases hc : contribution key r with
      | none =>
        rw [takeLoop_skip key r rs remaining free hrem hc]
        simp only
        have hA : ∀ l, contributions key (r :: l) = contributions key l := by
          intro l; rw [contributions_cons, hc]
        rw [hA, hA]
        exact ih remaining free h0 hposr
      | some qty =>
        obtain ⟨ht, hl⟩ := type_of_contribution key r qty hc
        have hq : 0 < qty := hpos r (List.mem_cons_self _ _) _ _ hl
        have hrem1 : 0 ≤ (debit r.pallet.categoryQuantities key.category qty remaining).2 := by
          rw [debit_remaining]
          have := min_le_right qty remaining
          omega
        cases he : (debit r.pallet.categoryQuantities key.category qty
            remaining).1.entries.isEmpty with
        | true =>
          rw [takeLoop_drop key r rs remaining free qty hrem hc he]
          have hz : qty - min qty remaining = 0 := by
            have h1 := lookup_of_entries_isEmpty _ key.category he
            rw [debit_lookup_same] at h1
            by_contra hne
            simp [hne] at h1
          obtain ⟨i1, i2, i3⟩ := ih _ (free ++ [r.address]) hrem1 hposr
          rw [debit_remaining] at i1 i2 i3 ⊢
          have hA : contributions key (r :: rs) = qty :: contributions key rs := by
            rw [contributions_cons, hc]
          rw [hA]
          simp only [List.sum_cons]
          have hmin : min qty remaining = qty := by omega
          rw [hmin] at i1 i2 i3 ⊢
          refine ⟨i1, ?_, by omega⟩
          rcases min_cases (remaining - qty) (contributions key rs).sum with ⟨e1, e2⟩ | ⟨e1, e2⟩ <;>
            rcases min_cases remaining (qty + (contributions key rs).sum) with ⟨f1, f2⟩ | ⟨f1, f2⟩ <;>
            omega
        | false =>
          rw [takeLoop_keep key r rs remaining free qty hrem hc he]
          simp only
          obtain ⟨i1, i2, i3⟩ := ih _ free hrem1 hposr
          rw [debit_remaining] at i1 i2 i3 ⊢
          have hA : contributions key (r :: rs) = qty :: contributions key rs := by
            rw [contributions_cons, hc]
          rw [hA, contributions_cons, contribution_after_debit key r qty remaining ht]
          simp only [List.sum_cons]
          refine ⟨i1, ?_, ?_⟩
          · rcases min_cases qty remaining with ⟨g1, g2⟩ | ⟨g1, g2⟩ <;>
              rw [g1] at i2 ⊢ <;>
              rcases min_cases (remaining - qty) (contributions key rs).sum with ⟨e1, e2⟩ | ⟨e1, e2⟩ <;>
              rcases min_cases (remaining - remaining) (contributions key rs).sum with ⟨e3, e4⟩ | ⟨e3, e4⟩ <;>
              rcases min_cases remaining (qty + (contributions key rs).sum) with ⟨f1, f2⟩ | ⟨f1, f2⟩ <;>
              omega
          · by_cases hz : qty - min qty remaining = 0
            · simp only [hz, if_true]
              omega
            · simp only [hz, if_false, List.sum_cons]
              omega
    · rw [takeLoop_stop key r rs remaining free hrem]
      simp only
      have hzero : remaining = 0 := by omega
      subst hzero
      refine ⟨le_refl _, ?_, by omega⟩
      rw [min_eq_left hT]
      omega

/-- C6. For `requested ≥ 0` and a store whose quantities are all positive,
`takeFromStorage(key, requested)` returns `min(requested, total of key)`, where
the total is the one `totalsByCategory` reports; afterwards the total of `key`
is lower by exactly the returned amount, and the entry of every other key in
the map of `totalsByCategory` is unchanged. -/
theorem takeFromStorage_amount (z : StorageZone) (key : CategoryKey) (requested : Int)
    (hreq : 0 ≤ requested)
    (hpos : ∀ r ∈ z.records_, positiveQuantities r.pallet.categoryQuantities) :
    (takeFromStorage z key requested).1 = min requested (totalOf z key) ∧
    totalOf (takeFromStorage z key requested).2 key =
      totalOf z key - (takeFromStorage z key requested).1 ∧
    ∀ k : CategoryKey, k ≠ key →
      (totalsByCategory (takeFromStorage z key requested).2).lookup k =
        (totalsByCategory z).lookup k := by
  obtain ⟨-, h2, h3⟩ := takeLoop_key_sum key z.records_ requested z.freeAddresses_ hreq hpos
  refine ⟨?_, ?_, ?_⟩
  · rw [totalOf_eq_sum]
    exact h2
  · rw [totalOf_eq_sum, totalOf_eq_sum]
    exact h3
  · intro k hk
    rw [totalsByCategory_lookup, totalsByCategory_lookup]
    simp only [takeFromStorage]
    rw [takeLoop_contributions_other key k hk]

theorem positiveQuantities_of_entries (m : IntMap)
    (h : ∀ e ∈ m.entries, 0 < e.2) : positiveQuantities m := by
  intro c q hl
  have hmem : Sigma.mk c q ∈ m.entries := AList.mem_lookup_iff.mp (by simp [hl])
  exact h _ hmem

theorem overflowedZone_records :
    overflowedZone.records_ =
      [{ address := "S0-L0-P0", pallet := palletFive },
       { address := "OVERFLOW-1", pallet := palletMixed }] := by
  rfl

theorem overflowedZone_positive :
    ∀ r ∈ overflowedZone.records_, positiveQuantities r.pallet.categoryQuantities := by
  intro r hr
  rw [overflowedZone_records] at hr
  simp only [List.mem_cons, List.mem_singleton, List.not_mem_nil, or_false] at hr
  rcases hr with h | h <;> subst h <;>
    exact positiveQuantities_of_entries _ (by decide)

/-- Witness for C6: asking for 6 units of (Light, 7) from a store that holds
5 + 3 of them (the 3 on a pallet at an overflow address) yields 6 and leaves 2. -/
theorem takeFromStorage_amount_witness :
    (0 : Int) ≤ 6 ∧
    (takeFromStorage overflowedZone { type := CargoType.Light, category := 7 } 6).1 = 6 ∧
    totalOf overflowedZone { type := CargoType.Light, category := 7 } = 8 ∧
    (takeFromStorage overflowedZone { type := CargoType.Light, category := 7 } 6).1 =
      min 6 (totalOf overflowedZone { type := CargoType.Light, category := 7 }) ∧
    totalOf (takeFromStorage overflowedZone { type := CargoType.Light, category := 7 } 6).2
        { type := CargoType.Light, category := 7 } =
      totalOf overflowedZone { type := CargoType.Light, category := 7 } -
        (takeFromStorage overflowedZone { type := CargoType.Light, category := 7 } 6).1 :=
  ⟨by decide, by decide, by decide,
    (takeFromStorage_amount overflowedZone { type := CargoType.Light, category := 7 } 6
      (by decide) overflowedZone_positive).1,
    (takeFromStorage_amount overflowedZone { type := CargoType.Light, category := 7 } 6
      (by decide) overflowedZone_positive).2.1⟩

/-! ## StorageZone: records stay non-empty -/

theorem debit_positive (m : IntMap) (c qty remaining : Int)
    (hm : positiveQuantities m) :
    positiveQuantities (debit m c qty remaining).1 := by
  intro c2 q2 hl
  by_cases hc : c2 = c
  · subst hc
    rw [debit_lookup_same] at hl
    split at hl
    · simp at hl
    · rename_i hne
      have : q2 = qty - min qty remaining := by simpa using hl.symm
      have := min_le_left qty remaining
      omega
  · rw [debit_lookup_other _ _ _ _ _ hc] at hl
    exact hm c2 q2 hl

/-- The loop of `takeFromStorage` keeps only well-stocked records, provided the
records it starts from are well-stocked. -/
theorem takeLoop_wellStocked (key : CategoryKey) :
    ∀ (rs : List StorageRecord) (remaining : Int) (free : List String),
      (∀ r ∈ rs, wellStocked r.pallet) →
      ∀ r ∈ (takeLoop key rs remaining free).records, wellStocked r.pallet := by
  intro rs
  induction rs with
  | nil => intro remaining free _ r hr; simp [takeLoop] at hr
  | cons x rs ih =>
    intro remaining free hall
    have hrest : ∀ r ∈ rs, wellStocked r.pallet :=
      fun r hr => hall r (List.mem_cons_of_mem _ hr)
    have hx := hall x (List.mem_cons_self _ _)
    by_cases hrem : remaining > 0
    · cases hc : contribution key x with
      | none =>
        rw [takeLoop_skip key x rs remaining free hrem hc]
        intro r hr
        rcases List.mem_cons.mp hr with h | h
        · rw [h]; exact hx
        · exact ih remaining free hrest r h
      | some qty =>
        cases he : (debit x.pallet.categoryQuantities key.category qty
            remaining).1.entries.isEmpty with
        | true =>
          rw [takeLoop_drop key x rs remaining free qty hrem hc he]
          exact ih _ _ hrest
        | false =>
          rw [takeLoop_keep key x rs remaining free qty hrem hc he]
          intro r hr
          rcases List.mem_cons.mp hr with h | h
          · rw [h]
            refine ⟨?_, debit_positive _ _ _ _ hx.2⟩
            intro hnil
            simp only at hnil
            rw [hnil] at he
            simp at he
          · exact ih _ _ hrest r h
    · rw [takeLoop_stop key x rs remaining free hrem]
      exact hall

theorem placePallet_records (z : StorageZone) (pallet : Pallet) (idx : Nat) :
    (placePallet z pallet idx).2.records_ =
      z.records_ ++ [{ address := (placePallet z pallet idx).1, pallet := pallet }] := by
  unfold placePallet allocateAddress
  split <;> rfl

theorem reachable_wellStocked {shelves layers spotsPerLayer : Int} {z : StorageZone}
    (h : StorageReachable wellStocked shelves layers spotsPerLayer z) :
    ∀ r ∈ z.records_, wellStocked r.pallet := by
  induction h with
  | start => intro r hr; simp [StorageZone.create] at hr
  | place pallet idx _ hok _ ih =>
    intro r hr
    rw [placePallet_records] at hr
    rcases List.mem_append.mp hr with h1 | h1
    · exact ih r h1
    · simp only [List.mem_singleton] at h1
      rw [h1]; exact hok
  | take category amountRequested _ ih =>
    exact takeLoop_wellStocked category _ _ _ ih

/-- The addresses of the records dropped by the loop of `takeFromStorage` are
appended to the free list, and nothing else happens to the addresses. -/
theorem takeLoop_addresses (key : CategoryKey) :
    ∀ (rs : List StorageRecord) (remaining : Int) (free : List String),
      ∃ dropped : List String,
        (takeLoop key rs remaining free).free = free ++ dropped ∧
        ((takeLoop key rs remaining free).records.map (fun r => r.address) ++ dropped).Perm
          (rs.map (fun r => r.address)) := by
  intro rs
  induction rs with
  | nil => intro remaining free; exact ⟨[], by simp [takeLoop], by simp [takeLoop]⟩
  | cons x rs ih =>
    intro remaining free
    by_cases hrem : remaining > 0
    · cases hc : contribution key x with
      | none =>
        rw [takeLoop_skip key x rs remaining free hrem hc]
        obtain ⟨dropped, h1, h2⟩ := ih remaining free
        exact ⟨dropped, h1, by simpa using h2⟩
      | some qty =>
        cases he : (debit x.pallet.categoryQuantities key.category qty
            remaining).1.entries.isEmpty with
        | true =>
          rw [takeLoop_drop key x rs remaining free qty hrem hc he]
          obtain ⟨dropped, h1, h2⟩ := ih
            (debit x.pallet.categoryQuantities key.category qty remaining).2
            (free ++ [x.address])
          refine ⟨x.address :: dropped, by simp [h1], ?_⟩
          simp only [List.map_cons]
          exact List.perm_middle.trans (List.Perm.cons _ h2)
        | false =>
          rw [takeLoop_keep key x rs remaining free qty hrem hc he]
          obtain ⟨dropped, h1, h2⟩ := ih
            (debit x.pallet.categoryQuantities key.category qty remaining).2 free
          exact ⟨dropped, h1, by simpa using h2⟩
    · rw [takeLoop_stop key x rs remaining free hrem]
      exact ⟨[], by simp, by simp⟩

theorem wellStocked_has_positive (p : Pallet) (h : wellStocked p) :
    (∃ c q : Int, p.categoryQuantities.lookup c = some q ∧ 0 < q) ∧
      ∀ c : Int, p.categoryQuantities.lookup c ≠ some 0 := by
  constructor
  · obtain ⟨hne, hpos⟩ := h
    cases hent : p.categoryQuantities.entries with
    | nil => exact absurd hent hne
    | cons e es =>
      have hmem : Sigma.mk e.1 e.2 ∈ p.categoryQuantities.entries := by
        rw [hent]; exact List.mem_cons_self _ _
      have hl : p.categoryQuantities.lookup e.1 = some e.2 := by
        have := AList.mem_lookup_iff.mpr hmem
        simpa using this
      exact ⟨e.1, e.2, hl, hpos _ _ hl⟩
  · intro c hc
    have := h.2 c 0 hc
    omega

/-- Draining the only category of a pallet empties its map. -/
theorem debit_last_category (m : IntMap) (c qty remaining : Int)
    (hm : m.entries = [Sigma.mk c qty]) (hle : qty ≤ remaining) :
    (debit m c qty remaining).1.entries.isEmpty = true ∧
      (debit m c qty remaining).2 = remaining - qty := by
  have hmin : min qty remaining = qty := min_eq_left hle
  have hkeys : m.keys = [c] := by simp [AList.keys, List.keys, hm]
  constructor
  · have hk : (debit m c qty remaining).1.keys = [] := by
      unfold debit
      simp [hmin, AList.keys_erase, AList.keys_insert, hkeys]
    have : (debit m c qty remaining).1.entries = [] := by
      simpa [AList.keys, List.keys] using hk
    simp [this]
  · rw [debit_remaining, hmin]

/-- C8. Provided every placed pallet has at least one category and only
positive quantities, in every state reachable by `placePallet` and
`takeFromStorage` every stored record has a category with positive quantity
and no category with quantity zero. A call of `takeFromStorage` appends the
addresses of the records it removes to the free pool (and does nothing else to
the addresses), and keeps no record with an empty map; and when its loop
reaches a record whose only category is the requested one, with a quantity not
above the amount still missing, the record is removed and its address appended
to the free pool. -/
theorem stored_records_stay_nonempty (shelves layers spotsPerLayer : Int)
    (z : StorageZone)
    (h : StorageReachable wellStocked shelves layers spotsPerLayer z) :
    (∀ r ∈ z.records_,
      (∃ c q : Int, r.pallet.categoryQuantities.lookup c = some q ∧ 0 < q) ∧
        ∀ c : Int, r.pallet.categoryQuantities.lookup c ≠ some 0) ∧
    (∀ (key : CategoryKey) (amount : Int), ∃ dropped : List String,
      (takeFromStorage z key amount).2.freeAddresses_ = z.freeAddresses_ ++ dropped ∧
      (recordAddresses (takeFromStorage z key amount).2 ++ dropped).Perm
        (recordAddresses z) ∧
      ∀ r ∈ (takeFromStorage z key amount).2.records_,
        r.pallet.categoryQuantities.entries ≠ []) ∧
    (∀ (key : CategoryKey) (r : StorageRecord) (rest : List StorageRecord)
        (remaining qty : Int) (free : List String),
      0 < remaining → r.pallet.type = key.type →
      r.pallet.categoryQuantities.entries = [Sigma.mk key.category qty] →
      qty ≤ remaining →
      takeLoop key (r :: rest) remaining free =
        takeLoop key rest (remaining - qty) (free ++ [r.address])) := by
  refine ⟨fun r hr => wellStocked_has_positive _ (reachable_wellStocked h r hr), ?_, ?_⟩
  · intro key amount
    obtain ⟨dropped, h1, h2⟩ := takeLoop_addresses key z.records_ amount z.freeAddresses_
    refine ⟨dropped, h1, h2, fun r hr => ?_⟩
    exact (reachable_wellStocked (StorageReachable.take key amount h) r hr).1
  · intro key r rest remaining qty free hrem ht hent hle
    have hl : r.pallet.categoryQuantities.lookup key.category = some qty := by
      show r.pallet.categoryQuantities.entries.dlookup key.category = some qty
      rw [hent]
      simp [List.dlookup_cons_eq]
    have hc : contribution key r = some qty := by
      simp [contribution, ht, hl]
    obtain ⟨he, hr2⟩ := debit_last_category _ key.category qty remaining hent hle
    rw [takeLoop_drop key r rest remaining free qty hrem hc he, hr2]

theorem wellStocked_palletFive : wellStocked palletFive :=
  ⟨by decide, positiveQuantities_of_entries _ (by decide)⟩

theorem wellStocked_palletMixed : wellStocked palletMixed :=
  ⟨by decide, positiveQuantities_of_entries _ (by decide)⟩

theorem overflowedZone_reachable : StorageReachable wellStocked 1 1 1 overflowedZone :=
  StorageReachable.place palletMixed 0
    (StorageReachable.place palletFive 0 StorageReachable.start wellStocked_palletFive
      (fun _ => by decide))
    wellStocked_palletMixed (fun hne => absurd rfl hne)

/-- Witness for C8: the one-slot zone after two placements. -/
theorem stored_records_stay_nonempty_witness :
    StorageReachable wellStocked 1 1 1 overflowedZone ∧
    ∀ r ∈ overflowedZone.records_,
      (∃ c q : Int, r.pallet.categoryQuantities.lookup c = some q ∧ 0 < q) ∧
        ∀ c : Int, r.pallet.categoryQuantities.lookup c ≠ some 0 :=
  ⟨overflowedZone_reachable,
    (stored_records_stay_nonempty 1 1 1 overflowedZone overflowedZone_reachable).1⟩

/-! ## StorageZone: overflow addresses -/

/-- The loop of `takeFromStorage` never looks at an address: renaming the
addresses before the loop or after it gives the same result. -/
theorem takeLoop_relabel (f : String → String) (key : CategoryKey) :
    ∀ (rs : List StorageRecord) (remaining : Int) (free : List String),
      takeLoop key (rs.map (relabelRecord f)) remaining (free.map f) =
        { records := (takeLoop key rs remaining free).records.map (relabelRecord f)
          remaining := (takeLoop key rs remaining free).remaining
          free := (takeLoop key rs remaining free).free.map f } := by
  intro rs
  induction rs with
  | nil => intro remaining free; simp [takeLoop]
  | cons x rs ih =>
    intro remaining free
    have hcx : contribution key (relabelRecord f x) = contribution key x := rfl
    rw [List.map_cons]
    by_cases hrem : remaining > 0
    · cases hc : contribution key x with
      | none =>
        rw [takeLoop_skip key x rs remaining free hrem hc,
          takeLoop_skip key _ _ remaining _ hrem (hcx.trans hc), ih]
        simp
      | some qty =>
        cases he : (debit x.pallet.categoryQuantities key.category qty
            remaining).1.entries.isEmpty with
        | true =>
          rw [takeLoop_drop key x rs remaining free qty hrem hc he,
            takeLoop_drop key (relabelRecord f x) _ remaining _ qty hrem (hcx.trans hc) he]
          have := ih (debit x.pallet.categoryQuantities key.category qty remaining).2
            (free ++ [x.address])
          simpa [relabelRecord] using this
        | false =>
          rw [takeLoop_keep key x rs remaining free qty hrem hc he,
            takeLoop_keep key (relabelRecord f x) _ remaining _ qty hrem (hcx.trans hc) he, ih]
          simp [relabelRecord]
    · rw [takeLoop_stop key x rs remaining free hrem,
        takeLoop_stop key _ _ remaining _ hrem]
      simp

theorem takeFromStorage_relabel (f : String → String) (z : StorageZone)
    (key : CategoryKey) (amount : Int) :
    takeFromStorage (relabel f z) key amount =
      ((takeFromStorage z key amount).1, relabel f (takeFromStorage z key amount).2) := by
  simp only [takeFromStorage, relabel, takeLoop_relabel]

theorem contributions_append_single (key : CategoryKey) (rs : List StorageRecord)
    (r : StorageRecord) :
    (contributions key (rs ++ [r])).sum =
      (contributions key rs).sum + (contribution key r).getD 0 := by
  unfold contributions
  rw [List.filterMap_append, List.sum_append]
  cases h : contribution key r <;> simp [List.filterMap_cons, h]

/-- C9. When the free pool is empty, `placePallet` returns the string
"OVERFLOW-" followed by the number of records held before the insertion,
appends the record with that address and the given pallet, and leaves the free
pool empty. The pallet counts in the totals like any other (the total of each
key grows by the pallet's quantity of that key), and `takeFromStorage` on the
resulting zone does not depend on the addresses: renaming them (the overflow
address into any other string) commutes with the call and gives the same
amount. -/
theorem placePallet_overflow (z : StorageZone) (pallet : Pallet) (idx : Nat)
    (hfree : z.freeAddresses_ = []) :
    (placePallet z pallet idx).1 = "OVERFLOW-" ++ toString z.records_.length ∧
    (placePallet z pallet idx).2.records_ =
      z.records_ ++
        [{ address := "OVERFLOW-" ++ toString z.records_.length, pallet := pallet }] ∧
    (placePallet z pallet idx).2.freeAddresses_ = [] ∧
    (∀ key : CategoryKey,
      totalOf (placePallet z pallet idx).2 key =
        totalOf z key +
          (if pallet.type = key.type
            then (pallet.categoryQuantities.lookup key.category).getD 0 else 0)) ∧
    (∀ (f : String → String) (key : CategoryKey) (amount : Int),
      takeFromStorage (relabel f (placePallet z pallet idx).2) key amount =
        ((takeFromStorage (placePallet z pallet idx).2 key amount).1,
          relabel f (takeFromStorage (placePallet z pallet idx).2 key amount).2)) := by
  have haddr : (placePallet z pallet idx).1 = "OVERFLOW-" ++ toString z.records_.length := by
    simp [placePallet, allocateAddress, hfree]
  have hrec : (placePallet z pallet idx).2.records_ =
      z.records_ ++
        [{ address := "OVERFLOW-" ++ toString z.records_.length, pallet := pallet }] := by
    rw [placePallet_records, haddr]
  refine ⟨haddr, hrec, ?_, ?_, ?_⟩
  · simp [placePallet, allocateAddress, hfree]
  · intro key
    rw [totalOf_eq_sum, totalOf_eq_sum, hrec, contributions_append_single]
    congr 1
    unfold contribution
    split <;> simp
  · intro f key amount
    exact takeFromStorage_relabel f _ key amount

/-- Witness for C9: the full one-slot zone; the next pallet gets "OVERFLOW-1"
and a later `takeFromStorage` of 6 units of (Light, 7) takes 5 from the regular
slot and 1 from the overflow pallet. -/
theorem placePallet_overflow_witness :
    fullZone.freeAddresses_ = [] ∧
    (placePallet fullZone palletMixed 0).1 = "OVERFLOW-1" ∧
    (placePallet fullZone palletMixed 0).1 =
      "OVERFLOW-" ++ toString fullZone.records_.length ∧
    (takeFromStorage (placePallet fullZone palletMixed 0).2
      { type := CargoType.Light, category := 7 } 6).1 = 6 :=
  ⟨by decide, by decide,
    (placePallet_overflow fullZone palletMixed 0 (by decide)).1, by decide⟩

/-! ## StorageZone: the address strings -/

theorem digitChar_value : ∀ d : Nat, d < 10 →
    digitValue (Nat.digitChar d) = d ∧ Nat.digitChar d ≠ '-' := by
  decide

theorem decodeDigits_append_single (xs : List Char) (c : Char) :
    decodeDigits (xs ++ [c]) = 10 * decodeDigits xs + digitValue c := by
  simp [decodeDigits, List.foldl_append]

/-- The digits produced by `Nat.toDigitsCore` in base ten spell the number and
contain no dash. -/
theorem toDigitsCore_decode (fuel : Nat) : ∀ (n : Nat) (ds : List Char), n < fuel →
    ∃ xs : List Char, Nat.toDigitsCore 10 fuel n ds = xs ++ ds ∧
      decodeDigits xs = n ∧ ∀ c ∈ xs, c ≠ '-' := by
  induction fuel with
  | zero => intro n ds h; omega
  | succ fuel ih =>
    intro n ds h
    have hd := digitChar_value (n % 10) (Nat.mod_lt _ (by decide))
    simp only [Nat.toDigitsCore]
    by_cases hz : n / 10 = 0
    · simp only [hz, if_true]
      refine ⟨[Nat.digitChar (n % 10)], rfl, ?_, ?_⟩
      · simp only [decodeDigits, List.foldl_cons, List.foldl_nil, hd.1]
        omega
      · intro c hc
        simp only [List.mem_singleton] at hc
        rw [hc]; exact hd.2
    · simp only [hz, if_false]
      obtain ⟨xs, hxs, hdec, hdig⟩ :=
        ih (n / 10) (Nat.digitChar (n % 10) :: ds) (by omega)
      refine ⟨xs ++ [Nat.digitChar (n % 10)], by simp [hxs], ?_, ?_⟩
      · rw [decodeDigits_append_single, hdec, hd.1]
        omega
      · intro c hc
        rcases List.mem_append.mp hc with h1 | h1
        · exact hdig c h1
        · simp only [List.mem_singleton] at h1
          rw [h1]; exact hd.2

theorem toString_nat_data (n : Nat) :
    decodeDigits (toString n).data = n ∧ ∀ c ∈ (toString n).data, c ≠ '-' := by
  obtain ⟨xs, hxs, hdec, hdig⟩ := toDigitsCore_decode (n + 1) n [] (by omega)
  have : (toString n).data = xs := by
    show (Nat.repr n).data = xs
    simp [Nat.repr, Nat.toDigits, hxs, List.asString]
  rw [this]
  exact ⟨hdec, hdig⟩

theorem toString_nat_injective (m n : Nat) (h : toString m = toString n) : m = n := by
  have h1 := (toString_nat_data m).1
  have h2 := (toString_nat_data n).1
  rw [h] at h1
  omega

theorem split_at_dash (xs ys r1 r2 : List Char)
    (hx : ∀ c ∈ xs, c ≠ '-') (hy : ∀ c ∈ ys, c ≠ '-')
    (h : xs ++ '-' :: r1 = ys ++ '-' :: r2) : xs = ys ∧ r1 = r2 := by
  induction xs generalizing ys with
  | nil =>
    cases ys with
    | nil => simpa using h
    | cons y ys =>
      simp only [List.nil_append, List.cons_append, List.cons.injEq] at h
      exact absurd h.1.symm (hy y (List.mem_cons_self _ _))
  | cons x xs ih =>
    cases ys with
    | nil =>
      simp only [List.nil_append, List.cons_append, List.cons.injEq] at h
      exact absurd h.1 (hx x (List.mem_cons_self _ _))
    | cons y ys =>
      simp only [List.cons_append, List.cons.injEq] at h
      obtain ⟨h1, h2⟩ := ih ys (fun c hc => hx c (List.mem_cons_of_mem _ hc))
        (fun c hc => hy c (List.mem_cons_of_mem _ hc)) h.2
      exact ⟨by rw [h.1, h1], h2⟩

theorem slotAddress_data (s l p : Nat) :
    (slotAddress s l p).data =
      'S' :: ((toString s).data ++
        '-' :: 'L' :: ((toString l).data ++ '-' :: 'P' :: (toString p).data)) := by
  simp only [slotAddress, String.data_append]
  simp

theorem slotAddress_injective (s l p s2 l2 p2 : Nat)
    (h : slotAddress s l p = slotAddress s2 l2 p2) : s = s2 ∧ l = l2 ∧ p = p2 := by
  have hd := congrArg String.data h
  rw [slotAddress_data, slotAddress_data] at hd
  simp only [List.cons.injEq, true_and] at hd
  obtain ⟨hs, hrest⟩ :=
    split_at_dash _ _ _ _ (toString_nat_data s).2 (toString_nat_data s2).2 hd
  simp only [List.cons.injEq, true_and] at hrest
  obtain ⟨hl, hrest2⟩ :=
    split_at_dash _ _ _ _ (toString_nat_data l).2 (toString_nat_data l2).2 hrest
  simp only [List.cons.injEq, true_and] at hrest2
  have e1 := (toString_nat_data s).1
  have e2 := (toString_nat_data l).1
  have e3 := (toString_nat_data p).1
  rw [hs] at e1; rw [hl] at e2; rw [hrest2] at e3
  have f1 := (toString_nat_data s2).1
  have f2 := (toString_nat_data l2).1
  have f3 := (toString_nat_data p2).1
  omega

theorem slotAddress_ne_overflow (s l p n : Nat) :
    slotAddress s l p ≠ "OVERFLOW-" ++ toString n := by
  intro h
  have hd := congrArg String.data h
  rw [slotAddress_data, String.data_append] at hd
  have : ("OVERFLOW-" : String).data = ['O', 'V', 'E', 'R', 'F', 'L', 'O', 'W', '-'] := rfl
  rw [this] at hd
  simp at hd

theorem overflow_injective (m n : Nat)
    (h : "OVERFLOW-" ++ toString m = "OVERFLOW-" ++ toString n) : m = n := by
  have hd := congrArg String.data h
  simp only [String.data_append, List.append_cancel_left_eq] at hd
  exact toString_nat_injective m n (String.ext hd)

theorem mem_slotAddresses (shelves layers spotsPerLayer : Int) (a : String) :
    a ∈ slotAddresses shelves layers spotsPerLayer ↔
      ∃ s l p : Nat, s < shelves.toNat ∧ l < layers.toNat ∧ p < spotsPerLayer.toNat ∧
        a = slotAddress s l p := by
  simp only [slotAddresses, List.mem_flatMap, List.mem_range, List.mem_map]
  constructor
  · rintro ⟨s, hs, l, hl, p, hp, rfl⟩
    exact ⟨s, l, p, hs, hl, hp, rfl⟩
  · rintro ⟨s, l, p, hs, hl, hp, rfl⟩
    exact ⟨s, hs, l, hl, p, hp, rfl⟩

theorem slotAddresses_nodup (shelves layers spotsPerLayer : Int) :
    (slotAddresses shelves layers spotsPerLayer).Nodup := by
  unfold slotAddresses
  rw [List.nodup_flatMap]
  constructor
  · intro s _
    rw [List.nodup_flatMap]
    constructor
    · intro l _
      refine List.Nodup.map_on ?_ (List.nodup_range _)
      intro p _ p2 _ h
      exact (slotAddress_injective _ _ _ _ _ _ h).2.2
    · refine (List.nodup_range _).pairwise_of_forall_ne ?_
      intro l _ l2 _ hne a ha ha2
      simp only [List.mem_map, List.mem_range] at ha ha2
      obtain ⟨p, -, rfl⟩ := ha
      obtain ⟨p2, -, h2⟩ := ha2
      exact hne (slotAddress_injective _ _ _ _ _ _ h2).2.1.symm
  · refine (List.nodup_range _).pairwise_of_forall_ne ?_
    intro s _ s2 _ hne a ha ha2
    simp only [List.mem_flatMap, List.mem_map, List.mem_range] at ha ha2
    obtain ⟨l, -, p, -, rfl⟩ := ha
    obtain ⟨l2, -, p2, -, h2⟩ := ha2
    exact hne (slotAddress_injective _ _ _ _ _ _ h2).1.symm

/-! ## StorageZone: the address partition -/

theorem addressInv_of_perm (shelves layers spotsPerLayer : Int) (z z2 : StorageZone)
    (hp : (allAddresses z2).Perm (allAddresses z))
    (h : AddressInv shelves layers spotsPerLayer z) :
    AddressInv shelves layers spotsPerLayer z2 := by
  obtain ⟨h1, h2, h3⟩ := h
  refine ⟨hp.nodup_iff.mpr h1, fun a ha => hp.mem_iff.mpr (h2 a ha), fun a ha => ?_⟩
  rw [hp.length_eq]
  exact h3 a (hp.mem_iff.mp ha)

theorem allAddresses_take (z : StorageZone) (key : CategoryKey) (amount : Int) :
    (allAddresses (takeFromStorage z key amount).2).Perm (allAddresses z) := by
  obtain ⟨dropped, h1, h2⟩ := takeLoop_addresses key z.records_ amount z.freeAddresses_
  simp only [allAddresses, recordAddresses, takeFromStorage]
  rw [h1]
  have h3 : ((takeLoop key z.records_ amount z.freeAddresses_).records.map
      (fun r => r.address) ++ (z.freeAddresses_ ++ dropped)).Perm
      (((takeLoop key z.records_ amount z.freeAddresses_).records.map
        (fun r => r.address) ++ dropped) ++ z.freeAddresses_) := by
    rw [List.append_assoc]
    exact List.Perm.append_left _ List.perm_append_comm
  exact h3.trans (List.Perm.append_right _ h2)

theorem cons_eraseIdx_perm (l : List String) (idx : Nat) (h : idx < l.length) :
    (l.getD idx "" :: l.eraseIdx idx).Perm l := by
  induction l generalizing idx with
  | nil => simp at h
  | cons x xs ih =>
    cases idx with
    | zero => simp
    | succ i =>
      have hi : i < xs.length := by simpa using h
      simp only [List.getD_cons_succ, List.eraseIdx_cons_succ]
      exact (List.Perm.swap _ _ _).trans (List.Perm.cons _ (ih i hi))

theorem allAddresses_place_free (z : StorageZone) (pallet : Pallet) (idx : Nat)
    (hne : z.freeAddresses_ ≠ []) (hidx : idx < z.freeAddresses_.length) :
    (allAddresses (placePallet z pallet idx).2).Perm (allAddresses z) := by
  have hemp : z.freeAddresses_.isEmpty = false := by
    cases hf : z.freeAddresses_ with
    | nil => exact absurd hf hne
    | cons _ _ => rfl
  simp only [allAddresses, recordAddresses, placePallet, allocateAddress, hemp,
    Bool.false_eq_true, if_false, List.map_append, List.map_cons, List.map_nil,
    List.append_assoc, List.singleton_append]
  exact List.Perm.append_left _ (cons_eraseIdx_perm _ _ hidx)

theorem allAddresses_place_overflow (z : StorageZone) (pallet : Pallet) (idx : Nat)
    (hfree : z.freeAddresses_ = []) :
    allAddresses (placePallet z pallet idx).2 =
      allAddresses z ++ ["OVERFLOW-" ++ toString (allAddresses z).length] := by
  simp [allAddresses, recordAddresses, placePallet, allocateAddress, hfree]

theorem addressInv_start (shelves layers spotsPerLayer : Int) :
    AddressInv shelves layers spotsPerLayer
      (StorageZone.create shelves layers spotsPerLayer) := by
  refine ⟨?_, ?_, ?_⟩
  · simpa [allAddresses, recordAddresses, StorageZone.create] using
      slotAddresses_nodup shelves layers spotsPerLayer
  · intro a ha
    simpa [allAddresses, recordAddresses, StorageZone.create] using ha
  · intro a ha
    left
    simpa [allAddresses, recordAddresses, StorageZone.create] using ha

theorem addressInv_place (shelves layers spotsPerLayer : Int) (z : StorageZone)
    (pallet : Pallet) (idx : Nat)
    (hidx : z.freeAddresses_ ≠ [] → idx < z.freeAddresses_.length)
    (h : AddressInv shelves layers spotsPerLayer z) :
    AddressInv shelves layers spotsPerLayer (placePallet z pallet idx).2 := by
  by_cases hfree : z.freeAddresses_ = []
  · obtain ⟨h1, h2, h3⟩ := h
    have hnew : "OVERFLOW-" ++ toString (allAddresses z).length ∉ allAddresses z := by
      intro hmem
      rcases h3 _ hmem with hs | ⟨m, hm, heq⟩
      · obtain ⟨s, l, p, -, -, -, hsl⟩ := (mem_slotAddresses _ _ _ _).mp hs
        exact slotAddress_ne_overflow s l p _ hsl.symm
      · have := overflow_injective _ _ heq
        omega
    rw [AddressInv, allAddresses_place_overflow z pallet idx hfree]
    refine ⟨?_, ?_, ?_⟩
    · rw [List.nodup_append]
      refine ⟨h1, List.nodup_singleton _, ?_⟩
      intro a ha ha2
      simp only [List.mem_singleton] at ha2
      rw [ha2] at ha
      exact hnew ha
    · intro a ha
      exact List.mem_append_left _ (h2 a ha)
    · intro a ha
      rw [List.length_append, List.length_singleton]
      rcases List.mem_append.mp ha with h4 | h4
      · rcases h3 a h4 with hs | ⟨m, hm, heq⟩
        · exact Or.inl hs
        · exact Or.inr ⟨m, by omega, heq⟩
      · simp only [List.mem_singleton] at h4
        exact Or.inr ⟨(allAddresses z).length, by omega, h4⟩
  · exact addressInv_of_perm _ _ _ _ _
      (allAddresses_place_free z pallet idx hfree (hidx hfree)) h

theorem addressInv_reachable {shelves layers spotsPerLayer : Int} {z : StorageZone}
    {ok : Pallet → Prop} (h : StorageReachable ok shelves layers spotsPerLayer z) :
    AddressInv shelves layers spotsPerLayer z := by
  induction h with
  | start => exact addressInv_start _ _ _
  | place pallet idx _ _ hidx ih => exact addressInv_place _ _ _ _ pallet idx hidx ih
  | take category amountRequested _ ih =>
    exact addressInv_of_perm _ _ _ _ _ (allAddresses_take _ category amountRequested) ih

/-- C7. In every state reachable from a freshly constructed zone by
`placePallet` (any pallet, any index of the free list as the random draw) and
`takeFromStorage`: the addresses on the records are pairwise distinct, the
free pool has no duplicates, no address is both free and on a record, every
address of the shelves × layers × spots space is either free (and on no
record) or on exactly one record (and not free), and the address that the next
`placePallet` issues, an overflow address included, is on no record at that
moment. -/
theorem storage_address_partition (shelves layers spotsPerLayer : Int)
    (z : StorageZone)
    (h : StorageReachable (fun _ => True) shelves layers spotsPerLayer z) :
    (recordAddresses z).Nodup ∧
    z.freeAddresses_.Nodup ∧
    (∀ a, a ∈ z.freeAddresses_ → a ∉ recordAddresses z) ∧
    (∀ a ∈ slotAddresses shelves layers spotsPerLayer,
      (a ∈ z.freeAddresses_ ∧ (recordAddresses z).count a = 0) ∨
      (a ∉ z.freeAddresses_ ∧ (recordAddresses z).count a = 1)) ∧
    (∀ (pallet : Pallet) (idx : Nat),
      (z.freeAddresses_ ≠ [] → idx < z.freeAddresses_.length) →
      (placePallet z pallet idx).1 ∉ recordAddresses z ∧
      (recordAddresses (placePallet z pallet idx).2).Nodup) := by
  obtain ⟨h1, h2, -⟩ := addressInv_reachable h
  unfold allAddresses at h1 h2
  rw [List.nodup_append] at h1
  obtain ⟨hrec, hfree, hdisj⟩ := h1
  refine ⟨hrec, hfree, fun a ha ha2 => hdisj ha2 ha, ?_, ?_⟩
  · intro a ha
    rcases List.mem_append.mp (h2 a ha) with hm | hm
    · right
      exact ⟨fun hf => hdisj hm hf, List.count_eq_one_of_mem hrec hm⟩
    · left
      exact ⟨hm, List.count_eq_zero_of_not_mem (fun hr => hdisj hr hm)⟩
  · intro pallet idx hidx
    have hnext := (addressInv_reachable
      (StorageReachable.place pallet idx h trivial hidx)).1
    unfold allAddresses at hnext
    rw [List.nodup_append] at hnext
    have hn := hnext.1
    refine ⟨?_, hn⟩
    unfold recordAddresses at hn
    rw [placePallet_records, List.map_append, List.nodup_append] at hn
    intro hmem
    exact hn.2.2 hmem (by simp)

theorem overflowedZone_reachable_any :
    StorageReachable (fun _ => True) 1 1 1 overflowedZone :=
  StorageReachable.place palletMixed 0
    (StorageReachable.place palletFive 0 StorageReachable.start trivial
      (fun _ => by decide))
    trivial (fun hne => absurd rfl hne)

/-- Witness for C7: the one-slot zone after two placements, one of them at an
overflow address. -/
theorem storage_address_partition_witness :
    StorageReachable (fun _ => True) 1 1 1 overflowedZone ∧
    recordAddresses overflowedZone = ["S0-L0-P0", "OVERFLOW-1"] ∧
    (recordAddresses overflowedZone).Nodup ∧
    overflowedZone.freeAddresses_.Nodup :=
  ⟨overflowedZone_reachable_any, by decide,
    (storage_address_partition 1 1 1 overflowedZone overflowedZone_reachable_any).1,
    (storage_address_partition 1 1 1 overflowedZone overflowedZone_reachable_any).2.1⟩

/-! ## ShippingZone -/

theorem dockAssign_last (m : DockMap) (key : Int) (dock : DockInfo)
    (h : ∀ e ∈ m, e.1 < key) : dockAssign m key dock = m ++ [(key, dock)] := by
  induction m with
  | nil => rfl
  | cons e rest ih =>
    obtain ⟨k, d⟩ := e
    have hk : k < key := h (k, d) (List.mem_cons_self _ _)
    have h1 : ¬ key < k := by omega
    have h2 : ¬ key = k := by omega
    simp only [dockAssign, h1, h2, if_false, List.cons_append]
    rw [ih (fun e he => h e (List.mem_cons_of_mem _ he))]

theorem mem_dockErase (m : DockMap) (key : Int) (e : Int × DockInfo) :
    e ∈ dockErase m key ↔ e ∈ m ∧ e.1 ≠ key := by
  simp [dockErase]

/-- What the loop of `tryMatch` does: with no matching dock, nothing; otherwise
it stops at the first matching entry and raises its `occupied`. -/
theorem matchLoop_spec (city : String) (pallets : Int) (m : DockMap) :
    (matchLoop city pallets m = none ∧ ∀ e ∈ m, dockMatches city pallets e.2 = false) ∨
    (∃ (before after : DockMap) (id : Int) (dock : DockInfo),
      m = before ++ (id, dock) :: after ∧
      (∀ e ∈ before, dockMatches city pallets e.2 = false) ∧
      dockMatches city pallets dock = true ∧
      matchLoop city pallets m =
        some (before ++ (id, { dock with occupied := dock.occupied + pallets }) :: after,
          if dock.occupied + pallets = dock.slots then id else -1)) := by
  induction m with
  | nil => left; simp [matchLoop]
  | cons e rest ih =>
    obtain ⟨k, d⟩ := e
    by_cases hm : dockMatches city pallets d = true
    · right
      refine ⟨[], rest, k, d, rfl, by simp, hm, ?_⟩
      simp [matchLoop, hm]
    · have hm2 : dockMatches city pallets d = false := by simpa using hm
      rcases ih with ⟨hn, hall⟩ | ⟨before, after, id, dock, hsplit, hbefore, hdock, hres⟩
      · left
        refine ⟨by simp [matchLoop, hm2, hn], ?_⟩
        intro e he
        rcases List.mem_cons.mp he with h | h
        · rw [h]; exact hm2
        · exact hall e h
      · right
        refine ⟨(k, d) :: before, after, id, dock, by simp [hsplit], ?_, hdock, ?_⟩
        · intro e he
          rcases List.mem_cons.mp he with h | h
          · rw [h]; exact hm2
          · exact hbefore e h
        · simp [matchLoop, hm2, hres]

theorem pairwise_split_keys (before after : DockMap) (id : Int) (dock : DockInfo)
    (h : (before ++ (id, dock) :: after).Pairwise (fun a b => a.1 < b.1)) :
    (∀ e ∈ before, e.1 < id) ∧ (∀ e ∈ after, id < e.1) := by
  rw [List.pairwise_append] at h
  obtain ⟨-, h2, h3⟩ := h
  rw [List.pairwise_cons] at h2
  exact ⟨fun e he => h3 e he (id, dock) (List.mem_cons_self _ _), fun e he => h2.1 e he⟩

theorem dockErase_split (before after : DockMap) (id : Int) (dock : DockInfo)
    (hb : ∀ e ∈ before, e.1 < id) (ha : ∀ e ∈ after, id < e.1) :
    dockErase (before ++ (id, dock) :: after) id = before ++ after := by
  unfold dockErase
  rw [List.filter_append, List.filter_cons]
  have h1 : before.filter (fun e => e.1 != id) = before := by
    rw [List.filter_eq_self]
    intro e he
    have := hb e he
    simp only [bne_iff_ne, ne_eq]
    omega
  have h2 : after.filter (fun e => e.1 != id) = after := by
    rw [List.filter_eq_self]
    intro e he
    have := ha e he
    simp only [bne_iff_ne, ne_eq]
    omega
  simp [h1, h2]

/-- One attempt of `tryLoad` on a well-formed registry: it fails and changes
nothing when no dock matches; otherwise it succeeds on the first matching
entry, which is removed when the load fills it and has its `occupied` raised
by `pallets` otherwise, all other entries staying as they are. -/
theorem tryLoad_spec (z : ShippingZone) (city : String) (pallets : Int)
    (hwf : ShippingWF z) :
    ((∀ e ∈ z.docks_, dockMatches city pallets e.2 = false) ∧
      tryLoad z city pallets = (false, z)) ∨
    (∃ (before after : DockMap) (id : Int) (dock : DockInfo),
      z.docks_ = before ++ (id, dock) :: after ∧
      (∀ e ∈ before, dockMatches city pallets e.2 = false) ∧
      dockMatches city pallets dock = true ∧
      tryLoad z city pallets =
        (true, { z with docks_ :=
          if dock.occupied + pallets = dock.slots then before ++ after
          else before ++ (id, { dock with occupied := dock.occupied + pallets }) ::
            after })) := by
  rcases matchLoop_spec city pallets z.docks_ with
    ⟨hn, hall⟩ | ⟨before, after, id, dock, hsplit, hbefore, hdock, hres⟩
  · left
    exact ⟨hall, by simp [tryLoad, tryMatch, hn]⟩
  · right
    refine ⟨before, after, id, dock, hsplit, hbefore, hdock, ?_⟩
    have hid : 0 ≤ id := (hwf.2 (id, dock) (by rw [hsplit]; simp)).1
    have hkeys := pairwise_split_keys before after id dock (by rw [← hsplit]; exact hwf.1)
    simp only [tryLoad, tryMatch, hres]
    by_cases hfull : dock.occupied + pallets = dock.slots
    · simp only [hfull, if_true, ge_iff_le, hid]
      rw [dockErase_split before after id _ hkeys.1 hkeys.2]
    · simp [hfull]

theorem wf_create (n : Int) : ShippingWF (ShippingZone.create n) := by
  simp [ShippingWF, ShippingZone.create]

theorem wf_step (z : ShippingZone) (op : ShippingOp) (hwf : ShippingWF z)
    (hnext : 0 ≤ z.nextDockId_) :
    ShippingWF (stepShipping z op) ∧ z.nextDockId_ ≤ (stepShipping z op).nextDockId_ := by
  obtain ⟨hsorted, hkeys⟩ := hwf
  cases op with
  | arrival city slots =>
    have hlast : ∀ e ∈ z.docks_, e.1 < z.nextDockId_ := fun e he => (hkeys e he).2.1
    simp only [stepShipping, registerTruckArrival, dockAssign_last _ _ _ hlast]
    refine ⟨⟨?_, ?_⟩, by omega⟩
    · rw [List.pairwise_append]
      refine ⟨hsorted, by simp, ?_⟩
      intro a ha b hb
      simp only [List.mem_singleton] at hb
      rw [hb]
      exact hlast a ha
    · intro e he
      rcases List.mem_append.mp he with h | h
      · have := hkeys e h
        refine ⟨this.1, ?_, this.2.2⟩
        show e.1 < z.nextDockId_ + 1
        omega
      · simp only [List.mem_singleton] at h
        rw [h]
        exact ⟨hnext, by simp, rfl⟩
  | load city pallets =>
    refine ⟨?_, ?_⟩
    · rcases tryLoad_spec z city pallets ⟨hsorted, hkeys⟩ with
        ⟨-, hres⟩ | ⟨before, after, id, dock, hsplit, -, -, hres⟩
      · simp only [stepShipping, hres]
        exact ⟨hsorted, hkeys⟩
      · simp only [stepShipping, hres]
        rw [hsplit] at hsorted hkeys
        have hk := pairwise_split_keys before after id dock hsorted
        rw [List.pairwise_append] at hsorted
        obtain ⟨p1, p2, p3⟩ := hsorted
        rw [List.pairwise_cons] at p2
        by_cases hfull : dock.occupied + pallets = dock.slots
        · simp only [hfull, if_true]
          refine ⟨?_, ?_⟩
          · rw [List.pairwise_append]
            exact ⟨p1, p2.2, fun a ha b hb => p3 a ha b (List.mem_cons_of_mem _ hb)⟩
          · intro e he
            apply hkeys e
            rcases List.mem_append.mp he with h | h
            · exact List.mem_append_left _ h
            · exact List.mem_append_right _ (List.mem_cons_of_mem _ h)
        · simp only [hfull, if_false]
          refine ⟨?_, ?_⟩
          · rw [List.pairwise_append]
            refine ⟨p1, ?_, ?_⟩
            · rw [List.pairwise_cons]
              exact ⟨fun e he => hk.2 e he, p2.2⟩
            · intro a ha b hb
              rcases List.mem_cons.mp hb with h | h
              · rw [h]; exact hk.1 a ha
              · exact p3 a ha b (List.mem_cons_of_mem _ h)
          · intro e he
            rcases List.mem_append.mp he with h | h
            · exact hkeys e (List.mem_append_left _ h)
            · rcases List.mem_cons.mp h with h1 | h1
              · rw [h1]
                exact hkeys (id, dock) (List.mem_append_right _ (List.mem_cons_self _ _))
              · exact hkeys e (List.mem_append_right _ (List.mem_cons_of_mem _ h1))
    · simp only [stepShipping, tryLoad, tryMatch]
      split
      · exact le_refl _
      · split <;> exact le_refl _
  | departure dockId =>
    simp only [stepShipping, registerTruckDeparture]
    refine ⟨⟨?_, ?_⟩, le_refl _⟩
    · exact List.Pairwise.sublist (List.filter_sublist _) hsorted
    · intro e he
      exact hkeys e ((mem_dockErase _ _ _).mp he).1

theorem wf_run (ops : List ShippingOp) (z : ShippingZone) (hwf : ShippingWF z)
    (hnext : 0 ≤ z.nextDockId_) :
    ShippingWF (runShipping z ops) ∧ z.nextDockId_ ≤ (runShipping z ops).nextDockId_ := by
  induction ops generalizing z with
  | nil => exact ⟨hwf, le_refl _⟩
  | cons op ops ih =>
    have h1 := wf_step z op hwf hnext
    have h2 := ih (stepShipping z op) h1.1 (by omega)
    simp only [runShipping, List.foldl_cons] at h2 ⊢
    exact ⟨h2.1, by omega⟩

theorem matchLoop_of_split (city : String) (pallets : Int) (before after : DockMap)
    (id : Int) (dock : DockInfo)
    (hbefore : ∀ e ∈ before, dockMatches city pallets e.2 = false)
    (hdock : dockMatches city pallets dock = true) :
    matchLoop city pallets (before ++ (id, dock) :: after) =
      some (before ++ (id, { dock with occupied := dock.occupied + pallets }) :: after,
        if dock.occupied + pallets = dock.slots then id else -1) := by
  induction before with
  | nil => simp [matchLoop, hdock]
  | cons e rest ih =>
    obtain ⟨k, d⟩ := e
    have hd : dockMatches city pallets d = false := hbefore (k, d) (List.mem_cons_self _ _)
    have := ih (fun e he => hbefore e (List.mem_cons_of_mem _ he))
    simp [matchLoop, hd, this]

theorem tryLoad_of_split (z : ShippingZone) (city : String) (pallets : Int)
    (hwf : ShippingWF z) (before after : DockMap) (id : Int) (dock : DockInfo)
    (hsplit : z.docks_ = before ++ (id, dock) :: after)
    (hbefore : ∀ e ∈ before, dockMatches city pallets e.2 = false)
    (hdock : dockMatches city pallets dock = true) :
    tryLoad z city pallets =
      (true, { z with docks_ :=
        if dock.occupied + pallets = dock.slots then before ++ after
        else before ++ (id, { dock with occupied := dock.occupied + pallets }) ::
          after }) := by
  have hres := matchLoop_of_split city pallets before after id dock hbefore hdock
  rw [← hsplit] at hres
  have hid : 0 ≤ id := (hwf.2 (id, dock) (by rw [hsplit]; simp)).1
  have hkeys := pairwise_split_keys before after id dock (by rw [← hsplit]; exact hwf.1)
  simp only [tryLoad, tryMatch, hres]
  by_cases hfull : dock.occupied + pallets = dock.slots
  · simp only [hfull, if_true, ge_iff_le, hid]
    rw [dockErase_split before after id _ hkeys.1 hkeys.2]
  · simp [hfull]

theorem capacity_step (z : ShippingZone) (op : ShippingOp) (hwf : ShippingWF z)
    (hcap : DocksBelowCapacity z) (hadm : op.admissible) :
    DocksBelowCapacity (stepShipping z op) := by
  cases op with
  | arrival city slots =>
    have hlast : ∀ e ∈ z.docks_, e.1 < z.nextDockId_ := fun e he => (hwf.2 e he).2.1
    simp only [stepShipping, registerTruckArrival, dockAssign_last _ _ _ hlast]
    intro e he
    rcases List.mem_append.mp he with h | h
    · exact hcap e h
    · simp only [List.mem_singleton] at h
      rw [h]
      have : 1 ≤ slots := hadm
      exact ⟨le_refl _, by show (0 : Int) < slots; omega⟩
  | load city pallets =>
    have hp : 1 ≤ pallets := hadm
    rcases tryLoad_spec z city pallets hwf with
      ⟨-, hres⟩ | ⟨before, after, id, dock, hsplit, -, hdock, hres⟩
    · simp only [stepShipping, hres]
      exact hcap
    · simp only [stepShipping, hres]
      have hmem : ∀ e, e ∈ before ∨ e ∈ after → e ∈ z.docks_ := by
        intro e he
        rw [hsplit]
        rcases he with h | h
        · exact List.mem_append_left _ h
        · exact List.mem_append_right _ (List.mem_cons_of_mem _ h)
      have hd : 0 ≤ dock.occupied ∧ dock.occupied < dock.slots :=
        hcap (id, dock) (by rw [hsplit]; simp)
      simp only [dockMatches, Bool.and_eq_true, beq_iff_eq, decide_eq_true_eq] at hdock
      by_cases hfull : dock.occupied + pallets = dock.slots
      · simp only [hfull, if_true]
        intro e he
        exact hcap e (hmem e (List.mem_append.mp he))
      · simp only [hfull, if_false]
        intro e he
        rcases List.mem_append.mp he with h | h
        · exact hcap e (hmem e (Or.inl h))
        · rcases List.mem_cons.mp h with h1 | h1
          · rw [h1]
            simp only
            have := hdock.2
            constructor <;> omega
          · exact hcap e (hmem e (Or.inr h1))
  | departure dockId =>
    simp only [stepShipping, registerTruckDeparture]
    intro e he
    exact hcap e ((mem_dockErase _ _ _).mp he).1

theorem capacity_run (ops : List ShippingOp) (z : ShippingZone) (hwf : ShippingWF z)
    (hnext : 0 ≤ z.nextDockId_) (hcap : DocksBelowCapacity z)
    (hadm : ∀ op ∈ ops, op.admissible) :
    DocksBelowCapacity (runShipping z ops) := by
  induction ops generalizing z with
  | nil => exact hcap
  | cons op ops ih =>
    have h1 := wf_step z op hwf hnext
    have h2 := capacity_step z op hwf hcap (hadm op (List.mem_cons_self _ _))
    have := ih (stepShipping z op) h1.1 (by omega) h2
      (fun o ho => hadm o (List.mem_cons_of_mem _ ho))
    simpa only [runShipping, List.foldl_cons] using this

/-- A dock id that has been issued and is no longer in the registry never
comes back, whatever calls follow. -/
theorem removed_dock_stays_removed (ops : List ShippingOp) (z : ShippingZone) (id : Int)
    (hwf : ShippingWF z) (hnext : 0 ≤ z.nextDockId_) (hissued : id < z.nextDockId_)
    (hgone : ∀ e ∈ z.docks_, e.1 ≠ id) :
    ∀ e ∈ (runShipping z ops).docks_, e.1 ≠ id := by
  induction ops generalizing z with
  | nil => exact hgone
  | cons op ops ih =>
    have h1 := wf_step z op hwf hnext
    have hgone2 : ∀ e ∈ (stepShipping z op).docks_, e.1 ≠ id := by
      cases op with
      | arrival city slots =>
        have hlast : ∀ e ∈ z.docks_, e.1 < z.nextDockId_ := fun e he => (hwf.2 e he).2.1
        simp only [stepShipping, registerTruckArrival, dockAssign_last _ _ _ hlast]
        intro e he
        rcases List.mem_append.mp he with h | h
        · exact hgone e h
        · simp only [List.mem_singleton] at h
          rw [h]
          show z.nextDockId_ ≠ id
          omega
      | load city pallets =>
        rcases tryLoad_spec z city pallets hwf with
          ⟨-, hres⟩ | ⟨before, after, k, dock, hsplit, -, -, hres⟩
        · simp only [stepShipping, hres]
          exact hgone
        · simp only [stepShipping, hres]
          rw [hsplit] at hgone
          intro e he
          split at he
          · apply hgone e
            rcases List.mem_append.mp he with h | h
            · exact List.mem_append_left _ h
            · exact List.mem_append_right _ (List.mem_cons_of_mem _ h)
          · rcases List.mem_append.mp he with h | h
            · exact hgone e (List.mem_append_left _ h)
            · rcases List.mem_cons.mp h with h2 | h2
              · rw [h2]
                exact hgone (k, dock) (List.mem_append_right _ (List.mem_cons_self _ _))
              · exact hgone e (List.mem_append_right _ (List.mem_cons_of_mem _ h2))
      | departure dockId =>
        simp only [stepShipping, registerTruckDeparture]
        intro e he
        exact hgone e ((mem_dockErase _ _ _).mp he).1
    have := ih (stepShipping z op) h1.1 (by omega) (by omega) hgone2
    simpa only [runShipping, List.foldl_cons] using this

/-- C11. After any sequence of `registerTruckArrival` (slots ≥ 1), `tryLoad`
(pallets ≥ 1) and `registerTruckDeparture` calls on a fresh zone, every dock in
the registry has `0 ≤ occupied ≤ slots` and none has `occupied = slots`. A
`tryLoad` whose first matching dock is filled by the load succeeds and removes
that dock: after it, whatever calls follow, no entry of the registry has that
id, so neither a later `tryLoad` nor `docksSnapshot` can reach it. -/
theorem docks_never_full (n : Int) (ops : List ShippingOp)
    (hadm : ∀ op ∈ ops, op.admissible) :
    (∀ e ∈ (runShipping (ShippingZone.create n) ops).docks_,
      0 ≤ e.2.occupied ∧ e.2.occupied ≤ e.2.slots ∧ e.2.occupied ≠ e.2.slots) ∧
    (∀ (city : String) (pallets : Int) (before after : DockMap) (id : Int)
        (dock : DockInfo),
      (runShipping (ShippingZone.create n) ops).docks_ = before ++ (id, dock) :: after →
      (∀ e ∈ before, dockMatches city pallets e.2 = false) →
      dockMatches city pallets dock = true →
      dock.occupied + pallets = dock.slots →
      (tryLoad (runShipping (ShippingZone.create n) ops) city pallets).1 = true ∧
      ∀ later : List ShippingOp,
        (∀ e ∈ (runShipping
            (tryLoad (runShipping (ShippingZone.create n) ops) city pallets).2 later).docks_,
          e.1 ≠ id) ∧
        (∀ d ∈ docksSnapshot (runShipping
            (tryLoad (runShipping (ShippingZone.create n) ops) city pallets).2 later),
          d.id ≠ id)) := by
  have hwf := wf_run ops (ShippingZone.create n) (wf_create n) (le_refl _)
  have hcap := capacity_run ops (ShippingZone.create n) (wf_create n) (le_refl _)
    (by simp [DocksBelowCapacity, ShippingZone.create]) hadm
  have hnext : 0 ≤ (runShipping (ShippingZone.create n) ops).nextDockId_ := hwf.2
  generalize runShipping (ShippingZone.create n) ops = z at hwf hcap hnext ⊢
  refine ⟨fun e he => ?_, ?_⟩
  · have := hcap e he
    refine ⟨this.1, by omega, by omega⟩
  · intro city pallets before after id dock hsplit hbefore hdock hfull
    have hres := tryLoad_of_split z city pallets hwf.1 before after id dock hsplit
      hbefore hdock
    simp only [hfull, if_true] at hres
    have hkeys := pairwise_split_keys before after id dock (by rw [← hsplit]; exact hwf.1.1)
    have hstep := wf_step z (ShippingOp.load city pallets) hwf.1 hnext
    simp only [stepShipping] at hstep
    have hissued : id < z.nextDockId_ := (hwf.1.2 (id, dock) (by rw [hsplit]; simp)).2.1
    refine ⟨by rw [hres], fun later => ?_⟩
    have hgone : ∀ e ∈ (tryLoad z city pallets).2.docks_, e.1 ≠ id := by
      rw [hres]
      intro e he
      rcases List.mem_append.mp he with h | h
      · have := hkeys.1 e h
        omega
      · have := hkeys.2 e h
        omega
    have hlater := removed_dock_stays_removed later (tryLoad z city pallets).2 id
      hstep.1 (by omega) (by omega) hgone
    refine ⟨hlater, ?_⟩
    intro d hd
    simp only [docksSnapshot, List.mem_map] at hd
    obtain ⟨e, he, rfl⟩ := hd
    have hwf2 := (wf_run later (tryLoad z city pallets).2 hstep.1 (by omega)).1
    rw [(hwf2.2 e he).2.2]
    exact hlater e he

theorem shippingDay_admissible : ∀ op ∈ shippingDay, op.admissible := by
  intro op hop
  simp only [shippingDay, List.mem_cons, List.mem_singleton, List.not_mem_nil,
    or_false] at hop
  rcases hop with h | h | h <;> subst h <;> simp [ShippingOp.admissible]

/-- Witness for C11: two arrivals and one load. -/
theorem docks_never_full_witness :
    (∀ op ∈ shippingDay, op.admissible) ∧
    (runShipping (ShippingZone.create 6) shippingDay).docks_ =
      [(0, { id := 0, city := "Chengdu", slots := 2, occupied := 1 }),
       (1, { id := 1, city := "Beijing", slots := 1, occupied := 0 })] ∧
    ∀ e ∈ (runShipping (ShippingZone.create 6) shippingDay).docks_,
      0 ≤ e.2.occupied ∧ e.2.occupied ≤ e.2.slots ∧ e.2.occupied ≠ e.2.slots :=
  ⟨shippingDay_admissible, by decide,
    (docks_never_full 6 shippingDay shippingDay_admissible).1⟩

/-- C12, as the code has it. On a registry reached from a fresh zone, one
attempt of `tryLoad(city, count)` returns true if and only if some registered
dock has that city and `occupied + count ≤ slots`. On failure nothing changes.
On success the dock concerned is the matching dock with the smallest id; it
is removed from the registry when the load makes `occupied` equal to `slots`
and has its `occupied` raised by `count` otherwise; every other dock and the
id counter are unchanged. -/
theorem tryLoad_frame (n : Int) (ops : List ShippingOp) (city : String) (pallets : Int) :
    ((tryLoad (runShipping (ShippingZone.create n) ops) city pallets).1 = true ↔
      ∃ e ∈ (runShipping (ShippingZone.create n) ops).docks_,
        e.2.city = city ∧ e.2.occupied + pallets ≤ e.2.slots) ∧
    ((tryLoad (runShipping (ShippingZone.create n) ops) city pallets).1 = false →
      (tryLoad (runShipping (ShippingZone.create n) ops) city pallets).2 =
        runShipping (ShippingZone.create n) ops) ∧
    ((tryLoad (runShipping (ShippingZone.create n) ops) city pallets).1 = true →
      ∃ (before after : DockMap) (id : Int) (dock : DockInfo),
        (runShipping (ShippingZone.create n) ops).docks_ = before ++ (id, dock) :: after ∧
        dock.city = city ∧ dock.occupied + pallets ≤ dock.slots ∧
        (∀ e ∈ (runShipping (ShippingZone.create n) ops).docks_,
          e.2.city = city → e.2.occupied + pallets ≤ e.2.slots → id ≤ e.1) ∧
        (tryLoad (runShipping (ShippingZone.create n) ops) city pallets).2.nextDockId_ =
          (runShipping (ShippingZone.create n) ops).nextDockId_ ∧
        (tryLoad (runShipping (ShippingZone.create n) ops) city pallets).2.docks_ =
          if dock.occupied + pallets = dock.slots then before ++ after
          else before ++ (id, { dock with occupied := dock.occupied + pallets }) ::
            after) := by
  have hwf := (wf_run ops (ShippingZone.create n) (wf_create n) (le_refl _)).1
  generalize runShipping (ShippingZone.create n) ops = z at hwf ⊢
  have hmatch : ∀ d : DockInfo, dockMatches city pallets d = true ↔
      (d.city = city ∧ d.occupied + pallets ≤ d.slots) := by
    intro d
    simp [dockMatches]
  rcases tryLoad_spec z city pallets hwf with
    ⟨hall, hres⟩ | ⟨before, after, id, dock, hsplit, hbefore, hdock, hres⟩
  · refine ⟨?_, fun _ => by rw [hres], fun h => by rw [hres] at h; simp at h⟩
    rw [hres]
    constructor
    · intro h; simp at h
    · rintro ⟨e, he, h1, h2⟩
      have := hall e he
      rw [(hmatch e.2).mpr ⟨h1, h2⟩] at this
      simp at this
  · have hkeys := pairwise_split_keys before after id dock (by rw [← hsplit]; exact hwf.1)
    refine ⟨?_, fun h => by rw [hres] at h; simp at h, fun _ => ?_⟩
    · rw [hres]
      simp only [true_iff]
      exact ⟨(id, dock), by rw [hsplit]; simp, (hmatch dock).mp hdock⟩
    · refine ⟨before, after, id, dock, hsplit, ((hmatch dock).mp hdock).1,
        ((hmatch dock).mp hdock).2, ?_, by rw [hres], by rw [hres]⟩
      intro e he h1 h2
      rw [hsplit] at he
      rcases List.mem_append.mp he with h | h
      · have := hbefore e h
        rw [(hmatch e.2).mpr ⟨h1, h2⟩] at this
        simp at this
      · rcases List.mem_cons.mp h with h3 | h3
        · rw [h3]
        · have := hkeys.2 e h3
          omega

/-- Counterexample to C12 as stated. The registry holds one dock for Chengdu
with one slot and nothing loaded; `tryLoad("Chengdu", 1)` succeeds, and
afterwards the registry is empty: no dock has `occupied` increased by the
count, the matching dock is gone. -/
theorem tryLoad_removes_filled_dock :
    singleSlotDock.docks_ =
      [(0, { id := 0, city := "Chengdu", slots := 1, occupied := 0 })] ∧
    (tryLoad singleSlotDock "Chengdu" 1).1 = true ∧
    (tryLoad singleSlotDock "Chengdu" 1).2.docks_ = [] ∧
    ¬ ∃ e ∈ (tryLoad singleSlotDock "Chengdu" 1).2.docks_, e.2.occupied = 0 + 1 := by
  decide

/-! ## Order statistics -/
theorem mem_stateNames (s : String) :
    s ∈ stateNames ↔
      s = "waiting" ∨ s = "queued" ∨ s = "active" ∨ s = "partial" ∨ s = "complete" := by
  simp [stateNames]

theorem counterOf_cases (c : OrderStateCounters) (r : String) :
    (r = "waiting" ∧ counterOf c r = c.waiting) ∨
    (r = "queued" ∧ counterOf c r = c.pickingQueued) ∨
    (r = "active" ∧ counterOf c r = c.activelyPicking) ∨
    (r = "partial" ∧ counterOf c r = c.partiallyShipped) ∨
    (r = "complete" ∧ counterOf c r = c.completed) ∨
    (r ∉ stateNames ∧ counterOf c r = 0) := by
  by_cases h1 : r = "waiting"
  · left; subst h1; simp [counterOf]
  by_cases h2 : r = "queued"
  · right; left; subst h2; simp [counterOf]
  by_cases h3 : r = "active"
  · right; right; left; subst h3; simp [counterOf]
  by_cases h4 : r = "partial"
  · right; right; right; left; subst h4; simp [counterOf]
  by_cases h5 : r = "complete"
  · right; right; right; right; left; subst h5; simp [counterOf]
  · right; right; right; right; right
    simp [counterOf, mem_stateNames, h1, h2, h3, h4, h5]

theorem counterOf_increment (c : OrderStateCounters) (s r : String) (hs : s ∈ stateNames) :
    counterOf (incrementState c s) r = counterOf c r + (if r = s then 1 else 0) := by
  rw [mem_stateNames] at hs
  rcases hs with h | h | h | h | h <;> subst h <;>
    rcases counterOf_cases c r with ⟨hr, -⟩ | ⟨hr, -⟩ | ⟨hr, -⟩ | ⟨hr, -⟩ | ⟨hr, -⟩ | ⟨hr, -⟩ <;>
    first
      | (subst hr; simp [incrementState, counterOf])
      | (rw [mem_stateNames] at hr
         simp only [not_or] at hr
         simp [incrementState, counterOf, hr])

theorem counterOf_decrement (c : OrderStateCounters) (p r : String) (hp : p ∈ stateNames)
    (hpos : 0 < counterOf c p) :
    counterOf (decrementState c p) r = counterOf c r - (if r = p then 1 else 0) := by
  rw [mem_stateNames] at hp
  rcases hp with h | h | h | h | h <;> subst h <;>
    simp [counterOf] at hpos <;>
    rcases counterOf_cases c r with ⟨hr, -⟩ | ⟨hr, -⟩ | ⟨hr, -⟩ | ⟨hr, -⟩ | ⟨hr, -⟩ | ⟨hr, -⟩ <;>
    first
      | (subst hr; simp [decrementState, counterOf, hpos])
      | (rw [mem_stateNames] at hr
         simp only [not_or] at hr
         simp [decrementState, counterOf, hr, hpos])

theorem counterSum_eq (c : OrderStateCounters) :
    counterSum c = (stateNames.map (counterOf c)).sum := by
  simp [counterSum, stateNames, counterOf]
  ring



theorem countP_kerase (r : String) (id : Int) :
    ∀ l : List (Sigma (fun _ : Int => String)),
      List.countP (fun e => e.2 == r) (List.kerase id l) +
          (if List.dlookup id l = some r then 1 else 0) =
        List.countP (fun e => e.2 == r) l := by
  intro l
  induction l with
  | nil => simp
  | cons e t ih =>
    obtain ⟨k, v⟩ := e
    by_cases hk : k = id
    · subst hk
      simp only [List.kerase_cons_eq, List.dlookup_cons_eq, Option.some.injEq,
        List.countP_cons, beq_iff_eq]
    · rw [List.kerase_cons_ne (fun h => hk h.symm),
        List.dlookup_cons_ne _ _ (fun h => hk h.symm),
        List.countP_cons, List.countP_cons]
      omega

theorem ordersInState_insert (m : AList (fun _ : Int => String)) (id : Int) (s r : String) :
    (ordersInState (m.insert id s) r : Int) +
        (if m.lookup id = some r then 1 else 0) =
      ordersInState m r + (if r = s then 1 else 0) := by
  have h := countP_kerase r id m.entries
  have hl : m.lookup id = List.dlookup id m.entries := rfl
  simp only [ordersInState, AList.insert_entries, List.countP_cons, beq_iff_eq, hl]
  by_cases hsr : s = r
  · subst hsr
    simp only [if_true] at h ⊢
    split_ifs at h ⊢ <;> push_cast <;> omega
  · have hrs : ¬ r = s := fun h => hsr h.symm
    simp only [hsr, hrs, if_false] at h ⊢
    split_ifs at h ⊢ <;> push_cast <;> omega

theorem ordersInState_erase (m : AList (fun _ : Int => String)) (id : Int) (r : String) :
    (ordersInState (m.erase id) r : Int) + (if m.lookup id = some r then 1 else 0) =
      ordersInState m r := by
  have h := countP_kerase r id m.entries
  have hl : m.lookup id = List.dlookup id m.entries := rfl
  have he : (m.erase id).entries = List.kerase id m.entries := rfl
  simp only [ordersInState, he, hl]
  split_ifs at h ⊢ <;> omega

theorem entries_insert_known (m : AList (fun _ : Int => String)) (id : Int) (s : String)
    (hm : ∀ e ∈ m.entries, e.2 ∈ stateNames) (hs : s ∈ stateNames) :
    ∀ e ∈ (m.insert id s).entries, e.2 ∈ stateNames := by
  intro e he
  rw [AList.insert_entries] at he
  rcases List.mem_cons.mp he with h | h
  · rw [h]; exact hs
  · exact hm e ((List.kerase_sublist id m.entries).subset h)

theorem entries_erase_known (m : AList (fun _ : Int => String)) (id : Int)
    (hm : ∀ e ∈ m.entries, e.2 ∈ stateNames) :
    ∀ e ∈ (m.erase id).entries, e.2 ∈ stateNames := by
  intro e he
  exact hm e ((List.kerase_sublist id m.entries).subset he)

theorem tracked_state_known (w : WarehouseStats) (hinv : StatsInv w) (id : Int) (p : String)
    (hl : w.orderStateMap_.lookup id = some p) :
    p ∈ stateNames ∧ 0 < counterOf w.orderStates_ p := by
  have hmem : Sigma.mk id p ∈ w.orderStateMap_.entries :=
    AList.mem_lookup_iff.mp (by simp [hl])
  have hp := hinv.2 _ hmem
  refine ⟨hp, ?_⟩
  rw [hinv.1 p hp]
  have := ordersInState_erase w.orderStateMap_ id p
  simp only [hl, if_true] at this
  omega



theorem statsInv_init : StatsInv WarehouseStats.init := by
  refine ⟨fun s _ => ?_, fun e he => ?_⟩
  · rcases counterOf_cases WarehouseStats.init.orderStates_ s with
      ⟨-, h⟩ | ⟨-, h⟩ | ⟨-, h⟩ | ⟨-, h⟩ | ⟨-, h⟩ | ⟨-, h⟩ <;>
      rw [h] <;> simp [WarehouseStats.init, ordersInState]
  · simp [WarehouseStats.init] at he

theorem registerOrder_counters (w : WarehouseStats) (orderId createdAt : Int) :
    (registerOrder w orderId createdAt).orderStates_ =
      incrementState w.orderStates_ "waiting" := by
  simp [registerOrder, incrementState]

theorem statsInv_register (w : WarehouseStats) (orderId createdAt : Int)
    (hinv : StatsInv w) (hnew : w.orderStateMap_.lookup orderId = none) :
    StatsInv (registerOrder w orderId createdAt) := by
  have hw : "waiting" ∈ stateNames := by simp [stateNames]
  refine ⟨fun s hs => ?_, ?_⟩
  · rw [registerOrder_counters, counterOf_increment _ _ _ hw, hinv.1 s hs]
    have := ordersInState_insert w.orderStateMap_ orderId "waiting" s
    simp only [hnew, reduceCtorEq, if_false, add_zero] at this
    simpa [registerOrder] using this.symm
  · exact entries_insert_known _ _ _ hinv.2 hw

theorem updateOrderState_tracked (w : WarehouseStats) (orderId : Int) (state prev : String)
    (hl : w.orderStateMap_.lookup orderId = some prev) :
    updateOrderState w orderId state =
      if state = "" then
        { w with
          orderStates_ := decrementState w.orderStates_ prev
          orderStateMap_ := w.orderStateMap_.erase orderId }
      else
        { w with
          orderStates_ := incrementState (decrementState w.orderStates_ prev) state
          orderStateMap_ := w.orderStateMap_.insert orderId state } := by
  simp only [updateOrderState, hl]

theorem updateOrderState_untracked (w : WarehouseStats) (orderId : Int) (state : String)
    (hl : w.orderStateMap_.lookup orderId = none) :
    updateOrderState w orderId state =
      if ¬ state = "" then
        { w with
          orderStates_ := incrementState w.orderStates_ state
          orderStateMap_ := w.orderStateMap_.insert orderId state }
      else w := by
  simp only [updateOrderState, hl]

theorem empty_not_stateName : ("" : String) ∉ stateNames := by decide

theorem statsInv_update (w : WarehouseStats) (orderId : Int) (state : String)
    (hinv : StatsInv w) (hstate : state ∈ stateNames ∨ state = "") :
    StatsInv (updateOrderState w orderId state) := by
  cases hl : w.orderStateMap_.lookup orderId with
  | none =>
    rw [updateOrderState_untracked w orderId state hl]
    by_cases he : state = ""
    · simpa [he] using hinv
    · have hs : state ∈ stateNames := hstate.resolve_right he
      simp only [he, not_false_eq_true, if_true]
      refine ⟨fun s hs2 => ?_, entries_insert_known _ _ _ hinv.2 hs⟩
      simp only
      rw [counterOf_increment _ _ _ hs, hinv.1 s hs2]
      have := ordersInState_insert w.orderStateMap_ orderId state s
      simp only [hl, reduceCtorEq, if_false, add_zero] at this
      exact this.symm
  | some prev =>
    obtain ⟨hp, hpos⟩ := tracked_state_known w hinv orderId prev hl
    rw [updateOrderState_tracked w orderId state prev hl]
    by_cases he : state = ""
    · simp only [he, if_true]
      refine ⟨fun s hs2 => ?_, entries_erase_known _ _ hinv.2⟩
      simp only
      rw [counterOf_decrement _ _ _ hp hpos, hinv.1 s hs2]
      have := ordersInState_erase w.orderStateMap_ orderId s
      simp only [hl, Option.some.injEq] at this
      by_cases hsp : s = prev
      · subst hsp; simp only [if_true] at this ⊢; omega
      · have hps : ¬ prev = s := fun h => hsp h.symm
        simp only [hsp, hps, if_false] at this ⊢; omega
    · have hs : state ∈ stateNames := hstate.resolve_right he
      simp only [he, if_false]
      refine ⟨fun s hs2 => ?_, entries_insert_known _ _ _ hinv.2 hs⟩
      simp only
      rw [counterOf_increment _ _ _ hs, counterOf_decrement _ _ _ hp hpos, hinv.1 s hs2]
      have := ordersInState_insert w.orderStateMap_ orderId state s
      simp only [hl, Option.some.injEq] at this
      by_cases hsp : s = prev
      · subst hsp; simp only [if_true] at this ⊢; omega
      · have hps : ¬ prev = s := fun h => hsp h.symm
        simp only [hsp, hps, if_false] at this ⊢; omega

theorem statsInv_reachable {w : WarehouseStats} (h : StatsReachable w) : StatsInv w := by
  induction h with
  | start => exact statsInv_init
  | register orderId createdAt _ hnew ih => exact statsInv_register _ _ _ ih hnew
  | update orderId state _ hstate ih => exact statsInv_update _ _ _ ih hstate

/-- When every recorded state is one of the five names, the per-state counts add
up to the number of entries. -/
theorem ordersInState_sum (l : List (Sigma (fun _ : Int => String)))
    (hl : ∀ e ∈ l, e.2 ∈ stateNames) :
    (stateNames.map (fun s => List.countP (fun e => e.2 == s) l)).sum = l.length := by
  induction l with
  | nil => simp [stateNames]
  | cons e t ih =>
    have ht := ih (fun x hx => hl x (List.mem_cons_of_mem _ hx))
    have he := hl e (List.mem_cons_self _ _)
    simp only [stateNames, List.map_cons, List.map_nil, List.sum_cons, List.sum_nil,
      List.countP_cons, beq_iff_eq, List.length_cons] at ht ⊢
    rw [mem_stateNames] at he
    rcases he with h | h | h | h | h <;> rw [h] <;> simp <;> omega

theorem counterSum_eq_tracked (w : WarehouseStats) (hinv : StatsInv w) :
    counterSum w.orderStates_ = (trackedOrders w : Int) := by
  have h := ordersInState_sum w.orderStateMap_.entries hinv.2
  have e1 := hinv.1 "waiting" (by simp [stateNames])
  have e2 := hinv.1 "queued" (by simp [stateNames])
  have e3 := hinv.1 "active" (by simp [stateNames])
  have e4 := hinv.1 "partial" (by simp [stateNames])
  have e5 := hinv.1 "complete" (by simp [stateNames])
  simp only [counterOf, ordersInState] at e1 e2 e3 e4 e5
  simp at e1 e2 e3 e4 e5
  simp only [stateNames, List.map_cons, List.map_nil, List.sum_cons, List.sum_nil] at h
  simp only [counterSum, trackedOrders, e1, e2, e3, e4, e5]
  omega



theorem length_kerase_of_lookup (id : Int) (p : String) :
    ∀ l : List (Sigma (fun _ : Int => String)),
      List.dlookup id l = some p → (List.kerase id l).length + 1 = l.length := by
  intro l
  induction l with
  | nil => intro h; simp at h
  | cons e t ih =>
    intro h
    obtain ⟨k, v⟩ := e
    by_cases hk : k = id
    · subst hk
      simp
    · rw [List.dlookup_cons_ne _ _ (fun h => hk h.symm)] at h
      rw [List.kerase_cons_ne (fun h => hk h.symm)]
      simp only [List.length_cons]
      have := ih h
      omega

/-- C13, as the code has it. After any sequence of `registerOrder` calls for
orders that are not tracked at the moment of the call and `updateOrderState`
calls whose state is one of waiting, queued, active, partial, complete or the
empty string (which clears the order), the sum of the five counters equals the
number of orders tracked in the per-order state map. In such a state, moving a
tracked order from its state `p` to a different state `s` of the five lowers
counter `p` by one, raises counter `s` by one, leaves the other counters
unchanged and records `s` for the order. -/
theorem order_counters_match_tracked (w : WarehouseStats) (h : StatsReachable w) :
    counterSum w.orderStates_ = (trackedOrders w : Int) ∧
    ∀ (orderId : Int) (p s : String),
      w.orderStateMap_.lookup orderId = some p → s ∈ stateNames → s ≠ p →
      counterOf (updateOrderState w orderId s).orderStates_ p =
        counterOf w.orderStates_ p - 1 ∧
      counterOf (updateOrderState w orderId s).orderStates_ s =
        counterOf w.orderStates_ s + 1 ∧
      (∀ r : String, r ≠ p → r ≠ s →
        counterOf (updateOrderState w orderId s).orderStates_ r =
          counterOf w.orderStates_ r) ∧
      (updateOrderState w orderId s).orderStateMap_.lookup orderId = some s ∧
      trackedOrders (updateOrderState w orderId s) = trackedOrders w := by
  have hinv := statsInv_reachable h
  refine ⟨counterSum_eq_tracked w hinv, ?_⟩
  intro orderId p s hl hs hsp
  obtain ⟨hp, hpos⟩ := tracked_state_known w hinv orderId p hl
  have hne : ¬ s = "" := fun he => empty_not_stateName (he ▸ hs)
  have hps : ¬ p = s := fun he => hsp he.symm
  rw [updateOrderState_tracked w orderId s p hl]
  simp only [hne, if_false]
  refine ⟨?_, ?_, ?_, AList.lookup_insert _, ?_⟩
  · rw [counterOf_increment _ _ _ hs, counterOf_decrement _ _ _ hp hpos]
    simp [hps]
  · rw [counterOf_increment _ _ _ hs, counterOf_decrement _ _ _ hp hpos]
    simp [hsp]
  · intro r hrp hrs
    rw [counterOf_increment _ _ _ hs, counterOf_decrement _ _ _ hp hpos]
    simp [hrp, hrs]
  · have hlen := length_kerase_of_lookup orderId p w.orderStateMap_.entries hl
    simp only [trackedOrders, AList.insert_entries, List.length_cons]
    omega

theorem busyStats_reachable : StatsReachable busyStats :=
  StatsReachable.update 1 "active"
    (StatsReachable.register 2 5
      (StatsReachable.update 1 "queued"
        (StatsReachable.register 1 0 StatsReachable.start (by decide))
        (Or.inl (by decide)))
      (by decide))
    (Or.inl (by decide))

/-- Witness for C13 (amended): two registered orders, one of them active. -/
theorem order_counters_match_tracked_witness :
    StatsReachable busyStats ∧
    counterSum busyStats.orderStates_ = 2 ∧
    trackedOrders busyStats = 2 ∧
    counterSum busyStats.orderStates_ = (trackedOrders busyStats : Int) :=
  ⟨busyStats_reachable, by decide, by decide,
    (order_counters_match_tracked busyStats busyStats_reachable).1⟩

/-- Counterexample to C13 as stated ("any sequence"). Registering the same order
twice leaves one tracked order and a counter sum of 2; and moving a registered
order to a state name that has no counter leaves one tracked order and a
counter sum of 0. -/
theorem counters_differ_from_tracked_orders :
    counterSum
      (runStats [StatsOp.register 1 0, StatsOp.register 1 0]).orderStates_ = 2 ∧
    trackedOrders (runStats [StatsOp.register 1 0, StatsOp.register 1 0]) = 1 ∧
    counterSum
      (runStats [StatsOp.register 1 0, StatsOp.update 1 "shipped"]).orderStates_ = 0 ∧
    trackedOrders (runStats [StatsOp.register 1 0, StatsOp.update 1 "shipped"]) = 1 := by
  decide

/-! ## The picking handler -/
theorem bumpCount_total (l : List OrderHistogramBucket) (i : Nat) (h : i < l.length) :
    ((bumpCount l i).map (fun b => b.count)).sum = (l.map (fun b => b.count)).sum + 1 := by
  induction l generalizing i with
  | nil => simp at h
  | cons b rest ih =>
    cases i with
    | zero => simp [bumpCount]; ring
    | succ i =>
      have := ih i (by simpa using h)
      simp only [bumpCount, List.map_cons, List.sum_cons, this]
      ring

theorem setBucketBounds_counts (l : List OrderHistogramBucket) (i : Nat) :
    (setBucketBounds l i).map (fun b => b.count) = l.map (fun b => b.count) := by
  induction l generalizing i with
  | nil => rfl
  | cons b rest ih => simp [setBucketBounds, ih]

theorem setBucketBounds_length (l : List OrderHistogramBucket) (i : Nat) :
    (setBucketBounds l i).length = l.length := by
  induction l generalizing i with
  | nil => rfl
  | cons b rest ih => simp [setBucketBounds, ih]

theorem toInt32_of_range (x : Int) (h0 : 0 ≤ x) (h1 : x < 2147483648) : toInt32 x = x := by
  unfold toInt32
  omega

theorem toInt32_bounds (x : Int) : -2147483648 ≤ toInt32 x ∧ toInt32 x ≤ 2147483647 := by
  unfold toInt32
  omega

theorem resizeBuckets_of_le (l : List OrderHistogramBucket) (n : Nat) (h : l.length ≤ n) :
    resizeBuckets l n
      = l ++ List.replicate (n - l.length) { bucketStart := 0, bucketEnd := 0, count := 0 } := by
  unfold resizeBuckets
  rw [List.take_of_length_le h]

theorem bumpCount_length (l : List OrderHistogramBucket) (i : Nat) :
    (bumpCount l i).length = l.length := by
  induction l generalizing i with
  | nil => rfl
  | cons b rest ih =>
    cases i with
    | zero => rfl
    | succ i => simp [bumpCount, ih]

/-- The two branches of `recordOrderCompletion` for an index in the range and a
vector whose size an `int` holds. -/
theorem recordOrderCompletion_eq (w : WarehouseStats) (orderId d : Int)
    (hlen : w.histogram_.length < 2147483648) (hd : indexInRange d) :
    recordOrderCompletion w orderId d
      = some { w with
          histogram_ :=
            bumpCount
              (if toInt32 (Int.tdiv d 1000) ≥ (w.histogram_.length : Int) then
                setBucketBounds
                  (w.histogram_ ++
                    List.replicate ((toInt32 (Int.tdiv d 1000)).toNat + 1 - w.histogram_.length)
                      { bucketStart := 0, bucketEnd := 0, count := 0 }) 0
              else w.histogram_)
              (toInt32 (Int.tdiv d 1000)).toNat
          orderCreationTime_ := w.orderCreationTime_.erase orderId } := by
  obtain ⟨hlo, hhi⟩ := hd
  have hsize : toInt32 (w.histogram_.length : Int) = (w.histogram_.length : Int) :=
    toInt32_of_range _ (by omega) (by omega)
  have hidx : ¬ toInt32 (Int.tdiv d 1000) < 0 := by omega
  have hov : ¬ toInt32 (Int.tdiv d 1000) + 1 > 2147483647 := by omega
  simp only [recordOrderCompletion, hidx, if_false, hsize, hov]
  by_cases hge : toInt32 (Int.tdiv d 1000) ≥ (w.histogram_.length : Int)
  · simp only [hge, if_true]
    rw [resizeBuckets_of_le]
    omega
  · simp only [hge, if_false]

/-- A completion whose index is in the range is recorded, adds one to the total
of the histogram, and leaves a vector whose size an `int` holds. -/
theorem recordOrderCompletion_total (w : WarehouseStats) (orderId d : Int)
    (hlen : w.histogram_.length < 2147483648) (hd : indexInRange d) :
    ∃ w1, recordOrderCompletion w orderId d = some w1 ∧
      histogramTotal w1 = histogramTotal w + 1 ∧
      w1.histogram_.length < 2147483648 := by
  refine ⟨_, recordOrderCompletion_eq w orderId d hlen hd, ?_, ?_⟩
  · obtain ⟨hlo, hhi⟩ := hd
    simp only [histogramTotal]
    by_cases hge : toInt32 (Int.tdiv d 1000) ≥ (w.histogram_.length : Int)
    · simp only [hge, if_true]
      rw [bumpCount_total, setBucketBounds_counts]
      · simp
      · rw [setBucketBounds_length]
        simp only [List.length_append, List.length_replicate]
        omega
    · simp only [hge, if_false]
      rw [bumpCount_total]
      omega
  · obtain ⟨hlo, hhi⟩ := hd
    simp only
    by_cases hge : toInt32 (Int.tdiv d 1000) ≥ (w.histogram_.length : Int)
    · simp only [hge, if_true]
      rw [bumpCount_length, setBucketBounds_length]
      simp only [List.length_append, List.length_replicate]
      omega
    · simp only [hge, if_false]
      rw [bumpCount_length]
      exact hlen

theorem updateOrderState_histogram (w : WarehouseStats) (orderId : Int) (state : String) :
    (updateOrderState w orderId state).histogram_ = w.histogram_ := by
  unfold updateOrderState
  split
  · split <;> rfl
  · split <;> rfl

theorem updateOrderState_total (w : WarehouseStats) (orderId : Int) (state : String) :
    histogramTotal (updateOrderState w orderId state) = histogramTotal w := by
  simp only [histogramTotal, updateOrderState_histogram]

/-- Three runs on a payload whose flag is clear, two of which shipped: exactly one
completion is recorded. -/
theorem threePickers_record_once :
    (runPicking { remaining := ∅, completionRecorded := false } 7 threePickers).2.countP
        (isCompletionCall 7) = 1 ∧
    (runPicking { remaining := ∅, completionRecorded := false } 7 threePickers).2.countP
        (isShippedCall 7) = 1 := by
  decide

/-! ## Warehouse lifecycle -/

/-- Calling `start` on a running warehouse changes nothing. -/
theorem start_when_running (w : Warehouse) (h : w.running_ = true) : w.start = w := by
  cases w
  simp_all [Warehouse.start]

/-- Calling `start` on a warehouse that is not running, stopped or not, sets the
flag and creates `loaderCount` loaders and `managerCount` managers; the
dispatcher is not touched. -/
theorem start_when_not_running (w : Warehouse) (h : w.running_ = false) :
    w.start.running_ = true ∧
    w.start.loaders_.length = w.loaders_.length + w.loaderCount ∧
    w.start.managers_.length = w.managers_.length + w.managerCount ∧
    w.start.dispatcher_.stopping_ = w.dispatcher_.stopping_ := by
  simp [Warehouse.start, h, startLoaders, startManagers]

/-- C15, the code at the failing input: the warehouse of `main` (8 loaders, 2
managers) after `start(); stop()` is not running, its dispatcher is shut
down and its 8 loaders and 2 managers are told to stop; a further `start()`
sets the running flag again and creates 8 more loaders and 2 more managers,
over a dispatcher that stays shut down. -/
theorem start_after_stop_restarts :
    stoppedWarehouse.running_ = false ∧
    stoppedWarehouse.dispatcher_.stopping_ = true ∧
    stoppedWarehouse.loaders_.length = 8 ∧
    stoppedWarehouse.managers_.length = 2 ∧
    stoppedWarehouse.start.running_ = true ∧
    stoppedWarehouse.start.loaders_.length = 16 ∧
    stoppedWarehouse.start.managers_.length = 4 ∧
    stoppedWarehouse.start.dispatcher_.stopping_ = true := by
  decide

end Lab6

namespace Lab7

/-! ## Projections of the queue operations -/

theorem persist_all_messages (q : QueueStore) : (persist_all q).messages_ = q.messages_ := by
  unfold persist_all; split <;> rfl

theorem persist_all_cfg (q : QueueStore) : (persist_all q).cfg_ = q.cfg_ := by
  unfold persist_all; split <;> rfl

theorem cleanup_expired_messages (q : QueueStore) (now : Int) :
    (cleanup_expired q now).messages_ = q.messages_.filter (fun m => !expired now m) := by
  unfold cleanup_expired
  simp only
  split
  · rw [persist_all_messages]
  · rfl

theorem cleanup_expired_cfg (q : QueueStore) (now : Int) :
    (cleanup_expired q now).cfg_ = q.cfg_ := by
  unfold cleanup_expired
  simp only
  split
  · rw [persist_all_cfg]
  · rfl

theorem enqueue_cfg (srt : CreatedSort) (q : QueueStore) (msg : Message) :
    (enqueue srt q msg).cfg_ = q.cfg_ := by
  unfold enqueue sort_if_needed
  rw [persist_all_cfg]
  split <;> rfl

theorem requeue_cfg (srt : CreatedSort) (q : QueueStore) (msg : Message) :
    (requeue srt q msg).cfg_ = q.cfg_ := by
  unfold requeue sort_if_needed
  rw [persist_all_cfg]
  split <;> rfl

theorem enqueue_messages_unsorted (srt : CreatedSort) (q : QueueStore) (msg : Message)
    (h : q.cfg_.order ≠ Order.Sorted) :
    (enqueue srt q msg).messages_ = q.messages_ ++ [msg] := by
  unfold enqueue sort_if_needed
  rw [persist_all_messages, if_pos h]

theorem enqueue_messages_sorted (srt : CreatedSort) (q : QueueStore) (msg : Message)
    (h : q.cfg_.order = Order.Sorted) :
    (enqueue srt q msg).messages_ = srt.sort (q.messages_ ++ [msg]) := by
  unfold enqueue sort_if_needed
  rw [persist_all_messages, if_neg (not_not.mpr h)]

theorem requeue_messages_unsorted (srt : CreatedSort) (q : QueueStore) (msg : Message)
    (h : q.cfg_.order ≠ Order.Sorted) :
    (requeue srt q msg).messages_ = msg :: q.messages_ := by
  unfold requeue sort_if_needed
  rw [persist_all_messages, if_pos h]

theorem requeue_messages_sorted (srt : CreatedSort) (q : QueueStore) (msg : Message)
    (h : q.cfg_.order = Order.Sorted) :
    (requeue srt q msg).messages_ = srt.sort (msg :: q.messages_) := by
  unfold requeue sort_if_needed
  rw [persist_all_messages, if_neg (not_not.mpr h)]

theorem drop_messages (q : QueueStore) (id : String) :
    (drop q id).messages_ = q.messages_.filter (fun m => !decide (m.id = id)) := by
  unfold drop
  simp only
  split
  · rw [persist_all_messages]
  · rename_i h
    have hlen : (q.messages_.filter (fun m => !decide (m.id = id))).length
        = q.messages_.length := not_not.mp h
    exact ((List.filter_sublist q.messages_).eq_of_length hlen).symm

theorem drop_cfg (q : QueueStore) (id : String) : (drop q id).cfg_ = q.cfg_ := by
  unfold drop
  simp only
  split
  · rw [persist_all_cfg]
  · rfl

/-- The buffer left by `cleanup_expired`, as a function of the old buffer. -/
theorem fetch_for_ack_empty (q : QueueStore) (now : Int) (draw : Nat)
    (h : q.messages_.filter (fun m => !expired now m) = []) :
    (fetch_for_ack q now draw).1 = none
      ∧ (fetch_for_ack q now draw).2.messages_ = [] := by
  have h1 : (cleanup_expired q now).messages_ = [] := by rw [cleanup_expired_messages, h]
  unfold fetch_for_ack
  simp only
  split
  · exact ⟨rfl, h1⟩
  · rename_i front rest heq
    rw [h1] at heq; cases heq

theorem fetch_for_ack_head (q : QueueStore) (now : Int) (draw : Nat)
    (front : Message) (rest : List Message)
    (hord : q.cfg_.order ≠ Order.Unordered)
    (h : q.messages_.filter (fun m => !expired now m) = front :: rest) :
    (fetch_for_ack q now draw).1 = some front
      ∧ (fetch_for_ack q now draw).2.messages_ = rest := by
  have h1 : (cleanup_expired q now).messages_ = front :: rest := by
    rw [cleanup_expired_messages, h]
  have h2 : (cleanup_expired q now).cfg_.order ≠ Order.Unordered := by
    rw [cleanup_expired_cfg]; exact hord
  unfold fetch_for_ack
  simp only
  split
  · rename_i heq
    rw [h1] at heq; cases heq
  · rename_i f r heq
    rw [h1] at heq
    cases heq
    rw [if_neg h2]
    exact ⟨rfl, persist_all_messages _⟩

theorem fetch_for_ack_draw (q : QueueStore) (now : Int) (draw : Nat)
    (front : Message) (rest : List Message)
    (hord : q.cfg_.order = Order.Unordered)
    (h : q.messages_.filter (fun m => !expired now m) = front :: rest) :
    (fetch_for_ack q now draw).1 = (front :: rest)[draw % (front :: rest).length]?
      ∧ (fetch_for_ack q now draw).1 ≠ none
      ∧ (fetch_for_ack q now draw).2.messages_
          = (front :: rest).eraseIdx (draw % (front :: rest).length) := by
  have h1 : (cleanup_expired q now).messages_ = front :: rest := by
    rw [cleanup_expired_messages, h]
  have h2 : (cleanup_expired q now).cfg_.order = Order.Unordered := by
    rw [cleanup_expired_cfg]; exact hord
  have hlt : draw % (front :: rest).length < (front :: rest).length :=
    Nat.mod_lt _ (by simp)
  unfold fetch_for_ack
  simp only
  split
  · rename_i heq
    rw [h1] at heq; cases heq
  · rename_i f r heq
    rw [h1] at heq
    cases heq
    rw [if_pos h2]
    split
    · rename_i msg hmsg
      exact ⟨hmsg.symm, by simp, persist_all_messages _⟩
    · rename_i hnone
      rw [List.getElem?_eq_none_iff] at hnone
      omega

theorem fetch_for_ack_cfg (q : QueueStore) (now : Int) (draw : Nat) :
    (fetch_for_ack q now draw).2.cfg_ = q.cfg_ := by
  unfold fetch_for_ack
  simp only
  split
  · exact cleanup_expired_cfg q now
  · split
    · split
      · rw [persist_all_cfg]; exact cleanup_expired_cfg q now
      · exact cleanup_expired_cfg q now
    · rw [persist_all_cfg]; exact cleanup_expired_cfg q now

/-! ## FIFO order -/

theorem enqueueAll_cfg (srt : CreatedSort) (ms : List Message) (q : QueueStore) :
    (enqueueAll srt q ms).cfg_ = q.cfg_ := by
  induction ms generalizing q with
  | nil => rfl
  | cons m ms ih =>
    show (enqueueAll srt (enqueue srt q m) ms).cfg_ = q.cfg_
    rw [ih, enqueue_cfg]

theorem enqueueAll_messages (srt : CreatedSort) (ms : List Message) (q : QueueStore)
    (h : q.cfg_.order ≠ Order.Sorted) :
    (enqueueAll srt q ms).messages_ = q.messages_ ++ ms := by
  induction ms generalizing q with
  | nil => simp [enqueueAll]
  | cons m ms ih =>
    show (enqueueAll srt (enqueue srt q m) ms).messages_ = q.messages_ ++ m :: ms
    rw [ih _ (by rw [enqueue_cfg]; exact h), enqueue_messages_unsorted srt q m h]
    simp

theorem filter_live_eq (now : Int) (l : List Message)
    (h : ∀ m ∈ l, expired now m = false) :
    l.filter (fun m => !expired now m) = l := by
  rw [List.filter_eq_self]
  intro m hm
  simp [h m hm]

theorem fetchMany_fifo (l : List Message) (q : QueueStore) (calls : List (Int × Nat))
    (hord : q.cfg_.order ≠ Order.Unordered)
    (hbuf : q.messages_ = l)
    (hlen : calls.length = l.length + 1)
    (hlive : ∀ m ∈ l, ∀ c ∈ calls, expired c.1 m = false) :
    (fetchMany q calls).1 = l.map some ++ [none]
      ∧ (fetchMany q calls).2.messages_ = [] := by
  induction l generalizing q calls with
  | nil =>
    match calls, hlen with
    | [c], _ =>
      have h := fetch_for_ack_empty q c.1 c.2 (by rw [hbuf]; rfl)
      refine ⟨?_, ?_⟩
      · show [(fetch_for_ack q c.1 c.2).1] = [none]
        rw [h.1]
      · exact h.2
  | cons m l ih =>
    match calls, hlen with
    | c :: rest, hlen =>
      have hf : q.messages_.filter (fun x => !expired c.1 x) = m :: l := by
        rw [hbuf]
        exact filter_live_eq c.1 (m :: l)
          (fun x hx => hlive x hx c (List.mem_cons_self _ _))
      have h := fetch_for_ack_head q c.1 c.2 m l hord hf
      have hrec := ih (fetch_for_ack q c.1 c.2).2 rest
        (by rw [fetch_for_ack_cfg]; exact hord) h.2
        (by simpa using hlen)
        (fun x hx d hd => hlive x (List.mem_cons_of_mem _ hx) d (List.mem_cons_of_mem _ hd))
      refine ⟨?_, hrec.2⟩
      show (fetch_for_ack q c.1 c.2).1 :: (fetchMany (fetch_for_ack q c.1 c.2).2 rest).1
        = some m :: (l.map some ++ [none])
      rw [h.1, hrec.1]

/-- C16. On a FIFO queue that starts with an empty buffer, after
`enqueue(m1), ..., enqueue(mn)` the next `n` calls of `fetch_for_ack` return
`m1, ..., mn` in that order and the call after them returns nothing, when no
message has expired at the instant of any of the calls (in particular when
the messages have no TTL).  For `n = 1`: enqueue then fetch returns the
message. -/
theorem fifo_fetch_order (srt : CreatedSort) (cfg : QueueConfig) (ms : List Message)
    (calls : List (Int × Nat))
    (hfifo : cfg.order = Order.FIFO)
    (hlen : calls.length = ms.length + 1)
    (hlive : ∀ m ∈ ms, ∀ c ∈ calls, expired c.1 m = false) :
    (fetchMany (enqueueAll srt (QueueStore.create cfg) ms) calls).1
      = ms.map some ++ [none] := by
  have hcfg : (enqueueAll srt (QueueStore.create cfg) ms).cfg_ = cfg :=
    enqueueAll_cfg srt ms _
  have hbuf : (enqueueAll srt (QueueStore.create cfg) ms).messages_ = ms := by
    rw [enqueueAll_messages srt ms _ (by show cfg.order ≠ Order.Sorted; rw [hfifo]; decide)]
    rfl
  exact (fetchMany_fifo ms _ calls (by rw [hcfg, hfifo]; decide) hbuf hlen hlive).1

theorem fifo_fetch_order_witness :
    (fetchMany
        (enqueueAll stableSort (QueueStore.create (memoryConfig Order.FIFO))
          [plainMessage "A" 10, timedMessage "B" 20 1, plainMessage "C" 5])
        [(100, 0), (200, 7), (300, 1), (400, 0)]).1
      = [some (plainMessage "A" 10), some (timedMessage "B" 20 1),
          some (plainMessage "C" 5), none] :=
  fifo_fetch_order stableSort (memoryConfig Order.FIFO)
    [plainMessage "A" 10, timedMessage "B" 20 1, plainMessage "C" 5]
    [(100, 0), (200, 7), (300, 1), (400, 0)] rfl rfl (by decide)

/-! ## Requeue round trip -/

theorem live_filter_cons (now : Int) (m : Message) (l : List Message)
    (h : expired now m = false) :
    (m :: l).filter (fun x => !expired now x) = m :: l.filter (fun x => !expired now x) := by
  rw [List.filter_cons_of_pos]
  simp [h]

theorem sort_head (srt : CreatedSort) (m : Message) (rest : List Message)
    (h : ∀ x ∈ rest, m.created < x.created) :
    ∃ tl, srt.sort (m :: rest) = m :: tl := by
  have hperm := srt.perm (m :: rest)
  have hsorted := srt.sorted (m :: rest)
  cases hL : srt.sort (m :: rest) with
  | nil =>
    rw [hL] at hperm
    exact absurd hperm.length_eq (by simp)
  | cons x tl =>
    rw [hL] at hperm hsorted
    have hx : x ∈ m :: rest := hperm.subset (List.mem_cons_self _ _)
    have hm : m ∈ x :: tl := hperm.symm.subset (List.mem_cons_self _ _)
    rcases List.mem_cons.mp hx with hxm | hxr
    · exact ⟨tl, by rw [hxm]⟩
    · rcases List.mem_cons.mp hm with hmx | hmt
      · exact ⟨tl, by rw [hmx]⟩
      · have h1 : x.created ≤ m.created := (List.pairwise_cons.mp hsorted).1 m hmt
        have h2 := h x hxr
        omega

/-- A requeued message that has not expired is returned by the next
`fetch_for_ack` of a FIFO queue, and of a Sorted queue in which every
buffered message was created later. -/
theorem requeue_fetch (srt : CreatedSort) (q : QueueStore) (now : Int) (draw : Nat)
    (m : Message) (hlive : expired now m = false)
    (hord : q.cfg_.order = Order.FIFO
      ∨ (q.cfg_.order = Order.Sorted ∧ ∀ x ∈ q.messages_, m.created < x.created)) :
    (fetch_for_ack (requeue srt q m) now draw).1 = some m := by
  have hcfg : (requeue srt q m).cfg_.order ≠ Order.Unordered := by
    rw [requeue_cfg]
    rcases hord with h | ⟨h, _⟩ <;> rw [h] <;> decide
  rcases hord with h | ⟨h, hlt⟩
  · have hbuf : (requeue srt q m).messages_ = m :: q.messages_ :=
      requeue_messages_unsorted srt q m (by rw [h]; decide)
    exact (fetch_for_ack_head _ now draw m _ hcfg
      (by rw [hbuf]; exact live_filter_cons now m _ hlive)).1
  · obtain ⟨tl, htl⟩ := sort_head srt m q.messages_ hlt
    have hbuf : (requeue srt q m).messages_ = m :: tl := by
      rw [requeue_messages_sorted srt q m h, htl]
    exact (fetch_for_ack_head _ now draw m _ hcfg
      (by rw [hbuf]; exact live_filter_cons now m _ hlive)).1

theorem fetch_for_ack_sublist (q : QueueStore) (now : Int) (draw : Nat) :
    List.Sublist (fetch_for_ack q now draw).2.messages_
      (q.messages_.filter (fun m => !expired now m)) := by
  cases hf : q.messages_.filter (fun m => !expired now m) with
  | nil =>
    rw [(fetch_for_ack_empty q now draw hf).2]
  | cons front rest =>
    by_cases hord : q.cfg_.order = Order.Unordered
    · rw [(fetch_for_ack_draw q now draw front rest hord hf).2.2]
      exact List.eraseIdx_sublist _ _
    · rw [(fetch_for_ack_head q now draw front rest hord hf).2]
      exact List.sublist_cons_self _ _

theorem fetch_for_ack_result_mem (q : QueueStore) (now : Int) (draw : Nat) (m : Message)
    (h : (fetch_for_ack q now draw).1 = some m) :
    m ∈ q.messages_.filter (fun m => !expired now m) := by
  cases hf : q.messages_.filter (fun m => !expired now m) with
  | nil =>
    rw [(fetch_for_ack_empty q now draw hf).1] at h
    cases h
  | cons front rest =>
    by_cases hord : q.cfg_.order = Order.Unordered
    · rw [(fetch_for_ack_draw q now draw front rest hord hf).1] at h
      exact List.getElem?_mem h
    · rw [(fetch_for_ack_head q now draw front rest hord hf).1] at h
      cases h
      exact List.mem_cons_self _ _

/-- C17, as the code has it. Round trip of `requeue`: on a FIFO queue with any buffer
content, and on a Sorted queue whose buffer is non-decreasing by `created` and
in which no message left in the buffer was created at the same instant as `m`:
if `fetch_for_ack` returned `m`, `m` is then requeued, and `m` has not expired at
the instant of the next `fetch_for_ack`, that call returns `m`. -/
theorem requeue_round_trip (srt : CreatedSort) (q : QueueStore) (t1 t2 : Int)
    (d1 d2 : Nat) (m : Message)
    (hfetch : (fetch_for_ack q t1 d1).1 = some m)
    (hlive : expired t2 m = false)
    (hord : q.cfg_.order = Order.FIFO
      ∨ (q.cfg_.order = Order.Sorted ∧ q.messages_.Pairwise createdLE
          ∧ ∀ x ∈ (fetch_for_ack q t1 d1).2.messages_, x.created ≠ m.created)) :
    (fetch_for_ack (requeue srt (fetch_for_ack q t1 d1).2 m) t2 d2).1 = some m := by
  apply requeue_fetch srt _ t2 d2 m hlive
  rw [fetch_for_ack_cfg]
  rcases hord with h | ⟨h, hsorted, hne⟩
  · exact Or.inl h
  · refine Or.inr ⟨h, fun x hx => ?_⟩
    have hord : q.cfg_.order ≠ Order.Unordered := by rw [h]; decide
    cases hf : q.messages_.filter (fun m => !expired t1 m) with
    | nil =>
      rw [(fetch_for_ack_empty q t1 d1 hf).1] at hfetch
      cases hfetch
    | cons front rest =>
      have hh := fetch_for_ack_head q t1 d1 front rest hord hf
      rw [hh.1] at hfetch
      cases hfetch
      have hx2 : x ∈ rest := by rw [← hh.2]; exact hx
      have hs : (m :: rest).Pairwise createdLE := by
        rw [← hf]; exact hsorted.filter _
      have h1 : m.created ≤ x.created := (List.pairwise_cons.mp hs).1 x hx2
      have h2 := hne x hx
      omega

theorem requeue_round_trip_witness :
    (fetch_for_ack
        (requeue stableSort
          (fetch_for_ack
            (queueWith Order.Sorted [timedMessage "A" 1 60, plainMessage "B" 2]) 10 0).2
          (timedMessage "A" 1 60)) 20 0).1
      = some (timedMessage "A" 1 60) :=
  requeue_round_trip stableSort
    (queueWith Order.Sorted [timedMessage "A" 1 60, plainMessage "B" 2]) 10 20 0 0
    (timedMessage "A" 1 60) (by decide) (by decide)
    (Or.inr ⟨rfl, by decide, by decide⟩)

/-- C17, counterexample. On an Unordered queue holding `A` and `B`, a
`fetch_for_ack` returns `A` (draw 0), `A` is requeued, and the next
`fetch_for_ack` returns `B` (draw 1), although `A` has no TTL. -/
theorem unordered_requeue_returns_other :
    (fetch_for_ack (queueWith Order.Unordered [plainMessage "A" 1, plainMessage "B" 2]) 10 0).1
        = some (plainMessage "A" 1)
      ∧ expired 20 (plainMessage "A" 1) = false
      ∧ (fetch_for_ack
          (requeue stableSort
            (fetch_for_ack
              (queueWith Order.Unordered [plainMessage "A" 1, plainMessage "B" 2]) 10 0).2
            (plainMessage "A" 1)) 20 1).1
        = some (plainMessage "B" 2)
      ∧ plainMessage "B" 2 ≠ plainMessage "A" 1 := by
  decide

/-- On a Sorted queue two messages created at the same instant may change
places when the buffer is sorted again: with a sort that reverses ties the
message fetched after the requeue is the other one. -/
theorem sorted_requeue_tie_order :
    (fetch_for_ack (queueWith Order.Sorted [plainMessage "A" 5, plainMessage "B" 5]) 10 0).1
        = some (plainMessage "A" 5)
      ∧ (fetch_for_ack
          (requeue reversingSort
            (fetch_for_ack
              (queueWith Order.Sorted [plainMessage "A" 5, plainMessage "B" 5]) 10 0).2
            (plainMessage "A" 5)) 20 0).1
        = some (plainMessage "B" 5)
      ∧ (fetch_for_ack
          (requeue stableSort
            (fetch_for_ack
              (queueWith Order.Sorted [plainMessage "A" 5, plainMessage "B" 5]) 10 0).2
            (plainMessage "A" 5)) 20 0).1
        = some (plainMessage "A" 5) := by
  decide

/-- A requeued message that expires before the next `fetch_for_ack` is not
returned by it. -/
theorem requeue_expired_not_returned :
    (fetch_for_ack (queueWith Order.FIFO [timedMessage "A" 0 1]) 10 0).1
        = some (timedMessage "A" 0 1)
      ∧ (fetch_for_ack
          (requeue stableSort
            (fetch_for_ack (queueWith Order.FIFO [timedMessage "A" 0 1]) 10 0).2
            (timedMessage "A" 0 1)) 1500000000 0).1
        = none := by
  decide

/-! ## The Sorted queue invariant -/

theorem stepQueue_cfg (srt : CreatedSort) (q : QueueStore) (op : QueueOp) :
    (stepQueue srt q op).cfg_ = q.cfg_ := by
  cases op with
  | enqueue msg => exact enqueue_cfg srt q msg
  | requeue msg => exact requeue_cfg srt q msg
  | fetch_for_ack now draw => exact fetch_for_ack_cfg q now draw
  | drop id => exact drop_cfg q id
  | cleanup_expired now => exact cleanup_expired_cfg q now

theorem stepQueue_sorted (srt : CreatedSort) (q : QueueStore) (op : QueueOp)
    (hord : q.cfg_.order = Order.Sorted) (h : q.messages_.Pairwise createdLE) :
    (stepQueue srt q op).messages_.Pairwise createdLE := by
  cases op with
  | enqueue msg =>
    show (enqueue srt q msg).messages_.Pairwise createdLE
    rw [enqueue_messages_sorted srt q msg hord]
    exact srt.sorted _
  | requeue msg =>
    show (requeue srt q msg).messages_.Pairwise createdLE
    rw [requeue_messages_sorted srt q msg hord]
    exact srt.sorted _
  | fetch_for_ack now draw =>
    exact ((h.filter _).sublist (fetch_for_ack_sublist q now draw))
  | drop id =>
    show (drop q id).messages_.Pairwise createdLE
    rw [drop_messages]
    exact h.filter _
  | cleanup_expired now =>
    show (cleanup_expired q now).messages_.Pairwise createdLE
    rw [cleanup_expired_messages]
    exact h.filter _

theorem runQueue_sorted (srt : CreatedSort) (ops : List QueueOp) (q : QueueStore)
    (hord : q.cfg_.order = Order.Sorted) (h : q.messages_.Pairwise createdLE) :
    (runQueue srt q ops).messages_.Pairwise createdLE := by
  induction ops generalizing q with
  | nil => exact h
  | cons op ops ih =>
    exact ih (stepQueue srt q op) (by rw [stepQueue_cfg]; exact hord)
      (stepQueue_sorted srt q op hord h)

/-- C18. On a queue configured as Sorted that starts with an empty buffer,
after any sequence of `enqueue`, `requeue`, `fetch_for_ack`, `drop` and
`cleanup_expired` calls the buffer is non-decreasing by the `created` instant of
its messages: whenever a message stands before another one in the buffer, it
was not created later. -/
theorem sorted_queue_invariant (srt : CreatedSort) (cfg : QueueConfig) (ops : List QueueOp)
    (hcfg : cfg.order = Order.Sorted) :
    (runQueue srt (QueueStore.create cfg) ops).messages_.Pairwise
      (fun a b => a.created ≤ b.created) :=
  runQueue_sorted srt ops (QueueStore.create cfg) hcfg List.Pairwise.nil

theorem sortedDay_buffer :
    (runQueue stableSort (QueueStore.create (memoryConfig Order.Sorted)) sortedDay).messages_
      = [plainMessage "D" 15, plainMessage "C" 30] := by
  decide

theorem sorted_queue_invariant_witness :
    (runQueue stableSort (QueueStore.create (memoryConfig Order.Sorted)) sortedDay).messages_.Pairwise
      (fun a b => a.created ≤ b.created) :=
  sorted_queue_invariant stableSort (memoryConfig Order.Sorted) sortedDay rfl

/-! ## Expired messages -/

theorem not_expired_iff (now : Int) (m : Message) :
    expired now m = false
      ↔ (m.ttl = none ∨ ∃ ttl, m.ttl = some ttl ∧ now ≤ m.created + ttl * ticksPerSecond) := by
  unfold expired
  cases h : m.ttl with
  | none => simp
  | some ttl => simp

theorem mem_live_filter (now : Int) (m : Message) (l : List Message) :
    m ∈ l.filter (fun x => !expired now x) ↔ m ∈ l ∧ expired now m = false := by
  simp [List.mem_filter]

/-- C19. A `fetch_for_ack` call at the instant `t` never delivers an expired
message: the message it returns, if any, comes from the buffer and either has
no TTL or satisfies `t ≤ created + ttl`; after the call the buffer holds no
message with `created + ttl < t`; and on a buffer whose messages have all
expired the call returns nothing. -/
theorem fetch_for_ack_never_expired (q : QueueStore) (t : Int) (draw : Nat) :
    (∀ m, (fetch_for_ack q t draw).1 = some m →
        m ∈ q.messages_
          ∧ (m.ttl = none ∨ ∃ ttl, m.ttl = some ttl ∧ t ≤ m.created + ttl * ticksPerSecond))
      ∧ (∀ x ∈ (fetch_for_ack q t draw).2.messages_, ∀ ttl, x.ttl = some ttl →
          ¬ (x.created + ttl * ticksPerSecond < t))
      ∧ ((∀ x ∈ q.messages_, expired t x = true) → (fetch_for_ack q t draw).1 = none) := by
  refine ⟨?_, ?_, ?_⟩
  · intro m hm
    have h := (mem_live_filter t m q.messages_).mp (fetch_for_ack_result_mem q t draw m hm)
    exact ⟨h.1, (not_expired_iff t m).mp h.2⟩
  · intro x hx ttl httl
    have h := (mem_live_filter t x q.messages_).mp
      ((fetch_for_ack_sublist q t draw).subset hx)
    rcases (not_expired_iff t x).mp h.2 with hnone | ⟨ttl2, h2, hle⟩
    · rw [hnone] at httl; cases httl
    · rw [h2] at httl
      cases httl
      omega
  · intro hall
    refine (fetch_for_ack_empty q t draw ?_).1
    rw [List.filter_eq_nil_iff]
    intro x hx
    simp [hall x hx]

/-- The TTL scenario: a message with a TTL of one second, produced at instant
0, is not delivered by a `fetch_for_ack` made 1.5 seconds later, while a
`fetch_for_ack` made after half a second delivers it. -/
theorem fetch_for_ack_ttl_scenario :
    (fetch_for_ack (queueWith Order.FIFO [timedMessage "X" 0 1]) 1500000000 0).1 = none
      ∧ (fetch_for_ack (queueWith Order.FIFO [timedMessage "X" 0 1]) 500000000 0).1
          = some (timedMessage "X" 0 1) := by
  decide

theorem peek_at_eq (q : QueueStore) (index : Nat) : peek_at q index = q.messages_[index]? := by
  unfold peek_at
  split
  · rename_i h
    exact (List.getElem?_eq_none_iff.mpr h).symm
  · rfl

/-- C20, the code at the failing input. A buffer holds one message created at instant 0 with a
TTL of one second.  At the instant 1.5 s the message has expired, and
`fetch_for_ack` returns nothing, but `peek_at(0)` returns the message. -/
theorem peek_at_returns_expired :
    expired 1500000000 (timedMessage "X" 0 1) = true
      ∧ (timedMessage "X" 0 1).ttl = some 1
      ∧ ¬ (1500000000 ≤ (timedMessage "X" 0 1).created + 1 * ticksPerSecond)
      ∧ peek_at (queueWith Order.FIFO [timedMessage "X" 0 1]) 0 = some (timedMessage "X" 0 1)
      ∧ (fetch_for_ack (queueWith Order.FIFO [timedMessage "X" 0 1]) 1500000000 0).1 = none := by
  decide

/-! ## Idempotence of the expiry cleanup -/

theorem cleanup_expired_of_live (q : QueueStore) (t : Int)
    (h : q.messages_.filter (fun m => !expired t m) = q.messages_) :
    cleanup_expired q t = q := by
  unfold cleanup_expired
  simp only [h, ne_eq, not_true_eq_false, if_false]

theorem cleanup_expired_again (q : QueueStore) (t : Int) :
    cleanup_expired (cleanup_expired q t) t = cleanup_expired q t := by
  apply cleanup_expired_of_live
  rw [cleanup_expired_messages, List.filter_filter]
  simp

/-- C21. Running `cleanup_expired` twice in a row at the instant `t` gives the
same queue state (buffer and file) as running it once, and the buffer it
leaves consists of exactly the messages that have no TTL or satisfy
`t ≤ created + ttl`, in their original relative order. -/
theorem cleanup_expired_idempotent (q : QueueStore) (t : Int) :
    cleanup_expired (cleanup_expired q t) t = cleanup_expired q t
      ∧ (cleanup_expired q t).messages_
          = q.messages_.filter (fun m =>
              match m.ttl with
              | none => true
              | some ttl => decide (t ≤ m.created + ttl * ticksPerSecond)) := by
  refine ⟨cleanup_expired_again q t, ?_⟩
  rw [cleanup_expired_messages]
  apply List.filter_congr
  intro m _
  unfold expired
  cases m.ttl with
  | none => rfl
  | some ttl =>
    by_cases h : t ≤ m.created + ttl * ticksPerSecond
    · simp [h]
    · simp only [h, decide_False, Bool.not_eq_false_eq_eq_true, decide_eq_true_eq]
      omega

/-- A buffer with a fresh, a stale and an eternal message, cleaned at 1.5 s. -/
theorem cleanup_expired_example :
    (cleanup_expired
        (queueWith Order.FIFO
          [timedMessage "A" 0 2, timedMessage "B" 0 1, plainMessage "C" 0]) 1500000000).messages_
      = [timedMessage "A" 0 2, plainMessage "C" 0] := by
  decide

/-! ## Unordered maps -/

theorem mapFind_mapAssign_same {α : Type} (k : String) (v : α) (m : List (String × α)) :
    mapFind k (mapAssign k v m) = some v := by
  induction m with
  | nil => simp [mapAssign, mapFind]
  | cons e rest ih =>
    obtain ⟨k1, v1⟩ := e
    by_cases h : k1 = k
    · simp [mapAssign, mapFind, h]
    · simp [mapAssign, mapFind, h, ih]

theorem mapFind_mapAssign_ne {α : Type} (k k2 : String) (v : α) (m : List (String × α))
    (hne : k2 ≠ k) : mapFind k2 (mapAssign k v m) = mapFind k2 m := by
  induction m with
  | nil =>
    have h2 : ¬ k = k2 := fun h => hne h.symm
    simp [mapAssign, mapFind, h2]
  | cons e rest ih =>
    obtain ⟨k1, v1⟩ := e
    by_cases h : k1 = k
    · have h2 : ¬ k1 = k2 := fun h3 => hne (h3.symm.trans h)
      rw [mapAssign, if_pos h, mapFind, if_neg h2, mapFind, if_neg h2]
    · rw [mapAssign, if_neg h]
      by_cases h3 : k1 = k2
      · rw [mapFind, if_pos h3, mapFind, if_pos h3]
      · rw [mapFind, if_neg h3, mapFind, if_neg h3, ih]

/-! ## Dispatch of consumer frames -/

theorem actionOf_some (body a : String) (h : actionOf body = some a) :
    find body "\"action\":\"" ≠ npos ∧ fieldAt body (find body "\"action\":\"") 10 = a := by
  unfold actionOf at h
  split at h
  · cases h
  · rename_i hpos
    exact ⟨hpos, Option.some.inj h⟩

theorem handle_consumer_bad_request (b : BrokerApp) (identity body : String) (now : Int)
    (draw : Nat) (iso : String) (h : actionOf body = none) :
    handle_consumer b identity body now draw iso
      = (b, reply [("status", "error"), ("reason", "bad_request")]) := by
  unfold actionOf at h
  split at h
  · rename_i hpos
    unfold handle_consumer
    simp only [hpos, if_true]
  · cases h

theorem handle_consumer_subscribe (b : BrokerApp) (identity body : String) (now : Int)
    (draw : Nat) (iso : String) (h : actionOf body = some "subscribe") :
    handle_consumer b identity body now draw iso = handleSubscribe b identity body := by
  obtain ⟨hpos, hf⟩ := actionOf_some body _ h
  unfold handle_consumer
  simp only [hpos, if_false, hf, if_true]

theorem handle_consumer_unsubscribe (b : BrokerApp) (identity body : String) (now : Int)
    (draw : Nat) (iso : String) (h : actionOf body = some "unsubscribe") :
    handle_consumer b identity body now draw iso = handleUnsubscribe b identity := by
  obtain ⟨hpos, hf⟩ := actionOf_some body _ h
  unfold handle_consumer
  simp only [hpos, if_false, hf, if_true]
  rw [if_neg (by decide)]

theorem handle_consumer_fetch (b : BrokerApp) (identity body : String) (now : Int)
    (draw : Nat) (iso : String) (h : actionOf body = some "fetch") :
    handle_consumer b identity body now draw iso = handleFetch b identity now draw iso := by
  obtain ⟨hpos, hf⟩ := actionOf_some body _ h
  unfold handle_consumer
  simp only [hpos, if_false, hf, if_true]
  rw [if_neg (by decide), if_neg (by decide)]

theorem handle_consumer_ack (b : BrokerApp) (identity body : String) (now : Int)
    (draw : Nat) (iso : String) (h : actionOf body = some "ack") :
    handle_consumer b identity body now draw iso = handleAck b identity body := by
  obtain ⟨hpos, hf⟩ := actionOf_some body _ h
  unfold handle_consumer
  simp only [hpos, if_false, hf, if_true]
  rw [if_neg (by decide), if_neg (by decide), if_neg (by decide)]

theorem handle_consumer_other (b : BrokerApp) (identity body : String) (now : Int)
    (draw : Nat) (iso : String) (a : String) (h : actionOf body = some a)
    (h1 : a ≠ "subscribe") (h2 : a ≠ "unsubscribe") (h3 : a ≠ "fetch") (h4 : a ≠ "ack") :
    handle_consumer b identity body now draw iso = (b, []) := by
  obtain ⟨hpos, hf⟩ := actionOf_some body _ h
  unfold handle_consumer
  simp only [hpos, if_false, hf]
  rw [if_neg h1, if_neg h2, if_neg h3, if_neg h4]

/-! ## Acknowledgements -/

theorem handleAck_match (b : BrokerApp) (identity body : String) (mid : String)
    (session : ConsumerSession) (pending : Message)
    (hid : messageIdOf body = some mid)
    (hs : mapFind identity b.sessions_ = some session)
    (hp : session.pending = some pending) (hm : pending.id = mid) :
    handleAck b identity body
      = ({ queues_ := b.queues_,
           sessions_ := mapAssign identity (clearPending session) b.sessions_ },
          reply [("status", "acknowledged"), ("message_id", mid)]) := by
  unfold messageIdOf at hid
  split at hid
  · cases hid
  · rename_i hpos
    have hf := Option.some.inj hid
    unfold handleAck
    simp only [hpos, if_false, hs, hp, hf, hm, if_true, clearPending]

theorem handleAck_no_match (b : BrokerApp) (identity body : String)
    (h : ¬ ∃ mid session pending, messageIdOf body = some mid
        ∧ mapFind identity b.sessions_ = some session
        ∧ session.pending = some pending ∧ pending.id = mid) :
    handleAck b identity body = (b, []) := by
  unfold handleAck
  simp only
  split
  · rfl
  · rename_i hpos
    split
    · rfl
    · rename_i session hs
      split
      · rfl
      · rename_i pending hp
        split
        · rename_i hm
          exact absurd ⟨_, session, pending, by simp [messageIdOf, hpos], hs, hp, hm⟩ h
        · rfl

/-- C23. For an ack frame from the consumer `identity`: when the frame names
the id of the pending message of the session of `identity`, the handler
clears the pending message of that session (its other fields, the deadline
among them, stay), changes no queue and changes no other session; in every
other case (another id, no id, nothing pending, no session) it leaves the
whole broker state, every session and every queue, unchanged. -/
theorem ack_effect (b : BrokerApp) (identity body : String) (now : Int) (draw : Nat)
    (iso : String) (hack : actionOf body = some "ack") :
    (∀ mid session pending, messageIdOf body = some mid →
        mapFind identity b.sessions_ = some session →
        session.pending = some pending → pending.id = mid →
        (handle_consumer b identity body now draw iso).1.queues_ = b.queues_
          ∧ mapFind identity (handle_consumer b identity body now draw iso).1.sessions_
              = some (clearPending session)
          ∧ ∀ other, other ≠ identity →
              mapFind other (handle_consumer b identity body now draw iso).1.sessions_
                = mapFind other b.sessions_)
      ∧ ((¬ ∃ mid session pending, messageIdOf body = some mid
            ∧ mapFind identity b.sessions_ = some session
            ∧ session.pending = some pending ∧ pending.id = mid) →
          (handle_consumer b identity body now draw iso).1 = b) := by
  rw [handle_consumer_ack b identity body now draw iso hack]
  refine ⟨?_, ?_⟩
  · intro mid session pending hid hs hp hm
    rw [handleAck_match b identity body mid session pending hid hs hp hm]
    exact ⟨rfl, mapFind_mapAssign_same _ _ _,
      fun other hne => mapFind_mapAssign_ne _ _ _ _ hne⟩
  · intro h
    rw [handleAck_no_match b identity body h]

theorem pendingBroker_eq :
    pendingBroker
      = { queues_ := [("q", queueWith Order.FIFO [])], sessions_ := [("c1", demoSession)] } := by
  decide

theorem ack_effect_witness :
    (handle_consumer pendingBroker "c1" (ackFrame "beef") 400 0 demoIso).1.queues_
        = pendingBroker.queues_
      ∧ mapFind "c1" (handle_consumer pendingBroker "c1" (ackFrame "beef") 400 0 demoIso).1.sessions_
        = some (clearPending demoSession)
      ∧ (handle_consumer pendingBroker "c1" (ackFrame "feed") 400 0 demoIso).1 = pendingBroker :=
  ⟨((ack_effect pendingBroker "c1" (ackFrame "beef") 400 0 demoIso (by decide)).1
      "beef" demoSession demoMessage (by decide) (by decide) rfl rfl).1,
    ((ack_effect pendingBroker "c1" (ackFrame "beef") 400 0 demoIso (by decide)).1
      "beef" demoSession demoMessage (by decide) (by decide) rfl rfl).2.1,
    (ack_effect pendingBroker "c1" (ackFrame "feed") 400 0 demoIso (by decide)).2 (by
      rintro ⟨mid, s, p, h1, h2, h3, h4⟩
      have e1 : messageIdOf (ackFrame "feed") = some "feed" := by decide
      have e2 : mapFind "c1" pendingBroker.sessions_ = some demoSession := by decide
      rw [e1] at h1
      rw [e2] at h2
      cases h1
      cases h2
      cases h3
      exact absurd h4 (by decide))⟩

/-! ## The sweep -/

theorem mapFind_map_values {α β : Type} (f : α → β) (k : String) (m : List (String × α)) :
    mapFind k (m.map (fun e => (e.1, f e.2))) = (mapFind k m).map f := by
  induction m with
  | nil => rfl
  | cons e rest ih =>
    obtain ⟨k1, v⟩ := e
    by_cases h : k1 = k
    · simp [mapFind, h]
    · simp [mapFind, h, ih]

theorem timedOut_pending (now : Int) (s : ConsumerSession) (h : timedOut now s = true) :
    ∃ m, s.pending = some m := by
  unfold timedOut at h
  simp only [Bool.and_eq_true] at h
  exact Option.isSome_iff_exists.mp h.2.1

theorem timedOut_clearPending (now : Int) (s : ConsumerSession) :
    timedOut now (clearPending s) = false := by
  simp [timedOut, clearPending]

theorem sweepSessions_sessions (srt : CreatedSort) (now : Int)
    (sessions : List (String × ConsumerSession)) (queues : List (String × QueueStore)) :
    (sweepSessions srt now sessions queues).1
      = sessions.map (fun e => (e.1, if timedOut now e.2 then clearPending e.2 else e.2)) := by
  induction sessions generalizing queues with
  | nil => rfl
  | cons e rest ih =>
    obtain ⟨id, s⟩ := e
    by_cases h : timedOut now s = true
    · simp only [sweepSessions, h, if_true, List.map_cons, ih, clearPending]
    · have h2 : timedOut now s = false := by simpa using h
      simp only [sweepSessions, h2, Bool.false_eq_true, if_false, List.map_cons, ih]

theorem requeue_perm (srt : CreatedSort) (q : QueueStore) (m : Message) :
    (requeue srt q m).messages_.Perm (m :: q.messages_) := by
  by_cases h : q.cfg_.order = Order.Sorted
  · rw [requeue_messages_sorted srt q m h]
    exact srt.perm _
  · rw [requeue_messages_unsorted srt q m h]

theorem sweepSessions_queues (srt : CreatedSort) (now : Int) (name : String)
    (sessions : List (String × ConsumerSession)) (queues : List (String × QueueStore))
    (q : QueueStore) (hq : mapFind name queues = some q) :
    ∃ q2, mapFind name (sweepSessions srt now sessions queues).2 = some q2
      ∧ q2.cfg_ = q.cfg_
      ∧ q2.messages_.Perm ((timedOutFor now name sessions).reverse ++ q.messages_)
      ∧ (q.cfg_.order ≠ Order.Sorted →
          q2.messages_ = (timedOutFor now name sessions).reverse ++ q.messages_) := by
  induction sessions generalizing queues q with
  | nil => exact ⟨q, hq, rfl, List.Perm.refl _, fun _ => rfl⟩
  | cons e rest ih =>
    obtain ⟨id, s⟩ := e
    by_cases h : timedOut now s = true
    · obtain ⟨m, hm⟩ := timedOut_pending now s h
      by_cases hname : s.queue = name
      · have hq2 : mapFind s.queue queues = some q := by rw [hname]; exact hq
        obtain ⟨q2, h1, h2, h3, h4⟩ := ih
          (mapAssign s.queue (requeue srt q m) queues) (requeue srt q m)
          (by rw [← hname]; exact mapFind_mapAssign_same _ _ _)
        refine ⟨q2, ?_, ?_, ?_, ?_⟩
        · simp only [sweepSessions, h, if_true, hm, hq2]
          exact h1
        · rw [h2, requeue_cfg]
        · have hto : timedOutFor now name ((id, s) :: rest) = m :: timedOutFor now name rest := by
            simp [timedOutFor, h, hname, hm]
          rw [hto, List.reverse_cons, List.append_assoc]
          exact h3.trans (List.Perm.append_left _ (requeue_perm srt q m))
        · intro hns
          have hto : timedOutFor now name ((id, s) :: rest) = m :: timedOutFor now name rest := by
            simp [timedOutFor, h, hname, hm]
          rw [hto, List.reverse_cons, List.append_assoc, h4 (by rw [requeue_cfg]; exact hns),
            requeue_messages_unsorted srt q m hns]
          rfl
      · have hto : timedOutFor now name ((id, s) :: rest) = timedOutFor now name rest := by
          simp [timedOutFor, hname]
        rw [hto]
        cases hsq : mapFind s.queue queues with
        | none =>
          obtain ⟨q2, h1, h2, h3, h4⟩ := ih queues q hq
          refine ⟨q2, ?_, h2, h3, h4⟩
          simp only [sweepSessions, h, if_true, hm, hsq]
          exact h1
        | some q0 =>
          obtain ⟨q2, h1, h2, h3, h4⟩ := ih (mapAssign s.queue (requeue srt q0 m) queues) q
            (by rw [mapFind_mapAssign_ne _ _ _ _ (fun h => hname h.symm)]; exact hq)
          refine ⟨q2, ?_, h2, h3, h4⟩
          simp only [sweepSessions, h, if_true, hm, hsq]
          exact h1
    · have hto : timedOutFor now name ((id, s) :: rest) = timedOutFor now name rest := by
        simp [timedOutFor, h]
      rw [hto]
      obtain ⟨q2, h1, h2, h3, h4⟩ := ih queues q hq
      refine ⟨q2, ?_, h2, h3, h4⟩
      have h5 : timedOut now s = false := by simpa using h
      simp only [sweepSessions, h5, Bool.false_eq_true, if_false]
      exact h1

theorem mem_timedOutFor (now : Int) (sessions : List (String × ConsumerSession))
    (id : String) (s : ConsumerSession) (m : Message)
    (hmem : (id, s) ∈ sessions) (hto : timedOut now s = true) (hp : s.pending = some m) :
    m ∈ timedOutFor now s.queue sessions := by
  induction sessions with
  | nil => cases hmem
  | cons e rest ih =>
    rcases List.mem_cons.mp hmem with h | h
    · subst h
      simp [timedOutFor, hto, hp]
    · have := ih h
      unfold timedOutFor
      split
      · exact List.mem_append_right _ this
      · exact this

/-- C24. Effect of `sweep` at the instant `t`.  Every session that asks for
acks and holds a pending message whose deadline is before `t` has its pending
message cleared, every other session is unchanged (it keeps its pending
message), so that afterwards no RequireAck or Resume session holds a pending
message whose deadline is before `t`.  Every queue is cleaned of expired
messages and then receives, by `requeue`, the pending messages taken back from
the sessions subscribed to it: on a FIFO (or Unordered) queue each of them is
inserted at the head, so that they stand at the front of the buffer, the one
requeued last first, followed by the cleaned buffer; on every queue the
buffer is a rearrangement of these messages.  In particular each message
taken back is in the buffer of the queue of its session. -/
theorem sweep_requeues_timed_out (srt : CreatedSort) (b : BrokerApp) (t : Int) :
    (sweep srt b t).sessions_
        = b.sessions_.map (fun e => (e.1, if timedOut t e.2 then clearPending e.2 else e.2))
      ∧ (∀ e ∈ (sweep srt b t).sessions_, timedOut t e.2 = false)
      ∧ (∀ name q, mapFind name b.queues_ = some q →
          ∃ q2, mapFind name (sweep srt b t).queues_ = some q2
            ∧ q2.cfg_ = q.cfg_
            ∧ q2.messages_.Perm
                ((timedOutFor t name b.sessions_).reverse ++ (cleanup_expired q t).messages_)
            ∧ (q.cfg_.order ≠ Order.Sorted →
                q2.messages_
                  = (timedOutFor t name b.sessions_).reverse
                      ++ (cleanup_expired q t).messages_))
      ∧ (∀ id s m q, (id, s) ∈ b.sessions_ → timedOut t s = true → s.pending = some m →
          mapFind s.queue b.queues_ = some q →
          ∃ q2, mapFind s.queue (sweep srt b t).queues_ = some q2 ∧ m ∈ q2.messages_) := by
  have hsess : (sweep srt b t).sessions_
      = b.sessions_.map (fun e => (e.1, if timedOut t e.2 then clearPending e.2 else e.2)) :=
    sweepSessions_sessions srt t b.sessions_ _
  have hqueues : ∀ name q, mapFind name b.queues_ = some q →
      ∃ q2, mapFind name (sweep srt b t).queues_ = some q2
        ∧ q2.cfg_ = q.cfg_
        ∧ q2.messages_.Perm
            ((timedOutFor t name b.sessions_).reverse ++ (cleanup_expired q t).messages_)
        ∧ (q.cfg_.order ≠ Order.Sorted →
            q2.messages_
              = (timedOutFor t name b.sessions_).reverse
                  ++ (cleanup_expired q t).messages_) := by
    intro name q hq
    have h1 : mapFind name (b.queues_.map (fun e => (e.1, cleanup_expired e.2 t)))
        = some (cleanup_expired q t) := by
      rw [mapFind_map_values (fun q => cleanup_expired q t), hq]
      rfl
    obtain ⟨q2, h2, h3, h4, h5⟩ := sweepSessions_queues srt t name b.sessions_ _ _ h1
    exact ⟨q2, h2, by rw [h3, cleanup_expired_cfg], h4,
      fun hns => h5 (by rw [cleanup_expired_cfg]; exact hns)⟩
  refine ⟨hsess, ?_, hqueues, ?_⟩
  · intro e he
    rw [hsess] at he
    obtain ⟨e0, _, rfl⟩ := List.mem_map.mp he
    by_cases h : timedOut t e0.2 = true
    · simp only [h, if_true]
      exact timedOut_clearPending t e0.2
    · simp only [h, if_false]
      simpa using h
  · intro id s m q hmem hto hp hq
    obtain ⟨q2, h2, _, h4, _⟩ := hqueues s.queue q hq
    exact ⟨q2, h2, h4.symm.subset
      (List.mem_append_left _ (List.mem_reverse.mpr (mem_timedOutFor t _ id s m hmem hto hp)))⟩


/-! ## Counting message ids -/

theorem mapSum_cons {α : Type} (f : α → Nat) (e : String × α) (m : List (String × α)) :
    mapSum f (e :: m) = f e.2 + mapSum f m := by
  simp [mapSum]

theorem mapSum_mapAssign {α : Type} (f : α → Nat) (k : String) (v : α)
    (m : List (String × α)) :
    mapSum f (mapAssign k v m) + (match mapFind k m with | some old => f old | none => 0)
      = mapSum f m + f v := by
  induction m with
  | nil => simp [mapAssign, mapFind, mapSum]
  | cons e rest ih =>
    obtain ⟨k1, v1⟩ := e
    by_cases h : k1 = k
    · rw [mapAssign, if_pos h, mapFind, if_pos h, mapSum_cons, mapSum_cons]
      show f v + mapSum f rest + f v1 = f v1 + mapSum f rest + f v
      omega
    · rw [mapAssign, if_neg h, mapFind, if_neg h, mapSum_cons, mapSum_cons]
      show f v1 + mapSum f (mapAssign k v rest) + _ = f v1 + mapSum f rest + f v
      omega

theorem mapSum_mapAssign_found {α : Type} (f : α → Nat) (k : String) (v old : α)
    (m : List (String × α)) (h : mapFind k m = some old) :
    mapSum f (mapAssign k v m) + f old = mapSum f m + f v := by
  have := mapSum_mapAssign f k v m
  rw [h] at this
  exact this

theorem mapSum_mapErase_le {α : Type} (f : α → Nat) (k : String) (m : List (String × α)) :
    mapSum f (mapErase k m) ≤ mapSum f m := by
  induction m with
  | nil => simp [mapErase, mapSum]
  | cons e rest ih =>
    unfold mapErase at ih ⊢
    rw [List.filter_cons]
    split
    · rw [mapSum_cons, mapSum_cons]
      omega
    · rw [mapSum_cons]
      omega

theorem mapSum_map_le {α : Type} (f : α → Nat) (g : α → α) (m : List (String × α))
    (h : ∀ v, f (g v) ≤ f v) :
    mapSum f (m.map (fun e => (e.1, g e.2))) ≤ mapSum f m := by
  induction m with
  | nil => simp [mapSum]
  | cons e rest ih =>
    rw [List.map_cons, mapSum_cons, mapSum_cons]
    have := h e.2
    show f (g e.2) + _ ≤ _
    omega

theorem le_mapSum_of_find {α : Type} (f : α → Nat) (k : String) (v : α)
    (m : List (String × α)) (h : mapFind k m = some v) : f v ≤ mapSum f m := by
  induction m with
  | nil => cases h
  | cons e rest ih =>
    obtain ⟨k1, v1⟩ := e
    rw [mapSum_cons]
    by_cases hk : k1 = k
    · rw [mapFind, if_pos hk] at h
      cases h
      show f v ≤ f v + _
      omega
    · rw [mapFind, if_neg hk] at h
      have := ih h
      omega

theorem idCount_perm (a : String) (l1 l2 : List Message) (h : l1.Perm l2) :
    idCount a l1 = idCount a l2 :=
  h.countP_eq _

theorem idCount_cons (a : String) (m : Message) (l : List Message) :
    idCount a (m :: l) = idCount a l + (if m.id = a then 1 else 0) := by
  unfold idCount
  rw [List.countP_cons]
  simp

theorem idCount_sublist (a : String) (l1 l2 : List Message) (h : List.Sublist l1 l2) :
    idCount a l1 ≤ idCount a l2 :=
  h.countP_le _

theorem idCount_pos (a : String) (l : List Message) (x : Message) (hx : x ∈ l)
    (hid : x.id = a) : 0 < idCount a l :=
  List.countP_pos_iff.mpr ⟨x, hx, by simp [hid]⟩

theorem eraseIdx_perm (l : List Message) (idx : Nat) (m : Message)
    (h : l[idx]? = some m) : (m :: l.eraseIdx idx).Perm l := by
  induction l generalizing idx with
  | nil => simp at h
  | cons x xs ih =>
    cases idx with
    | zero =>
      simp at h
      subst h
      simp
    | succ i =>
      simp only [List.getElem?_cons_succ] at h
      simp only [List.eraseIdx_cons_succ]
      exact (List.Perm.swap _ _ _).trans (List.Perm.cons _ (ih i h))

theorem enqueue_perm (srt : CreatedSort) (q : QueueStore) (m : Message) :
    (enqueue srt q m).messages_.Perm (m :: q.messages_) := by
  by_cases h : q.cfg_.order = Order.Sorted
  · rw [enqueue_messages_sorted srt q m h]
    exact (srt.perm _).trans (List.perm_append_singleton _ _)
  · rw [enqueue_messages_unsorted srt q m h]
    exact List.perm_append_singleton _ _

/-- The exact effect of `fetch_for_ack` on the buffer. -/
theorem fetch_for_ack_removes_one (q : QueueStore) (t : Int) (draw : Nat)
    (hne : q.messages_.filter (fun m => !expired t m) ≠ []) :
    ∃ i m, i < (q.messages_.filter (fun m => !expired t m)).length
      ∧ (q.messages_.filter (fun m => !expired t m))[i]? = some m
      ∧ (fetch_for_ack q t draw).1 = some m
      ∧ (fetch_for_ack q t draw).2.messages_
          = (q.messages_.filter (fun m => !expired t m)).eraseIdx i
      ∧ (q.cfg_.order ≠ Order.Unordered → i = 0) := by
  cases hf : q.messages_.filter (fun m => !expired t m) with
  | nil => exact absurd hf hne
  | cons front rest =>
    by_cases hord : q.cfg_.order = Order.Unordered
    · obtain ⟨h1, _, h3⟩ := fetch_for_ack_draw q t draw front rest hord hf
      have hlt : draw % (front :: rest).length < (front :: rest).length :=
        Nat.mod_lt _ (by simp)
      refine ⟨draw % (front :: rest).length, (front :: rest)[draw % (front :: rest).length],
        hlt, List.getElem?_eq_getElem hlt, ?_, h3, fun h => absurd hord h⟩
      rw [h1, List.getElem?_eq_getElem hlt]
    · obtain ⟨h1, h2⟩ := fetch_for_ack_head q t draw front rest hord hf
      exact ⟨0, front, by simp, by simp, h1, by rw [h2]; rfl, fun _ => rfl⟩

theorem fetch_for_ack_count (a : String) (q : QueueStore) (t : Int) (draw : Nat) :
    idCount a (fetch_for_ack q t draw).2.messages_
        + (match (fetch_for_ack q t draw).1 with
            | some m => if m.id = a then 1 else 0
            | none => 0)
      ≤ idCount a q.messages_ := by
  by_cases hne : q.messages_.filter (fun m => !expired t m) = []
  · obtain ⟨h1, h2⟩ := fetch_for_ack_empty q t draw hne
    rw [h1, h2]
    simp [idCount]
  · obtain ⟨i, m, _, hget, h1, h2, _⟩ := fetch_for_ack_removes_one q t draw hne
    rw [h1, h2]
    have hp := idCount_perm a _ _ (eraseIdx_perm _ i m hget)
    rw [idCount_cons] at hp
    have hs := idCount_sublist a _ _ (List.filter_sublist (p := fun m => !expired t m) q.messages_)
    show _ + (if m.id = a then 1 else 0) ≤ _
    omega

theorem cleanup_expired_count (a : String) (q : QueueStore) (t : Int) :
    idCount a (cleanup_expired q t).messages_ ≤ idCount a q.messages_ := by
  rw [cleanup_expired_messages]
  exact idCount_sublist a _ _ (List.filter_sublist _)

/-! ## No message id is held twice -/

theorem fst_ite_same {α β : Type} (c : Prop) [Decidable c] (x : α) (r1 r2 : β) :
    (if c then (x, r1) else (x, r2)).1 = x := by
  split <;> rfl

/-- The state left by `handle_producer`: unchanged, or one message enqueued. -/
theorem handle_producer_state (srt : CreatedSort) (b : BrokerApp) (body : String) (rnd : Nat)
    (now : Int) :
    (handle_producer srt b body rnd now).1 = b
      ∨ ∃ q, mapFind (fieldAt body (find body "\"queue\":\"") 9) b.queues_ = some q
          ∧ (handle_producer srt b body rnd now).1
            = { queues_ := mapAssign (fieldAt body (find body "\"queue\":\"") 9)
                  (enqueue srt q
                    { id := make_message_id rnd,
                      payload := fieldAt body (find body "\"payload\":\"") 11,
                      created := now, ttl := q.cfg_.ttl, attributes := [] }) b.queues_,
                sessions_ := b.sessions_ } := by
  unfold handle_producer
  simp only
  split
  · exact Or.inl rfl
  · split
    · exact Or.inl rfl
    · rename_i q hq
      exact Or.inr ⟨q, hq, fst_ite_same _ _ _ _⟩

theorem held_producer (srt : CreatedSort) (b : BrokerApp) (body : String) (rnd : Nat)
    (now : Int) (a : String) :
    held a (handle_producer srt b body rnd now).1
      ≤ held a b + (if make_message_id rnd = a then 1 else 0) := by
  rcases handle_producer_state srt b body rnd now with h | ⟨q, hq, h⟩
  · rw [h]
    exact Nat.le_add_right _ _
  · rw [h]
    have h1 := mapSum_mapAssign_found (fun q => idCount a q.messages_) _
      (enqueue srt q { id := make_message_id rnd,
                       payload := fieldAt body (find body "\"payload\":\"") 11,
                       created := now, ttl := q.cfg_.ttl, attributes := [] }) q b.queues_ hq
    have h2 := idCount_perm a _ _ (enqueue_perm srt q
      { id := make_message_id rnd, payload := fieldAt body (find body "\"payload\":\"") 11,
        created := now, ttl := q.cfg_.ttl, attributes := [] })
    rw [idCount_cons] at h2
    simp only at h1 h2
    simp only [held]
    omega

theorem held_subscribe (b : BrokerApp) (id_str body : String) (a : String) :
    held a (handleSubscribe b id_str body).1 ≤ held a b := by
  unfold handleSubscribe
  simp only
  split
  · exact Nat.le_refl _
  · have h1 := mapSum_mapAssign (pendingCount a) id_str
      { id := id_str, queue := fieldAt body (find body "\"queue\":\"") 9,
        qos := if find body "resume" ≠ npos then ConsumerQos.Resume
          else if find body "require_ack" ≠ npos then ConsumerQos.RequireAck
          else ConsumerQos.FireAndForget,
        ack_timeout := 5000, cursor := 0, pending := none, deadline := 0 } b.sessions_
    simp only [pendingCount] at h1
    simp only [held, pendingCount]
    omega

theorem held_unsubscribe (b : BrokerApp) (id_str : String) (a : String) :
    held a (handleUnsubscribe b id_str).1 ≤ held a b := by
  unfold handleUnsubscribe
  have := mapSum_mapErase_le (pendingCount a) id_str b.sessions_
  simp only [held]
  omega

theorem held_fetch (b : BrokerApp) (id_str : String) (now : Int) (draw : Nat) (iso : String)
    (a : String) : held a (handleFetch b id_str now draw iso).1 ≤ held a b := by
  unfold handleFetch
  split
  · exact Nat.le_refl _
  · rename_i session hs
    split
    · exact Nat.le_refl _
    · rename_i q hq
      split
      · split
        · have h1 := mapSum_mapAssign_found (pendingCount a) id_str
            { id := session.id, queue := session.queue, qos := session.qos,
              ack_timeout := session.ack_timeout, cursor := session.cursor + 1,
              pending := session.pending, deadline := session.deadline }
            session b.sessions_ hs
          simp only [pendingCount] at h1
          simp only [held, pendingCount]
          omega
        · exact Nat.le_refl _
      · have hq1 := mapSum_mapAssign_found (fun q => idCount a q.messages_) session.queue
          (fetch_for_ack q now draw).2 q b.queues_ hq
        have hc := fetch_for_ack_count a q now draw
        simp only at hq1
        dsimp only
        split
        · rename_i msg hmsg
          rw [hmsg] at hc
          have h1 := mapSum_mapAssign_found (pendingCount a) id_str
            { id := session.id, queue := session.queue, qos := session.qos,
              ack_timeout := session.ack_timeout, cursor := session.cursor,
              pending := some msg,
              deadline := now + session.ack_timeout * ticksPerMilli }
            session b.sessions_ hs
          simp only [pendingCount] at h1
          simp only at hc
          simp only [held]
          omega
        · rename_i hnone
          rw [hnone] at hc
          simp only at hc
          simp only [held]
          omega

theorem held_ack (b : BrokerApp) (id_str body : String) (a : String) :
    held a (handleAck b id_str body).1 ≤ held a b := by
  by_cases h : ∃ mid session pending, messageIdOf body = some mid
      ∧ mapFind id_str b.sessions_ = some session
      ∧ session.pending = some pending ∧ pending.id = mid
  · obtain ⟨mid, session, pending, h1, h2, h3, h4⟩ := h
    rw [handleAck_match b id_str body mid session pending h1 h2 h3 h4]
    have h5 := mapSum_mapAssign_found (pendingCount a) id_str (clearPending session)
      session b.sessions_ h2
    have h6 : pendingCount a (clearPending session) = 0 := rfl
    simp only [held]
    omega
  · rw [handleAck_no_match b id_str body h]

theorem held_consumer (b : BrokerApp) (identity body : String) (now : Int) (draw : Nat)
    (iso : String) (a : String) :
    held a (handle_consumer b identity body now draw iso).1 ≤ held a b := by
  cases hact : actionOf body with
  | none => rw [handle_consumer_bad_request b identity body now draw iso hact]
  | some act =>
    by_cases h1 : act = "subscribe"
    · subst h1
      rw [handle_consumer_subscribe b identity body now draw iso hact]
      exact held_subscribe b identity body a
    · by_cases h2 : act = "unsubscribe"
      · subst h2
        rw [handle_consumer_unsubscribe b identity body now draw iso hact]
        exact held_unsubscribe b identity a
      · by_cases h3 : act = "fetch"
        · subst h3
          rw [handle_consumer_fetch b identity body now draw iso hact]
          exact held_fetch b identity now draw iso a
        · by_cases h4 : act = "ack"
          · subst h4
            rw [handle_consumer_ack b identity body now draw iso hact]
            exact held_ack b identity body a
          · rw [handle_consumer_other b identity body now draw iso act hact h1 h2 h3 h4]

theorem held_sweepSessions (srt : CreatedSort) (now : Int) (a : String)
    (sessions : List (String × ConsumerSession)) (queues : List (String × QueueStore)) :
    mapSum (fun q => idCount a q.messages_) (sweepSessions srt now sessions queues).2
        + mapSum (pendingCount a) (sweepSessions srt now sessions queues).1
      ≤ mapSum (fun q => idCount a q.messages_) queues + mapSum (pendingCount a) sessions := by
  induction sessions generalizing queues with
  | nil => exact Nat.le_refl _
  | cons e rest ih =>
    obtain ⟨id, s⟩ := e
    by_cases h : timedOut now s = true
    · obtain ⟨m, hm⟩ := timedOut_pending now s h
      have hpc : pendingCount a s = if m.id = a then 1 else 0 := by
        simp [pendingCount, hm]
      cases hsq : mapFind s.queue queues with
      | none =>
        have := ih queues
        simp only [sweepSessions, h, if_true, hm, hsq, mapSum_cons, pendingCount]
        omega
      | some q0 =>
        have h1 := ih (mapAssign s.queue (requeue srt q0 m) queues)
        have h2 := mapSum_mapAssign_found (fun q => idCount a q.messages_) s.queue
          (requeue srt q0 m) q0 queues hsq
        have h3 := idCount_perm a _ _ (requeue_perm srt q0 m)
        rw [idCount_cons] at h3
        simp only at h2
        simp only [sweepSessions, h, if_true, hm, hsq, mapSum_cons, pendingCount]
        omega
    · have h5 : timedOut now s = false := by simpa using h
      have := ih queues
      simp only [sweepSessions, h5, Bool.false_eq_true, if_false, mapSum_cons]
      omega

theorem held_sweep (srt : CreatedSort) (b : BrokerApp) (t : Int) (a : String) :
    held a (sweep srt b t) ≤ held a b := by
  have h1 := held_sweepSessions srt t a b.sessions_
    (b.queues_.map (fun e => (e.1, cleanup_expired e.2 t)))
  have h2 : mapSum (fun q => idCount a q.messages_)
      (b.queues_.map (fun e => (e.1, cleanup_expired e.2 t)))
        ≤ mapSum (fun q => idCount a q.messages_) b.queues_ :=
    mapSum_map_le (fun q => idCount a q.messages_) (fun q => cleanup_expired q t)
      b.queues_ (fun q => cleanup_expired_count a q t)
  simp only [held, sweep]
  omega

theorem mapEmplace_empty (cfgs : List QueueConfig) (m : List (String × QueueStore))
    (h : ∀ e ∈ m, e.2.messages_ = []) :
    ∀ e ∈ cfgs.foldl (fun m cfg => mapEmplace cfg.name (QueueStore.create cfg) m) m,
      e.2.messages_ = [] := by
  induction cfgs generalizing m with
  | nil => exact h
  | cons cfg rest ih =>
    apply ih
    intro e he
    unfold mapEmplace at he
    dsimp only at he
    split at he
    · exact h e he
    · rcases List.mem_append.mp he with h1 | h1
      · exact h e h1
      · rw [List.mem_singleton] at h1
        subst h1
        rfl

theorem mapSum_zero {α : Type} (f : α → Nat) (m : List (String × α))
    (h : ∀ e ∈ m, f e.2 = 0) : mapSum f m = 0 := by
  induction m with
  | nil => rfl
  | cons e rest ih =>
    rw [mapSum_cons, h e (List.mem_cons_self _ _),
      ih (fun x hx => h x (List.mem_cons_of_mem _ hx))]

theorem held_create (cfgs : List QueueConfig) (a : String) :
    held a (BrokerApp.create cfgs) = 0 := by
  have h1 : mapSum (fun q => idCount a q.messages_) (BrokerApp.create cfgs).queues_ = 0 := by
    apply mapSum_zero
    intro e he
    have := mapEmplace_empty cfgs [] (fun _ h => absurd h (List.not_mem_nil _)) e he
    show idCount a e.2.messages_ = 0
    rw [this]
    rfl
  unfold held
  rw [h1]
  rfl

theorem held_run (srt : CreatedSort) (ops : List BrokerOp) (b : BrokerApp)
    (hinv : ∀ a, held a b ≤ 1) (hfresh : freshIds srt b ops = true) :
    ∀ a, held a (runBroker srt b ops) ≤ 1 := by
  induction ops generalizing b with
  | nil => exact hinv
  | cons op rest ih =>
    unfold freshIds at hfresh
    rw [Bool.and_eq_true] at hfresh
    apply ih (stepBroker srt b op) _ hfresh.2
    intro a
    cases op with
    | producer body rnd now =>
      have h1 := held_producer srt b body rnd now a
      have h2 : held (make_message_id rnd) b = 0 := of_decide_eq_true hfresh.1
      have h3 := hinv a
      show held a (handle_producer srt b body rnd now).1 ≤ 1
      by_cases ha : make_message_id rnd = a
      · rw [ha] at h2
        rw [if_pos ha] at h1
        omega
      · rw [if_neg ha] at h1
        omega
    | consumer identity body now draw iso =>
      exact (held_consumer b identity body now draw iso a).trans (hinv a)
    | sweep now =>
      exact (held_sweep srt b now a).trans (hinv a)

/-- C22. First, `fetch_for_ack` on a buffer that is not empty after the expiry
cleanup returns an element of the cleaned buffer and leaves the cleaned buffer
with exactly that one element deleted, the rest in their order; the element is
the first one unless the queue is Unordered.  Second, in every state that the
broker reaches from its start by producer frames, consumer frames and sweeps,
when message ids are unique (each id made for a producer frame is the id of
no message that the broker holds at that moment), the pending message of a
session is not in the buffer of the queue of that session, and no message in
that buffer has its id. -/
theorem pending_not_in_buffer (srt : CreatedSort) (cfgs : List QueueConfig)
    (ops : List BrokerOp) (hfresh : freshIds srt (BrokerApp.create cfgs) ops = true) :
    (∀ (q : QueueStore) (t : Int) (draw : Nat),
        q.messages_.filter (fun m => !expired t m) ≠ [] →
        ∃ i m, i < (q.messages_.filter (fun m => !expired t m)).length
          ∧ (q.messages_.filter (fun m => !expired t m))[i]? = some m
          ∧ (fetch_for_ack q t draw).1 = some m
          ∧ (fetch_for_ack q t draw).2.messages_
              = (q.messages_.filter (fun m => !expired t m)).eraseIdx i
          ∧ (q.cfg_.order ≠ Order.Unordered → i = 0))
      ∧ (∀ sid session m q,
          mapFind sid (runBroker srt (BrokerApp.create cfgs) ops).sessions_ = some session →
          session.pending = some m →
          mapFind session.queue (runBroker srt (BrokerApp.create cfgs) ops).queues_ = some q →
          m ∉ q.messages_ ∧ ∀ x ∈ q.messages_, x.id ≠ m.id) := by
  refine ⟨fun q t draw hne => fetch_for_ack_removes_one q t draw hne, ?_⟩
  intro sid session m q hs hp hq
  have hinv := held_run srt ops (BrokerApp.create cfgs)
    (fun a => by rw [held_create]; exact Nat.zero_le _) hfresh m.id
  have hids : ∀ x ∈ q.messages_, x.id ≠ m.id := by
    intro x hx hid
    have h1 := le_mapSum_of_find (fun q => idCount m.id q.messages_) _ q _ hq
    have h2 := le_mapSum_of_find (pendingCount m.id) _ session _ hs
    have h3 := idCount_pos m.id q.messages_ x hx hid
    have h4 : pendingCount m.id session = 1 := by simp [pendingCount, hp]
    simp only at h1
    unfold held at hinv
    omega
  exact ⟨fun hmem => hids m hmem rfl, hids⟩

theorem pending_not_in_buffer_witness :
    freshIds stableSort (BrokerApp.create [memoryConfig Order.FIFO]) twoProducedRun = true
      ∧ mapFind "c1"
          (runBroker stableSort (BrokerApp.create [memoryConfig Order.FIFO])
            twoProducedRun).sessions_ = some demoSession
      ∧ demoSession.pending = some demoMessage
      ∧ mapFind demoSession.queue
          (runBroker stableSort (BrokerApp.create [memoryConfig Order.FIFO])
            twoProducedRun).queues_ = some (queueWith Order.FIFO [secondMessage])
      ∧ demoMessage ∉ (queueWith Order.FIFO [secondMessage]).messages_ :=
  ⟨by decide, by decide, rfl, by decide,
    ((pending_not_in_buffer stableSort [memoryConfig Order.FIFO] twoProducedRun (by decide)).2
      "c1" demoSession demoMessage (queueWith Order.FIFO [secondMessage])
      (by decide) rfl (by decide)).1⟩

/-! ## Every session is subscribed to an existing queue -/

theorem mapFind_isSome_mapAssign {α : Type} (k k0 : String) (v : α) (m : List (String × α))
    (h : (mapFind k m).isSome = true) : (mapFind k (mapAssign k0 v m)).isSome = true := by
  by_cases hk : k = k0
  · rw [hk, mapFind_mapAssign_same]
    rfl
  · rw [mapFind_mapAssign_ne _ _ _ _ hk]
    exact h

theorem mem_mapAssign {α : Type} (e : String × α) (k : String) (v : α)
    (m : List (String × α)) (h : e ∈ mapAssign k v m) : e.2 = v ∨ e ∈ m := by
  induction m with
  | nil =>
    simp only [mapAssign, List.mem_singleton] at h
    exact Or.inl (by rw [h])
  | cons x rest ih =>
    obtain ⟨k1, v1⟩ := x
    by_cases hk : k1 = k
    · rw [mapAssign, if_pos hk] at h
      rcases List.mem_cons.mp h with h1 | h1
      · exact Or.inl (by rw [h1])
      · exact Or.inr (List.mem_cons_of_mem _ h1)
    · rw [mapAssign, if_neg hk] at h
      rcases List.mem_cons.mp h with h1 | h1
      · exact Or.inr (by rw [h1]; exact List.mem_cons_self _ _)
      · rcases ih h1 with h2 | h2
        · exact Or.inl h2
        · exact Or.inr (List.mem_cons_of_mem _ h2)

theorem mem_of_mapFind {α : Type} (k : String) (v : α) (m : List (String × α))
    (h : mapFind k m = some v) : (k, v) ∈ m := by
  induction m with
  | nil => cases h
  | cons x rest ih =>
    obtain ⟨k1, v1⟩ := x
    by_cases hk : k1 = k
    · rw [mapFind, if_pos hk] at h
      cases h
      rw [hk]
      exact List.mem_cons_self _ _
    · rw [mapFind, if_neg hk] at h
      exact List.mem_cons_of_mem _ (ih h)

theorem haveQueues_producer (srt : CreatedSort) (b : BrokerApp) (body : String) (rnd : Nat)
    (now : Int) (h : SessionsHaveQueues b) :
    SessionsHaveQueues (handle_producer srt b body rnd now).1 := by
  rcases handle_producer_state srt b body rnd now with h1 | ⟨q, _, h1⟩
  · rw [h1]; exact h
  · rw [h1]
    intro e he
    exact mapFind_isSome_mapAssign _ _ _ _ (h e he)

theorem haveQueues_subscribe (b : BrokerApp) (id_str body : String)
    (h : SessionsHaveQueues b) : SessionsHaveQueues (handleSubscribe b id_str body).1 := by
  unfold handleSubscribe
  simp only
  split
  · exact h
  · rename_i q hq
    intro e he
    rcases mem_mapAssign e _ _ _ he with h1 | h1
    · show (mapFind e.2.queue b.queues_).isSome = true
      rw [h1]
      show (mapFind (fieldAt body (find body "\"queue\":\"") 9) b.queues_).isSome = true
      rw [hq]
      rfl
    · exact h e h1

theorem haveQueues_unsubscribe (b : BrokerApp) (id_str : String)
    (h : SessionsHaveQueues b) : SessionsHaveQueues (handleUnsubscribe b id_str).1 := by
  intro e he
  exact h e (List.mem_of_mem_filter he)

theorem haveQueues_fetch (b : BrokerApp) (id_str : String) (now : Int) (draw : Nat)
    (iso : String) (h : SessionsHaveQueues b) :
    SessionsHaveQueues (handleFetch b id_str now draw iso).1 := by
  unfold handleFetch
  split
  · exact h
  · rename_i session hs
    have hsq := h _ (mem_of_mapFind _ _ _ hs)
    split
    · exact h
    · rename_i q hq
      split
      · split
        · intro e he
          rcases mem_mapAssign e _ _ _ he with h1 | h1
          · show (mapFind e.2.queue b.queues_).isSome = true
            rw [h1]
            exact hsq
          · exact h e h1
        · exact h
      · dsimp only
        split
        · intro e he
          apply mapFind_isSome_mapAssign
          rcases mem_mapAssign e _ _ _ he with h1 | h1
          · rw [h1]
            exact hsq
          · exact h e h1
        · intro e he
          exact mapFind_isSome_mapAssign _ _ _ _ (h e he)

theorem haveQueues_ack (b : BrokerApp) (id_str body : String)
    (h : SessionsHaveQueues b) : SessionsHaveQueues (handleAck b id_str body).1 := by
  by_cases hm : ∃ mid session pending, messageIdOf body = some mid
      ∧ mapFind id_str b.sessions_ = some session
      ∧ session.pending = some pending ∧ pending.id = mid
  · obtain ⟨mid, session, pending, h1, h2, h3, h4⟩ := hm
    rw [handleAck_match b id_str body mid session pending h1 h2 h3 h4]
    intro e he
    rcases mem_mapAssign e _ _ _ he with h5 | h5
    · show (mapFind e.2.queue b.queues_).isSome = true
      rw [h5]
      exact h _ (mem_of_mapFind _ _ _ h2)
    · exact h e h5
  · rw [handleAck_no_match b id_str body hm]
    exact h

theorem haveQueues_consumer (b : BrokerApp) (identity body : String) (now : Int) (draw : Nat)
    (iso : String) (h : SessionsHaveQueues b) :
    SessionsHaveQueues (handle_consumer b identity body now draw iso).1 := by
  cases hact : actionOf body with
  | none =>
    rw [handle_consumer_bad_request b identity body now draw iso hact]
    exact h
  | some act =>
    by_cases h1 : act = "subscribe"
    · subst h1
      rw [handle_consumer_subscribe b identity body now draw iso hact]
      exact haveQueues_subscribe b identity body h
    · by_cases h2 : act = "unsubscribe"
      · subst h2
        rw [handle_consumer_unsubscribe b identity body now draw iso hact]
        exact haveQueues_unsubscribe b identity h
      · by_cases h3 : act = "fetch"
        · subst h3
          rw [handle_consumer_fetch b identity body now draw iso hact]
          exact haveQueues_fetch b identity now draw iso h
        · by_cases h4 : act = "ack"
          · subst h4
            rw [handle_consumer_ack b identity body now draw iso hact]
            exact haveQueues_ack b identity body h
          · rw [handle_consumer_other b identity body now draw iso act hact h1 h2 h3 h4]
            exact h

theorem haveQueues_sweep (srt : CreatedSort) (b : BrokerApp) (t : Int)
    (h : SessionsHaveQueues b) : SessionsHaveQueues (sweep srt b t) := by
  intro e he
  have hs : (sweep srt b t).sessions_
      = b.sessions_.map (fun e => (e.1, if timedOut t e.2 then clearPending e.2 else e.2)) :=
    sweepSessions_sessions srt t b.sessions_ _
  rw [hs] at he
  obtain ⟨e0, he0, rfl⟩ := List.mem_map.mp he
  have hq := h e0 he0
  have hsame : (if timedOut t e0.2 = true then clearPending e0.2 else e0.2).queue = e0.2.queue := by
    split <;> rfl
  show (mapFind (if timedOut t e0.2 = true then clearPending e0.2 else e0.2).queue
    (sweep srt b t).queues_).isSome = true
  rw [hsame]
  obtain ⟨q, hq2⟩ := Option.isSome_iff_exists.mp hq
  have h1 : mapFind e0.2.queue (b.queues_.map (fun e => (e.1, cleanup_expired e.2 t)))
      = some (cleanup_expired q t) := by
    rw [mapFind_map_values (fun q => cleanup_expired q t), hq2]
    rfl
  obtain ⟨q2, h2, _⟩ := sweepSessions_queues srt t e0.2.queue b.sessions_ _ _ h1
  show (mapFind e0.2.queue (sweepSessions srt t b.sessions_ _).2).isSome = true
  rw [h2]
  rfl

/-- In every state that the broker reaches from its start, the queue named by
a session exists: `sweep` never drops a pending message for want of a queue. -/
theorem sessions_have_queues (srt : CreatedSort) (cfgs : List QueueConfig)
    (ops : List BrokerOp) :
    SessionsHaveQueues (runBroker srt (BrokerApp.create cfgs) ops) := by
  have hgen : ∀ (ops : List BrokerOp) (b : BrokerApp), SessionsHaveQueues b →
      SessionsHaveQueues (runBroker srt b ops) := by
    intro ops
    induction ops with
    | nil => exact fun b h => h
    | cons op rest ih =>
      intro b h
      apply ih
      cases op with
      | producer body rnd now => exact haveQueues_producer srt b body rnd now h
      | consumer identity body now draw iso =>
        exact haveQueues_consumer b identity body now draw iso h
      | sweep now => exact haveQueues_sweep srt b now h
  exact hgen ops _ (fun e he => absurd he (List.not_mem_nil _))

/-! ## Runs of the broker that depart from the specification -/

theorem twoProducedRun_state :
    runBroker stableSort demoBroker twoProducedRun
      = { queues_ := [("q", queueWith Order.FIFO [secondMessage])],
          sessions_ := [("c1", demoSession)] } := by
  decide

/-- Two sessions time out in one sweep: both messages go to the front of the
FIFO buffer, the one requeued last first; the third session keeps its
pending message. -/
theorem sweep_two_timed_out :
    (sweep stableSort twoTimedOut 10).queues_
        = [("q", queueWith Order.FIFO [secondMessage, demoMessage, plainMessage "old" 1])]
      ∧ (sweep stableSort twoTimedOut 10).sessions_.map (fun e => e.2.pending)
        = [none, none, some (plainMessage "kept" 2)] := by
  decide

/-- C25, the code at the failing input: message `M` is produced, consumer `c1`
subscribes with `"ack_timeout":"200"` and QoS `require_ack`, and fetches `M` at
the instant 1 s.  The session has the ack timeout 5000 ms and the deadline
1 s + 5000 ms, not 1 s + 200 ms; the sweep at 1.3 s leaves `M` pending and the
buffer empty, and the fetch at 1.4 s is answered with `status: empty`. -/
theorem ack_timeout_of_subscribe_ignored :
    (runBroker stableSort demoBroker timeoutRun).sessions_
        = [("c1", { id := "c1", queue := "q", qos := ConsumerQos.RequireAck,
                    ack_timeout := 5000, cursor := 0, pending := some demoMessage,
                    deadline := 1000000000 + 5000 * ticksPerMilli })]
      ∧ 1000000000 + 5000 * ticksPerMilli ≠ 1000000000 + 200 * ticksPerMilli
      ∧ sweep stableSort (runBroker stableSort demoBroker timeoutRun) 1300000000
        = runBroker stableSort demoBroker timeoutRun
      ∧ (runBroker stableSort demoBroker timeoutRun).queues_ = [("q", queueWith Order.FIFO [])]
      ∧ (handle_consumer (sweep stableSort (runBroker stableSort demoBroker timeoutRun) 1300000000)
          "c1" fetchFrame 1400000000 0 demoIso).2
        = ["\x7b\"status\":\"empty\"\x7d"] := by
  decide

/-- C26, the code at the failing input: a producer frame for the queue `q` with
QoS `require_ack`.  One message is appended, with the id `beef` made for it,
and a consumer that fetches it is told the id `beef`; but the reply to the
producer carries an empty `message_id`, read from `msg` after the message was
moved into `enqueue`. -/
theorem producer_reply_has_empty_id :
    (handle_producer stableSort demoBroker (produceAckFrame "M") 48879 100).1.queues_
        = [("q", queueWith Order.FIFO [demoMessage])]
      ∧ demoMessage.id = "beef"
      ∧ (handle_producer stableSort demoBroker (produceAckFrame "M") 48879 100).2
        = ["\x7b\"message_id\":\"\",\"status\":\"ok\"\x7d"]
      ∧ (handle_consumer
          (runBroker stableSort demoBroker
            [BrokerOp.producer (produceAckFrame "M") 48879 100,
              BrokerOp.consumer "c1" subscribeAckFrame 200 0 demoIso])
          "c1" fetchFrame 300 0 demoIso).2
        = ["\x7b\"message_id\":\"beef\",\"payload\":\"M\",\"status\":\"ok\","
            ++ "\"timestamp\":\"1970-01-01T00:00:00Z\"\x7d"] := by
  decide

/-- C27, the code at the failing input: a consumer frame with the unknown
action `ping`, and an ack frame without `message_id`.  The broker sends no
reply to either (the state is unchanged); a subscribe frame for the unknown
queue `zz` is answered with one error reply. -/
theorem unknown_action_gets_no_reply :
    handle_consumer pendingBroker "c1" "\x7b\"action\":\"ping\"\x7d" 400 0 demoIso
        = (pendingBroker, [])
      ∧ handle_consumer pendingBroker "c1" "\x7b\"action\":\"ack\"\x7d" 400 0 demoIso
        = (pendingBroker, [])
      ∧ handle_consumer pendingBroker "c1"
          "\x7b\"action\":\"subscribe\",\"queue\":\"zz\"\x7d" 400 0 demoIso
        = (pendingBroker, ["\x7b\"reason\":\"queue_not_found\",\"status\":\"error\"\x7d"]) := by
  decide

/-- C28, the code at the failing input: a Disk queue whose buffer holds a
message with the payload `a\b` and one with the payload `say "hi"`.
`persist_all` writes the payloads escaped, `load_from_disk` reads them up to
the next double quote without undoing the escapes: the loaded payloads are
`a\\b` and `say \`. -/
theorem load_from_disk_changes_payload :
    fileOf (persist_all
        { cfg_ := diskConfig, messages_ := [backslashMessage, quotedMessage], disk_ := none })
        = some ("[\n  \x7b\"id\":\"1f\",\"payload\":\"a\\\\b\",\"created\":0\x7d,\n"
            ++ "  \x7b\"id\":\"2f\",\"payload\":\"say \\\"hi\\\"\",\"created\":0\x7d\n]")
      ∧ ((load_from_disk (QueueStore.create diskConfig)
            (fileOf (persist_all
              { cfg_ := diskConfig, messages_ := [backslashMessage, quotedMessage],
                disk_ := none })) 7).messages_.map (fun m => (m.id, m.payload)))
        = [("1f", "a\\\\b"), ("2f", "say \\")]
      ∧ [backslashMessage, quotedMessage].map (fun m => (m.id, m.payload))
        = [("1f", "a\\b"), ("2f", "say \"hi\"")] := by
  decide

/-- C29, the code at the failing input: messages `M` and `N` are produced,
consumer `c1` subscribes with `require_ack`, fetches `M` and, without an ack,
fetches again.  The second fetch replaces the pending `M` by `N`: afterwards
`M`, which has no TTL and was not acknowledged, is in no buffer and pending in
no session. -/
theorem second_fetch_discards_pending :
    runBroker stableSort demoBroker twoProducedRun
        = { queues_ := [("q", queueWith Order.FIFO [secondMessage])],
            sessions_ := [("c1", demoSession)] }
      ∧ demoSession.pending = some demoMessage
      ∧ demoMessage.ttl = none
      ∧ (runBroker stableSort demoBroker secondFetchRun).queues_
        = [("q", queueWith Order.FIFO [])]
      ∧ (runBroker stableSort demoBroker secondFetchRun).sessions_.map (fun e => e.2.pending)
        = [some secondMessage]
      ∧ held "beef" (runBroker stableSort demoBroker secondFetchRun) = 0 := by
  decide

/-- A pending message is also lost when its consumer subscribes again or
unsubscribes. -/
theorem resubscribe_discards_pending :
    held "beef" pendingBroker = 1
      ∧ held "beef" (handle_consumer pendingBroker "c1" subscribeAckFrame 400 0 demoIso).1 = 0
      ∧ held "beef"
          (handle_consumer pendingBroker "c1" "\x7b\"action\":\"unsubscribe\"\x7d" 400 0 demoIso).1
        = 0 := by
  decide

/-- C30, the code at the failing input: producer frames for the payloads
`say "hi"`, `a\b` and `require_ack`, built with `json_escape`.  The messages
enqueued have the payloads `say \` and `a\\b`, and the frame with the payload
`require_ack` is handled with QoS RequireAck: its reply is `status: ok`, not
`status: accepted`. -/
theorem payload_is_not_opaque :
    produceFrame (json_escape "say \"hi\"")
        = "\x7b\"queue\":\"q\",\"payload\":\"say \\\"hi\\\"\"\x7d"
      ∧ (handle_producer stableSort demoBroker (produceFrame (json_escape "say \"hi\""))
          48879 100).1.queues_
        = [("q", queueWith Order.FIFO
            [{ id := "beef", payload := "say \\", created := 100, ttl := none,
               attributes := [] }])]
      ∧ (handle_producer stableSort demoBroker (produceFrame (json_escape "a\\b"))
          48879 100).1.queues_
        = [("q", queueWith Order.FIFO
            [{ id := "beef", payload := "a\\\\b", created := 100, ttl := none,
               attributes := [] }])]
      ∧ (handle_producer stableSort demoBroker (produceFrame (json_escape "require_ack"))
          48879 100).2
        = ["\x7b\"message_id\":\"\",\"status\":\"ok\"\x7d"]
      ∧ (handle_producer stableSort demoBroker (produceFrame (json_escape "M")) 48879 100).2
        = ["\x7b\"status\":\"accepted\"\x7d"] := by
  decide

end Lab7

namespace Lab6

/-! ## The unload handler -/

/-- The storage-terminal pool is released as often as it is acquired, in every
run of the unload handler. -/
theorem unloadLoop_storage_balanced (passes : List (Pallet × UnloadPass)) :
    storageReleased (unloadLoop passes).2 = storageAcquired (unloadLoop passes).2 := by
  induction passes with
  | nil => rfl
  | cons e rest ih =>
    obtain ⟨pallet, pass⟩ := e
    unfold storageReleased storageAcquired at ih ⊢
    unfold unloadLoop
    split
    · split
      · rfl
      · simpa using ih
    · split
      · split
        · rfl
        · simpa using ih
      · split
        · simpa using ih
        · simp only [List.cons_append, List.nil_append, List.countP_cons, ih]
          simp

/-- How often one run releases the receiving-terminal pool: once more than it
acquired it for every pass that went on after the scan to a failed move or to
the placing of the pallet. -/
theorem unloadLoop_receiving_released (passes : List (Pallet × UnloadPass)) :
    receivingAcquired (unloadLoop passes).2 ≤ receivingReleased (unloadLoop passes).2
      ∧ receivingReleased (unloadLoop passes).2
          ≤ 2 * receivingAcquired (unloadLoop passes).2 := by
  induction passes with
  | nil => exact ⟨Nat.le_refl _, Nat.le_refl _⟩
  | cons e rest ih =>
    obtain ⟨pallet, pass⟩ := e
    unfold receivingReleased receivingAcquired at ih ⊢
    unfold unloadLoop
    split
    · split
      · simp
      · simpa using ih
    · split
      · split
        · simp
        · simp only [List.cons_append, List.nil_append, List.countP_cons]
          simp only [if_true, Bool.false_eq_true, if_false]
          omega
      · split
        · simp only [List.cons_append, List.nil_append, List.countP_cons]
          simp only [if_true, Bool.false_eq_true, if_false]
          omega
        · simp only [List.cons_append, List.nil_append, List.countP_cons]
          simp only [if_true, Bool.false_eq_true, if_false]
          omega

/-- C31, the code at the failing input: a truck with one pallet, unloaded by one
run in which both `acquire_for` calls succeed and the move succeeds (draw 50).
The run acquires the receiving-terminal pool once and releases it twice, after
the scan and again after the pallet is placed; the storage-terminal pool is
acquired once and released once.  On a receiving pool of capacity 2 of which
another loader holds one permit, the run leaves both permits available. -/
theorem unload_releases_receiving_twice :
    (handleUnload (some [(palletFive, smoothPass)])).1 = true
      ∧ receivingAcquired (handleUnload (some [(palletFive, smoothPass)])).2 = 1
      ∧ receivingReleased (handleUnload (some [(palletFive, smoothPass)])).2 = 2
      ∧ storageAcquired (handleUnload (some [(palletFive, smoothPass)])).2 = 1
      ∧ storageReleased (handleUnload (some [(palletFive, smoothPass)])).2 = 1
      ∧ receivingOps (handleUnload (some [(palletFive, smoothPass)])).2
          = [PoolOp.acquire, PoolOp.release, PoolOp.release]
      ∧ (runPool (TimedResourcePool.create 2 "Receiving") [PoolOp.acquire]).available_ = 1
      ∧ (runPool (TimedResourcePool.create 2 "Receiving")
          (PoolOp.acquire
            :: receivingOps (handleUnload (some [(palletFive, smoothPass)])).2)).available_
          = 2 := by
  decide

/-- The same with a failed move (draw 3): one acquire, two releases. -/
theorem unload_failed_move_releases_twice :
    receivingAcquired
        (handleUnload
          (some [(palletFive, { receivingAcquired := true, lastWorkerAtTimeout := false,
                                lastWorkerAtMove := true, moveDraw := 3,
                                storageAcquired := true })])).2 = 1
      ∧ receivingReleased
        (handleUnload
          (some [(palletFive, { receivingAcquired := true, lastWorkerAtTimeout := false,
                                lastWorkerAtMove := true, moveDraw := 3,
                                storageAcquired := true })])).2 = 2 := by
  decide

/-! ## Order state after completion -/

/-- C33, the code at the failing input: order 7 is registered and queued; two
loaders hold its picking task.  The first run ships the order and records it
as `complete`.  The second run, which reserves its workstation afterwards,
calls `updateOrderState(7, "active")`: the recorded state becomes `active`,
the counter `completed` drops to 0 and `activelyPicking` rises to 1; the run
ships, finds the completion flag set, and leaves the state `active`. -/
theorem complete_order_set_active_again :
    (handlePicking pickedPayload 7 (PickingRun.worked ∅ true 2500)).2.2
        = [WarehouseCall.updateOrderState 7 "active", WarehouseCall.markOrderShipped 7,
            WarehouseCall.recordOrderCompletion 7 2500]
      ∧ (applyCalls queuedOrder
            (handlePicking pickedPayload 7 (PickingRun.worked ∅ true 2500)).2.2).map
          (fun w => (w.orderStateMap_.lookup 7, w.orderStates_.completed,
            w.orderStates_.activelyPicking))
        = some (some "complete", 1, 0)
      ∧ (handlePicking (handlePicking pickedPayload 7 (PickingRun.worked ∅ true 2500)).2.1 7
            (PickingRun.worked ∅ true 3200)).2.2
        = [WarehouseCall.updateOrderState 7 "active"]
      ∧ (applyCalls queuedOrder
            (runPicking pickedPayload 7
              [PickingRun.worked ∅ true 2500, PickingRun.worked ∅ true 3200]).2).map
          (fun w => (w.orderStateMap_.lookup 7, w.orderStates_.completed,
            w.orderStates_.activelyPicking))
        = some (some "active", 0, 1)
      ∧ (applyCalls queuedOrder
            (runPicking pickedPayload 7
              [PickingRun.worked ∅ true 2500, PickingRun.worked ∅ false 3200]).2).map
          (fun w => (w.orderStateMap_.lookup 7, w.orderStates_.completed,
            w.orderStates_.partiallyShipped))
        = some (some "partial", 0, 1) := by
  decide

/-! ## The completion histogram -/

theorem countAt_bumpCount (l : List OrderHistogramBucket) (i j : Nat) (h : i < l.length) :
    countAt (bumpCount l i) j = countAt l j + (if j = i then 1 else 0) := by
  induction l generalizing i j with
  | nil => simp at h
  | cons b rest ih =>
    cases i with
    | zero =>
      cases j with
      | zero => simp [bumpCount, countAt]
      | succ j => simp [bumpCount, countAt]
    | succ i =>
      cases j with
      | zero => simp [bumpCount, countAt]
      | succ j =>
        have := ih i j (by simpa using h)
        simp only [countAt, bumpCount, List.getElem?_cons_succ] at this ⊢
        rw [this]
        simp

theorem countAt_setBucketBounds (l : List OrderHistogramBucket) (k j : Nat) :
    countAt (setBucketBounds l k) j = countAt l j := by
  induction l generalizing k j with
  | nil => rfl
  | cons b rest ih =>
    cases j with
    | zero => simp [setBucketBounds, countAt]
    | succ j =>
      have := ih (k + 1) j
      simp only [countAt, setBucketBounds, List.getElem?_cons_succ] at this ⊢
      exact this

theorem countAt_append_zero (l : List OrderHistogramBucket) (n j : Nat) :
    countAt (l ++ List.replicate n { bucketStart := 0, bucketEnd := 0, count := 0 }) j
      = countAt l j := by
  unfold countAt
  by_cases h : j < l.length
  · rw [List.getElem?_append_left h]
  · have h2 : l.length ≤ j := Nat.le_of_not_lt h
    rw [List.getElem?_append_right h2, List.getElem?_eq_none_iff.mpr h2]
    by_cases h3 : j - l.length < n
    · rw [List.getElem?_replicate, if_pos h3]
    · rw [List.getElem?_replicate, if_neg h3]

/-- Bucket `j` of the list spans `[1000 * (k + j), 1000 * (k + j + 1))`. -/
theorem setBucketBounds_spans (l : List OrderHistogramBucket) (k j : Nat)
    (b : OrderHistogramBucket) (h : (setBucketBounds l k)[j]? = some b) :
    b.bucketStart = 1000 * ((k + j : Nat) : Int)
      ∧ b.bucketEnd = 1000 * (((k + j : Nat) : Int) + 1) := by
  induction l generalizing k j with
  | nil => simp [setBucketBounds] at h
  | cons x rest ih =>
    cases j with
    | zero =>
      simp only [setBucketBounds, List.getElem?_cons_zero, Option.some.injEq] at h
      subst h
      simp
    | succ j =>
      simp only [setBucketBounds, List.getElem?_cons_succ] at h
      have := ih (k + 1) j h
      have e : k + 1 + j = k + (j + 1) := by omega
      rw [e] at this
      exact this

theorem bumpCount_spans (l : List OrderHistogramBucket) (i : Nat)
    (hl : SpansSeconds l) :
    SpansSeconds (bumpCount l i) := by
  have key : ∀ (l : List OrderHistogramBucket) (i j : Nat) (b : OrderHistogramBucket),
      (bumpCount l i)[j]? = some b →
      ∃ b0, l[j]? = some b0 ∧ b.bucketStart = b0.bucketStart ∧ b.bucketEnd = b0.bucketEnd := by
    intro l
    induction l with
    | nil => intro i j b h; simp [bumpCount] at h
    | cons x rest ih =>
      intro i j b h
      cases i with
      | zero =>
        cases j with
        | zero =>
          simp only [bumpCount, List.getElem?_cons_zero, Option.some.injEq] at h
          subst h
          exact ⟨x, by simp, rfl, rfl⟩
        | succ j =>
          simp only [bumpCount, List.getElem?_cons_succ] at h
          exact ⟨b, by simpa using h, rfl, rfl⟩
      | succ i =>
        cases j with
        | zero =>
          simp only [bumpCount, List.getElem?_cons_zero, Option.some.injEq] at h
          subst h
          exact ⟨x, by simp, rfl, rfl⟩
        | succ j =>
          simp only [bumpCount, List.getElem?_cons_succ] at h
          obtain ⟨b0, h1, h2, h3⟩ := ih i j b h
          exact ⟨b0, by simpa using h1, h2, h3⟩
  intro j b h
  obtain ⟨b0, h1, h2, h3⟩ := key l i j b h
  rw [h2, h3]
  exact hl j b0 h1

/-- One completion whose index is in the range, on statistics whose histogram
size an `int` holds: the call is recorded, the bucket with that index counts one
more, every other bucket counts what it counted, the histogram has grown to
hold that bucket, and the buckets still span their seconds if they did
before. -/
theorem recordOrderCompletion_bucket (w : WarehouseStats) (orderId d : Int)
    (hlen : w.histogram_.length < 2147483648) (hd : indexInRange d) :
    ∃ w1, recordOrderCompletion w orderId d = some w1
      ∧ (∀ j, countAt w1.histogram_ j
          = countAt w.histogram_ j
            + (if j = (toInt32 (Int.tdiv d 1000)).toNat then 1 else 0))
      ∧ w1.histogram_.length
          = max w.histogram_.length ((toInt32 (Int.tdiv d 1000)).toNat + 1)
      ∧ histogramTotal w1 = histogramTotal w + 1
      ∧ w1.histogram_.length < 2147483648
      ∧ ((SpansSeconds w.histogram_) → SpansSeconds w1.histogram_) := by
  obtain ⟨wt, hwt1, hwt2, hwt3⟩ := recordOrderCompletion_total w orderId d hlen hd
  have heq := recordOrderCompletion_eq w orderId d hlen hd
  obtain ⟨hlo, hhi⟩ := hd
  obtain ⟨n, hn⟩ := Int.eq_ofNat_of_zero_le hlo
  rw [heq] at hwt1
  refine ⟨_, heq, ?_, ?_, ?_, ?_, ?_⟩
  · intro j
    simp only [hn, Int.toNat_ofNat]
    by_cases hge : (n : Int) ≥ (w.histogram_.length : Int)
    · simp only [hge, if_true]
      rw [countAt_bumpCount _ _ _ (by rw [setBucketBounds_length]; simp; omega),
        countAt_setBucketBounds, countAt_append_zero]
    · simp only [hge, if_false]
      rw [countAt_bumpCount _ _ _ (by omega)]
  · simp only [hn, Int.toNat_ofNat]
    by_cases hge : (n : Int) ≥ (w.histogram_.length : Int)
    · simp only [hge, if_true]
      rw [bumpCount_length, setBucketBounds_length]
      simp
      omega
    · simp only [hge, if_false]
      rw [bumpCount_length]
      omega
  · rw [← hwt2]
    simp only [Option.some.injEq] at hwt1
    rw [← hwt1]
  · simp only [Option.some.injEq] at hwt1
    rw [hwt1]
    exact hwt3
  · intro hw
    simp only [hn, Int.toNat_ofNat]
    by_cases hge : (n : Int) ≥ (w.histogram_.length : Int)
    · simp only [hge, if_true]
      apply bumpCount_spans
      intro j b hb
      have := setBucketBounds_spans _ 0 j b hb
      simpa using this
    · simp only [hge, if_false]
      exact bumpCount_spans _ _ hw

/-- A call whose index is not in the range has no result on statistics whose
histogram size an `int` holds. -/
theorem recordOrderCompletion_out_of_range (w : WarehouseStats) (orderId d : Int)
    (hlen : w.histogram_.length < 2147483648) (hd : ¬ indexInRange d) :
    recordOrderCompletion w orderId d = none := by
  have hsize : toInt32 (w.histogram_.length : Int) = (w.histogram_.length : Int) :=
    toInt32_of_range _ (by omega) (by omega)
  have hb := toInt32_bounds (Int.tdiv d 1000)
  simp only [recordOrderCompletion, hsize]
  by_cases hneg : toInt32 (Int.tdiv d 1000) < 0
  · simp only [hneg, if_true]
  · have hmax : toInt32 (Int.tdiv d 1000) = 2147483647 := by
      by_contra hne
      exact hd ⟨by omega, by omega⟩
    have hge : toInt32 (Int.tdiv d 1000) ≥ (w.histogram_.length : Int) := by omega
    have hov : toInt32 (Int.tdiv d 1000) + 1 > 2147483647 := by omega
    simp only [hneg, if_false, hge, if_true, hov]

/-- For a duration from `0` up to, not including, `2147483647000` milliseconds
the index is the quotient `d / 1000`, and it is in the range. -/
theorem index_of_duration (d : Int) (h0 : 0 ≤ d) (h1 : d < 2147483647000) :
    toInt32 (Int.tdiv d 1000) = d / 1000 ∧ indexInRange d := by
  have hdiv : Int.tdiv d 1000 = d / 1000 := Int.tdiv_eq_ediv h0 (by decide)
  have hq : toInt32 (d / 1000) = d / 1000 := toInt32_of_range _ (by omega) (by omega)
  refine ⟨by rw [hdiv, hq], ?_, ?_⟩
  · rw [hdiv, hq]; omega
  · rw [hdiv, hq]; omega

theorem applyCalls_histogram (calls : List WarehouseCall) (w : WarehouseStats)
    (hd : ∀ id d, WarehouseCall.recordOrderCompletion id d ∈ calls → indexInRange d)
    (hlen : w.histogram_.length < 2147483648)
    (hw : SpansSeconds w.histogram_) :
    ∃ w1, applyCalls w calls = some w1
      ∧ (SpansSeconds w1.histogram_)
      ∧ histogramTotal w1 = histogramTotal w + (calls.countP isRecordCall : Nat)
      ∧ w1.histogram_.length < 2147483648 := by
  induction calls generalizing w with
  | nil => exact ⟨w, rfl, hw, by simp, hlen⟩
  | cons c rest ih =>
    have hrest : ∀ id d, WarehouseCall.recordOrderCompletion id d ∈ rest → indexInRange d :=
      fun id d h => hd id d (List.mem_cons_of_mem _ h)
    cases c with
    | updateOrderState id state =>
      obtain ⟨w1, h1, h2, h3, h4⟩ := ih (updateOrderState w id state) hrest
        (by rw [updateOrderState_histogram]; exact hlen)
        (by rw [updateOrderState_histogram]; exact hw)
      refine ⟨w1, by simp only [applyCalls, applyCall, Option.some_bind]; exact h1, h2, ?_, h4⟩
      rw [h3, updateOrderState_total]
      simp [isRecordCall]
    | markOrderShipped id =>
      obtain ⟨w1, h1, h2, h3, h4⟩ := ih (markOrderShipped w id) hrest
        (by unfold markOrderShipped; rw [updateOrderState_histogram]; exact hlen)
        (by unfold markOrderShipped; rw [updateOrderState_histogram]; exact hw)
      refine ⟨w1, by simp only [applyCalls, applyCall, Option.some_bind]; exact h1, h2, ?_, h4⟩
      rw [h3]
      unfold markOrderShipped
      rw [updateOrderState_total]
      simp [isRecordCall]
    | recordOrderCompletion id d =>
      obtain ⟨w0, g1, _, _, g4, g6, g5⟩ :=
        recordOrderCompletion_bucket w id d hlen (hd id d (List.mem_cons_self _ _))
      obtain ⟨w1, h1, h2, h3, h4⟩ := ih w0 hrest g6 (g5 hw)
      refine ⟨w1, ?_, h2, ?_, h4⟩
      · rw [applyCalls, applyCall, g1, Option.some_bind]
        exact h1
      · rw [h3, g4]
        simp [isRecordCall]
        ring

/-- C34, as the code has it. In every state reached from a new warehouse by
calls of `updateOrderState`, `markOrderShipped` and `recordOrderCompletion`
whose durations give an index in the range (the quotient by 1000, narrowed by
`static_cast<int>`, is not negative and below `INT_MAX`; a call outside the
range has no result), bucket `i` spans `[1000 * i, 1000 * (i + 1))`
milliseconds and the sum of the bucket counts is the number of
`recordOrderCompletion` calls; and in such a state
`recordOrderCompletion(id, d)` with `0 ≤ d < 2147483647000` milliseconds
raises by one the count of the bucket with index `d / 1000` (rounded down) and
changes the count of no other bucket, the histogram growing to hold that
bucket if needed. -/
theorem completion_histogram (calls : List WarehouseCall)
    (hd : ∀ id d, WarehouseCall.recordOrderCompletion id d ∈ calls → indexInRange d) :
    ∃ w1, applyCalls WarehouseStats.init calls = some w1
      ∧ SpansSeconds w1.histogram_
      ∧ histogramTotal w1 = (calls.countP isRecordCall : Nat)
      ∧ (∀ (orderId d : Int), 0 ≤ d → d < 2147483647000 →
          ∃ w2, recordOrderCompletion w1 orderId d = some w2
            ∧ (∀ j, countAt w2.histogram_ j
                = countAt w1.histogram_ j + (if j = (d / 1000).toNat then 1 else 0))
            ∧ w2.histogram_.length = max w1.histogram_.length ((d / 1000).toNat + 1))
      ∧ (∀ (orderId d : Int), ¬ indexInRange d →
          recordOrderCompletion w1 orderId d = none) := by
  obtain ⟨w1, h1, h2, h3, h4⟩ := applyCalls_histogram calls WarehouseStats.init hd
    (by simp [WarehouseStats.init])
    (fun j b h => by simp [WarehouseStats.init] at h)
  refine ⟨w1, h1, h2, ?_, ?_, ?_⟩
  · rw [h3]
    simp [histogramTotal, WarehouseStats.init]
  · intro orderId d h0 hlt
    obtain ⟨hidx, hin⟩ := index_of_duration d h0 hlt
    obtain ⟨w2, g1, g2, g3, _⟩ := recordOrderCompletion_bucket w1 orderId d h4 hin
    rw [hidx] at g2 g3
    exact ⟨w2, g1, g2, g3⟩
  · intro orderId d hout
    exact recordOrderCompletion_out_of_range w1 orderId d h4 hout

theorem completion_histogram_witness :
    (applyCalls WarehouseStats.init
        [WarehouseCall.updateOrderState 7 "active", WarehouseCall.recordOrderCompletion 7 2500,
          WarehouseCall.recordOrderCompletion 8 999,
          WarehouseCall.recordOrderCompletion 9 2000]).map
        (fun w => w.histogram_)
      = some [{ bucketStart := 0, bucketEnd := 1000, count := 1 },
              { bucketStart := 1000, bucketEnd := 2000, count := 0 },
              { bucketStart := 2000, bucketEnd := 3000, count := 2 }]
      ∧ ∃ w1, applyCalls WarehouseStats.init
          [WarehouseCall.updateOrderState 7 "active", WarehouseCall.recordOrderCompletion 7 2500,
            WarehouseCall.recordOrderCompletion 8 999,
            WarehouseCall.recordOrderCompletion 9 2000] = some w1
          ∧ SpansSeconds w1.histogram_
          ∧ histogramTotal w1 = 3 := by
  refine ⟨by decide, ?_⟩
  obtain ⟨w1, h1, h2, h3, _⟩ := completion_histogram
    [WarehouseCall.updateOrderState 7 "active", WarehouseCall.recordOrderCompletion 7 2500,
      WarehouseCall.recordOrderCompletion 8 999, WarehouseCall.recordOrderCompletion 9 2000]
    (by
      intro id d h
      simp only [List.mem_cons, List.mem_singleton, List.not_mem_nil, or_false,
        WarehouseCall.recordOrderCompletion.injEq, false_or] at h
      rcases h with h | ⟨_, h⟩ | ⟨_, h⟩ | ⟨_, h⟩
      · cases h
      all_goals subst h; decide)
  exact ⟨w1, h1, h2, h3⟩

/-- Counterexample to C34 as stated ("with d ≥ 0"): for the duration
`4294967298500` milliseconds the quotient `4294967298` is narrowed to the index
`2`; on a new warehouse the call grows the histogram to three buckets and
counts bucket 2, not the bucket with index `4294967298`.  For the durations
`2147483647000` and `2147483648000` milliseconds, the first ones beyond the
range, the call has no result. -/
theorem completion_counted_in_narrowed_bucket :
    (recordOrderCompletion WarehouseStats.init 7 4294967298500).map
        (fun w => (w.histogram_.length, countAt w.histogram_ 2,
          countAt w.histogram_ 4294967298))
      = some (3, 1, 0)
      ∧ (4294967298500 : Int) / 1000 = 4294967298
      ∧ (recordOrderCompletion WarehouseStats.init 7 2147483647000).isNone = true
      ∧ (recordOrderCompletion WarehouseStats.init 7 2147483648000).isNone = true := by
  decide

/-! ## The loop of the picking handler -/

theorem findPositive_some (l : List (CategoryKey × Int)) (e : CategoryKey × Int)
    (h : findPositive l = some e) : e ∈ l ∧ 0 < e.2 := by
  induction l with
  | nil => cases h
  | cons x rest ih =>
    unfold findPositive at h
    split at h
    · rename_i hx
      cases h
      exact ⟨List.mem_cons_self _ _, hx⟩
    · exact ⟨List.mem_cons_of_mem _ (ih h).1, (ih h).2⟩

theorem findPositive_none (l : List (CategoryKey × Int)) (h : findPositive l = none) :
    ∀ e ∈ l, e.2 ≤ 0 := by
  induction l with
  | nil => intro e he; cases he
  | cons x rest ih =>
    unfold findPositive at h
    split at h
    · cases h
    · rename_i hx
      intro e he
      rcases List.mem_cons.mp he with h1 | h1
      · rw [h1]; omega
      · exact ih h e h1

theorem quantityOf_of_mem (l : List (CategoryKey × Int)) (e : CategoryKey × Int)
    (hk : (l.map Prod.fst).Nodup) (he : e ∈ l) : quantityOf e.1 l = e.2 := by
  induction l with
  | nil => cases he
  | cons x rest ih =>
    rw [List.map_cons, List.nodup_cons] at hk
    rcases List.mem_cons.mp he with h1 | h1
    · rw [h1, quantityOf, if_pos rfl]
    · have hne : x.1 ≠ e.1 := by
        intro hx
        exact hk.1 (hx ▸ List.mem_map_of_mem Prod.fst h1)
      rw [quantityOf, if_neg hne]
      exact ih hk.2 h1

theorem quantityOf_addAt (key k : CategoryKey) (x : Int) (l : List (CategoryKey × Int)) :
    quantityOf k (addAt key x l) = quantityOf k l + (if key = k then x else 0) := by
  induction l with
  | nil =>
    by_cases h : key = k
    · simp [addAt, quantityOf, h]
    · simp [addAt, quantityOf, h]
  | cons e rest ih =>
    by_cases he : e.1 = key
    · rw [addAt, if_pos he]
      by_cases hk : key = k
      · have h2 : e.1 = k := he.trans hk
        rw [quantityOf, if_pos h2, quantityOf, if_pos h2, if_pos hk]
      · have h2 : ¬ e.1 = k := fun h => hk (he.symm.trans h)
        rw [quantityOf, if_neg h2, quantityOf, if_neg h2, if_neg hk]
        omega
    · rw [addAt, if_neg he]
      by_cases h2 : e.1 = k
      · have hk : ¬ key = k := fun h => he (h2.trans h.symm)
        rw [quantityOf, if_pos h2, quantityOf, if_pos h2, if_neg hk]
        omega
      · rw [quantityOf, if_neg h2, quantityOf, if_neg h2, ih]

theorem keys_addAt (key : CategoryKey) (x : Int) (l : List (CategoryKey × Int))
    (h : key ∈ l.map Prod.fst) : (addAt key x l).map Prod.fst = l.map Prod.fst := by
  induction l with
  | nil => cases h
  | cons e rest ih =>
    by_cases he : e.1 = key
    · rw [addAt, if_pos he]
      rfl
    · rw [addAt, if_neg he, List.map_cons, List.map_cons, ih]
      rw [List.map_cons] at h
      rcases List.mem_cons.mp h with h1 | h1
      · exact absurd h1.symm he
      · exact h1

theorem mem_addAt (key : CategoryKey) (x : Int) (l : List (CategoryKey × Int))
    (e : CategoryKey × Int) (h : e ∈ addAt key x l) :
    e ∈ l ∨ e = (key, quantityOf key l + x) := by
  induction l with
  | nil =>
    simp only [addAt, List.mem_singleton] at h
    exact Or.inr h
  | cons y rest ih =>
    by_cases hy : y.1 = key
    · rw [addAt, if_pos hy] at h
      rcases List.mem_cons.mp h with h1 | h1
      · refine Or.inr ?_
        rw [h1, quantityOf, if_pos hy, hy]
      · exact Or.inl (List.mem_cons_of_mem _ h1)
    · rw [addAt, if_neg hy] at h
      rcases List.mem_cons.mp h with h1 | h1
      · exact Or.inl (h1 ▸ List.mem_cons_self _ _)
      · rcases ih h1 with h2 | h2
        · exact Or.inl (List.mem_cons_of_mem _ h2)
        · refine Or.inr ?_
          rw [h2, quantityOf, if_neg hy]

theorem sum_addAt (key : CategoryKey) (x : Int) (l : List (CategoryKey × Int)) :
    ((addAt key x l).map Prod.snd).sum = (l.map Prod.snd).sum + x := by
  induction l with
  | nil => simp [addAt]
  | cons e rest ih =>
    by_cases he : e.1 = key
    · rw [addAt, if_pos he]
      simp only [List.map_cons, List.sum_cons]
      omega
    · rw [addAt, if_neg he]
      simp only [List.map_cons, List.sum_cons, ih]
      omega

theorem sum_nonneg_of_entries (l : List (CategoryKey × Int)) (h : ∀ e ∈ l, 0 ≤ e.2) :
    0 ≤ (l.map Prod.snd).sum := by
  induction l with
  | nil => simp
  | cons e rest ih =>
    simp only [List.map_cons, List.sum_cons]
    have := h e (List.mem_cons_self _ _)
    have := ih (fun x hx => h x (List.mem_cons_of_mem _ hx))
    omega

theorem takeLoop_zero (key : CategoryKey) (rs : List StorageRecord) (free : List String) :
    (takeLoop key rs 0 free).remaining = 0 := by
  cases rs with
  | nil => rfl
  | cons r rest => rw [takeLoop_stop key r rest 0 free (by decide)]

/-- The loop of `takeFromStorage` on any records: the amount still missing never
goes below zero, the stock of `key` goes down by what was taken, and when an
amount is still missing at the end no record holds `key` any more. -/
theorem takeLoop_any (key : CategoryKey) :
    ∀ (rs : List StorageRecord) (remaining : Int) (free : List String),
      0 ≤ remaining →
      0 ≤ (takeLoop key rs remaining free).remaining ∧
      (contributions key (takeLoop key rs remaining free).records).sum =
        (contributions key rs).sum -
          (remaining - (takeLoop key rs remaining free).remaining) ∧
      (0 < (takeLoop key rs remaining free).remaining →
        contributions key (takeLoop key rs remaining free).records = []) := by
  intro rs
  induction rs with
  | nil =>
    intro remaining free h0
    simp [takeLoop, contributions, h0]
  | cons r rs ih =>
    intro remaining free h0
    by_cases hrem : remaining > 0
    · cases hc : contribution key r with
      | none =>
        rw [takeLoop_skip key r rs remaining free hrem hc]
        simp only
        have hA : ∀ l, contributions key (r :: l) = contributions key l := by
          intro l; rw [contributions_cons, hc]
        rw [hA, hA]
        exact ih remaining free h0
      | some qty =>
        obtain ⟨ht, hl⟩ := type_of_contribution key r qty hc
        have hrem1 : 0 ≤ (debit r.pallet.categoryQuantities key.category qty remaining).2 := by
          rw [debit_remaining]
          have := min_le_right qty remaining
          omega
        have hA : contributions key (r :: rs) = qty :: contributions key rs := by
          rw [contributions_cons, hc]
        cases he : (debit r.pallet.categoryQuantities key.category qty
            remaining).1.entries.isEmpty with
        | true =>
          rw [takeLoop_drop key r rs remaining free qty hrem hc he]
          have hz : qty - min qty remaining = 0 := by
            have h1 := lookup_of_entries_isEmpty _ key.category he
            rw [debit_lookup_same] at h1
            by_contra hne
            simp [hne] at h1
          obtain ⟨i1, i2, i3⟩ := ih _ (free ++ [r.address]) hrem1
          rw [debit_remaining] at i1 i2 i3 ⊢
          rw [hA]
          simp only [List.sum_cons]
          exact ⟨i1, by omega, i3⟩
        | false =>
          rw [takeLoop_keep key r rs remaining free qty hrem hc he]
          simp only
          obtain ⟨i1, i2, i3⟩ := ih _ free hrem1
          rw [debit_remaining] at i1 i2 i3 ⊢
          rw [hA, contributions_cons, contribution_after_debit key r qty remaining ht]
          simp only [List.sum_cons]
          refine ⟨i1, ?_, ?_⟩
          · by_cases hz : qty - min qty remaining = 0
            · simp only [hz, if_true]
              omega
            · simp only [hz, if_false, List.sum_cons]
              omega
          · intro hpos
            by_cases hz : qty - min qty remaining = 0
            · simp only [hz, if_true]
              exact i3 hpos
            · exfalso
              have hmin : min qty remaining = remaining := by
                rcases min_cases qty remaining with ⟨e1, _⟩ | ⟨e1, _⟩
                · omega
                · exact e1
              rw [hmin, sub_self, takeLoop_zero] at hpos
              omega
    · rw [takeLoop_stop key r rs remaining free hrem]
      simp only
      refine ⟨h0, by omega, fun hpos => ?_⟩
      omega

/-- On records none of which holds `key`, the loop of `takeFromStorage` takes
nothing. -/
theorem takeLoop_drained (key : CategoryKey) :
    ∀ (rs : List StorageRecord) (remaining : Int) (free : List String),
      contributions key rs = [] → (takeLoop key rs remaining free).remaining = remaining := by
  intro rs
  induction rs with
  | nil => intro remaining free _; rfl
  | cons r rs ih =>
    intro remaining free hnone
    rw [contributions_cons] at hnone
    cases hc : contribution key r with
    | some q => rw [hc] at hnone; cases hnone
    | none =>
      rw [hc] at hnone
      by_cases hrem : remaining > 0
      · rw [takeLoop_skip key r rs remaining free hrem hc]
        exact ih remaining free hnone
      · rw [takeLoop_stop key r rs remaining free hrem]

/-- The call `takeFromStorage(key, amount)` with `amount ≥ 0` on any storage: it
returns at most `amount`; the storage total of `key` goes down by what it
returned and no other total changes; and when it returned less than `amount`,
every later call for `key` returns zero. -/
theorem takeFromStorage_facts (z : StorageZone) (key : CategoryKey) (amount : Int)
    (hreq : 0 ≤ amount) :
    (takeFromStorage z key amount).1 ≤ amount
      ∧ (∀ k, totalOf z k
          = totalOf (takeFromStorage z key amount).2 k
            + (if key = k then (takeFromStorage z key amount).1 else 0))
      ∧ ((takeFromStorage z key amount).1 < amount →
          ∀ a, (takeFromStorage (takeFromStorage z key amount).2 key a).1 = 0) := by
  obtain ⟨h1, h3, h4⟩ := takeLoop_any key z.records_ amount z.freeAddresses_ hreq
  have hval : (takeFromStorage z key amount).1
      = amount - (takeLoop key z.records_ amount z.freeAddresses_).remaining := rfl
  have hrec : (takeFromStorage z key amount).2.records_
      = (takeLoop key z.records_ amount z.freeAddresses_).records := rfl
  refine ⟨?_, ?_, ?_⟩
  · rw [hval]
    omega
  · intro k
    rw [totalOf_eq_sum, totalOf_eq_sum, hrec]
    by_cases hk : key = k
    · subst hk
      rw [if_pos rfl, h3, hval]
      omega
    · rw [if_neg hk, takeLoop_contributions_other key k (fun h => hk h.symm)]
      omega
  · intro hlt a
    rw [hval] at hlt
    have hnone := h4 (by omega)
    rw [← hrec] at hnone
    show a - (takeLoop key (takeFromStorage z key amount).2.records_ a
      (takeFromStorage z key amount).2.freeAddresses_).remaining = 0
    rw [takeLoop_drained key _ a _ hnone]
    omega

theorem addAt_addAt (key : CategoryKey) (x y : Int) (l : List (CategoryKey × Int)) :
    addAt key y (addAt key x l) = addAt key (x + y) l := by
  induction l with
  | nil =>
    simp only [addAt, if_true]
    rw [show (0 : Int) + x + y = 0 + (x + y) by omega]
  | cons e rest ih =>
    by_cases he : e.1 = key
    · rw [addAt, if_pos he, addAt, if_pos he, addAt, if_pos he]
      rw [show e.2 + x + y = e.2 + (x + y) by omega]
    · rw [addAt, if_neg he, addAt, if_neg he, addAt, if_neg he, ih]

theorem findPositive_addAt (key : CategoryKey) (q x : Int) (l : List (CategoryKey × Int))
    (hk : (l.map Prod.fst).Nodup) (hf : findPositive l = some (key, q)) (hpos : 0 < q + x) :
    findPositive (addAt key x l) = some (key, q + x) := by
  induction l with
  | nil => cases hf
  | cons e rest ih =>
    rw [List.map_cons, List.nodup_cons] at hk
    unfold findPositive at hf
    by_cases he : e.2 > 0
    · rw [if_pos he] at hf
      cases hf
      rw [addAt, if_pos rfl, findPositive, if_pos (show (key, q + x).2 > 0 from hpos)]
    · rw [if_neg he] at hf
      have hmem := (findPositive_some rest _ hf).1
      have hne : ¬ e.1 = key := by
        intro h
        exact hk.1 (h ▸ List.mem_map_of_mem Prod.fst hmem)
      rw [addAt, if_neg hne, findPositive, if_neg he]
      exact ih hk.2 hf

theorem le_sum_of_mem (l : List (CategoryKey × Int)) (h : ∀ e ∈ l, 0 ≤ e.2)
    (e : CategoryKey × Int) (he : e ∈ l) : e.2 ≤ (l.map Prod.snd).sum := by
  induction l with
  | nil => cases he
  | cons x rest ih =>
    simp only [List.map_cons, List.sum_cons]
    have hx := h x (List.mem_cons_self _ _)
    have hrest : ∀ y ∈ rest, 0 ≤ y.2 := fun y hy => h y (List.mem_cons_of_mem _ hy)
    have hs := sum_nonneg_of_entries rest hrest
    rcases List.mem_cons.mp he with h1 | h1
    · rw [h1]; omega
    · have := ih hrest h1
      omega

/-- A pass of the loop on a storage from which the selected category gets
nothing: it is the last pass. -/
theorem pickingLoop_last_pass (slots : Int) (fuel : Nat) (l : List (CategoryKey × Int))
    (z : StorageZone) (key : CategoryKey) (q : Int)
    (hf : findPositive l = some (key, q))
    (hz : (takeFromStorage z key (min q slots)).1 = 0) :
    pickingLoop slots (fuel + 1) l z
      = some { remaining := addAt key (min q slots) (addAt key (-min q slots) l)
               storage := (takeFromStorage z key (min q slots)).2
               allFulfilled := false
               taken := [(key, (takeFromStorage z key (min q slots)).1)] } := by
  rw [pickingLoop]
  simp only [hf]
  rw [if_pos hz]

theorem pickingLoop_conserves (slots : Int) (hslots : 1 ≤ slots) :
    ∀ (fuel : Nat) (l : List (CategoryKey × Int)) (z : StorageZone),
      (l.map Prod.fst).Nodup → (∀ e ∈ l, 0 ≤ e.2) →
      (l.map Prod.snd).sum < (fuel : Int) →
      ∃ res, pickingLoop slots fuel l z = some res ∧ LoopConserves l z res := by
  intro fuel
  induction fuel with
  | zero =>
    intro l z _ hnn hsum
    have := sum_nonneg_of_entries l hnn
    simp at hsum
    omega
  | succ fuel ih =>
    intro l z hkeys hnn hsum
    cases hf : findPositive l with
    | none =>
      unfold pickingLoop
      simp only [hf]
      refine ⟨_, rfl, ?_, ?_, ?_, ?_⟩
      · intro k; simp [takenOf]
      · intro k; simp [takenOf]
      · simp
      · intro _ e he
        have h1 := findPositive_none l hf e he
        have h2 := hnn e he
        omega
    | some sel =>
      obtain ⟨selected, quantity⟩ := sel
      obtain ⟨hmem, hq⟩ := findPositive_some l _ hf
      have hq : 0 < quantity := hq
      have hqty : quantityOf selected l = quantity := quantityOf_of_mem l _ hkeys hmem
      have hkey : selected ∈ l.map Prod.fst := List.mem_map_of_mem Prod.fst hmem
      have hchunk1 : 1 ≤ min quantity slots := le_min (by omega) hslots
      have hchunk2 : min quantity slots ≤ quantity := min_le_left _ _
      have hqsum : quantity ≤ (l.map Prod.snd).sum := le_sum_of_mem l hnn _ hmem
      obtain ⟨t2, t3, t5⟩ :=
        takeFromStorage_facts z selected (min quantity slots) (by omega)
      by_cases hzero : (takeFromStorage z selected (min quantity slots)).1 = 0
      · rw [pickingLoop_last_pass slots fuel l z selected quantity hf hzero]
        refine ⟨_, rfl, ?_, ?_, ?_, ?_⟩
        · intro k
          simp only [takenOf, quantityOf_addAt, hzero]
          split_ifs <;> omega
        · intro k
          have := t3 k
          simp only [takenOf, hzero] at this ⊢
          split_ifs at this ⊢ <;> omega
        · simp [hzero]
        · intro h; cases h
      · by_cases hlt : (takeFromStorage z selected (min quantity slots)).1 < min quantity slots
        · -- the storage gave less than the chunk: the next pass is the last
          have hdrained := t5 hlt
          cases fuel with
          | zero =>
            push_cast at hsum
            omega
          | succ fuel2 =>
            have hf2 : findPositive
                (addAt selected (-min quantity slots
                  + (min quantity slots - (takeFromStorage z selected (min quantity slots)).1)) l)
                = some (selected, quantity + (-min quantity slots
                  + (min quantity slots
                    - (takeFromStorage z selected (min quantity slots)).1))) :=
              findPositive_addAt selected quantity _ l hkeys hf (by omega)
            have hlast := pickingLoop_last_pass slots fuel2 _
              (takeFromStorage z selected (min quantity slots)).2 selected _ hf2
              (hdrained _)
            have hstep : pickingLoop slots (fuel2 + 1 + 1) l z
                = some
                  { remaining := addAt selected
                      (min (quantity + (-min quantity slots + (min quantity slots
                        - (takeFromStorage z selected (min quantity slots)).1))) slots)
                      (addAt selected
                        (-min (quantity + (-min quantity slots + (min quantity slots
                          - (takeFromStorage z selected (min quantity slots)).1))) slots)
                        (addAt selected (-min quantity slots + (min quantity slots
                          - (takeFromStorage z selected (min quantity slots)).1)) l))
                    storage := (takeFromStorage
                      (takeFromStorage z selected (min quantity slots)).2 selected
                      (min (quantity + (-min quantity slots + (min quantity slots
                        - (takeFromStorage z selected (min quantity slots)).1))) slots)).2
                    allFulfilled := false
                    taken := [(selected, (takeFromStorage z selected (min quantity slots)).1),
                      (selected, (takeFromStorage
                        (takeFromStorage z selected (min quantity slots)).2 selected
                        (min (quantity + (-min quantity slots + (min quantity slots
                          - (takeFromStorage z selected (min quantity slots)).1))) slots)).1)] } := by
              rw [pickingLoop]
              simp only [hf]
              rw [if_neg hzero, if_pos hlt, addAt_addAt, hlast]
            rw [hstep]
            have hz2 := hdrained
              (min (quantity + (-min quantity slots + (min quantity slots
                - (takeFromStorage z selected (min quantity slots)).1))) slots)
            obtain ⟨_, u3, _⟩ := takeFromStorage_facts
              (takeFromStorage z selected (min quantity slots)).2 selected
              (min (quantity + (-min quantity slots + (min quantity slots
                - (takeFromStorage z selected (min quantity slots)).1))) slots)
              (le_min (by omega) (by omega))
            refine ⟨_, rfl, ?_, ?_, ?_, ?_⟩
            · intro k
              simp only [takenOf, quantityOf_addAt, hz2]
              split_ifs <;> omega
            · intro k
              have := t3 k
              have := u3 k
              simp only [takenOf, hz2] at *
              split_ifs at * <;> omega
            · simp [hz2]
            · intro h; cases h
        · -- the storage gave the whole chunk
          have hfull : (takeFromStorage z selected (min quantity slots)).1
              = min quantity slots := by omega
          have hl1keys : (addAt selected (-min quantity slots) l).map Prod.fst = l.map Prod.fst :=
            keys_addAt _ _ _ hkey
          have hl1nn : ∀ e ∈ addAt selected (-min quantity slots) l, 0 ≤ e.2 := by
            intro e he
            rcases mem_addAt _ _ _ _ he with h1 | h1
            · exact hnn e h1
            · rw [h1, hqty]
              show 0 ≤ quantity + -min quantity slots
              omega
          obtain ⟨res, hres, c1, c2, c3, c4⟩ := ih (addAt selected (-min quantity slots) l)
            (takeFromStorage z selected (min quantity slots)).2
            (by rw [hl1keys]; exact hkeys) hl1nn (by
              rw [sum_addAt]
              push_cast at hsum
              omega)
          have hstep : pickingLoop slots (fuel + 1) l z
              = some { remaining := res.remaining, storage := res.storage,
                       allFulfilled := res.allFulfilled,
                       taken := (selected, (takeFromStorage z selected
                         (min quantity slots)).1) :: res.taken } := by
            rw [pickingLoop]
            simp only [hf]
            rw [if_neg hzero, if_neg hlt, hres]
          rw [hstep]
          refine ⟨_, rfl, ?_, ?_, ?_, ?_⟩
          · intro k
            have := c1 k
            rw [quantityOf_addAt] at this
            simp only [takenOf]
            split_ifs at * <;> omega
          · intro k
            have := t3 k
            have := c2 k
            simp only [takenOf]
            split_ifs at * <;> omega
          · simp only [List.mem_cons, exists_eq_or_imp, hzero, false_or]
            exact c3
          · exact c4

/-- C32, as the code has it. For a single run of the picking handler, an
initial `remaining` map whose quantities are not negative, a workstation with
at least one dismantle slot and any storage content: the loop ends (within one
pass more than the sum of the quantities), and when it ends each category
satisfies initial remaining = final remaining + units that the
`takeFromStorage` calls of the run returned for it, which are the units by
which the storage total of the category went down; the loop ends with
`allFulfilled` false exactly when some `takeFromStorage` call returned zero,
and otherwise every remaining quantity is zero. -/
theorem picking_loop_conservation (slots : Int) (remaining : List (CategoryKey × Int))
    (storage : StorageZone) (fuel : Nat)
    (hslots : 1 ≤ slots)
    (hkeys : (remaining.map Prod.fst).Nodup)
    (hnonneg : ∀ e ∈ remaining, 0 ≤ e.2)
    (hfuel : (remaining.map Prod.snd).sum < (fuel : Int)) :
    ∃ res, pickingLoop slots fuel remaining storage = some res
      ∧ (∀ k, quantityOf k remaining = quantityOf k res.remaining + takenOf k res.taken)
      ∧ (∀ k, totalOf storage k = totalOf res.storage k + takenOf k res.taken)
      ∧ (res.allFulfilled = false ↔ ∃ e ∈ res.taken, e.2 = 0)
      ∧ (res.allFulfilled = true → ∀ e ∈ res.remaining, e.2 = 0) :=
  pickingLoop_conserves slots hslots fuel remaining storage hkeys hnonneg hfuel

theorem picking_loop_conservation_witness :
    ∃ res, pickingLoop 2 7 [({ type := CargoType.Light, category := 7 }, 6)] overflowedZone
        = some res
      ∧ (∀ k, quantityOf k [({ type := CargoType.Light, category := 7 }, 6)]
          = quantityOf k res.remaining + takenOf k res.taken)
      ∧ (∀ k, totalOf overflowedZone k = totalOf res.storage k + takenOf k res.taken)
      ∧ (res.allFulfilled = false ↔ ∃ e ∈ res.taken, e.2 = 0)
      ∧ (res.allFulfilled = true → ∀ e ∈ res.remaining, e.2 = 0) :=
  picking_loop_conservation 2 [({ type := CargoType.Light, category := 7 }, 6)]
    overflowedZone 7 (by decide) (by decide) (by decide) (by decide)

/-- The run of the witness: three chunks of two units are taken and the order
is fulfilled; asking for ten units ends with `allFulfilled` false after the
storage gave its eight. -/
theorem pickingLoop_example :
    (pickingLoop 2 7 [({ type := CargoType.Light, category := 7 }, 6)] overflowedZone).map
        (fun r => (r.allFulfilled, r.remaining.map Prod.snd, r.taken.map Prod.snd))
      = some (true, [0], [2, 2, 2])
      ∧ (pickingLoop 2 11 [({ type := CargoType.Light, category := 7 }, 10)]
          overflowedZone).map
        (fun r => (r.allFulfilled, r.remaining.map Prod.snd, r.taken.map Prod.snd))
      = some (false, [2], [2, 2, 2, 2, 0]) := by
  decide

/-- Counterexample to C32 as stated ("for every initial remaining map"): with
the quantity -1 recorded for a category, the loop finds no positive entry, ends
at once with `allFulfilled` true and without any `takeFromStorage` call, and
the remaining quantity is -1, not zero. -/
theorem picking_loop_negative_remaining :
    (pickingLoop 1 1 [({ type := CargoType.Light, category := 7 }, -1)] overflowedZone).map
        (fun r => (r.allFulfilled, r.remaining.map Prod.snd, r.taken.map Prod.snd))
      = some (true, [-1], []) := by
  decide

end Lab6

namespace Lab7

/-- C35, the code at the failing input: a message created at the instant 1.5 s
with a TTL of one second.  `persist_all` writes `created` in milliseconds
(1500) and, under the key `ttl_ms`, the count of the `std::chrono::seconds`
value: 1, not 1000. -/
theorem persisted_ttl_in_seconds :
    fileOf (persist_all
        { cfg_ := diskConfig, messages_ := [timedMessage "X" 1500000000 1], disk_ := none })
      = some ("[\n  \x7b\"id\":\"X\",\"payload\":\"X\",\"created\":1500,\"ttl_ms\":1\x7d\n]") := by
  decide

/-- The TTL field that `persist_all` writes for a message is the decimal text
of its TTL in seconds. -/
theorem messageLine_ttl (m : Message) (ttl : Int) (h : m.ttl = some ttl) :
    messageLine m
      = "  \x7b\"id\":\"" ++ json_escape m.id ++ "\",\"payload\":\"" ++ json_escape m.payload
          ++ "\",\"created\":" ++ toString (Int.tdiv m.created 1000000)
          ++ (",\"ttl_ms\":" ++ toString ttl) ++ "\x7d" := by
  unfold messageLine
  rw [h]

end Lab7

namespace Lab3

/-! ## The regex engine -/

theorem parseQuantifier_length (s : List Char) : (parseQuantifier s).2.length ≤ s.length := by
  cases s with
  | nil => simp [parseQuantifier]
  | cons c rest =>
    simp only [parseQuantifier]
    split_ifs <;> simp

theorem classLoop_length : ∀ (n : Nat) (s : List Char) (prev : Char) (hasPrev : Bool)
    (ranges : List CharClassRange) (r : List CharClassRange × Char × Bool × List Char),
    s.length ≤ n → classLoop s prev hasPrev ranges = some r → r.2.2.2.length ≤ s.length := by
  intro n
  induction n with
  | zero =>
    intro s prev hasPrev ranges r hn h
    have : s = [] := by
      cases s with
      | nil => rfl
      | cons _ _ => simp at hn
    subst this
    simp only [classLoop, Option.some.injEq] at h
    subst h
    simp
  | succ n ih =>
    intro s prev hasPrev ranges r hn h
    match s, h with
    | [], h =>
      simp only [classLoop, Option.some.injEq] at h
      subst h
      simp
    | [c], h =>
      simp only [classLoop] at h
      split_ifs at h
      all_goals
        simp only [Option.some.injEq] at h
        subst h
        simp
    | c :: next :: rest, h =>
      simp only [classLoop] at h
      simp only [List.length_cons] at hn ⊢
      by_cases h1 : c = ']'
      · simp only [h1, if_true, Option.some.injEq] at h
        subst h
        simp
      · simp only [h1, if_false] at h
        by_cases h2 : (decide (c = '-') && hasPrev && next != ']') = true
        · simp only [h2, if_true] at h
          by_cases h3 : charValue prev > charValue next
          · simp [h3] at h
          · simp only [h3, if_false] at h
            have := ih rest _ _ _ r (by omega) h
            omega
        · simp only [h2] at h
          have := ih (next :: rest) _ _ _ r (by simp only [List.length_cons]; omega) h
          simp only [List.length_cons] at this
          omega

theorem parseCharClass_length (s : List Char) (ranges : List CharClassRange) (rest : List Char)
    (h : parseCharClass s = some (ranges, rest)) : rest.length < s.length := by
  cases s with
  | nil => simp [parseCharClass] at h
  | cons c tail =>
    simp only [parseCharClass] at h
    split_ifs at h
    cases hloop : classLoop tail (Char.ofNat 0) false [] with
    | none => simp [hloop] at h
    | some r =>
      obtain ⟨rs, prev, hasPrev, rest2⟩ := r
      simp only [hloop] at h
      have := classLoop_length tail.length tail _ _ _ _ le_rfl hloop
      simp only at this
      by_cases he : (if hasPrev = true then rs ++ [⟨prev, prev⟩] else rs).isEmpty = true
      · simp [he] at h
      · simp only [he, Bool.false_eq_true, if_false, Option.some.injEq, Prod.mk.injEq] at h
        rw [← h.2]
        simp only [List.length_cons]
        omega

/-- A call of `parseAtom` that returns has read at least one character. -/
theorem parseAtom_length (s : List Char) (a : Atom) (rest : List Char)
    (h : parseAtom s = some (a, rest)) : rest.length < s.length := by
  cases s with
  | nil => simp [parseAtom] at h
  | cons c tail =>
    simp only [parseAtom] at h
    split_ifs at h with h1 h2
    · simp only [Option.some.injEq, Prod.mk.injEq] at h
      have := parseQuantifier_length tail
      rw [← h.2]
      simp only [List.length_cons]
      omega
    · cases hc : parseCharClass (c :: tail) with
      | none => simp [hc] at h
      | some r =>
        obtain ⟨ranges, rest2⟩ := r
        simp only [hc, Option.some.injEq, Prod.mk.injEq] at h
        have h3 := parseCharClass_length _ _ _ hc
        have := parseQuantifier_length rest2
        rw [← h.2]
        omega
    · simp only [Option.some.injEq, Prod.mk.injEq] at h
      have := parseQuantifier_length tail
      rw [← h.2]
      simp only [List.length_cons]
      omega

/-- The loop of `parseSequence` never needs more passes than the pattern has
characters: with at least that much fuel the result does not depend on the
fuel. -/
theorem parseSequence_fuel : ∀ (fuel1 fuel2 : Nat) (s : List Char),
    s.length ≤ fuel1 → s.length ≤ fuel2 → parseSequence fuel1 s = parseSequence fuel2 s := by
  intro fuel1
  induction fuel1 with
  | zero =>
    intro fuel2 s h1 h2
    cases s with
    | nil => cases fuel2 <;> rfl
    | cons _ _ => simp at h1
  | succ n ih =>
    intro fuel2 s h1 h2
    cases s with
    | nil => cases fuel2 <;> rfl
    | cons c rest =>
      cases fuel2 with
      | zero => simp at h2
      | succ m =>
        simp only [parseSequence]
        cases ha : parseAtom (c :: rest) with
        | none => rfl
        | some r =>
          obtain ⟨atom, rest2⟩ := r
          have hl := parseAtom_length _ _ _ ha
          simp only [List.length_cons] at hl h1 h2
          simp only
          rw [ih m rest2 (by omega) (by omega)]

/-- A lazily optional atom matches at every position and consumes nothing. -/
theorem atomMatch_lazyOptional (a : Atom) (hq : a.quant_ = lazyOptional) (text : String)
    (pos : Nat) : atomMatch a text pos = some pos := by
  simp [atomMatch, hq, lazyOptional]

theorem sequenceMatch_append (xs ys : List Atom) (text : String) (pos : Nat) :
    sequenceMatch (xs ++ ys) text pos
      = (sequenceMatch xs text pos).bind (fun p => sequenceMatch ys text p) := by
  induction xs generalizing pos with
  | nil => simp [sequenceMatch]
  | cons x xs ih =>
    simp only [List.cons_append, sequenceMatch]
    cases atomMatch x text pos with
    | none => rfl
    | some p => simpa using ih p

theorem sequenceMatch_delete_lazyOptional (pre post : List Atom) (a : Atom)
    (hq : a.quant_ = lazyOptional) (text : String) (pos : Nat) :
    sequenceMatch (pre ++ a :: post) text pos = sequenceMatch (pre ++ post) text pos := by
  rw [sequenceMatch_append, sequenceMatch_append]
  cases sequenceMatch pre text pos with
  | none => rfl
  | some p =>
    simp only [Option.some_bind, sequenceMatch, atomMatch_lazyOptional a hq]

theorem compile_a_optional_a :
    compile "a?a" = some [Atom.ofKind Kind.Literal 'a' lazyOptional,
                          Atom.ofKind Kind.Literal 'a' {}] := by
  decide

theorem full_match_a_optional_a (t : String) :
    full_match "a?a" t = some (decide (t = "a")) := by
  have ht : t = "a" ↔ t.data = ['a'] := by
    constructor
    · intro h
      subst h
      rfl
    · intro h
      exact String.ext h
  simp only [full_match, compile_a_optional_a, sequenceMatch]
  rw [atomMatch_lazyOptional _ rfl]
  simp only [atomMatch, List.drop_zero]
  rcases hd : t.data with _ | ⟨x, _ | ⟨y, rest⟩⟩
  · have : ¬ t = "a" := by rw [ht, hd]; simp
    simp [matchLoop, this, Atom.ofKind]
  · by_cases hx : x = 'a'
    · subst hx
      have : t = "a" := by rw [ht, hd]
      simp [matchLoop, matchesSingle, this, String.length, hd, Atom.ofKind]
    · have : ¬ t = "a" := by rw [ht, hd]; simpa using hx
      simp [matchLoop, matchesSingle, this, hx, Atom.ofKind]
  · have : ¬ t = "a" := by rw [ht, hd]; simp
    by_cases hx : x = 'a'
    · subst hx
      simp [matchLoop, matchesSingle, this, String.length, hd, Atom.ofKind]
    · simp [matchLoop, matchesSingle, this, hx, Atom.ofKind]

/-- C36, as the code has it. A `?`-quantified atom matches at every position
and consumes nothing; so `full_match("a?a", t)` holds exactly when `t` is
`"a"`, and when a pattern compiles to a sequence with a `?`-quantified atom in
it and a second pattern compiles to the same sequence without that atom, the
two patterns give the same `full_match` result on every text. -/
theorem lazy_optional_consumes_nothing (p q : String) (pre post : List Atom) (a : Atom)
    (hp : compile p = some (pre ++ a :: post))
    (ha : a.quant_ = lazyOptional)
    (hq : compile q = some (pre ++ post)) :
    (∀ text pos, atomMatch a text pos = some pos)
      ∧ (∀ t, full_match "a?a" t = some (decide (t = "a")))
      ∧ (∀ t, full_match p t = full_match q t) := by
  refine ⟨atomMatch_lazyOptional a ha, full_match_a_optional_a, ?_⟩
  intro t
  simp only [full_match, hp, hq, sequenceMatch_delete_lazyOptional pre post a ha]

theorem lazy_optional_consumes_nothing_witness :
    (∀ text pos, atomMatch (Atom.ofKind Kind.Literal 'b' lazyOptional) text pos = some pos)
      ∧ (∀ t, full_match "a?a" t = some (decide (t = "a")))
      ∧ (∀ t, full_match "ab?c" t = full_match "ac" t) :=
  lazy_optional_consumes_nothing "ab?c" "ac"
    [Atom.ofKind Kind.Literal 'a' {}] [Atom.ofKind Kind.Literal 'c' {}]
    (Atom.ofKind Kind.Literal 'b' lazyOptional) (by decide) rfl (by decide)

/-- Counterexample to C36 as stated: the pattern `ab?*` is made of three
literal atoms, `a`, the `?`-quantified `b`, and `*`; it matches the text `a*`.
With the atom `b?` deleted the pattern reads `a*`, where `*` is a quantifier,
and the text `a*` is no longer matched. -/
theorem deleting_optional_atom_changes_match :
    compile "ab?*"
        = some [Atom.ofKind Kind.Literal 'a' {}, Atom.ofKind Kind.Literal 'b' lazyOptional,
                Atom.ofKind Kind.Literal '*' {}]
      ∧ full_match "ab?*" "a*" = some true
      ∧ full_match "a*" "a*" = some false := by
  decide

/-! ## Greedy quantifiers -/

/-- While the bound `max` is out of reach the loop of `Atom::match` runs over
the whole leading run of matching characters. -/
theorem matchLoop_unbounded (a : Atom) (rest : List Char) (count i : Nat)
    (h : count + rest.length ≤ a.quant_.max) :
    matchLoop a rest count i
      = (count + (rest.takeWhile (matchesSingle a)).length,
         i + (rest.takeWhile (matchesSingle a)).length) := by
  induction rest generalizing count i with
  | nil => simp [matchLoop]
  | cons x rest ih =>
    simp only [List.length_cons] at h
    have hlt : count < a.quant_.max := by omega
    by_cases hx : matchesSingle a x = true
    · simp only [matchLoop, hlt, decide_True, hx, Bool.and_self, if_true, List.takeWhile_cons,
        List.length_cons]
      rw [ih (count + 1) (i + 1) (by omega)]
      simp only [Prod.mk.injEq]
      omega
    · simp [matchLoop, hx, List.takeWhile_cons]

theorem drop_length_takeWhile (p : Char → Bool) (l : List Char) :
    l.drop (l.takeWhile p).length = l.dropWhile p := by
  induction l with
  | nil => rfl
  | cons x l ih =>
    by_cases hx : p x = true
    · simp [List.takeWhile_cons, List.dropWhile_cons, hx, ih]
    · simp [List.takeWhile_cons, List.dropWhile_cons, hx]

/-- After the leading run of characters that match, the next atom of the same
kind finds nothing to match. -/
theorem matchLoop_after_run (b : Atom) (p : Char → Bool) (hb : ∀ x, matchesSingle b x = p x)
    (l : List Char) (i : Nat) : matchLoop b (l.dropWhile p) 0 i = (0, i) := by
  induction l with
  | nil => simp [matchLoop]
  | cons x l ih =>
    by_cases hx : p x = true
    · simpa [List.dropWhile_cons, hx] using ih
    · simp [List.dropWhile_cons, hx, matchLoop, hb]

theorem takeWhile_length_eq_iff (p : Char → Bool) (l : List Char) :
    (l.takeWhile p).length = l.length ↔ ∀ x ∈ l, p x = true := by
  induction l with
  | nil => simp
  | cons x l ih =>
    by_cases hx : p x = true
    · simp [List.takeWhile_cons, hx, ih]
    · simp [List.takeWhile_cons, hx]

theorem matchesSingle_literal (c : Char) (q : Quantifier) (x : Char) :
    matchesSingle (Atom.ofKind Kind.Literal c q) x = (x == c) := rfl

theorem compile_star_then (c : Char) (hdot : c ≠ '.') (hclass : c ≠ '[') :
    compile (String.mk [c, '*', c])
      = some [Atom.ofKind Kind.Literal c { min := 0, max := sizeMax, greedy := true },
              Atom.ofKind Kind.Literal c {}] := by
  simp [compile, String.length, parseSequence, parseAtom, parseQuantifier, hdot, hclass]

theorem compile_plus_then (c : Char) (hdot : c ≠ '.') (hclass : c ≠ '[') :
    compile (String.mk [c, '+', c])
      = some [Atom.ofKind Kind.Literal c { min := 1, max := sizeMax, greedy := true },
              Atom.ofKind Kind.Literal c {}] := by
  simp [compile, String.length, parseSequence, parseAtom, parseQuantifier, hdot, hclass]

theorem compile_star (c : Char) (hdot : c ≠ '.') (hclass : c ≠ '[') :
    compile (String.mk [c, '*'])
      = some [Atom.ofKind Kind.Literal c { min := 0, max := sizeMax, greedy := true }] := by
  simp [compile, String.length, parseSequence, parseAtom, parseQuantifier, hdot, hclass]

theorem compile_plus (c : Char) (hdot : c ≠ '.') (hclass : c ≠ '[') :
    compile (String.mk [c, '+'])
      = some [Atom.ofKind Kind.Literal c { min := 1, max := sizeMax, greedy := true }] := by
  simp [compile, String.length, parseSequence, parseAtom, parseQuantifier, hdot, hclass]

/-- A greedy unbounded literal atom, matched from the start of a text, stops
behind the leading run of its character. -/
theorem atomMatch_greedy_run (c : Char) (m : Nat) (t : String) (hsize : t.length < 2 ^ 64) :
    atomMatch (Atom.ofKind Kind.Literal c { min := m, max := sizeMax, greedy := true }) t 0
      = if (t.data.takeWhile (fun x => x == c)).length < m then none
        else some (t.data.takeWhile (fun x => x == c)).length := by
  have hmax : 0 + t.data.length
      ≤ (Atom.ofKind Kind.Literal c { min := m, max := sizeMax, greedy := true }).quant_.max := by
    have : t.data.length = t.length := rfl
    simp only [Atom.ofKind, sizeMax]
    omega
  have hp : matchesSingle (Atom.ofKind Kind.Literal c { min := m, max := sizeMax, greedy := true })
      = fun x => x == c := by
    funext x
    rfl
  simp only [atomMatch, List.drop_zero]
  rw [matchLoop_unbounded _ _ _ _ hmax, hp]
  simp [Atom.ofKind]

/-- The atom for a single `c`, tried behind the leading run of `c`, fails. -/
theorem atomMatch_once_after_run (c : Char) (t : String) :
    atomMatch (Atom.ofKind Kind.Literal c {}) t (t.data.takeWhile (fun x => x == c)).length
      = none := by
  simp only [atomMatch]
  rw [drop_length_takeWhile, matchLoop_after_run _ _ (matchesSingle_literal c {})]
  simp [Atom.ofKind]

/-- C37. For a literal character `c` (any character that does not open an atom
of another kind, that is, neither `.` nor `[`) and a text `t` (of a length a
`std::string` can have): `full_match` of `c*c` and of `c+c` on `t` returns
false; `full_match` of `c*` returns true exactly when every character of `t` is
`c`, and `full_match` of `c+` exactly when `t` is non-empty and every character
of it is `c`. -/
theorem greedy_quantifiers_do_not_backtrack (c : Char) (t : String)
    (hdot : c ≠ '.') (hclass : c ≠ '[') (hsize : t.length < 2 ^ 64) :
    full_match (String.mk [c, '*', c]) t = some false
      ∧ full_match (String.mk [c, '+', c]) t = some false
      ∧ full_match (String.mk [c, '*']) t = some (decide (∀ x ∈ t.data, x = c))
      ∧ full_match (String.mk [c, '+']) t
          = some (decide (t.data ≠ [] ∧ ∀ x ∈ t.data, x = c)) := by
  have hall : (t.data.takeWhile (fun x => x == c)).length = t.length ↔ ∀ x ∈ t.data, x = c := by
    have := takeWhile_length_eq_iff (fun x => x == c) t.data
    simpa using this
  refine ⟨?_, ?_, ?_, ?_⟩
  · simp only [full_match, compile_star_then c hdot hclass, sequenceMatch,
      atomMatch_greedy_run c 0 t hsize, Nat.not_lt_zero, if_false, atomMatch_once_after_run]
  · simp only [full_match, compile_plus_then c hdot hclass, sequenceMatch,
      atomMatch_greedy_run c 1 t hsize]
    split_ifs
    · rfl
    · simp only [atomMatch_once_after_run]
  · simp only [full_match, compile_star c hdot hclass, sequenceMatch,
      atomMatch_greedy_run c 0 t hsize, Nat.not_lt_zero, if_false]
    simp only [hall]
  · simp only [full_match, compile_plus c hdot hclass, sequenceMatch,
      atomMatch_greedy_run c 1 t hsize]
    rcases hd : t.data with _ | ⟨x, rest⟩
    · simp
    · by_cases hx : x = c
      · have h1 : ¬ ((List.takeWhile (fun x => x == c) (x :: rest)).length < 1) := by
          simp [List.takeWhile_cons, hx]
        have h2 := hall
        rw [hd] at h2
        simp only [h1, if_false, h2]
        simp
      · simp [List.takeWhile_cons, hx]

theorem greedy_quantifiers_do_not_backtrack_witness :
    full_match "a*a" "aa" = some false
      ∧ full_match "a+a" "aa" = some false
      ∧ full_match "a*" "aa" = some (decide (∀ x ∈ "aa".data, x = 'a'))
      ∧ full_match "a+" "aa" = some (decide ("aa".data ≠ [] ∧ ∀ x ∈ "aa".data, x = 'a')) :=
  greedy_quantifiers_do_not_backtrack 'a' "aa" (by decide) (by decide) (by decide)

/-- The cases of the test table for the greedy quantifiers. -/
theorem greedy_examples :
    full_match "a*" "" = some true ∧ full_match "a*" "aaaa" = some true
      ∧ full_match "a+" "" = some false ∧ full_match "a+" "aaaa" = some true
      ∧ full_match "a*" "aab" = some false
      ∧ full_match "a*a" "aa" = some false ∧ full_match "a+a" "aa" = some false := by
  decide

end Lab3

namespace Lab4

/-! ## The format converter -/

/-- C38, the code at the failing input: the string node whose text is the one
control character with code 1. `serialize` writes it as a quote, a backslash,
`u000001` and a quote, six hexadecimal digits where the parser reads four;
`parse` reads `u0000` as the character with code 0 and keeps `01` as text. The
round trip succeeds, but it gives a string of three characters and not the
node that was serialized. -/
theorem json_round_trip_control_character :
    JSONSerializer.serialize (ASTNode.string (String.mk [Char.ofNat 1]))
        = String.mk [quote, backslash, 'u', '0', '0', '0', '0', '0', '1', quote]
      ∧ JSONParser.parse (JSONSerializer.serialize (ASTNode.string (String.mk [Char.ofNat 1])))
        = Except.ok (ASTNode.string (String.mk [Char.ofNat 0, '0', '1']))
      ∧ JSONParser.parse (JSONSerializer.serialize (ASTNode.string (String.mk [Char.ofNat 1])))
        ≠ Except.ok (ASTNode.string (String.mk [Char.ofNat 1])) := by
  have h : JSONParser.parse
      (JSONSerializer.serialize (ASTNode.string (String.mk [Char.ofNat 1])))
      = Except.ok (ASTNode.string (String.mk [Char.ofNat 0, '0', '1'])) := rfl
  refine ⟨by decide, h, ?_⟩
  rw [h]
  intro heq
  have h1 := ASTNode.string.inj (Except.ok.inj heq)
  exact absurd h1 (by decide)

/-- The round trip of the JSON tests: text without control characters comes
back as it was. -/
theorem json_round_trip_example :
    JSONParser.parse (JSONSerializer.serialize
        (ASTNode.object [("a", ASTNode.number 1),
          ("b", ASTNode.array [ASTNode.number 2, ASTNode.string "x y", ASTNode.null])]))
      = Except.ok (ASTNode.object [("a", ASTNode.number 1),
          ("b", ASTNode.array [ASTNode.number 2, ASTNode.string "x y", ASTNode.null])]) := by
  rfl

/-- C39, the code at the failing input: the document `<root>test</root>` (tag
name `root`, text `test`). `parse` returns an object whose only member is
`@tag`: the text collected before the closing tag is dropped, and the object
has no `@text`. The same holds for the element behind an XML declaration. -/
theorem xml_text_content_lost :
    XMLParser.parse "<root>test</root>"
        = Except.ok (ASTNode.object [("@tag", ASTNode.string "root")])
      ∧ (ASTNode.object [("@tag", ASTNode.string "root")]).member "@text" = none
      ∧ XMLParser.parse "<?xml version=\"1.0\" encoding=\"UTF-8\"?>\n<test>content</test>\n"
        = Except.ok (ASTNode.object [("@tag", ASTNode.string "test")]) := by
  refine ⟨rfl, rfl, rfl⟩

/-- The parser on the other documents of the XML tests: attributes and child
elements are kept. -/
theorem xml_examples :
    XMLParser.parse "<root id=\"1\">content</root>"
        = Except.ok (ASTNode.object
            [("@attributes", ASTNode.object [("id", ASTNode.string "1")]),
             ("@tag", ASTNode.string "root")])
      ∧ XMLParser.parse "<root><child>value</child></root>"
        = Except.ok (ASTNode.object
            [("@children", ASTNode.array [ASTNode.object [("@tag", ASTNode.string "child")]]),
             ("@tag", ASTNode.string "root")]) := by
  refine ⟨rfl, rfl⟩

/-- C40, the code at the failing input: the document with the header `[table]`
and the line `key = "value"`. `parse` returns a root object in which `table` is
an empty object and `key` is a member of the root itself: the pair is stored
under the root, not under the table of the header. -/
theorem toml_table_header_ignored :
    TOMLParser.parse "[table]\nkey = \"value\""
        = Except.ok (ASTNode.object
            [("key", ASTNode.string "value"), ("table", ASTNode.object [])])
      ∧ (ASTNode.object [("key", ASTNode.string "value"),
            ("table", ASTNode.object [])]).member "table" = some (ASTNode.object [])
      ∧ (ASTNode.object [("key", ASTNode.string "value"),
            ("table", ASTNode.object [])]).member "key" = some (ASTNode.string "value") := by
  refine ⟨rfl, rfl, rfl⟩

/-- The parser on the other documents of the TOML tests, and a dotted key, which
is stored under its table. -/
theorem toml_examples :
    TOMLParser.parse "name = \"test\"" = Except.ok (ASTNode.object [("name", ASTNode.string "test")])
      ∧ TOMLParser.parse "value = 42" = Except.ok (ASTNode.object [("value", ASTNode.number 42)])
      ∧ TOMLParser.parse "arr = [1, 2, 3]"
        = Except.ok (ASTNode.object
            [("arr", ASTNode.array [ASTNode.number 1, ASTNode.number 2, ASTNode.number 3])])
      ∧ TOMLParser.parse "table.key = \"value\""
        = Except.ok (ASTNode.object
            [("table", ASTNode.object [("key", ASTNode.string "value")])]) := by
  refine ⟨rfl, rfl, rfl, rfl⟩

end Lab4
